import Mathlib

/-!
# phpfmt: a shallow embedding of the scanner, the shallow parser and the printer

The Go packages `token`, `naive` and `format` are embedded as Lean namespaces of
the same names.  Text is a `List Char` (the runes `ReadRune` delivers; in the
byte-oriented post-pass of package `format` a character stands for a byte, and
the two orders agree on UTF-8).  Go `int` is `Int`.  Mutable receivers become
explicit state passing; loops carry a fuel argument.
-/

set_option maxRecDepth 100000
set_option maxHeartbeats 4000000

namespace token

/-- The token kinds of token.go, in declaration order.  `Hash` is the kind that
naive/parse.go and the scanner test name as `token.Hash`; token.go does not declare
it and the scanner never returns it.  `metaTokenCast` is the synthetic kind of
naive/parse.go. -/
inductive Typ where
  | Illegal | EOF | Whitespace | Comment | DocComment | Ident
  | Int | Float | String | Var | InlineHTML
  | symbolStart
  | OpenTag | CloseTag | Dollar | Backslash | Qmark | Lparen
  | Rparen | Lbrack | Rbrack | Lbrace | Rbrace
  | At | BitNot
  | Add | Sub | Mul | Quo | Rem | Pow
  | BitAnd | BitOr | BitXor | BitShl | BitShr | Concat
  | Coalesce
  | AddAssign | SubAssign | MulAssign | QuoAssign | RemAssign | PowAssign
  | AndAssign | OrAssign | XorAssign | ShlAssign | ShrAssign | ConcatAssign
  | CoalesceAssign
  | And | Or | Inc | Dec | Assign | Not
  | Lt | Gt | Leq | Geq | Eq | Neq
  | Identical | NotIdentical | Comma | Colon | DoubleColon | Semicolon
  | Ellipsis | Arrow | QmarkArrow | DoubleArrow | Spaceship
  | symbolEnd
  | keywordStart
  | Abstract | As | Break | Case | Catch | Class
  | Clone | Const | Continue | Declare | Default | Do
  | Echo | Else | Enum | Extends | Final | Finally
  | Fn | For | Foreach | From | Function | Global
  | Goto | If | Implements | Instanceof | Insteadof | Interface
  | Match | Namespace | New | Print | Private | Protected
  | Public | Readonly | Return | Static | Switch | Throw
  | Trait | Try | Use | While | Yield
  | LowPrecAnd | LowPrecOr | LowPrecXor
  | keywordEnd
  | Hash | metaTokenCast
  deriving DecidableEq, Repr

/-- The numeric value of a kind: its position in the `iota` block of token.go;
`metaTokenCast` is the constant 1024 of naive/parse.go.  `Hash` has no value in
token.go; it is given one outside every range the code compares kinds with. -/
def Typ.toNat : Typ → Nat
  | .Illegal => 0 | .EOF => 1 | .Whitespace => 2 | .Comment => 3
  | .DocComment => 4 | .Ident => 5 | .Int => 6 | .Float => 7
  | .String => 8 | .Var => 9 | .InlineHTML => 10 | .symbolStart => 11
  | .OpenTag => 12 | .CloseTag => 13 | .Dollar => 14 | .Backslash => 15
  | .Qmark => 16 | .Lparen => 17 | .Rparen => 18 | .Lbrack => 19
  | .Rbrack => 20 | .Lbrace => 21 | .Rbrace => 22 | .At => 23
  | .BitNot => 24 | .Add => 25 | .Sub => 26 | .Mul => 27
  | .Quo => 28 | .Rem => 29 | .Pow => 30 | .BitAnd => 31
  | .BitOr => 32 | .BitXor => 33 | .BitShl => 34 | .BitShr => 35
  | .Concat => 36 | .Coalesce => 37 | .AddAssign => 38 | .SubAssign => 39
  | .MulAssign => 40 | .QuoAssign => 41 | .RemAssign => 42 | .PowAssign => 43
  | .AndAssign => 44 | .OrAssign => 45 | .XorAssign => 46 | .ShlAssign => 47
  | .ShrAssign => 48 | .ConcatAssign => 49 | .CoalesceAssign => 50 | .And => 51
  | .Or => 52 | .Inc => 53 | .Dec => 54 | .Assign => 55
  | .Not => 56 | .Lt => 57 | .Gt => 58 | .Leq => 59
  | .Geq => 60 | .Eq => 61 | .Neq => 62 | .Identical => 63
  | .NotIdentical => 64 | .Comma => 65 | .Colon => 66 | .DoubleColon => 67
  | .Semicolon => 68 | .Ellipsis => 69 | .Arrow => 70 | .QmarkArrow => 71
  | .DoubleArrow => 72 | .Spaceship => 73 | .symbolEnd => 74 | .keywordStart => 75
  | .Abstract => 76 | .As => 77 | .Break => 78 | .Case => 79
  | .Catch => 80 | .Class => 81 | .Clone => 82 | .Const => 83
  | .Continue => 84 | .Declare => 85 | .Default => 86 | .Do => 87
  | .Echo => 88 | .Else => 89 | .Enum => 90 | .Extends => 91
  | .Final => 92 | .Finally => 93 | .Fn => 94 | .For => 95
  | .Foreach => 96 | .From => 97 | .Function => 98 | .Global => 99
  | .Goto => 100 | .If => 101 | .Implements => 102 | .Instanceof => 103
  | .Insteadof => 104 | .Interface => 105 | .Match => 106 | .Namespace => 107
  | .New => 108 | .Print => 109 | .Private => 110 | .Protected => 111
  | .Public => 112 | .Readonly => 113 | .Return => 114 | .Static => 115
  | .Switch => 116 | .Throw => 117 | .Trait => 118 | .Try => 119
  | .Use => 120 | .While => 121 | .Yield => 122 | .LowPrecAnd => 123
  | .LowPrecOr => 124 | .LowPrecXor => 125 | .keywordEnd => 126
  | .Hash => 2048 | .metaTokenCast => 1024

/-- The text the method `Type.String()` returns (generated by stringer with -linecomment).
`Hash` has no text in token.go; the one given here is never printed, as no token of
that kind is made. -/
def Typ.str : Typ → List Char
  | .Illegal => "Illegal".toList | .EOF => "EOF".toList | .Whitespace => "Whitespace".toList
  | .Comment => "Comment".toList | .DocComment => "DocComment".toList | .Ident => "Ident".toList
  | .Int => "Int".toList | .Float => "Float".toList | .String => "String".toList
  | .Var => "Var".toList | .InlineHTML => "InlineHTML".toList | .symbolStart => "symbolStart".toList
  | .OpenTag => "<?php".toList | .CloseTag => "?>".toList | .Dollar => "$".toList
  | .Backslash => "\\".toList | .Qmark => "?".toList | .Lparen => "(".toList
  | .Rparen => ")".toList | .Lbrack => "[".toList | .Rbrack => "]".toList
  | .Lbrace => "\x7b".toList | .Rbrace => "\x7d".toList | .At => "@".toList
  | .BitNot => "~".toList | .Add => "+".toList | .Sub => "-".toList
  | .Mul => "*".toList | .Quo => "/".toList | .Rem => "%".toList
  | .Pow => "**".toList | .BitAnd => "&".toList | .BitOr => "|".toList
  | .BitXor => "^".toList | .BitShl => "<<".toList | .BitShr => ">>".toList
  | .Concat => ".".toList | .Coalesce => "??".toList | .AddAssign => "+=".toList
  | .SubAssign => "-=".toList | .MulAssign => "*=".toList | .QuoAssign => "/=".toList
  | .RemAssign => "%=".toList | .PowAssign => "**=".toList | .AndAssign => "&=".toList
  | .OrAssign => "|=".toList | .XorAssign => "^=".toList | .ShlAssign => "<<=".toList
  | .ShrAssign => ">>=".toList | .ConcatAssign => ".=".toList | .CoalesceAssign => "??=".toList
  | .And => "&&".toList | .Or => "||".toList | .Inc => "++".toList
  | .Dec => "--".toList | .Assign => "=".toList | .Not => "!".toList
  | .Lt => "<".toList | .Gt => ">".toList | .Leq => "<=".toList
  | .Geq => ">=".toList | .Eq => "==".toList | .Neq => "!=".toList
  | .Identical => "===".toList | .NotIdentical => "!==".toList | .Comma => ",".toList
  | .Colon => ":".toList | .DoubleColon => "::".toList | .Semicolon => ";".toList
  | .Ellipsis => "...".toList | .Arrow => "->".toList | .QmarkArrow => "?->".toList
  | .DoubleArrow => "=>".toList | .Spaceship => "<=>".toList | .symbolEnd => "symbolEnd".toList
  | .keywordStart => "keywordStart".toList | .Abstract => "abstract".toList | .As => "as".toList
  | .Break => "break".toList | .Case => "case".toList | .Catch => "catch".toList
  | .Class => "class".toList | .Clone => "clone".toList | .Const => "const".toList
  | .Continue => "continue".toList | .Declare => "declare".toList | .Default => "default".toList
  | .Do => "do".toList | .Echo => "echo".toList | .Else => "else".toList
  | .Enum => "enum".toList | .Extends => "extends".toList | .Final => "final".toList
  | .Finally => "finally".toList | .Fn => "fn".toList | .For => "for".toList
  | .Foreach => "foreach".toList | .From => "from".toList | .Function => "function".toList
  | .Global => "global".toList | .Goto => "goto".toList | .If => "if".toList
  | .Implements => "implements".toList | .Instanceof => "instanceof".toList | .Insteadof => "insteadof".toList
  | .Interface => "interface".toList | .Match => "match".toList | .Namespace => "namespace".toList
  | .New => "new".toList | .Print => "print".toList | .Private => "private".toList
  | .Protected => "protected".toList | .Public => "public".toList | .Readonly => "readonly".toList
  | .Return => "return".toList | .Static => "static".toList | .Switch => "switch".toList
  | .Throw => "throw".toList | .Trait => "trait".toList | .Try => "try".toList
  | .Use => "use".toList | .While => "while".toList | .Yield => "yield".toList
  | .LowPrecAnd => "and".toList | .LowPrecOr => "or".toList | .LowPrecXor => "xor".toList
  | .keywordEnd => "keywordEnd".toList
  | .Hash => "#[".toList | .metaTokenCast => "Type(1024)".toList

instance : Inhabited Typ := ⟨.Illegal⟩

/-- `Type.IsKeyword`. -/
def Typ.IsKeyword (t : Typ) : Bool :=
  decide (Typ.keywordStart.toNat < t.toNat) && decide (t.toNat < Typ.keywordEnd.toNat)

/-- The range test `symbolStart < t && t < symbolEnd` of `Token.String` and `Scanner.Next`. -/
def Typ.isSymbol (t : Typ) : Bool :=
  decide (Typ.symbolStart.toNat < t.toNat) && decide (t.toNat < Typ.symbolEnd.toNat)

structure Pos where
  Line : Int
  Column : Int
  deriving DecidableEq, Repr, Inhabited

structure Token where
  typ : Typ
  text : List Char
  pos : Pos
  deriving DecidableEq, Repr, Inhabited

/-- A token literal that leaves `Pos` at its zero value. -/
def Token.mk0 (t : Typ) (text : List Char) : Token := ⟨t, text, ⟨0, 0⟩⟩

/-- `ScanError`: the position and the message of the first scan error. -/
structure ScanError where
  pos : Pos
  err : String
  deriving DecidableEq, Repr

/-- The scanner state.  `r` is the unread input of the `bufio.Reader`, `lastRune`
the rune `UnreadRune` would put back. -/
structure Scanner where
  r : List Char
  lastRune : Option Char
  state : Nat
  queue : List Token
  done : Bool
  err : Option ScanError
  line : Int
  col : Int
  lastLineLen : Int
  deriving Repr

def inHTML : Nat := 0
def inPHP : Nat := 1

/-- `NewScanner`.  In token.go it takes the reader only; naive/parse.go and the scanner
test call it with a second argument, the mode bit, for which the scanner of token.go
has no field: the model takes the argument and the scanner does not depend on it. -/
def NewScanner (r : List Char) (_php74Compat : Bool) : Scanner :=
  { r := r, lastRune := none, state := inHTML, queue := [], done := false, err := none,
    line := 1, col := 1, lastLineLen := 0 }

def Scanner.getPos (s : Scanner) : Pos := ⟨s.line, s.col⟩

/-- `Scanner.errorf`: records the first error and yields an EOF token. -/
def Scanner.errorf (s : Scanner) (msg : String) : Token × Scanner :=
  (Token.mk0 .EOF [],
   match s.err with
   | none => { s with err := some ⟨s.getPos, msg⟩ }
   | some _ => s)

/-- `Scanner.read`; `none` is the rune `eof`. -/
def Scanner.read (s : Scanner) : Option Char × Scanner :=
  if s.done then (none, s)
  else
    match s.r with
    | [] => (none, { s with done := true, lastRune := none })
    | c :: rest =>
      if c = '\n' then
        (some c, { s with r := rest, lastRune := some c, line := s.line + 1,
                          lastLineLen := s.col, col := 1 })
      else
        (some c, { s with r := rest, lastRune := some c, col := s.col + 1 })

/-- `Scanner.unread`.  `UnreadRune` fails only when no rune was just read, which
the scanner never does. -/
def Scanner.unread (s : Scanner) : Scanner :=
  if s.done then s
  else
    match s.lastRune with
    | none => s
    | some c =>
      let s1 := { s with r := c :: s.r, lastRune := none, col := s.col - 1 }
      if s1.col = 0 then { s1 with col := s1.lastLineLen, line := s1.line - 1 } else s1

def Scanner.peek (s : Scanner) : Option Char × Scanner :=
  let (r, s1) := s.read
  (r, s1.unread)

/-- What `WriteRune` appends: the rune itself, U+FFFD for `eof` (-1). -/
def runeChar : Option Char → Char
  | some c => c
  | none => '�'

def isDigit (r : Option Char) : Bool :=
  match r with
  | some c => decide ('0' ≤ c) && decide (c ≤ '9')
  | none => false

def isSpaceRune (c : Char) : Bool := c == ' ' || c == '\t' || c == '\r' || c == '\n'

/-- The first case of the loop of `scanIdent`. -/
def isIdentStart (c : Char) : Bool :=
  c == '_' || (decide ('a' ≤ c) && decide (c ≤ 'z')) || (decide ('A' ≤ c) && decide (c ≤ 'Z'))
    || decide (c.toNat ≥ 128)

def scanIdentLoop : Nat → Scanner → List Char → List Char × Scanner
  | 0, s, b => (b, s)
  | n + 1, s, b =>
    match s.read with
    | (some c, s1) =>
      if isIdentStart c then scanIdentLoop n s1 (b ++ [c])
      else if decide ('0' ≤ c) && decide (c ≤ '9') && !b.isEmpty then scanIdentLoop n s1 (b ++ [c])
      else (b, s1.unread)
    | (none, s1) => (b, s1.unread)

def Scanner.scanIdent (s : Scanner) : List Char × Scanner :=
  scanIdentLoop (s.r.length + 1) s []

def scanWhitespaceLoop : Nat → Scanner → List Char → Token × Scanner
  | 0, s, b => (Token.mk0 .Whitespace b, s)
  | n + 1, s, b =>
    match s.read with
    | (some c, s1) =>
      if isSpaceRune c then scanWhitespaceLoop n s1 (b ++ [c])
      else (Token.mk0 .Whitespace b, s1.unread)
    | (none, s1) => (Token.mk0 .Whitespace b, s1.unread)

def Scanner.scanWhitespace (s : Scanner) : Token × Scanner :=
  scanWhitespaceLoop (s.r.length + 1) s []

def openTag : List Char := "<?php".toList

def scanInlineHTMLLoop : Nat → Scanner → Nat → Bool → List Char → Token × Scanner
  | 0, s, _, _, b => (Token.mk0 .InlineHTML b, s)
  | n + 1, s, i, canEnd, b =>
    let (r, s1) := s.read
    if r.isSome && r = openTag.get? i then
      if i + 1 = openTag.length then scanInlineHTMLLoop n s1 0 true b
      else scanInlineHTMLLoop n s1 (i + 1) canEnd b
    else if canEnd && (match r with | some c => isSpaceRune c | none => false) then
      let s2 := s1.unread
      let tok := Token.mk0 .OpenTag openTag
      if !b.isEmpty then
        let q : Token := { tok with pos := ⟨s2.line, s2.col - openTag.length⟩ }
        (Token.mk0 .InlineHTML b, { s2 with queue := s2.queue ++ [q] })
      else (tok, s2)
    else
      let i1 := if canEnd then openTag.length else i
      let b1 := b ++ openTag.take i1
      match r with
      | none =>
        if b1.isEmpty then (Token.mk0 .EOF [], s1)
        else (Token.mk0 .InlineHTML b1, s1.unread)
      | some c => scanInlineHTMLLoop n s1 0 false (b1 ++ [c])

def Scanner.scanInlineHTML (s : Scanner) : Token × Scanner :=
  scanInlineHTMLLoop (s.r.length + 1) s 0 false []

def scanLineCommentLoop (start : List Char) : Nat → Scanner → List Char → Token × Scanner
  | 0, s, b => (Token.mk0 .Comment (start ++ b), s)
  | n + 1, s, b =>
    match s.read with
    | (some c, s1) =>
      if c = '?' then
        let (r2, s2) := s1.peek
        if r2 = some '>' then
          let s3 := s2.read.2
          let tok : Token := ⟨.CloseTag, "?>".toList, ⟨s3.line, s3.col - 2⟩⟩
          (Token.mk0 .Comment (start ++ b), { s3 with queue := s3.queue ++ [tok] })
        else scanLineCommentLoop start n s2 (b ++ [c])
      else if c = '\n' then (Token.mk0 .Comment (start ++ b), s1.unread)
      else scanLineCommentLoop start n s1 (b ++ [c])
    | (none, s1) => (Token.mk0 .Comment (start ++ b), s1.unread)

def Scanner.scanLineComment (s : Scanner) (start : List Char) : Token × Scanner :=
  scanLineCommentLoop start (s.r.length + 1) s []

/-- The kind of a finished block comment: `/**` followed by white space is a doc comment. -/
def blockCommentType (text : List Char) : Typ :=
  match text with
  | '/' :: '*' :: '*' :: c :: _ => if isSpaceRune c then .DocComment else .Comment
  | _ => .Comment

def scanBlockCommentLoop : Nat → Scanner → List Char → Token × Scanner
  | 0, s, _ => s.errorf "unterminated block comment"
  | n + 1, s, b =>
    let (r, s1) := s.read
    let (r2, s2) := if r = some '*' then s1.peek else (none, s1)
    if r = some '*' && r2 = some '/' then
      let s3 := s2.read.2
      let text := "/*".toList ++ b ++ "*/".toList
      (Token.mk0 (blockCommentType text) text, s3)
    else
      match r with
      | none => s2.errorf "unterminated block comment"
      | some c => scanBlockCommentLoop n s2 (b ++ [c])

def Scanner.scanBlockComment (s : Scanner) : Token × Scanner :=
  scanBlockCommentLoop (s.r.length + 1) s []

/-- The common loop of `scanSingleQuoted` and `scanDoubleQuoted`; `q` is the quote. -/
def scanQuotedLoop (q : Char) : Nat → Scanner → List Char → Token × Scanner
  | 0, s, _ => s.errorf "string not terminated"
  | n + 1, s, b =>
    let (r, s1) := s.read
    let b1 := b ++ [runeChar r]
    match r with
    | none => s1.errorf "string not terminated"
    | some c =>
      if c = '\\' then
        let (r2, s2) := s1.read
        scanQuotedLoop q n s2 (b1 ++ [runeChar r2])
      else if c = q then (Token.mk0 .String (q :: b1), s1)
      else scanQuotedLoop q n s1 b1

def Scanner.scanSingleQuoted (s : Scanner) : Token × Scanner :=
  scanQuotedLoop '\'' (s.r.length + 1) s []

def Scanner.scanDoubleQuoted (s : Scanner) : Token × Scanner :=
  scanQuotedLoop '"' (s.r.length + 1) s []

/-- The loop labelled `SkipWS` of `scanHereDoc`; the Boolean is false on the error exit. -/
def hereDocSkipWS : Nat → Scanner → List Char → Bool × Option Char × List Char × Scanner
  | 0, s, b => (false, none, b, s)
  | n + 1, s, b =>
    match s.read with
    | (some c, s1) =>
      if c = ' ' || c = '\t' || c = '\r' then hereDocSkipWS n s1 (b ++ [c])
      else if c = '\n' then (true, some c, b, s1.unread)
      else (false, some c, b, s1.unread)
    | (none, s1) => (false, none, b, s1.unread)

/-- The final loop of `scanHereDoc`. -/
def hereDocBody (delim : List Char) : Nat → Scanner → List Char → Token × Scanner
  | 0, s, _ => s.errorf "heredoc not terminated"
  | n + 1, s, b =>
    let (r, s1) := s.read
    let b1 := b ++ [runeChar r]
    match r with
    | none => s1.errorf "heredoc not terminated"
    | some c =>
      if c = '\n' then
        let (ws, s2) := s1.scanWhitespace
        let (id, s3) := s2.scanIdent
        let b2 := b1 ++ ws.text ++ id
        if id = delim then (Token.mk0 .String ("<<<".toList ++ b2), s3)
        else hereDocBody delim n s3 b2
      else hereDocBody delim n s1 b1

/-- The `%q` rendering of a rune in the heredoc error message (plain runes only). -/
def quoteRune (r : Option Char) : String := "'" ++ String.mk [runeChar r] ++ "'"

def Scanner.scanHereDoc (s : Scanner) : Token × Scanner :=
  let (ws, s1) := s.scanWhitespace
  let (p1, s2) := s1.peek
  if ws.text.any (fun c => c == '\r' || c == '\n') || p1.isNone then
    s2.errorf "missing opening heredoc identifier"
  else
    let b := ws.text
    let (quote, b, s3) :=
      if p1 = some '"' || p1 = some '\'' then (p1, b ++ [runeChar p1], s2.read.2)
      else ((none : Option Char), b, s2)
    let (delim, s4) := s3.scanIdent
    if delim.isEmpty then s4.errorf "invalid opening heredoc identifier"
    else
      let b := b ++ delim
      let (okq, b, s5) :=
        match quote with
        | some q =>
          let (r, s5) := s4.read
          if r ≠ some q then (false, b, s5) else (true, b ++ [q], s5)
        | none => (true, b, s4)
      if !okq then s5.errorf "quoted heredoc identifier not terminated"
      else
        let (ok, r, b, s6) := hereDocSkipWS (s5.r.length + 1) s5 b
        if !ok then
          s6.errorf ("unexpected " ++ quoteRune r ++ " after heredoc identifier, expecting newline")
        else hereDocBody delim (s6.r.length + 1) s6 b

/-- `scanDecimal`: the Boolean result, the builder and the scanner. -/
def scanDecimalLoop : Nat → Scanner → List Char → Bool × List Char × Scanner
  | 0, s, b => (!b.isEmpty, b, s)
  | n + 1, s, b =>
    let (p, s1) := s.peek
    let under := !b.isEmpty && p = some '_'
    let (r1, s2) := if under then s1.read else (none, s1)
    let b1 := if under then b ++ [runeChar r1] else b
    let (p2, s3) := if under then s2.peek else (p, s2)
    if under && !isDigit p2 then
      let (r3, s4) := s3.read
      (false, b1 ++ [runeChar r3], s4)
    else
      let (p3, s4) := s3.peek
      if !isDigit p3 then (!b1.isEmpty, b1, s4)
      else
        let (r4, s5) := s4.read
        scanDecimalLoop n s5 (b1 ++ [runeChar r4])

def Scanner.scanDecimal (s : Scanner) (b : List Char) : Bool × List Char × Scanner :=
  scanDecimalLoop (s.r.length + 1) s b

def Scanner.scanFloat (s : Scanner) (b : List Char) : Token × Scanner :=
  let (ok, b1, s1) := s.scanDecimal b
  if !ok then (Token.mk0 .Illegal b1, s1)
  else
    let (r, s2) := s1.peek
    if r = some 'e' || r = some 'E' then
      let (r1, s3) := s2.read
      let b2 := b1 ++ [runeChar r1]
      let (r2, s4) := s3.peek
      let (b3, s5) :=
        if r2 = some '+' || r2 = some '-' then
          let (r3, s5) := s4.read
          (b2 ++ [runeChar r3], s5)
        else (b2, s4)
      let (ok2, b4, s6) := s5.scanDecimal b3
      if !ok2 then (Token.mk0 .Illegal b4, s6)
      else (Token.mk0 .Float b4, s6)
    else (Token.mk0 .Float b1, s2)

def scanOctalLoop : Nat → Scanner → List Char → Token × Scanner
  | 0, s, b => (Token.mk0 .Int ('0' :: b), s)
  | n + 1, s, b =>
    let (r, s1) := s.peek
    match r with
    | some c =>
      if c = '8' || c = '9' then
        s1.errorf ("invalid digit " ++ String.mk [c] ++ " in octal literal")
      else if decide ('0' ≤ c) && decide (c ≤ '7') then
        let (r1, s2) := s1.read
        scanOctalLoop n s2 (b ++ [runeChar r1])
      else (Token.mk0 .Int ('0' :: b), s1)
    | none => (Token.mk0 .Int ('0' :: b), s1)

def Scanner.scanOctal (s : Scanner) : Token × Scanner :=
  scanOctalLoop (s.r.length + 1) s []

def isHexDigit (c : Char) : Bool :=
  (decide ('0' ≤ c) && decide (c ≤ '9')) || (decide ('a' ≤ c) && decide (c ≤ 'f'))
    || (decide ('A' ≤ c) && decide (c ≤ 'F'))

/-- The common loop of `scanHexa` and `scanBinary`; `digit` is the case guard. -/
def scanRadixLoop (digit : Char → Bool) (delim : Option Char) :
    Nat → Scanner → List Char → Token × Scanner
  | 0, s, b => (Token.mk0 .Int ('0' :: runeChar delim :: b), s)
  | n + 1, s, b =>
    let (r, s1) := s.peek
    match r with
    | some c =>
      if digit c then
        let (r1, s2) := s1.read
        scanRadixLoop digit delim n s2 (b ++ [runeChar r1])
      else (Token.mk0 .Int ('0' :: runeChar delim :: b), s1)
    | none => (Token.mk0 .Int ('0' :: runeChar delim :: b), s1)

def Scanner.scanHexa (s : Scanner) (delim : Option Char) : Token × Scanner :=
  scanRadixLoop isHexDigit delim (s.r.length + 1) s []

def Scanner.scanBinary (s : Scanner) (delim : Option Char) : Token × Scanner :=
  scanRadixLoop (fun c => c == '0' || c == '1') delim (s.r.length + 1) s []

def Scanner.scanNumber (s : Scanner) (r : Char) : Token × Scanner :=
  let (p, s1) := if r = '0' then s.peek else (none, s)
  if r = '0' && isDigit p then s1.scanOctal
  else if r = '0' && (p = some 'x' || p = some 'X') then
    let (d, s2) := s1.read
    s2.scanHexa d
  else if r = '0' && (p = some 'b' || p = some 'B') then
    let (d, s2) := s1.read
    s2.scanBinary d
  else
    let (ok, b, s2) := s1.scanDecimal [r]
    if !ok then (Token.mk0 .Illegal b, s2)
    else
      let (p2, s3) := s2.peek
      if p2 = some '.' then
        let (d, s4) := s3.read
        s4.scanFloat (b ++ [runeChar d])
      else if p2 = some 'e' || p2 = some 'E' then s3.scanFloat b
      else (Token.mk0 .Int b, s3)

/-- The map `keywords`: the kind whose `String()` is the lower-cased word. -/
def keywordList : List Typ :=
  [.Abstract, .As, .Break, .Case, .Catch, .Class, .Clone, .Const, .Continue, .Declare,
   .Default, .Do, .Echo, .Else, .Enum, .Extends, .Final, .Finally, .Fn, .For, .Foreach,
   .From, .Function, .Global, .Goto, .If, .Implements, .Instanceof, .Insteadof, .Interface,
   .Match, .Namespace, .New, .Print, .Private, .Protected, .Public, .Readonly, .Return,
   .Static, .Switch, .Throw, .Trait, .Try, .Use, .While, .Yield,
   .LowPrecAnd, .LowPrecOr, .LowPrecXor]

def keywords (k : List Char) : Option Typ := keywordList.find? (fun t => t.str == k)

/-- Lower-casing of one rune as far as `strings.ToLower` can reach ASCII: the
letters A-Z, U+0130 (to `i`) and U+212A (to `k`); other runes never become ASCII
and are left alone. -/
def toLowerRune (c : Char) : Char :=
  if decide ('A' ≤ c) && decide (c ≤ 'Z') then Char.ofNat (c.toNat + 32)
  else if c.toNat = 0x130 then 'i'
  else if c.toNat = 0x212A then 'k'
  else c

def toLower (s : List Char) : List Char := s.map toLowerRune

/-- The deferred function of `scanAny`: `tok.Type += AddAssign - Add` on `Add..Coalesce`. -/
def assignForm : Typ → Typ
  | .Add => .AddAssign | .Sub => .SubAssign | .Mul => .MulAssign | .Quo => .QuoAssign
  | .Rem => .RemAssign | .Pow => .PowAssign | .BitAnd => .AndAssign | .BitOr => .OrAssign
  | .BitXor => .XorAssign | .BitShl => .ShlAssign | .BitShr => .ShrAssign
  | .Concat => .ConcatAssign | .Coalesce => .CoalesceAssign
  | t => t

/-- A token of kind `t` with no text. -/
def sym (t : Typ) : Token := Token.mk0 t []

/-- The switch of `scanAny` on a rune that is not `eof`. -/
def Scanner.scanAnyRune (s : Scanner) (r : Char) : Token × Scanner :=
  let (r2, sp) := s.peek
  if r = '/' then
    let (x, s1) := s.read
    if x = some '/' then s1.scanLineComment "//".toList
    else if x = some '*' then s1.scanBlockComment
    else (sym .Quo, s1.unread)
  else if r = '#' then s.scanLineComment "#".toList
  else if r = '$' then
    let (id, s1) := s.scanIdent
    if !id.isEmpty then (Token.mk0 .Var ('$' :: id), s1) else (sym .Dollar, s1)
  else if r = '\\' then (sym .Backslash, s)
  else if r = '?' then
    if r2 = some '>' then (sym .CloseTag, sp.read.2)
    else if r2 = some '?' then (sym .Coalesce, sp.read.2)
    else if r2 = some '-' then
      let s1 := sp.read.2
      let (r3, s2) := s1.peek
      if r3 = some '>' then (sym .QmarkArrow, s2.read.2)
      else
        let sub : Token := ⟨.Sub, Typ.Sub.str, ⟨s2.line, s2.col - 1⟩⟩
        (sym .Qmark, { s2 with queue := s2.queue ++ [sub] })
    else (sym .Qmark, sp)
  else if r = '(' then (sym .Lparen, s)
  else if r = ')' then (sym .Rparen, s)
  else if r = '[' then (sym .Lbrack, s)
  else if r = ']' then (sym .Rbrack, s)
  else if r = '{' then (sym .Lbrace, s)
  else if r = '}' then (sym .Rbrace, s)
  else if r = '=' then
    if r2 = some '>' then (sym .DoubleArrow, sp.read.2)
    else if r2 = some '=' then
      let s1 := sp.read.2
      let (r3, s2) := s1.peek
      if r3 = some '=' then (sym .Identical, s2.read.2) else (sym .Eq, s2)
    else (sym .Assign, sp)
  else if r = '!' then
    if r2 = some '=' then
      let s1 := sp.read.2
      let (r3, s2) := s1.peek
      if r3 = some '=' then (sym .NotIdentical, s2.read.2) else (sym .Neq, s2)
    else (sym .Not, sp)
  else if r = '+' then
    if r2 = some '+' then (sym .Inc, sp.read.2) else (sym .Add, sp)
  else if r = '-' then
    if r2 = some '-' then (sym .Dec, sp.read.2)
    else if r2 = some '>' then (sym .Arrow, sp.read.2)
    else (sym .Sub, sp)
  else if r = '*' then
    if r2 = some '*' then (sym .Pow, sp.read.2) else (sym .Mul, sp)
  else if r = '%' then (sym .Rem, s)
  else if r = '<' then
    if r2 = some '<' then
      let s1 := sp.read.2
      let (r3, s2) := s1.peek
      if r3 = some r then (s2.read.2).scanHereDoc else (sym .BitShl, s2)
    else if r2 = some '>' then (Token.mk0 .Neq "<>".toList, sp.read.2)
    else if r2 = some '=' then
      let s1 := sp.read.2
      let (r3, s2) := s1.peek
      if r3 = some '>' then (sym .Spaceship, s2.read.2) else (sym .Leq, s2)
    else (sym .Lt, sp)
  else if r = '>' then
    if r2 = some r then (sym .BitShr, sp.read.2)
    else if r2 = some '=' then (sym .Geq, sp.read.2)
    else (sym .Gt, sp)
  else if r = '.' then
    if r2 = some r then
      let s1 := sp.read.2
      let (r3, s2) := s1.peek
      if r3 ≠ some r then (Token.mk0 .Illegal "..".toList, s2)
      else (sym .Ellipsis, s2.read.2)
    else if isDigit r2 then sp.scanFloat [r]
    else (sym .Concat, sp)
  else if r = ',' then (sym .Comma, s)
  else if r = ':' then
    if r2 = some r then (sym .DoubleColon, sp.read.2) else (sym .Colon, sp)
  else if r = ';' then (sym .Semicolon, s)
  else if r = '|' then
    if r2 = some '|' then (sym .Or, sp.read.2) else (sym .BitOr, sp)
  else if r = '&' then
    if r2 = some '&' then (sym .And, sp.read.2) else (sym .BitAnd, sp)
  else if r = '^' then (sym .BitXor, s)
  else if r = '~' then (sym .BitNot, s)
  else if r = '@' then (sym .At, s)
  else if isSpaceRune r then (s.unread).scanWhitespace
  else if r = '\'' then s.scanSingleQuoted
  else if r = '"' then s.scanDoubleQuoted
  else if isDigit (some r) then s.scanNumber r
  else
    let (id, s1) := (s.unread).scanIdent
    if !id.isEmpty then
      let k := toLower id
      match keywords k with
      | some t => (Token.mk0 t id, s1)
      | none =>
        if k = "elseif".toList then
          let t : Token := ⟨.If, id.drop 4, ⟨s1.line, s1.col - 2⟩⟩
          (Token.mk0 .Else (id.take 4), { s1 with queue := s1.queue ++ [t] })
        else (Token.mk0 .Ident id, s1)
    else (Token.mk0 .Illegal [r], s1.read.2)

/-- `scanAny`, with its deferred function applied to the result. -/
def Scanner.scanAny (s : Scanner) : Token × Scanner :=
  let (r, s1) := s.read
  let (tok, s2) :=
    match r with
    | none => (sym .EOF, s1)
    | some c => s1.scanAnyRune c
  if decide (Typ.Add.toNat ≤ tok.typ.toNat) && decide (tok.typ.toNat ≤ Typ.Coalesce.toNat) then
    let (p, s3) := s2.peek
    if p = some '=' then ({ tok with typ := assignForm tok.typ }, s3.read.2)
    else (tok, s3)
  else (tok, s2)

/-- `Scanner.Next`, with its deferred function applied to the result. -/
def Scanner.Next (s : Scanner) : Token × Scanner :=
  let (tok, s1) :=
    match s.queue with
    | t :: q => (t, { s with queue := q })
    | [] =>
      let pos := s.getPos
      if s.state = inHTML then
        let (t, s1) := s.scanInlineHTML
        ({ t with pos := pos }, s1)
      else
        let (t, s1) := s.scanAny
        let t1 := if t.text.isEmpty && t.typ.isSymbol then { t with text := t.typ.str } else t
        ({ t1 with pos := pos }, s1)
  (tok,
   match tok.typ with
   | .OpenTag => { s1 with state := inPHP }
   | .CloseTag => { s1 with state := inHTML }
   | _ => s1)

/-- All tokens up to and including the first EOF, as the loop of the scanner test reads them. -/
def scanAllLoop : Nat → Scanner → List Token × Scanner
  | 0, s => ([], s)
  | n + 1, s =>
    let (tok, s1) := s.Next
    if tok.typ = .EOF then ([tok], s1)
    else
      let (rest, s2) := scanAllLoop n s1
      (tok :: rest, s2)

def scanAll (src : List Char) (php74Compat : Bool) : List Token × Scanner :=
  scanAllLoop (2 * src.length + 2) (NewScanner src php74Compat)

end token

namespace naive

open token

/-- The constant `metaTokenCast` of parse.go is the kind `Typ.metaTokenCast`. -/
def metaTokenCast : Typ := .metaTokenCast

/-- The fields of `scope` other than `nodes`. -/
structure ScopeInfo where
  kind : Typ
  opn : Typ
  close : Typ
  commentTag : Option Token
  multiline : Bool
  offsetEndParen : Bool
  indented : Bool
  fixComma : Bool
  deriving DecidableEq, Repr, Inhabited

/-- The fields of `stmt` other than `nodes`. -/
structure StmtInfo where
  kind : Typ
  isLabel : Bool
  multiline : Bool
  trailingNL : Bool
  deriving DecidableEq, Repr, Inhabited

/-- The elements of `stmt.nodes` (`[]any`): a `token.Token`, a `*scope` or a
`*ternaryMiddle`.  A scope is its fields and its statements; a statement is its
fields and its nodes.  The three fields of `ternaryMiddle` that only the printer
writes and reads are kept in the printer. -/
inductive Node where
  | token (t : Token)
  | scope (info : ScopeInfo) (nodes : List (StmtInfo × List Node))
  | ternaryMiddle (nodes : List Node)
  deriving Repr, Inhabited

abbrev Stmt := StmtInfo × List Node

abbrev Scope := ScopeInfo × List Stmt

structure File where
  htmlPreamble : Option Token
  scope : Scope
  deriving Repr

def isFetchOperator (typ : Typ) : Bool := typ == .Arrow || typ == .DoubleColon

/-- `scope.oneliner`. -/
def oneliner (s : ScopeInfo) (nodes : List Stmt) : Bool :=
  s.opn == .Lbrace && !s.multiline && !isFetchOperator s.kind && !nodes.isEmpty

/-- The loop of `stmt.lastTok` over the nodes in reverse order. -/
def lastTokRev : List Node → Typ
  | [] => .Illegal
  | .token t :: rest => if t.typ = .Whitespace then lastTokRev rest else t.typ
  | .ternaryMiddle _ :: _ => .Colon
  | .scope _ _ :: _ => .Rparen

/-- `stmt.lastTok`. -/
def lastTok (nodes : List Node) : Typ := lastTokRev nodes.reverse

def canUseAsCast (tok : Token) : Bool :=
  (tok.text = "bool".toList || tok.text = "int".toList || tok.text = "float".toList
    || tok.text = "string".toList || tok.text = "array".toList || tok.text = "object".toList
    || tok.text = "unset".toList) && tok.typ == .Ident

/-- The array literal `opTable`: index = precedence level, absent indices are empty. -/
def opTable : List (List Typ) :=
  [ [],
    [.Pow],
    [.metaTokenCast],
    [],
    [.Not],
    [.Mul, .Quo, .Rem],
    [.Add, .Sub],
    [.BitShl, .BitShr],
    [.Concat],
    [.Lt, .Gt, .Leq, .Geq, .Eq, .Neq, .Identical, .NotIdentical, .Spaceship],
    [],
    [.BitAnd],
    [.BitXor],
    [.BitOr],
    [.And],
    [.Or],
    [.Coalesce] ]

/-- The map `opPrec` as a value: a finite map from kinds to levels. -/
abbrev PrecMap := List (Typ × Nat)

/-- Map assignment `m[k] = v`: the entry of the key `k` gets the value `v`; a key
that the map does not have is added. -/
def PrecMap.set : PrecMap → Typ → Nat → PrecMap
  | [], k, v => [(k, v)]
  | e :: m, k, v => if e.1 = k then (k, v) :: m else e :: PrecMap.set m k v

/-- The two-valued lookup `prec, ok := m[k]`; the zero value on a miss. -/
def PrecMap.get (m : PrecMap) (k : Typ) : Nat × Bool :=
  match m.find? (fun e => e.1 == k) with
  | some e => (e.2, true)
  | none => (0, false)

/-- The loop of `init()` over one level. -/
def initLevel (prec : Nat) (level : List Typ) (m : PrecMap) : PrecMap :=
  level.foldl (fun acc op => acc.set op prec) m

/-- The loop of `init()` over the table from level `prec` on. -/
def initFrom : Nat → List (List Typ) → PrecMap → PrecMap
  | _, [], m => m
  | prec, level :: rest, m => initFrom (prec + 1) rest (initLevel prec level m)

/-- The value of `opPrec` after `init()`. -/
def opPrecInit : PrecMap := initFrom 0 opTable []

/-- The value of `opPrec` while `Fprint` runs in PHP 7.4 mode: `opPrec[token.Concat] = 6`. -/
def opPrecLegacy : PrecMap := opPrecInit.set .Concat 6

/-- `decideOpSpaces`, with the package variable `opPrec` passed in. -/
def decideOpSpaces (opPrec : PrecMap) (max : Int) (op : Typ) : Bool × Bool :=
  if max < 0 then (false, false)
  else
    let r := opPrec.get op
    (decide ((r.1 : Int) ≥ max), r.2)

/-- `isOperator`. -/
def isOperator (typ : Typ) : Bool :=
  if typ = .Arrow || typ = .QmarkArrow || typ = .DoubleColon then false
  else decide (Typ.Add.toNat ≤ typ.toNat) && decide (typ.toNat ≤ Typ.Spaceship.toNat)

def containsNL (text : List Char) : Bool := text.contains '\n'

/-- `isLineComment`. -/
def isLineComment (tok : Token) : Bool :=
  tok.typ == .Comment && !("/*".toList).isPrefixOf tok.text

structure SyntaxError where
  Line : Int
  Column : Int
  Err : String
  deriving DecidableEq, Repr

/-- The parser state.  The fields `prev` and `alt` are never written and are left
out.  `outOfFuel` records that a loop of the model ran out of fuel. -/
structure parser where
  scan : Scanner
  err : Option SyntaxError
  tok : Token
  outOfFuel : Bool
  deriving Repr

/-- `parser.next`. -/
def parser.next (p : parser) : parser :=
  if p.tok.typ = .EOF then p
  else
    let (tok, scan) := p.scan.Next
    let p1 := { p with tok := tok, scan := scan }
    if tok.typ = .EOF && p1.err.isNone then
      match scan.err with
      | some se => { p1 with err := some ⟨se.pos.Line, se.pos.Column, se.err⟩ }
      | none => p1
    else p1

/-- `parser.got`. -/
def parser.got (p : parser) (typ : Typ) : Bool × parser :=
  if p.tok.typ = typ then (true, p.next) else (false, p)

/-- `parser.errorf`, the message already formatted. -/
def parser.errorf (p : parser) (msg : String) : parser :=
  match p.err with
  | none =>
    let tok := { p.tok with typ := .EOF }
    { p with tok := tok, err := some ⟨tok.pos.Line, tok.pos.Column, msg⟩ }
  | some _ => p

def parser.fuelOut (p : parser) : parser := { p with outOfFuel := true }

/-- `Token.String`, with `%q` rendered by plain double quotes. -/
def tokenString (t : Token) : String :=
  if t.typ = .EOF || t.typ.isSymbol || t.typ.IsKeyword then String.mk t.typ.str
  else String.mk t.typ.str ++ "(\"" ++ String.mk t.text ++ "\")"

/-- `cmp.Or` on kinds: the first argument unless it is the zero value. -/
def cmpOr (a b : Typ) : Typ := if a = .Illegal then b else a

/-- The scope kind chosen at `(` in `parseStmt`: the loop over the nodes in reverse
order.  Returns the kind of the scope and the new value of `nextScope`. -/
def lparenScope (nextScope : Typ) : List Node → Typ × Typ
  | [] => (nextScope, nextScope)
  | .token t :: rest =>
    if t.typ = .Whitespace then lparenScope nextScope rest
    else if t.typ = .Echo || t.typ = .Print || t.typ = .Static then (.Ident, nextScope)
    else if t.typ = .Ident || t.typ = .Var then
      (if nextScope ≠ .Function then t.typ else nextScope, nextScope)
    else if t.typ = .Class || t.typ = .Function then (nextScope, .Fn)
    else (nextScope, nextScope)
  | _ :: _ => (nextScope, nextScope)

/-- The first loop of the `Colon` case of `parseStmt`, over the nodes in reverse
order: the last token that is not white space is demoted when it is a keyword. -/
def demoteLastKeyword : List Node → List Node
  | [] => []
  | .token t :: rest =>
    if t.typ = .Whitespace then .token t :: demoteLastKeyword rest
    else if t.typ.IsKeyword then .token { t with typ := .Ident } :: rest
    else .token t :: rest
  | n :: rest => n :: rest

/-- The second loop of the `Colon` case of `parseStmt`: whether the first token
that is neither white space nor a comment is an identifier or `case`. -/
def startsLabel : List Node → Bool
  | [] => false
  | .token t :: rest =>
    if t.typ = .Whitespace || t.typ = .Comment then startsLabel rest
    else t.typ = .Ident || t.typ = .Case
  | _ :: _ => false

/-- The cast folding of `parseStmt`: the text of the cast when the scope is `(name)`. -/
def castOf (sub : Scope) : Option Token :=
  if sub.1.close = .Rparen then
    match sub.2 with
    | [(_, [.token tok])] =>
      if canUseAsCast tok then some (Token.mk0 metaTokenCast ("(".toList ++ tok.text ++ ")".toList))
      else none
    | _ => none
  else none

/-- The deferred function of `parseScope`. -/
def finishScope (s : ScopeInfo) (nodes : List Stmt) : Scope :=
  let s1 :=
    if s.opn = .Lbrace && s.kind ≠ .Fn && (nodes.isEmpty || !isFetchOperator s.kind) then
      { s with multiline := true }
    else s
  (if s1.multiline then { s1 with indented := true } else s1, nodes)

/-- The kinds that set `nextScope` in `parseStmt`. -/
def opensNextScope (typ : Typ) : Bool :=
  typ = .Declare || typ = .Namespace || typ = .Class || typ = .Interface || typ = .Trait
    || typ = .Enum || typ = .Function || typ = .Fn || typ = .If || typ = .Else
    || typ = .Switch || typ = .Match || typ = .For || typ = .Foreach || typ = .Do
    || typ = .While || typ = .Try || typ = .Catch || typ = .Finally || typ = .Hash
    || typ = .Arrow || typ = .DoubleColon

/-- The keyword demotion at the head of the loop of `parseStmt`. -/
def demoteKeyword (p : parser) (nodes : List Node) : parser :=
  if p.tok.typ.IsKeyword then
    let last := lastTok nodes
    if last = .Arrow || last = .DoubleColon || last = .Function || last = .Const then
      { p with tok := { p.tok with typ := .Ident } }
    else p
  else p

/-- The first case of `parseStmt`: trailing white space is cut off and remembered. -/
def stripTrailingWS (s : StmtInfo) (nodes : List Node) : Stmt :=
  match nodes.reverse with
  | .token tok :: rest =>
    if tok.typ = .Whitespace then ({ s with trailingNL := containsNL tok.text }, rest.reverse)
    else (s, nodes)
  | _ => (s, nodes)

/-- What the `Lparen` case of `parseStmt` appends: the folded cast or the scope. -/
def castNode (sub : Scope) : Node :=
  match castOf sub with
  | some cast => .token cast
  | none => .scope sub.1 sub.2

/-- The `Colon` case of `parseStmt` up to `if s.isLabel`: the statement with the
colon appended, the keyword before it demoted, and `isLabel` set. -/
def colonStmt (p : parser) (s : StmtInfo) (nodes : List Node) : Stmt :=
  let nodes := (demoteLastKeyword nodes.reverse).reverse ++ [.token p.tok]
  (if startsLabel nodes then { s with isLabel := true } else s, nodes)

/-- The `switch last := s.lastTok()` of the case `BitAnd, Add, Sub` of `parseStmt`:
the token becomes the unary operator `At`. -/
def unaryTok (p : parser) (nodes : List Node) : parser :=
  if lastTok nodes = .Illegal || lastTok nodes = .Colon || isOperator (lastTok nodes)
      || (lastTok nodes).IsKeyword then
    { p with tok := { p.tok with typ := .At } }
  else p

/-- The `Whitespace` case of `parseStmt` before it falls through. -/
def wsStmt (p : parser) (s : StmtInfo) : StmtInfo :=
  if p.tok.typ = .Whitespace && containsNL p.tok.text then { s with multiline := true } else s

/-- The scope `&scope{kind: kind, open: open}` after the `switch open` of
`parseScope`.  The callers pass one of the four openers; the last branch is the
one of `Lbrack`. -/
def scopeInit (kind opn : Typ) : ScopeInfo :=
  if opn = .OpenTag then ⟨kind, opn, .EOF, none, false, false, false, false⟩
  else if opn = .Lbrace then ⟨kind, opn, .Rbrace, none, false, false, false, decide (kind = .Match)⟩
  else if opn = .Lparen then
    ⟨kind, opn, .Rparen, none, false, false, false,
      decide (kind = .Ident ∨ kind = .Var ∨ kind = .Function)⟩
  else ⟨kind, opn, .Rbrack, none, false, false, false, true⟩

/-! Assignments to the fields of a scope. -/

def ScopeInfo.setMultiline (s : ScopeInfo) (b : Bool) : ScopeInfo := { s with multiline := b }
def ScopeInfo.setIndented (s : ScopeInfo) (b : Bool) : ScopeInfo := { s with indented := b }
def ScopeInfo.setOffsetEndParen (s : ScopeInfo) (b : Bool) : ScopeInfo :=
  { s with offsetEndParen := b }
def ScopeInfo.setCommentTag (s : ScopeInfo) (t : Token) : ScopeInfo :=
  { s with commentTag := some t }

/-- The two `if`s of `parseScope` between the `switch open` and the loop: white
space at the head of the scope decides `multiline`, a line comment becomes the
comment tag. -/
def scopeHead (s : ScopeInfo) (p : parser) : ScopeInfo × parser :=
  let r : ScopeInfo × parser :=
    if p.tok.typ = .Whitespace then (s.setMultiline (containsNL p.tok.text), p.next)
    else (s, p)
  if !r.1.multiline && r.2.tok.typ = .Comment && isLineComment r.2.tok then
    ((r.1.setCommentTag r.2.tok).setMultiline true, (r.2.next.got .Whitespace).2)
  else r

/-- The head of the loop of `parseScope` after `parseStmt`: the separator is
appended to the statement. -/
def attachSep (p : parser) (sep : Typ) (sn : List Node) : parser × List Node :=
  ((p.got sep).2, if (p.got sep).1 then sn ++ [.token p.tok] else sn)

/-- The `Attach trailing comment` block of `parseScope`. -/
def attachComment (p : parser) (sn : List Node) : parser × List Node :=
  if !sn.isEmpty && p.tok.typ = .Whitespace && !containsNL p.tok.text then
    if isLineComment p.next.tok then (p.next.next, sn ++ [.token p.next.tok]) else (p.next, sn)
  else (p, sn)

/-- The assignments of the loop of `parseScope` to the fields of the statement. -/
def stmtFix (s : ScopeInfo) (si : StmtInfo) : StmtInfo :=
  let si := if s.opn ≠ .Lbrace then { si with isLabel := false } else si
  if s.opn = .Lparen && s.kind = .Function then { si with kind := .Function }
  else if s.opn = .Lbrace && s.kind = .Class then { si with kind := .Class }
  else si

mutual

/-- `parseScope` up to its loop. -/
def parseScope : Nat → parser → Typ → Typ → parser × Scope
  | 0, p, kind, opn => (p.fuelOut, finishScope (scopeInit kind opn) [])
  | n + 1, p, kind, opn =>
    let h := scopeHead (scopeInit kind opn) p
    let sep : Typ := if h.1.fixComma then .Comma else .Semicolon
    let r := parseScopeLoop n h.2 h.1 [] sep
    (r.1, finishScope r.2.1 r.2.2)

/-- The loop of `parseScope`. -/
def parseScopeLoop : Nat → parser → ScopeInfo → List Stmt → Typ → parser × ScopeInfo × List Stmt
  | 0, p, s, nodes, _ => (p.fuelOut, s, nodes)
  | n + 1, p, s, nodes, sep =>
    let r := parseStmt n p [sep]
    let a := attachSep r.1 sep r.2.2
    let c := attachComment a.1 a.2
    let si := stmtFix s r.2.1
    let s := if si.multiline then s.setIndented true else s
    let nodes := if !c.2.isEmpty then nodes ++ [(si, c.2)] else nodes
    if c.1.tok.typ = s.close then
      (c.1.next, s.setOffsetEndParen (s.indented && si.trailingNL), nodes)
    else if c.1.tok.typ = .EOF || c.1.tok.typ = .Rparen || c.1.tok.typ = .Rbrace
        || c.1.tok.typ = .Rbrack then
      (c.1.errorf ("unexpected " ++ String.mk c.1.tok.typ.str), s, nodes)
    else parseScopeLoop n c.1 s nodes sep

/-- `parseStmt`: the loop, with the statement built so far and `nextScope`. -/
def parseStmtLoop : Nat → parser → List Typ → StmtInfo → List Node → Typ → parser × Stmt
  | 0, p, _, s, nodes, _ => (p.fuelOut, (s, nodes))
  | n + 1, p0, separators, s, nodes, nextScope =>
    let p := demoteKeyword p0 nodes
    if p.tok.typ = .EOF || p.tok.typ = .Rparen || p.tok.typ = .Rbrace || p.tok.typ = .Rbrack then
      (p, stripTrailingWS s nodes)
    else if p.tok.typ = .OpenTag then (p.next, (s, nodes ++ [.token p.tok]))
    else if opensNextScope p.tok.typ then
      parseStmtLoop n p.next separators { s with kind := cmpOr s.kind p.tok.typ }
        (nodes ++ [.token p.tok]) p.tok.typ
    else if p.tok.typ = .Lparen then
      let ls := lparenScope nextScope nodes.reverse
      let r := parseScope n p.next ls.1 .Lparen
      parseStmtLoop n r.1 separators s (nodes ++ [castNode r.2]) ls.2
    else if p.tok.typ = .Lbrace then
      let r := parseScope n p.next nextScope .Lbrace
      if isFetchOperator r.2.1.kind || r.2.1.kind = .Match || r.2.1.kind = .Fn then
        parseStmtLoop n r.1 separators { s with kind := cmpOr s.kind .Lbrace }
          (nodes ++ [.scope r.2.1 r.2.2]) nextScope
      else if r.2.1.kind = .Do then
        parseStmtLoop n (if r.1.tok.typ = .Whitespace then r.1.next else r.1) separators
          { s with kind := cmpOr s.kind .Lbrace } (nodes ++ [.scope r.2.1 r.2.2]) nextScope
      else (r.1, ({ s with kind := cmpOr s.kind .Lbrace }, nodes ++ [.scope r.2.1 r.2.2]))
    else if p.tok.typ = .Lbrack then
      let r := parseScope n p.next nextScope .Lbrack
      if cmpOr s.kind .Lbrack = .Hash then
        (r.1, ({ s with kind := cmpOr s.kind .Lbrack }, nodes ++ [.scope r.2.1 r.2.2]))
      else
        parseStmtLoop n r.1 separators { s with kind := cmpOr s.kind .Lbrack }
          (nodes ++ [.scope r.2.1 r.2.2]) nextScope
    else if p.tok.typ = .Qmark then
      let r := parseStmt n p.next [.Colon, .Semicolon, .Comma]
      if (r.1.got .Colon).1 then
        parseStmtLoop n (r.1.got .Colon).2 separators s (nodes ++ [.ternaryMiddle r.2.2]) nextScope
      else
        parseStmtLoop n (r.1.got .Colon).2 separators s (nodes ++ [.token p.tok] ++ r.2.2)
          nextScope
    else if p.tok.typ = .Colon then
      if separators.contains p.tok.typ then (p, (s, nodes))
      else if (colonStmt p s nodes).1.isLabel then (p.next, colonStmt p s nodes)
      else
        parseStmtLoop n p.next separators (colonStmt p s nodes).1 (colonStmt p s nodes).2 nextScope
    else if p.tok.typ = .BitAnd || p.tok.typ = .Add || p.tok.typ = .Sub then
      parseStmtLoop n (unaryTok p nodes).next separators s
        (nodes ++ [.token (unaryTok p nodes).tok]) nextScope
    else if separators.contains p.tok.typ then (p, (wsStmt p s, nodes))
    else parseStmtLoop n p.next separators (wsStmt p s) (nodes ++ [.token p.tok]) nextScope

/-- `parseStmt`. -/
def parseStmt : Nat → parser → List Typ → parser × Stmt
  | 0, p, _ => (p.fuelOut, (⟨.Illegal, false, false, false⟩, []))
  | n + 1, p, separators =>
    parseStmtLoop n p separators ⟨.Illegal, false, false, false⟩ [] .OpenTag

end

/-- `parseFile`; `none` is the nil result. -/
def parseFile (fuel : Nat) (p : parser) : parser × Option File :=
  let text := p.tok
  let (gotHTML, p) := p.got .InlineHTML
  let htmlPreamble := if gotHTML then some text else none
  let (gotOpen, p) := p.got .OpenTag
  if !gotOpen then
    (p.errorf ("expecting " ++ String.mk Typ.OpenTag.str ++ ", found " ++ tokenString p.tok), none)
  else
    let (p, sc) := parseScope fuel p .Illegal .OpenTag
    (p, some ⟨htmlPreamble, ({ sc.1 with indented := false, offsetEndParen := false }, sc.2)⟩)

/-- The outcome of `Parse`: a file, a syntax error, or the model ran out of fuel. -/
inductive ParseResult where
  | ok (f : File)
  | error (e : SyntaxError)
  | outOfFuel
  deriving Repr

/-- `Parse` with explicit fuel. -/
def ParseFuel (fuel : Nat) (r : List Char) (php74Compat : Bool) : ParseResult :=
  let p : parser := ⟨NewScanner r php74Compat, none, default, false⟩
  let p := p.next
  let (p, doc) := parseFile fuel p
  if p.outOfFuel then .outOfFuel
  else
    match p.err, doc with
    | some e, _ => .error e
    | none, some f => .ok f
    | none, none => .outOfFuel

/-- `Parse`. -/
def Parse (r : List Char) (php74Compat : Bool) : ParseResult :=
  ParseFuel (4 * r.length + 16) r php74Compat

/-- The elements of an argument list of `analyseOps` up to the first ternary
middle: the loop of `analyseOps`, with `last`, `hasLowPrec` and `max` as arguments. -/
def analyseOpsLoop (opPrec : PrecMap) : List Node → Typ → Bool → Nat → Nat × Bool
  | [], _, hasLowPrec, max => (max, hasLowPrec)
  | .ternaryMiddle _ :: _, _, hasLowPrec, max => (max, hasLowPrec)
  | .scope _ _ :: rest, _, hasLowPrec, max => analyseOpsLoop opPrec rest .Illegal hasLowPrec max
  | .token tok :: rest, last, hasLowPrec, max =>
    if tok.typ = .And || tok.typ = .Or then analyseOpsLoop opPrec rest last hasLowPrec max
    else if tok.typ = .LowPrecAnd || tok.typ = .LowPrecOr || tok.typ = .LowPrecXor then
      analyseOpsLoop opPrec rest last true max
    else if (tok.typ = .Concat && last = .Int) || (tok.typ = .Int && last = .Concat) then
      ((opPrec.get .Concat).1, hasLowPrec)
    else
      let last := if tok.typ ≠ .Whitespace then tok.typ else last
      let r := opPrec.get tok.typ
      if r.2 && decide (r.1 > max) && r.1 != 9 then analyseOpsLoop opPrec rest last hasLowPrec r.1
      else analyseOpsLoop opPrec rest last hasLowPrec max

/-- `analyseOps`, with its deferred function applied to the result. -/
def analyseOps (opPrec : PrecMap) (tokens : List Node) : Nat :=
  let r := analyseOpsLoop opPrec tokens .Illegal false 0
  if r.2 && decide (r.1 > 9) then 22 else r.1

/-- `nextOperatorIs`. -/
def nextOperatorIs (opPrec : PrecMap) : List Node → Typ → Bool
  | [], _ => false
  | .token op :: rest, want =>
    if op.typ = want then true
    else if (opPrec.get op.typ).2 then false
    else if isOperator op.typ then false
    else nextOperatorIs opPrec rest want
  | _ :: _, _ => false

/-- `Options` is a `uint8` bit set. -/
abbrev Options := Nat

def TrailingComma : Options := 1
def AlignColumns : Options := 2
def PHP74Compat : Options := 4
def Standard : Options := TrailingComma ||| AlignColumns

/-- The marks of type `whitespace`: the bytes `\v`, `\n` and the blank. -/
inductive whitespace where
  | nextcol | newline | space
  deriving DecidableEq, Repr

def whitespace.byte : whitespace → Char
  | .nextcol => Char.ofNat 11
  | .newline => '\n'
  | .space => ' '

/-- The elements of `printer.tokens` (`[]any`): a `token.Token`, an `indentation`
or a `whitespace`. -/
inductive Item where
  | token (t : Token)
  | indentation (n : Int)
  | whitespace (w : whitespace)
  deriving DecidableEq, Repr

/-- The printer state.  `tokens` is kept newest first: its head is the last element
of the Go slice.  `opPrec` is the package variable at the time of the call.
`panicked` records the nil dereference of a ternary middle that no statement has
prepared; nothing the printer does after it is observed.  The fields `err` and
`rmSpaceAfterScope` can never be set and are left out.  The field `config` is set
once by `Fprint` and never written: it is the argument `config` of the functions
that read it. -/
structure printer where
  opPrec : PrecMap
  tokens : List Item
  prevIndent : Int
  indent : Int
  alignNextAssign : Bool
  removeNextWS : Bool
  rmWSBeforeParen : Bool
  mightDeindent : Bool
  maxPrec : Int
  scopeType : Typ
  multiline : Bool
  scopeOpen : Typ
  panicked : Bool
  deriving Repr

/-- The printer `&printer{config: options}`, apart from `config`. -/
def printer.new (opPrec : PrecMap) : printer :=
  { opPrec := opPrec, tokens := [], prevIndent := 0, indent := 0,
    alignNextAssign := false, removeNextWS := false, rmWSBeforeParen := false,
    mightDeindent := false, maxPrec := 0, scopeType := .Illegal, multiline := false,
    scopeOpen := .Illegal, panicked := false }

/-! Assignments to the fields of the printer. -/

def printer.setTokens (p : printer) (l : List Item) : printer := { p with tokens := l }
def printer.setPrevIndent (p : printer) (n : Int) : printer := { p with prevIndent := n }
def printer.setIndent (p : printer) (n : Int) : printer := { p with indent := n }
def printer.setAlignNextAssign (p : printer) (b : Bool) : printer := { p with alignNextAssign := b }
def printer.setRemoveNextWS (p : printer) (b : Bool) : printer := { p with removeNextWS := b }
def printer.setRmWSBeforeParen (p : printer) (b : Bool) : printer := { p with rmWSBeforeParen := b }
def printer.setMightDeindent (p : printer) (b : Bool) : printer := { p with mightDeindent := b }
def printer.setMaxPrec (p : printer) (n : Int) : printer := { p with maxPrec := n }
def printer.setPanicked (p : printer) (b : Bool) : printer := { p with panicked := b }

/-- The three assignments `p.scopeType = t`, `p.multiline = m`, `p.scopeOpen = o`. -/
def printer.setScope (p : printer) (t : Typ) (m : Bool) (o : Typ) : printer :=
  { p with scopeType := t, multiline := m, scopeOpen := o }

/-- `printer.lastToken`. -/
def lastTokenOf : List Item → Typ
  | [] => .Illegal
  | .token t :: _ => t.typ
  | _ :: rest => lastTokenOf rest

def printer.lastToken (p : printer) : Typ := lastTokenOf p.tokens

/-- `printer.lastIsToken`. -/
def printer.lastIsToken (p : printer) : Bool :=
  match p.tokens with
  | .token _ :: _ => true
  | _ => false

/-- `printer.justIndented`. -/
def printer.justIndented (p : printer) : Bool :=
  match p.tokens with
  | .indentation _ :: _ => true
  | _ => false

/-- `printer.removeLast` with a `whitespace`, an `indentation` or a `token.Type`
argument: the removed element, if any. -/
def printer.removeLast (p : printer) (tok : Item ⊕ Typ) : Option Item × printer :=
  match p.tokens with
  | [] => (none, p)
  | last :: rest =>
    match tok with
    | .inl x => if last = x then (some last, p.setTokens rest) else (none, p)
    | .inr typ =>
      match last with
      | .token t => if t.typ = typ then (some last, p.setTokens rest) else (none, p)
      | _ => (none, p)

def printer.removeLastWS (p : printer) (w : whitespace) : printer :=
  (p.removeLast (.inl (.whitespace w))).2

def printer.removeLastIndent (p : printer) (n : Int) : Option Item × printer :=
  p.removeLast (.inl (.indentation n))

def printer.removeLastType (p : printer) (typ : Typ) : Option Item × printer :=
  p.removeLast (.inr typ)

def printer.push (p : printer) (x : Item) : printer := p.setTokens (x :: p.tokens)

/-- `print` of a `whitespace`. -/
def printer.printWS (p : printer) (w : whitespace) : printer :=
  let p := if w = .newline then p.removeLastWS .space else p
  p.push (.whitespace w)

/-- `print` of an `indentation`. -/
def printer.printIndent (p : printer) (n : Int) : printer := p.push (.indentation n)

/-- `print` of a `token.Type`. -/
def printer.printType (p : printer) (typ : Typ) : printer :=
  if typ = .EOF then p else p.push (.token (Token.mk0 typ typ.str))

/-- `print(newline, p.indent)`. -/
def printer.printNL (p : printer) : printer := (p.printWS .newline).printIndent p.indent

/-- The loop of `printer.removeAnyWS`. -/
def removeAnyWSLoop : List Item → List Item × Bool
  | [] => ([], false)
  | .whitespace _ :: rest => removeAnyWSLoop rest
  | .indentation _ :: rest => removeAnyWSLoop rest
  | .token c :: rest => (.token c :: rest, isLineComment c)

/-- `printer.removeAnyWS`. -/
def printer.removeAnyWS (p : printer) : Bool × printer :=
  let r := removeAnyWSLoop p.tokens
  let p := p.setTokens r.1
  if r.2 then (true, p.printNL) else (false, p)

def spacesAround (typ : Typ) : Bool :=
  typ = .As || typ = .Implements || typ = .Instanceof || typ = .Insteadof || typ = .Coalesce
    || typ = .AddAssign || typ = .SubAssign || typ = .MulAssign || typ = .QuoAssign
    || typ = .RemAssign || typ = .PowAssign || typ = .AndAssign || typ = .OrAssign
    || typ = .XorAssign || typ = .ShlAssign || typ = .ShrAssign || typ = .ConcatAssign
    || typ = .CoalesceAssign || typ = .LowPrecAnd || typ = .LowPrecOr || typ = .LowPrecXor

def spaceAfter (typ : Typ) : Bool :=
  typ = .Colon || typ = .Abstract || typ = .Case || typ = .Catch || typ = .Clone || typ = .Do
    || typ = .DoubleArrow || typ = .Echo || typ = .Extends || typ = .Final || typ = .Finally
    || typ = .For || typ = .Foreach || typ = .From || typ = .Function || typ = .Global
    || typ = .If || typ = .Match || typ = .Namespace || typ = .New || typ = .Print
    || typ = .Private || typ = .Protected || typ = .Public || typ = .Readonly || typ = .Return
    || typ = .Semicolon || typ = .Static || typ = .Switch || typ = .Throw || typ = .Try
    || typ = .Use || typ = .While || typ = .Yield || spacesAround typ

/-- `unicode.IsSpace`. -/
def isUnicodeSpace (c : Char) : Bool :=
  let n := c.toNat
  n = 9 || n = 10 || n = 11 || n = 12 || n = 13 || n = 32 || n = 0x85 || n = 0xA0
    || n = 0x1680 || (decide (0x2000 ≤ n) && decide (n ≤ 0x200A)) || n = 0x2028 || n = 0x2029
    || n = 0x202F || n = 0x205F || n = 0x3000

/-- The test `strings.TrimSpace(arg.Text) == "//"`. -/
def isBareComment (text : List Char) : Bool :=
  let t := (text.dropWhile isUnicodeSpace).reverse.dropWhile isUnicodeSpace
  t = "//".toList

/-- The number of tabs at the head of a text: the loop that sets `prevIndent`. -/
def countTabs : List Char → Int
  | '\t' :: rest => countTabs rest + 1
  | _ => 0

/-- The text after the last newline (`arg.Text[i+1:]`) and whether the text before
that newline (`arg.Text[:i]`) contains another one; `none` when there is no newline. -/
def splitLastNL (text : List Char) : Option (List Char × Bool) :=
  if containsNL text then
    let after := (text.reverse.takeWhile (fun c => c != '\n')).reverse
    let before := (text.reverse.dropWhile (fun c => c != '\n')).drop 1
    some (after, containsNL before)
  else none

/-- `print` of a `token.Token` of kind `Whitespace`. -/
def printer.printWhitespaceToken (p : printer) (arg : Token) : printer :=
  match splitLastNL arg.text with
  | some (after, more) =>
    let p := p.setPrevIndent (countTabs after)
    if p.removeNextWS then p
    else
      let p := if more then p.printWS .newline else p
      p.printNL
  | none =>
    if !p.removeNextWS then
      let p := p.removeLastWS .space
      if p.lastToken ≠ .Rbrace then p.printWS .space else p
    else p

/-- `print` of an element that `removeLast` has returned. -/
def printer.reprint (p : printer) (printToken : printer → Token → printer) (x : Option Item) :
    printer :=
  match x with
  | some (.token t) => printToken p t
  | some (.indentation n) => p.printIndent n
  | some (.whitespace w) => p.printWS w
  | none => p

/-! The cases of the first switch of the `token.Token` case of `print`.  Each gives
the state before the token is appended, `printSpaceAfter`, and whether the token is
skipped (`continue`). -/

/-- `case token.Comment`. -/
def printer.beforeComment (p : printer) (arg : Token) : printer × Bool × Bool :=
  if !isLineComment arg then
    let last := p.lastToken
    let p := if last ≠ .Lparen && last ≠ .Lbrack then (p.removeLastWS .space).printWS .space else p
    (p, true, false)
  else if isBareComment arg.text && p.lastToken ≠ .Comment then (p, false, true)
  else
    let p := p.setMightDeindent (decide (p.prevIndent < p.indent))
    let p := p.removeLastWS .space
    (if !p.justIndented then p.printWS .nextcol else p, false, false)

/-- `case token.If`. -/
def printer.beforeIf (p : printer) : printer × Bool × Bool :=
  (if p.lastToken = .Else then p.removeAnyWS.2 else p, false, false)

/-- `case token.Else, token.Catch, token.Finally`. -/
def printer.beforeElse (p : printer) : printer × Bool × Bool :=
  (if p.lastToken = .Rbrace then (p.removeAnyWS.2).printWS .space else p, false, false)

/-- `case token.Use`; `printToken` is the recursive call `p.print(r, space)`. -/
def printer.beforeUse (p : printer) (printToken : printer → Token → printer) :
    printer × Bool × Bool :=
  let p := p.removeLastWS .space
  let (r, p1) := p.removeLastType .Rparen
  (if r.isSome then (p1.reprint printToken r).printWS .space else p1, false, false)

/-- `case token.Static` (falling through) and `case token.Private, ..., token.Final`. -/
def printer.beforeModifier (p : printer) (typ : Typ) : printer × Bool × Bool :=
  let p := if typ = .Static then p.setRmWSBeforeParen true else p
  (if p.scopeOpen = .Lbrace then p.setAlignNextAssign true else p, false, false)

/-- `case token.Assign`. -/
def printer.beforeAssign (p : printer) : printer × Bool × Bool :=
  let p := p.removeLastWS .space
  (if p.alignNextAssign then p.printWS .nextcol
   else if p.scopeType ≠ .Declare then p.printWS .space else p, false, false)

/-- `case token.DoubleArrow`. -/
def printer.beforeDoubleArrow (p : printer) : printer × Bool × Bool :=
  let p := p.removeLastWS .space
  (if p.multiline then p.printWS .nextcol else p.printWS .space, false, false)

/-- `case token.Backslash`. -/
def printer.beforeBackslash (p : printer) : printer × Bool × Bool :=
  let (ws, p1) := p.removeLast (.inl (.whitespace .space))
  let p2 := if ws.isSome && p1.lastToken ≠ .Ident then p1.printWS .space else p1
  (p2.setRemoveNextWS true, false, false)

/-- `case metaTokenCast`. -/
def printer.beforeCast (p : printer) (typ : Typ) : printer × Bool × Bool :=
  let last := p.lastToken
  let p := if last = .Ident || last = .Var || last = .Rbrack then p.removeLastWS .space else p
  let r := decideOpSpaces p.opPrec p.maxPrec typ
  if r.2 then (p.setRemoveNextWS (!r.1), r.1, false) else (p, false, false)

/-- `case token.Var` (falling through) and `case token.Ident`. -/
def printer.beforeVarIdent (p : printer) (typ : Typ) : printer × Bool × Bool :=
  let p :=
    if typ = .Var && p.lastToken = .Ident then (p.removeLastWS .space).printWS .space else p
  (p.setRmWSBeforeParen true, false, false)

/-- `case token.Inc, token.Dec`. -/
def printer.beforeIncDec (p : printer) : printer × Bool × Bool :=
  let last := p.lastToken
  (if last = .Ident || last = .Var || last = .Rbrack then p.removeLastWS .space
   else p.setRemoveNextWS true, false, false)

/-- The `default` case. -/
def printer.beforeDefault (p : printer) (typ : Typ) : printer × Bool × Bool :=
  let r := decideOpSpaces p.opPrec p.maxPrec typ
  if r.2 then
    let p := p.removeLastWS .space
    if r.1 then (p.printWS .space, true, false)
    else (p.setRemoveNextWS true, false, false)
  else if spacesAround typ then ((p.removeLastWS .space).printWS .space, false, false)
  else (p, false, false)

/-- The first switch of the `token.Token` case of `print`: the state before the
token is appended, `printSpaceAfter`, and whether the token is skipped (`continue`). -/
def printer.beforeToken (p : printer) (printToken : printer → Token → printer) (arg : Token) :
    printer × Bool × Bool :=
  if arg.typ = .Illegal then (p, false, false)
  else if arg.typ = .OpenTag then (p, true, false)
  else if arg.typ = .Comment then p.beforeComment arg
  else if arg.typ = .If then p.beforeIf
  else if arg.typ = .Else || arg.typ = .Catch || arg.typ = .Finally then p.beforeElse
  else if arg.typ = .Use then p.beforeUse printToken
  else if arg.typ = .Const || arg.typ = .Case then (p.setAlignNextAssign true, false, false)
  else if arg.typ = .Static || arg.typ = .Private || arg.typ = .Protected
      || arg.typ = .Public || arg.typ = .Readonly || arg.typ = .Final then
    p.beforeModifier arg.typ
  else if arg.typ = .Assign then p.beforeAssign
  else if arg.typ = .DoubleArrow then p.beforeDoubleArrow
  else if arg.typ = .Semicolon || arg.typ = .Comma then (p.removeLastWS .space, false, false)
  else if arg.typ = .Backslash then p.beforeBackslash
  else if arg.typ = .Arrow || arg.typ = .QmarkArrow || arg.typ = .DoubleColon then
    ((p.removeLastWS .space).setRemoveNextWS true, false, false)
  else if arg.typ = .Qmark || arg.typ = .BitNot || arg.typ = .At || arg.typ = .Not
      || arg.typ = .Dollar || arg.typ = .Ellipsis then
    (p.setRemoveNextWS true, false, false)
  else if arg.typ = metaTokenCast then p.beforeCast arg.typ
  else if arg.typ = .Var || arg.typ = .Ident then p.beforeVarIdent arg.typ
  else if arg.typ = .Inc || arg.typ = .Dec then p.beforeIncDec
  else p.beforeDefault arg.typ

/-- The `token.Token` case of `print` for a token that is not white space; the
argument `printToken` is the recursive call `p.print(r, ...)` of the `Use` case. -/
def printer.printTokenWith (printToken : printer → Token → printer) (p : printer) (arg : Token) :
    printer :=
  let p := (p.setRemoveNextWS false).setRmWSBeforeParen false
  let (p, printSpaceAfter, skip) := p.beforeToken printToken arg
  if skip then p
  else
    let p := p.push (.token { arg with pos := ⟨0, 0⟩ })
    if arg.typ = .Assign && p.scopeType = .Declare then p.setRemoveNextWS true
    else if arg.typ = .Assign || arg.typ = .Comma then p.printWS .space
    else if !p.removeNextWS && (printSpaceAfter || spaceAfter arg.typ) then p.printWS .space
    else p

/-- The innermost `print` of a `token.Token`: the token that `removeLast(token.Rparen)`
returned in the `Use` case is a `)`, for which the `Use` case is not entered again. -/
def printer.printToken0 (p : printer) (arg : Token) : printer :=
  if arg.typ = .Whitespace then p.printWhitespaceToken arg
  else printer.printTokenWith (fun q _ => q) p arg

/-- `print` of a `token.Token`. -/
def printer.printToken (p : printer) (arg : Token) : printer :=
  if arg.typ = .Whitespace then p.printWhitespaceToken arg
  else printer.printTokenWith printer.printToken0 p arg

/-- The `switch arg.open` at the head of the `*scope` case of `print`: the white
space before the opening bracket. -/
def printer.scopeBeginWS (p : printer) (arg : ScopeInfo) : printer :=
  if arg.opn = .Lparen then
    let last := p.lastToken
    if last = .Rparen || last = .Rbrack || last = .Declare || last = .Class
        || last = .Function || last = .Fn then p.removeAnyWS.2
    else p
  else if arg.opn = .Lbrack then
    let last := p.lastToken
    if last = .Rparen || last = .Rbrack then p.removeLastWS .space else p
  else if arg.opn = .Lbrace then
    if arg.kind = .Lbrace then p
    else
      let r := p.removeAnyWS
      if arg.kind = .Arrow || arg.kind = .DoubleColon then r.2
      else if arg.kind = .OpenTag || arg.kind = .Class || arg.kind = .Interface
          || arg.kind = .Trait || arg.kind = .Enum || arg.kind = .Function then
        (if !r.1 then r.2.printNL else r.2).setAlignNextAssign false
      else r.2.printWS .space
  else p

/-- The `*scope` case of `print` from `rmWSBeforeParen` to the comment tag: the
opening bracket is printed. -/
def printer.scopeBeginOpen (p : printer) (arg : ScopeInfo) : printer :=
  let p := if arg.opn ≠ .Lbrace && p.rmWSBeforeParen then p.removeLastWS .space else p
  let p := p.printType arg.opn
  match arg.commentTag with
  | some tag => (p.printWS .space).printToken tag
  | none => p

/-- The `*scope` case of `print` up to the loop over the statements. -/
def printer.scopeBegin (p : printer) (arg : ScopeInfo) (nodes : List Stmt) : printer :=
  let p := p.scopeBeginWS arg
  let p := p.scopeBeginOpen arg
  let p :=
    if arg.opn = .OpenTag then
      if arg.multiline then p.printWS .newline else p.printWS .nextcol
    else p
  let p := if arg.indented then p.setIndent (p.indent + 1) else p
  let p :=
    if arg.multiline && !nodes.isEmpty then p.printNL
    else if oneliner arg nodes then p.printWS .space
    else p
  p.setScope arg.kind (arg.multiline || arg.opn = .OpenTag) arg.opn

/-- The five removals that open the trailing-comma block of the `*scope` case of
`print`: a space, a comment (returned), a space, a next-column mark and a comma. -/
def printer.stripForComma (p : printer) : Option Item × printer :=
  let p := p.removeLastWS .space
  let (c, p) := p.removeLastType .Comment
  let p := p.removeLastWS .space
  let p := p.removeLastWS .nextcol
  (c, (p.removeLastType .Comma).2)

/-- The trailing-comma block of the `*scope` case of `print`. -/
def printer.fixTrailingComma (p : printer) : printer :=
  let (c, p) := p.stripForComma
  let p := if p.lastIsToken then p.printType .Comma else p
  p.reprint printer.printToken c

/-- The `for (;;)` block of the `*scope` case of `print`. -/
def printer.fixFor (p : printer) : printer :=
  let (s1, p) := p.removeLastType .Semicolon
  let (s2, p) := p.removeLastType .Semicolon
  let (s1, p) :=
    if s2.isSome then
      let p := p.removeLastWS .space
      let (paren, p) := p.removeLastType .Lparen
      if paren.isSome then
        ((none : Option Item), p.printToken (Token.mk0 .Lparen "(;;".toList))
      else (s1, (p.reprint printer.printToken s2).printWS .space)
    else (s1, p)
  p.reprint printer.printToken s1

/-- The `*scope` case of `print` right after the loop over the statements, up to
`p.indent--`; `m`, `t`, `o` are the saved values of `multiline`, `scopeType` and
`scopeOpen`. -/
def printer.scopeEndStart (p : printer) (m : Bool) (t o : Typ) (arg : ScopeInfo) : printer :=
  let p := p.setScope t m o
  let p := (p.removeLastIndent p.indent).2
  let p := p.removeLastWS .newline
  let p := p.setRemoveNextWS false
  if arg.indented then p.setIndent (p.indent - 1) else p

/-- The `*scope` case of `print` from the loop over the statements to the point
before `p.print(arg.close)`. -/
def printer.scopeEndBody (config : Options) (p : printer) (m : Bool) (t o : Typ)
    (arg : ScopeInfo) (nodes : List Stmt) : printer :=
  let p := p.scopeEndStart m t o arg
  let p :=
    if oneliner arg nodes then (p.removeLastWS .space).printWS .space
    else if arg.multiline || arg.offsetEndParen then
      let p :=
        if config &&& TrailingComma > 0 && arg.fixComma && !nodes.isEmpty then
          p.fixTrailingComma
        else p
      p.printNL
    else ((p.removeLastWS .space).removeLastType .Comma).2
  if arg.kind = .For && arg.close = .Rparen then p.fixFor else p

/-- The `*scope` case of `print` after the loop over the statements. -/
def printer.scopeEnd (config : Options) (p : printer) (m : Bool) (t o : Typ) (arg : ScopeInfo)
    (nodes : List Stmt) : printer :=
  let p := p.scopeEndBody config m t o arg nodes
  let p := p.printType arg.close
  let p :=
    if (arg.close = .Rbrace && !isFetchOperator arg.kind)
        || (arg.close = .Rparen && arg.kind ≠ .OpenTag) then p.printWS .space
    else p
  p.setRmWSBeforeParen false

/-- The local variables of the `*stmt` case of `print`; `kind` is `arg.kind`, which
the loop overwrites. -/
structure stmtVars where
  extraIndented : Int
  fatArrow : Bool
  stmtReallyIndented : Bool
  mightContinue : Bool
  doesContinue : Bool
  maxPrec : Int
  hadSpecialParamChar : Bool
  kind : Typ
  deriving Repr

/-- The block `if p.removeLast(p.indent) != nil { p.print(p.indent - 1) }`. -/
def printer.deindentLast (p : printer) : printer :=
  if (p.removeLastIndent p.indent).1.isSome then
    (p.removeLastIndent p.indent).2.printIndent (p.indent - 1)
  else (p.removeLastIndent p.indent).2

/-- The `*stmt` case of `print` before its loop. -/
def printer.stmtBegin (p : printer) (arg : StmtInfo) : printer × stmtVars :=
  if arg.isLabel then
    ((p.deindentLast.setIndent (p.deindentLast.indent - 1)).setMaxPrec (-1),
      ⟨-1, false, false, false, false, -1, false, arg.kind⟩)
  else (p.setMaxPrec (-1), ⟨0, false, false, false, false, -1, false, arg.kind⟩)

/-- The head of the loop of the `*stmt` case: the precedence is computed anew
while `maxPrec` is -1. -/
def printer.stmtPrec (p : printer) (v : stmtVars) (all : List Node) : printer × stmtVars :=
  if v.maxPrec = -1 then
    if v.kind = .Class || v.kind = .Function || v.kind = .Fn then
      (p.setMaxPrec opTable.length, v)
    else
      let m : Int := analyseOps p.opPrec all
      (p.setMaxPrec m, { v with maxPrec := m })
  else (p, v)

/-- The `if amp != nil` block of the `Var` case: the removed `&` is printed again,
disguised as a unary operator. -/
def printer.printAmp (p : printer) (amp : Option Item) : printer :=
  match amp with
  | some (.token a) => p.printToken { a with typ := .At }
  | _ => p

/-- The `Var` case of the first switch on a token in the `*stmt` case. -/
def printer.fixParam (p : printer) : printer :=
  let p := p.removeLastWS .space
  let (ell, p) := p.removeLastType .Ellipsis
  let p := p.removeLastWS .space
  let (amp, p) := p.removeLastType .BitAnd
  let p := p.removeLastWS .space
  let p := if p.lastToken ≠ .Lparen then p.printWS .space else p
  (p.printAmp amp).reprint printer.printToken ell

/-- The first switch on a token in the `*stmt` case: the state and `addSpace`. -/
def printer.stmtToken1 (p : printer) (v : stmtVars) (x : Token) (rest : List Node) :
    printer × stmtVars × Bool :=
  if x.typ = .DoubleArrow || x.typ = .Assign then (p, { v with maxPrec := -1, kind := x.typ }, false)
  else if x.typ = .Colon then (p.removeLastWS .space, v, false)
  else if x.typ = .Not then (p, v, nextOperatorIs p.opPrec rest .Instanceof)
  else if x.typ = .At then
    if nextOperatorIs p.opPrec rest .Pow then (p.setMaxPrec (max p.maxPrec 2), v, true)
    else (p, v, false)
  else if x.typ = .BitAnd || x.typ = .Ellipsis then (p, { v with hadSpecialParamChar := true }, false)
  else if x.typ = .Var then
    (if v.hadSpecialParamChar && v.kind = .Function then p.fixParam else p, v, false)
  else (p, v, false)

/-- The second switch on a token in the `*stmt` case, taken in a multiline scope;
`isLabel` is `arg.isLabel`. -/
def printer.stmtToken2 (p : printer) (v : stmtVars) (isLabel : Bool) (x : Token) :
    printer × stmtVars :=
  if x.typ = .Comment then
    if !isLabel || !isLineComment x then (p, v)
    else if p.prevIndent > p.indent then
      (((p.removeLastIndent p.indent).2).printIndent (p.indent + 1), v)
    else (p, v)
  else if x.typ = .DocComment then (p, v)
  else if x.typ = .Whitespace then
    if !containsNL x.text then (p, v)
    else if v.fatArrow then
      (p.setIndent (p.indent + 1), { v with extraIndented := v.extraIndented + 1 })
    else if !v.doesContinue && v.mightContinue then
      (p.setIndent (p.indent + 1),
       { v with extraIndented := v.extraIndented + 1, doesContinue := true })
    else (p, v)
  else if x.typ = .Colon then
    let v := { v with mightContinue := false }
    if v.doesContinue then
      (p.setIndent (p.indent - 1),
       { v with extraIndented := v.extraIndented - 1, doesContinue := false })
    else (p, v)
  else if x.typ = .DoubleArrow then (p, { v with fatArrow := true })
  else (p, { v with fatArrow := false, mightContinue := true })

/-- One pass of the loop of the `*stmt` case for a token. -/
def printer.stmtToken (p : printer) (v : stmtVars) (isLabel : Bool) (x : Token)
    (rest : List Node) : printer × stmtVars :=
  let (p, v, addSpace) := p.stmtToken1 v x rest
  if !p.multiline then
    let v :=
      if x.typ = .Whitespace && containsNL x.text then { v with stmtReallyIndented := true }
      else v
    let p := p.printToken x
    (if addSpace then p.printWS .space else p, v)
  else
    let (p, v) := p.stmtToken2 v isLabel x
    let p := p.printToken x
    (if addSpace then p.printWS .space else p, v)

/-- The `*scope` case of the type switch in the `*stmt` case. -/
def printer.stmtScope (p : printer) (v : stmtVars) (x : ScopeInfo) : printer × stmtVars :=
  let v := { v with maxPrec := -1 }
  if v.doesContinue && x.multiline && x.opn = .Lbrace then
    (p.setIndent (p.indent - 1),
     { v with extraIndented := v.extraIndented - 1, doesContinue := false,
              mightContinue := false })
  else (p, v)

/-- The `*stmt` case of `print` after its loop; `kind` is `arg.kind` as the loop left it. -/
def printer.stmtEnd (p : printer) (v : stmtVars) (arg : StmtInfo) : printer :=
  let p := p.setIndent (p.indent - v.extraIndented)
  let p := if arg.isLabel then p.printNL.setRemoveNextWS true else p
  let p := p.setAlignNextAssign false
  if v.kind = .Namespace || v.kind = .Declare then
    (((p.printWS .newline).printWS .newline).printIndent p.indent).setRemoveNextWS true
  else p

/-- The `*ternaryMiddle` case of `print` before its loop. -/
def printer.ternaryBegin (p : printer) : printer :=
  let p := p.removeLastWS .space
  let p := ((p.printWS .space).printType .Qmark).printWS .space
  p.setRmWSBeforeParen false

/-- The `*ternaryMiddle` case of `print` after its loop. -/
def printer.ternaryEnd (p : printer) (stmtAlreadyIndented hasAny : Bool) : printer :=
  let p := if stmtAlreadyIndented then p.deindentLast else p
  let p := p.removeLastWS .space
  let p := if hasAny then p.printWS .space else p
  let p := (p.printType .Colon).printWS .space
  p.setRmWSBeforeParen false

mutual

/-- `print` of one node.  `ctx` holds `stmtAlreadyIndented` when the node is a
ternary middle that the enclosing statement has prepared (its two pointers set);
the second result tells whether the middle indented, that is, whether it ran
`*arg.extraIndented++` and `*arg.doesContinue = true`. -/
def printNode (config : Options) : printer → Option Bool → Node → printer × Bool
  | p, _, .token t => (p.printToken t, false)
  | p, _, .scope info nodes =>
    let m := p.multiline
    let t := p.scopeType
    let o := p.scopeOpen
    let p := p.scopeBegin info nodes
    let p := printStmts config p nodes
    (p.scopeEnd config m t o info nodes, false)
  | p, ctx, .ternaryMiddle nodes =>
    let p := p.ternaryBegin
    let (p, hasAny, indented) := printTernaryLoop config p ctx.isSome false false nodes
    (p.ternaryEnd (ctx.getD false) hasAny, indented)

/-- The loop of the `*scope` case over the statements. -/
def printStmts (config : Options) : printer → List (StmtInfo × List Node) → printer
  | p, [] => p
  | p, (arg, nodes) :: rest =>
    let (p, v) := p.stmtBegin arg
    let (p, v) := printStmtLoop config p v arg.isLabel nodes nodes
    printStmts config (p.stmtEnd v arg) rest

/-- The loop of the `*stmt` case; `all` is `arg.nodes`, the last argument the part
of it from `index` on. -/
def printStmtLoop (config : Options) :
    printer → stmtVars → Bool → List Node → List Node → printer × stmtVars
  | p, v, _, _, [] => (p, v)
  | p, v, isLabel, all, .token x :: rest =>
    let (p, v) := p.stmtPrec v all
    let (p, v) := p.stmtToken v isLabel x rest
    printStmtLoop config p v isLabel all rest
  | p, v, isLabel, all, .scope info nodes :: rest =>
    let (p, v) := p.stmtPrec v all
    let (p, v) := p.stmtScope v info
    let p := (printNode config p none (.scope info nodes)).1
    printStmtLoop config p v isLabel all rest
  | p, v, isLabel, all, .ternaryMiddle nodes :: rest =>
    let (p, v) := p.stmtPrec v all
    let p := p.setMaxPrec (analyseOps p.opPrec nodes)
    let already := v.doesContinue || v.stmtReallyIndented
    let r := printNode config p (some already) (.ternaryMiddle nodes)
    let v :=
      if r.2 then { v with extraIndented := v.extraIndented + 1, doesContinue := true }
      else v
    let m : Int := analyseOps r.1.opPrec (.ternaryMiddle nodes :: rest)
    printStmtLoop config (r.1.setMaxPrec m) { v with maxPrec := m } isLabel all rest

/-- The loop of the `*ternaryMiddle` case with `hasAny` and `indented`; `prepared`
tells whether the two pointers of the middle are set. -/
def printTernaryLoop (config : Options) :
    printer → Bool → Bool → Bool → List Node → printer × Bool × Bool
  | p, _, hasAny, indented, [] => (p, hasAny, indented)
  | p, prepared, hasAny, indented, x :: rest =>
    let isWS := match x with
      | .token tok => decide (tok.typ = .Whitespace)
      | _ => false
    let nl := match x with
      | .token tok => containsNL tok.text
      | _ => false
    let hasAny := hasAny || !isWS
    let (p, indented) :=
      if isWS && !indented && nl then
        ((p.setIndent (p.indent + 1)).setPanicked (p.panicked || !prepared), true)
      else (p, indented)
    let p := (printNode config p none x).1
    printTernaryLoop config p prepared hasAny indented rest

end

/-- The `if d := arg.htmlPreamble; d != nil` block of the `*File` case. -/
def printer.printPreamble (p : printer) (d : Option Token) : printer :=
  match d with
  | some d =>
    p.printToken { d with text := d.text.dropWhile (fun c => c == ' ' || c == '\t' || c == '\n') }
  | none => p

/-- The `if d := p.removeLast(token.InlineHTML); d != nil` block of the `*File` case. -/
def printer.printTrimmed (p : printer) (d : Option Item) : printer :=
  match d with
  | some (.token d) =>
    p.printToken { d with text := (d.text.reverse.dropWhile
      (fun c => c == ' ' || c == '\t' || c == '\n')).reverse }
  | _ => p

/-- The `*File` case of `print`. -/
def printFile (config : Options) (p : printer) (arg : File) : printer :=
  let p := p.printPreamble arg.htmlPreamble
  let p := (printNode config p none (.scope arg.scope.1 arg.scope.2)).1
  let r := p.removeAnyWS
  let d := r.2.removeLastType .InlineHTML
  let p := d.2.printTrimmed d.1
  if !r.1 then p.printWS .newline else p

/-- What `Fprint` hands to the tabwriter: escaped text (between two `tabwriter.Escape`
bytes), a plain byte, or a `Flush`. -/
inductive TwEvent where
  | text (s : List Char)
  | byte (c : Char)
  | flush
  deriving DecidableEq, Repr

/-- The loop of `Fprint` over `p.tokens` (oldest first), with `justIndented` and
`prevIndentation`. -/
def renderLoop (align : Bool) : List Item → Bool → Int → List TwEvent
  | [], _, _ => []
  | .token tok :: rest, _, prev =>
    (if containsNL tok.text then [TwEvent.flush] else [])
      ++ TwEvent.text tok.text :: renderLoop align rest false prev
  | .indentation n :: rest, _, prev =>
    (if n ≠ prev then [TwEvent.flush] else [])
      ++ TwEvent.text (List.replicate n.toNat '\t') :: renderLoop align rest true n
  | .whitespace w :: rest, justIndented, prev =>
    let w := if w = .nextcol && !align then whitespace.space else w
    (if !justIndented || w = .newline then [TwEvent.byte w.byte] else [])
      ++ renderLoop align rest justIndented prev

/-- The events of the whole loop of `Fprint`, closed by the final `Flush`. -/
def render (align : Bool) (tokens : List Item) : List TwEvent :=
  renderLoop align tokens false 0 ++ [TwEvent.flush]

/-- The width the tabwriter gives column `j` at line `i`: one more than the widest
cell of the block of consecutive lines that have a cell in that column. -/
def twColWidth (lines : List (List (List Char))) (i j : Nat) : Nat :=
  let has := fun (l : List (List Char)) => decide (j + 1 < l.length)
  let block := ((lines.take i).reverse.takeWhile has) ++ ((lines.drop i).takeWhile has)
  (block.map (fun l => (l.getD j []).length + 1)).foldl max 0

/-- One formatted line: every cell but the last is padded to the width of its column. -/
def twLine (lines : List (List (List Char))) (i : Nat) : Nat → List (List Char) → List Char
  | _, [] => []
  | _, [c] => c
  | j, c :: cs => c ++ List.replicate (twColWidth lines i j - c.length) ' ' ++ twLine lines i (j + 1) cs

/-- The text a `Flush` writes for the buffered lines; the last one is unfinished
and gets no newline. -/
def twFormat (lines : List (List (List Char))) : List Char :=
  ((List.range lines.length).map (fun i =>
      twLine lines i 0 (lines.getD i []) ++ (if i + 1 = lines.length then [] else ['\n']))).flatten

/-- Modelled from the library: `text/tabwriter` as `Fprint` sets it up (minwidth 0,
tabwidth 0, padding 1, padchar blank, flag `StripEscape`).  `lines` are the
finished lines of the current batch, `cur` the finished cells of the current
line, `cell` the text of the current cell. -/
def tabwriterLoop : List TwEvent → List (List (List Char)) → List (List Char) → List Char →
    List Char
  | [], _, _, _ => []
  | .text s :: rest, lines, cur, cell => tabwriterLoop rest lines cur (cell ++ s)
  | .flush :: rest, lines, cur, cell =>
    twFormat (lines ++ [if cell.isEmpty then cur else cur ++ [cell]])
      ++ tabwriterLoop rest [] [] []
  | .byte c :: rest, lines, cur, cell =>
    if c = '\n' then
      let line := cur ++ [cell]
      if line.length = 1 then twFormat (lines ++ [line, []]) ++ tabwriterLoop rest [] [] []
      else tabwriterLoop rest (lines ++ [line]) [] []
    else if c = Char.ofNat 11 || c = '\t' then tabwriterLoop rest lines (cur ++ [cell]) []
    else tabwriterLoop rest lines cur (cell ++ [c])

def tabwriter (events : List TwEvent) : List Char := tabwriterLoop events [] [] []

/-- The body of `Fprint` below its first `if`, run with `opPrec` as the value of the
package variable: the bytes written, or `none` when the printer panics. -/
def FprintWith (opPrec : PrecMap) (file : File) (options : Options) : Option (List Char) :=
  let p := printFile options (printer.new opPrec) file
  if p.panicked then none
  else some (tabwriter (render (decide (options &&& AlignColumns ≠ 0)) p.tokens.reverse))

/-- `Fprint`: in PHP 7.4 mode `options &= ^TrailingComma` and `opPrec[token.Concat] = 6`
for the duration of the call. -/
def Fprint (file : File) (options : Options) : Option (List Char) :=
  if options &&& PHP74Compat > 0 then
    FprintWith opPrecLegacy file (options &&& (255 ^^^ TrailingComma))
  else FprintWith opPrecInit file options

end naive

namespace format

open token naive

/-- `bytes.Lines`: the lines of a text, each with its newline; the last one may lack it. -/
def lines : List Char → List (List Char)
  | [] => []
  | c :: rest =>
    if c = '\n' then [c] :: lines rest
    else
      match lines rest with
      | [] => [[c]]
      | l :: ls => (c :: l) :: ls

/-- The replacer `slashes`: every backslash becomes a semicolon. -/
def slashes (s : List Char) : List Char := s.map (fun c => if c = '\\' then ';' else c)

/-- `strings.Compare(a, b) <= 0`: the lexicographic order of the texts. -/
def leText : List Char → List Char → Bool
  | [], _ => true
  | _ :: _, [] => false
  | a :: as, b :: bs => decide (a.toNat < b.toNat) || (a.toNat == b.toNat && leText as bs)

/-- The order the comparison function of `flush` induces. -/
def useLe (a b : List Char) : Bool := leText (slashes a) (slashes b)

/-- Insertion of one statement into a sorted list, before the first element that is
not less: statements that compare equal stay behind it. -/
def insertStmt (x : List Char) : List (List Char) → List (List Char)
  | [] => [x]
  | y :: ys => if useLe x y then x :: y :: ys else y :: insertStmt x ys

/-- Modelled from the library: `slices.SortFunc` with the comparison of `flush`, as a
stable insertion sort, which is what the library runs on slices of up to twelve
elements: statements that compare equal keep the order they were collected in.  On
longer slices the library does not fix the order of statements that compare equal. -/
def sortStmts : List (List Char) → List (List Char)
  | [] => []
  | x :: xs => insertStmt x (sortStmts xs)

def useKw : List Char := "use ".toList

/-- The condition of the loop of `orderUseStmts` for collecting a line. -/
def isUseLine (line : List Char) : Bool := useKw.isPrefixOf line && !line.contains '{'

/-- The statement collected for a line: `use` and the rest without leading backslashes. -/
def useStmt (line : List Char) : List Char :=
  useKw ++ (line.drop useKw.length).dropWhile (fun c => c == '\\')

/-- The closure `flush`: the text written for the collected statements. -/
def flush (stmts : List (List Char)) : List Char := (sortStmts stmts).flatten

/-- The loop of `orderUseStmts` over the lines, with the collected statements. -/
def orderLoop : List (List Char) → List (List Char) → List Char
  | [], stmts => flush stmts
  | line :: rest, stmts =>
    if isUseLine line then orderLoop rest (stmts ++ [useStmt line])
    else flush stmts ++ line ++ orderLoop rest []

/-- `orderUseStmts`. -/
def orderUseStmts (src : List Char) : List Char := orderLoop (lines src) []

/-- `formatCode`: `none` on a syntax error or a panic. -/
def formatCode (src : List Char) (opts : Options) : Option (List Char) :=
  match Parse src (decide (opts &&& PHP74Compat ≠ 0)) with
  | .ok file => Fprint file opts
  | _ => none

/-- `Pipe`: the bytes written to `out`, or `none` when it fails.  `formatDocs` is the
doc-comment pass, whose printer is not part of the embedding; a `none` from it is
the error that `Pipe` logs and ignores. -/
def Pipe (formatDocs : List Char → Option (List Char)) (opts : Options) (src : List Char) :
    Option (List Char) :=
  match formatCode src opts with
  | none => none
  | some b =>
    let code := orderUseStmts b
    if opts &&& AlignColumns > 0 then
      match formatDocs code with
      | some withdoc => some withdoc
      | none => some code
    else some code

end format

/-! ## Definitions used to state and prove the properties -/

namespace format

/-- A line that ends in its only newline. -/
def ProperLine (l : List Char) : Prop := ∃ body, l = body ++ ['\n'] ∧ '\n' ∉ body

/-- The list of lines `orderUseStmts` writes, before they are concatenated. -/
def orderLines : List (List Char) → List (List Char) → List (List Char)
  | [], stmts => sortStmts stmts
  | line :: rest, stmts =>
    if isUseLine line then orderLines rest (stmts ++ [useStmt line])
    else sortStmts stmts ++ line :: orderLines rest []

/-- The order the claim asks of two neighbouring lines of the output. -/
def inOrder (a b : List Char) : Prop :=
  isUseLine a = true → isUseLine b = true → useLe a b = true

/-- The doc-comment pass taken as the identity, for runs of `Pipe` without `AlignColumns`,
which never call it. -/
def noDocs (code : List Char) : Option (List Char) := some code

end format

namespace naive

open token

/-! ### The buffer operations as functions on lists -/

/-- The buffer after `removeLast` of an element that is compared as a whole. -/
def dropItem (x : Item) : List Item → List Item
  | [] => []
  | last :: rest => if last = x then rest else last :: rest

/-- The buffer after `removeLast` of a kind. -/
def dropType (typ : Typ) : List Item → List Item
  | .token t :: rest => if t.typ = typ then rest else .token t :: rest
  | l => l

/-- The element `removeLast` of a kind returns. -/
def takeType (typ : Typ) : List Item → Option Item
  | .token t :: _ => if t.typ = typ then some (.token t) else none
  | _ => none

/-- The element `removeLast` of a whole element returns. -/
def takeItem (x : Item) : List Item → Option Item
  | [] => none
  | last :: _ => if last = x then some last else none

/-- The printer of the legacy mode as the specification words it: trailing commas
disabled, and the level of `concat` lowered by two in the table that `init` builds.
It is the body of `Fprint` below its first `if`, run on that table. -/
def legacyFprint (file : File) (o : Options) : Option (List Char) :=
  FprintWith (opPrecInit.set .Concat ((opPrecInit.get .Concat).1 - 2)) file
    (o &&& (255 ^^^ TrailingComma))

end naive

namespace naive

open token

/-- The kinds of the precedence table that reach the default case of the token switch
of `print`: the binary operators. -/
def binaryOps : List Typ :=
  opTable.flatten.filter (fun t => t != .metaTokenCast && t != .Not)

end naive

namespace naive

open token

/-- The token elements of a buffer, newest first. -/
def tokenItems : List Item → List Token
  | [] => []
  | .token t :: rest => t :: tokenItems rest
  | _ :: rest => tokenItems rest

/-- Whether a token is a comment or a doc comment. -/
def isComment (t : Token) : Bool := t.typ == .Comment || t.typ == .DocComment

/-- The kind of the newest token of a buffer that is no comment. -/
def lastNonComment : List Item → Option Typ
  | [] => none
  | .token t :: rest => if isComment t then lastNonComment rest else some t.typ
  | _ :: rest => lastNonComment rest

/-- The printer after the loop of the `*scope` case over the statements. -/
def afterStmts (config : Options) (p : printer) (info : ScopeInfo) (nodes : List Stmt) : printer :=
  printStmts config (p.scopeBegin info nodes) nodes

/-- The printer of the `*scope` case right before `p.print(arg.close)`. -/
def beforeClose (config : Options) (p : printer) (info : ScopeInfo) (nodes : List Stmt) : printer :=
  (afterStmts config p info nodes).scopeEndBody config p.multiline p.scopeType p.scopeOpen info nodes

/-- The printer of the `*scope` case after the five removals that open the
trailing-comma block: a comment that ended the scope and the marks around it are
set aside. -/
def strippedEnd (config : Options) (p : printer) (info : ScopeInfo) (nodes : List Stmt) : printer :=
  (((afterStmts config p info nodes).scopeEndStart p.multiline p.scopeType p.scopeOpen
    info).stripForComma).2

/-- What `p.print(arg.close)` and the space after it append, newest first. -/
def closeItems (info : ScopeInfo) : List Item :=
  (if (info.close = .Rbrace && !isFetchOperator info.kind)
      || (info.close = .Rparen && info.kind ≠ .OpenTag) then [Item.whitespace .space] else [])
    ++ (if info.close = .EOF then [] else [Item.token (Token.mk0 info.close info.close.str)])

end naive

namespace naive

open token

/-- The bracket kinds. -/
def isBracket (t : Typ) : Bool :=
  t = .Lparen || t = .Rparen || t = .Lbrack || t = .Rbrack || t = .Lbrace || t = .Rbrace

/-- The bracket kinds among the tokens of a buffer, newest first. -/
def brk : List Item → List Typ
  | [] => []
  | .token t :: rest => if isBracket t.typ then t.typ :: brk rest else brk rest
  | _ :: rest => brk rest

/-- What printing a token adds to the bracket word. -/
def brkOf (t : Token) : List Typ := if isBracket t.typ then [t.typ] else []

/-- What the opening of a scope adds to the bracket word, newest first. -/
def opnWord (info : ScopeInfo) : List Typ :=
  (match info.commentTag with
   | some tag => brkOf tag
   | none => []) ++ (if isBracket info.opn then [info.opn] else [])

/-- What the closing of a scope adds to the bracket word. -/
def closeWord (info : ScopeInfo) : List Typ := if isBracket info.close then [info.close] else []

mutual

/-- The bracket word of a node, newest first. -/
def nodeWord : Node → List Typ
  | .token t => brkOf t
  | .scope info stmts => closeWord info ++ stmtsWord stmts ++ opnWord info
  | .ternaryMiddle nodes => nodesWord nodes

/-- The bracket word of the statements of a scope, newest first. -/
def stmtsWord : List (StmtInfo × List Node) → List Typ
  | [] => []
  | (_, nodes) :: rest => stmtsWord rest ++ nodesWord nodes

/-- The bracket word of a list of nodes, newest first. -/
def nodesWord : List Node → List Typ
  | [] => []
  | n :: rest => nodesWord rest ++ nodeWord n

end

/-- Whether the opener and the closer of a scope are one of the four pairs that
`parseScope` sets. -/
def pairOK (info : ScopeInfo) : Bool :=
  (info.opn = .OpenTag && info.close = .EOF) || (info.opn = .Lbrace && info.close = .Rbrace)
    || (info.opn = .Lparen && info.close = .Rparen) || (info.opn = .Lbrack && info.close = .Rbrack)

/-- Whether the comment tag of a scope, if any, is a comment and the scope is multiline. -/
def tagOK (info : ScopeInfo) : Bool :=
  info.commentTag.all (fun tag => tag.typ == .Comment)
    && (!info.commentTag.isSome || info.multiline)

mutual

/-- Whether a node is one `Parse` builds: no token is a bracket, and every scope has
its pair of brackets and a well-formed comment tag. -/
def wfNode : Node → Bool
  | .token t => !isBracket t.typ
  | .scope info stmts => pairOK info && tagOK info && wfStmts stmts
  | .ternaryMiddle nodes => wfNodes nodes

def wfStmts : List (StmtInfo × List Node) → Bool
  | [] => true
  | (_, nodes) :: rest => wfNodes nodes && wfStmts rest

def wfNodes : List Node → Bool
  | [] => true
  | n :: rest => wfNode n && wfNodes rest

end

/-- The conditions of `wfNode` on the scope itself. -/
def infoOK (info : ScopeInfo) : Bool := pairOK info && tagOK info

/-- Whether a file is one `Parse` builds. -/
def wfFile (f : File) : Bool :=
  wfNode (.scope f.scope.1 f.scope.2)
    && f.htmlPreamble.all (fun d => d.typ == .InlineHTML)

/-- The closer that matches an opening bracket. -/
def closerOf : Typ → Option Typ
  | .Lparen => some .Rparen
  | .Lbrack => some .Rbrack
  | .Lbrace => some .Rbrace
  | _ => none

/-- Whether a word of bracket kinds, oldest first, is well nested when read with
the closers that are still expected in `stack`, the innermost first: an opener
pushes its closer, any other kind must be the closer on top of the stack, and at
the end the stack is empty. -/
def wellNestedFrom : List Typ → List Typ → Bool
  | stack, [] => stack.isEmpty
  | stack, t :: rest =>
    match closerOf t with
    | some c => wellNestedFrom (c :: stack) rest
    | none =>
      match stack with
      | c :: stack1 => t == c && wellNestedFrom stack1 rest
      | [] => false

/-- Whether a word of bracket kinds, oldest first, is well nested. -/
def wellNested (w : List Typ) : Bool := wellNestedFrom [] w

/-- The bracket kinds of the tokens the printer emits for a file, in the order in
which `Fprint` writes them; `opPrec` is the value of the package variable. -/
def emittedBrackets (opPrec : PrecMap) (config : Options) (file : File) : List Typ :=
  (brk (printFile config (printer.new opPrec) file).tokens).reverse

end naive

namespace naive

open token

/-- Whether the newest element of a buffer is a space mark. -/
def topSpace : List Item → Bool
  | .whitespace .space :: _ => true
  | _ => false

/-- Whether an element is a space mark or a newline mark. -/
def spaceOrNL : Item → Bool
  | .whitespace .space => true
  | .whitespace .newline => true
  | _ => false

/-- Whether in a buffer (newest first) no space mark is directly followed, in the
order of the output, by a newline mark or by another space mark. -/
def tidy : List Item → Bool
  | [] => true
  | x :: l => !(spaceOrNL x && topSpace l) && tidy l

/-- The invariant of the printer: the buffer is tidy, and `)` is no operator of
the precedence map. -/
def printer.Inv (p : printer) : Prop :=
  tidy p.tokens = true ∧ (p.opPrec.get .Rparen).2 = false

/-- The elements of the buffer of the printer after a file is printed, in the
order in which the loop of `Fprint` writes them; `opPrec` is the value of the
package variable. -/
def emitted (opPrec : PrecMap) (config : Options) (file : File) : List Item :=
  (printFile config (printer.new opPrec) file).tokens.reverse


/-- The tree `Parse` builds for the text `<?php echo 1;`. -/
def echoFile : File :=
  ⟨none, (⟨.Illegal, .OpenTag, .EOF, none, false, false, false, false⟩,
    [(⟨.Illegal, false, false, false⟩,
      [.token ⟨.Echo, "echo".toList, ⟨1, 7⟩⟩, .token ⟨.Whitespace, " ".toList, ⟨1, 11⟩⟩,
       .token ⟨.Int, "1".toList, ⟨1, 12⟩⟩, .token ⟨.Semicolon, ";".toList, ⟨1, 13⟩⟩])])⟩

end naive

namespace naive

open token

/-- Whether a token is trivia: white space, a comment, a doc comment or inline markup. -/
def isTrivia (t : Token) : Bool :=
  t.typ == .Whitespace || t.typ == .Comment || t.typ == .DocComment || t.typ == .InlineHTML

/-- The kinds and texts of the tokens of a source text that are no trivia, up to
the end of the text. -/
def nonTrivia (src : List Char) : List (Typ × List Char) :=
  (((scanAll src false).1.filter (fun t => !isTrivia t && t.typ != .EOF)).map
    (fun t => (t.typ, t.text)))

end naive

namespace token

/-- The scanner after `n` calls of `read`. -/
def Scanner.skip (s : Scanner) : Nat → Scanner
  | 0 => s
  | n + 1 => (s.read.2).skip n

/-- The characters the loop of `scanIdent` accepts: an identifier start, or a digit
once the builder is not empty (`some` says so). -/
def identChar (some : Bool) (c : Char) : Bool :=
  isIdentStart c || (decide ('0' ≤ c) && decide (c ≤ '9') && some)

/-- A text the loop of `scanIdent` reads to its end, from a builder that is empty or not. -/
def identWord (some : Bool) : List Char → Bool
  | [] => true
  | c :: cs => identChar some c && identWord true cs

/-- A rest at which the loop of `scanIdent` stops. -/
def identStop (some : Bool) : List Char → Bool
  | [] => true
  | c :: _ => !identChar some c

end token

namespace token

/-- The text of a line comment behind its start, as the specification words it: the
characters up to the end of the line, or up to a `?>` inside the line. -/
def lineCommentText : List Char → List Char
  | [] => []
  | c :: rest =>
    if c = '\n' then []
    else if c = '?' ∧ rest.head? = some '>' then []
    else c :: lineCommentText rest

end token

namespace token

/-- The position after the text `r`, read from line `l`, column `c`. -/
def endOf : Int → Int → List Char → Pos
  | l, c, [] => ⟨l, c⟩
  | l, c, x :: r => if x = '\n' then endOf (l + 1) 1 r else endOf l (c + 1) r

/-- The position at which the scanner meets the end of its input. -/
def endPos (s : Scanner) : Pos := if s.done then s.getPos else endOf s.line s.col s.r

/-- The messages of the errors for a construct that the end of the input cuts short. -/
def unterminated (msg : String) : Prop :=
  msg = "string not terminated" ∨ msg = "unterminated block comment"
    ∨ msg = "heredoc not terminated"

/-- A step of the scanner that records no error and goes forward in the input: it keeps
the error, does not lengthen the input, and from a column of at least 1 it keeps such a
column and the position of the end of the input. -/
def Keeps (s t : Scanner) : Prop :=
  t.err = s.err ∧ t.r.length ≤ s.r.length ∧ (1 ≤ s.col → 1 ≤ t.col ∧ endPos t = endPos s)

/-- A step of the scanner that returns a token: either the error is as before, or there
was none, the token is EOF, and the error now recorded, when it is one of the
`unterminated` ones, has the position of the end of the input. -/
def ErrStep (s : Scanner) (res : Token × Scanner) : Prop :=
  res.2.err = s.err ∨
    (s.err = none ∧ res.1.typ = .EOF ∧
      ∃ e, res.2.err = some e ∧ (unterminated e.err → 1 ≤ s.col → e.pos = endPos s))

end token

namespace token

/-- The octal digits that `scanOctal` reads on. -/
def isOctalDigit (c : Char) : Bool := decide ('0' ≤ c) && decide (c ≤ '7')

end token

namespace token

/-- The maximal identifier at the start of a text: identifier characters as `scanIdent`
accepts them, a digit only behind a first character (`some` says there is one). -/
def identTake (some : Bool) : List Char → List Char
  | [] => []
  | c :: cs => if identChar some c then c :: identTake true cs else []

/-- The text behind the maximal identifier at its start. -/
def identDrop (some : Bool) : List Char → List Char
  | [] => []
  | c :: cs => if identChar some c then identDrop true cs else c :: cs

/-- The terminator test of the specification at a point behind a newline: after
optional white space, the maximal identifier is `delim` exactly. -/
def heredocEndsAt (delim rest : List Char) : Bool :=
  identTake false (rest.dropWhile isSpaceRune) == delim

/-- The text of a heredoc behind its opening line, as the specification words it: the
source up to the first point behind a newline at which `heredocEndsAt` holds, with the
white space and the identifier there; `none` when there is no such point. -/
def heredocText (delim : List Char) : List Char → Option (List Char)
  | [] => none
  | c :: rest =>
    if c = '\n' ∧ heredocEndsAt delim rest = true then
      some (c :: (rest.takeWhile isSpaceRune ++ delim))
    else (heredocText delim rest).map (fun t => c :: t)

/-- The state in which `read` has found the end of the input only when the input is
used up. -/
def Scanner.Sound (s : Scanner) : Prop := s.done = true → s.r = []

end token

namespace naive

open token

/-- The precedence table as the specification lists it, read with the cast kind
`metaTokenCast` at level 2: the level of a kind, `none` for a kind without one. -/
def specPrec : Typ → Option Nat
  | .Pow => some 1
  | .metaTokenCast => some 2
  | .Not => some 4
  | .Mul => some 5
  | .Quo => some 5
  | .Rem => some 5
  | .Add => some 6
  | .Sub => some 6
  | .BitShl => some 7
  | .BitShr => some 7
  | .Concat => some 8
  | .Lt => some 9
  | .Gt => some 9
  | .Leq => some 9
  | .Geq => some 9
  | .Eq => some 9
  | .Neq => some 9
  | .Identical => some 9
  | .NotIdentical => some 9
  | .Spaceship => some 9
  | .BitAnd => some 11
  | .BitXor => some 12
  | .BitOr => some 13
  | .And => some 14
  | .Or => some 15
  | .Coalesce => some 16
  | _ => none

end naive

namespace naive

open token

/-- Whether a node is a ternary middle. -/
def isTernary : Node → Bool
  | .ternaryMiddle _ => true
  | _ => false

/-- Whether a node is one of the word operators `and`, `or`, `xor`. -/
def isLowWord : Node → Bool
  | .token t => t.typ = .LowPrecAnd || t.typ = .LowPrecOr || t.typ = .LowPrecXor
  | _ => false

/-- The kinds the analysis passes over without remembering them: white space, `&&`,
`||` and the word operators. -/
def passedOver (t : Typ) : Bool :=
  t = .Whitespace || t = .And || t = .Or || t = .LowPrecAnd || t = .LowPrecOr || t = .LowPrecXor

/-- The kind of the first node that is not passed over, `Illegal` when that node is
not a token or there is none. -/
def nextKind : List Node → Typ
  | [] => .Illegal
  | .token t :: rest => if passedOver t.typ then nextKind rest else t.typ
  | _ :: _ => .Illegal

/-- The two kinds are a concat and an int literal, in either order. -/
def concatInt (a b : Typ) : Bool := (a = .Concat && b = .Int) || (a = .Int && b = .Concat)

/-- Whether a concat and an int literal stand next to each other in a node list,
with nothing but passed-over tokens between them. -/
def concatNextToInt : List Node → Bool
  | [] => false
  | .token t :: rest => concatInt t.typ (nextKind rest) || concatNextToInt rest
  | _ :: rest => concatNextToInt rest

/-- The levels the analysis counts: those of the token nodes of the list that have
a level other than 9 and are not `&&`, `||` or a word operator. -/
def countedPrecs (opPrec : PrecMap) : List Node → List Nat
  | [] => []
  | .token t :: rest =>
    if t.typ ≠ .And ∧ t.typ ≠ .Or ∧ isLowWord (.token t) = false ∧ (opPrec.get t.typ).2 = true
        ∧ (opPrec.get t.typ).1 ≠ 9 then
      (opPrec.get t.typ).1 :: countedPrecs opPrec rest
    else countedPrecs opPrec rest
  | _ :: rest => countedPrecs opPrec rest

/-- The greatest element of a list of levels, 0 for the empty list. -/
def maxPrecOf : List Nat → Nat
  | [] => 0
  | x :: rest => max x (maxPrecOf rest)

/-- A node list without its word operators. -/
def dropLowWords (nodes : List Node) : List Node := nodes.filter (fun n => !isLowWord n)

/-- The nodes before the first ternary middle. -/
def beforeTernary (nodes : List Node) : List Node := nodes.takeWhile (fun n => !isTernary n)

/-- Whether a node is a white-space token. -/
def isBlank : Node → Bool
  | .token t => t.typ = .Whitespace
  | _ => false

end naive

namespace naive

open token

/-- `Fprint` as a function of the value the package variable `opPrec` has at the call:
what the call writes (`none` when the printer panics), and the value of `opPrec` when
the call is over.  In PHP 7.4 mode the level of concat is saved in `prev`, set to 6,
and restored by the deferred function, which runs on every way out of the call. -/
def FprintFrom (opPrec : PrecMap) (file : File) (options : Options) :
    Option (List Char) × PrecMap :=
  if options &&& PHP74Compat > 0 then
    let prev := (opPrec.get .Concat).1
    let legacy := opPrec.set .Concat 6
    (FprintWith legacy file (options &&& (255 ^^^ TrailingComma)), legacy.set .Concat prev)
  else (FprintWith opPrec file options, opPrec)

end naive

namespace naive

open token

mutual

/-- Whether every scope of a node satisfies `Q`. -/
def allScopesNode (Q : ScopeInfo → Bool) : Node → Bool
  | .token _ => true
  | .scope info stmts => Q info && allScopesStmts Q stmts
  | .ternaryMiddle nodes => allScopesNodes Q nodes

/-- Whether every scope of a list of statements satisfies `Q`. -/
def allScopesStmts (Q : ScopeInfo → Bool) : List (StmtInfo × List Node) → Bool
  | [] => true
  | (_, nodes) :: rest => allScopesNodes Q nodes && allScopesStmts Q rest

/-- Whether every scope of a list of nodes satisfies `Q`. -/
def allScopesNodes (Q : ScopeInfo → Bool) : List Node → Bool
  | [] => true
  | n :: rest => allScopesNode Q n && allScopesNodes Q rest

end

/-- The scope invariant of the specification: a multiline scope is indented. -/
def multilineIndented (s : ScopeInfo) : Bool := !s.multiline || s.indented

/-- A scope opened by a brace whose kind is neither `fn` nor a member-access operator
is multiline. -/
def braceMultiline (s : ScopeInfo) : Bool :=
  !(s.opn = .Lbrace && s.kind ≠ .Fn && !isFetchOperator s.kind) || s.multiline

/-- The tree `Parse` builds for the text `<?php f(`, a newline and `1);`. -/
def callFile : File :=
  ⟨none, (⟨.Illegal, .OpenTag, .EOF, none, false, false, false, false⟩,
    [(⟨.Illegal, false, false, false⟩,
      [.token ⟨.Ident, "f".toList, ⟨1, 7⟩⟩,
       .scope ⟨.Ident, .Lparen, .Rparen, none, true, false, true, true⟩
         [(⟨.Illegal, false, false, false⟩, [.token ⟨.Int, "1".toList, ⟨2, 1⟩⟩])],
       .token ⟨.Semicolon, ";".toList, ⟨2, 3⟩⟩])])⟩

end naive

namespace naive

open token

/-- The kinds at which `parseStmt` returns and `parseScope` closes or fails: the end
of the input and the three closing brackets. -/
def isCloser (t : Typ) : Bool := t = .EOF || t = .Rparen || t = .Rbrace || t = .Rbrack

/-- One step of bracket matching over the tokens the parser reads.  `stack` holds
the kinds that are awaited, innermost first: the closing bracket of every open
bracket, and `EOF` for the file.  An opening bracket is read and its closer is
awaited; the awaited kind is read and is awaited no longer; any other token that
is no closer is read.  `none`: the token is a closer that is not the awaited one. -/
def matchStep (p : parser) (stack : List Typ) : Option (parser × List Typ) :=
  match closerOf p.tok.typ with
  | some c => some (p.next, c :: stack)
  | none =>
    if isCloser p.tok.typ then
      if stack.head? = some p.tok.typ then some (p.next, stack.tail) else none
    else some (p.next, stack)

/-- Up to `k` steps of bracket matching: the parser state and the stack at which
matching stops, or those reached after `k` steps. -/
def matchRun : Nat → parser → List Typ → parser × List Typ
  | 0, p, stack => (p, stack)
  | k + 1, p, stack =>
    match matchStep p stack with
    | some r => matchRun k r.1 r.2
    | none => (p, stack)

/-- The parser at the point where `parseFile` calls `parseScope`, with the result of
`p.got(token.OpenTag)`. -/
def parser.start (r : List Char) (php74Compat : Bool) : Bool × parser :=
  ((⟨NewScanner r php74Compat, none, default, false⟩ : parser).next.got .InlineHTML).2.got .OpenTag

/-- The error of a parser that reports `unexpected X` at its token: the error it has
already, or the new one with the position of the token. -/
def unexpectedAt (q : parser) : SyntaxError :=
  match q.err with
  | some e => e
  | none => ⟨q.tok.pos.Line, q.tok.pos.Column, "unexpected " ++ String.mk q.tok.typ.str⟩

/-- The parser after `p.errorf("unexpected %v", typ)` in `parseScope`. -/
def parser.fail (q : parser) : parser := q.errorf ("unexpected " ++ String.mk q.tok.typ.str)

/-- The states the parser is in between two calls: no loop of the model has run out
of fuel, and an error is recorded only at the end of the input. -/
def parser.Good (p : parser) : Prop := p.outOfFuel = false ∧ (p.tok.typ ≠ .EOF → p.err = none)

/-- Bracket matching from `p` with `stack` stops within `K` steps, at `T`. -/
def Runs (K : Nat) (p : parser) (stack : List Typ) (T : parser × List Typ) : Prop :=
  matchRun K p stack = T ∧ matchStep T.1 T.2 = none

/-- The parser has reported the token at which matching stops. -/
def Failed (T : parser × List Typ) (P : parser) : Prop := P = T.1.fail ∧ T.2 ≠ []

/-- What a function of the parser leaves behind: it has read a balanced part of the
input, or it has reported the token at which matching stops. -/
def Post (K : Nat) (stack : List Typ) (T : parser × List Typ) (P : parser) : Prop :=
  (∃ K2, K2 ≤ K ∧ Runs K2 P stack T ∧ P.Good) ∨ Failed T P

/-- What `parseScope` leaves behind for a scope that is closed by `close`: as `Post`,
and the scope of the file is left at the end of the input. -/
def PostC (K : Nat) (stack : List Typ) (T : parser × List Typ) (close : Typ) (P : parser) :
    Prop :=
  (∃ K2, K2 ≤ K ∧ Runs K2 P stack T ∧ P.Good ∧ (close = .EOF → P.tok.typ = .EOF)) ∨ Failed T P

/-- The separators `parseStmt` is called with. -/
def SepsOK (seps : List Typ) : Prop := ∀ t ∈ seps, t = .Colon ∨ t = .Semicolon ∨ t = .Comma

/-- What `parseStmt` leaves behind: as `Post`, and it stands at a closer or at one of
its separators unless it has read a token. -/
def PostS (K : Nat) (stack : List Typ) (T : parser × List Typ) (seps : List Typ) (P : parser) :
    Prop :=
  (∃ K2, K2 ≤ K ∧ Runs K2 P stack T ∧ P.Good ∧
    (isCloser P.tok.typ = true ∨ P.tok.typ ∈ seps ∨ K2 < K)) ∨ Failed T P

end naive

/-! ### The cases of `parseStmt`: the words of the claims -/

namespace naive

open token

/-- The names that `canUseAsCast` accepts. -/
def castNames : List (List Char) :=
  ["bool".toList, "int".toList, "float".toList, "string".toList, "array".toList,
   "object".toList, "unset".toList]

/-- A scope that holds one statement made of one identifier token with the name of
a cast. -/
def holdsCastName (sub : Scope) : Prop :=
  ∃ si tok, sub.2 = [(si, [.token tok])] ∧ tok.typ = .Ident ∧ tok.text ∈ castNames

/-- A node that is a white space token. -/
def isWhitespaceNode : Node → Bool
  | .token t => t.typ = .Whitespace
  | _ => false

/-- The last node of a statement that is not white space, if there is one. -/
def lastNode (nodes : List Node) : Option Node :=
  (nodes.reverse.dropWhile isWhitespaceNode).head?

/-- Whether `&`, `+` or `-` after this node (or with no node before it) is unary: at
the start of a statement, after a ternary middle, and after a token that is a colon,
an operator, a keyword or illegal. -/
def unaryAfter : Option Node → Bool
  | none => true
  | some (.ternaryMiddle _) => true
  | some (.scope _ _) => false
  | some (.token t) => t.typ = .Illegal || t.typ = .Colon || isOperator t.typ || t.typ.IsKeyword

/-- A node that is a white space or a comment token. -/
def isTriviaNode : Node → Bool
  | .token t => t.typ = .Whitespace || t.typ = .Comment
  | _ => false

/-- The first node of a statement that is neither white space nor a comment. -/
def firstNode (nodes : List Node) : Option Node := (nodes.dropWhile isTriviaNode).head?

/-- Whether a node is an identifier or a `case` token. -/
def labelHead : Option Node → Bool
  | some (.token t) => t.typ = .Ident || t.typ = .Case
  | _ => false

end naive

namespace naive

open token

/-- A node of a declaration before its first `=`, `=>` and ternary middle: a token
that is neither `=` nor `=>`, or a scope. -/
def plainDeclNode : Node → Bool
  | .token t => t.typ ≠ .Assign && t.typ ≠ .DoubleArrow
  | .scope _ _ => true
  | .ternaryMiddle _ => false


/-- The kind of a statement after the assignments `arg.kind = x.Type` of `print`: the
kind of its last token `=` or `=>` (tokens of nested scopes and ternary middles do
not count), and the kind it had when it has none. -/
def kindAfter : Typ → List Node → Typ
  | k, [] => k
  | k, .token x :: rest =>
    kindAfter (if x.typ = .DoubleArrow || x.typ = .Assign then x.typ else k) rest
  | k, _ :: rest => kindAfter k rest

end naive

namespace token

/-- The input the scanner has not read yet. -/
def Scanner.pend (s : Scanner) : List Char := if s.done then [] else s.r

/-- The texts of queued tokens, in order. -/
def queueText (q : List Token) : List Char := (q.map (fun t => t.text)).flatten

/-- What is left of the input for the calls of `Next` to come: the texts of the
queued tokens and the unread input. -/
def Scanner.rest (s : Scanner) : List Char := queueText s.queue ++ s.pend

/-- Every queued token has a text and is not EOF. -/
def queueOK (q : List Token) : Prop := ∀ t ∈ q, t.text ≠ [] ∧ t.typ ≠ .EOF

/-- The text `Next` gives a token of `scanAny`: the name of the kind for a symbol
without text. -/
def shownText (t : Token) : List Char :=
  if t.text.isEmpty && t.typ.isSymbol then t.typ.str else t.text

/-- The range test of the deferred function of `scanAny`. -/
def inAssignRange (t : Typ) : Bool :=
  decide (Typ.Add.toNat ≤ t.toNat) && decide (t.toNat ≤ Typ.Coalesce.toNat)

/-- The scanner `t` is the scanner `s` after the characters `w` have been read. -/
def Reads (s t : Scanner) (w : List Char) : Prop := s.pend = w ++ t.pend ∧ t.queue = s.queue

/-- The input holds an open tag directly followed by `<`. -/
def TagLt (l : List Char) : Prop := "<?php<".toList <:+: l

/-- The result of a scanning function that may fail: an EOF token with an error
recorded, or a token of the given text with the scanner moved on by what was read. -/
def Took (s : Scanner) (res : Token × Scanner) (text : List Char → Token → Prop) : Prop :=
  (res.1.typ = .EOF ∧ res.2.err ≠ none) ∨ (∃ w, Reads s res.2 w ∧ text w res.1)

end token

namespace token

/-- The result of the switch of `scanAny` on the rune `r` that has just been read from
the scanner `s`: an EOF token with an error recorded, or a token for which `r` and
what follows it in the input are the text of the token (as `Next` completes it),
the texts of the tokens it queues, and the input left. -/
def Scanned (r : Char) (s : Scanner) (res : Token × Scanner) : Prop :=
  (res.1.typ = .EOF ∧ res.2.err ≠ none) ∨
  (res.1.typ ≠ .EOF ∧ ∃ w q, r :: s.pend = w ++ queueText q ++ res.2.pend ∧ w ≠ [] ∧
    res.2.queue = s.queue ++ q ∧ queueOK q ∧
    (res.1.typ ≠ .Illegal → shownText res.1 = w) ∧
    (inAssignRange res.1.typ = true → res.1.text = [] ∧ q = []))

end token

namespace token

/-- A step of the scanner that returns a token: EOF, and then nothing is left and the
token has no text unless an error is recorded; or another token, and then less is left than before, the queue
is in order, and, unless the token is illegal or the condition fails, what was left
is the text of the token followed by what is left now. -/
def Stepped (cond : Prop) (text : Token → List Char) (s : Scanner) (res : Token × Scanner) :
    Prop :=
  (res.1.typ = .EOF ∧ (res.2.err = none → s.rest = [] ∧ text res.1 = [])) ∨
  (res.1.typ ≠ .EOF ∧ res.2.rest.length < s.rest.length ∧ queueOK res.2.queue ∧
    (res.1.typ ≠ .Illegal → cond → s.rest = text res.1 ++ res.2.rest))

/-- What the loop of `scanInlineHTML` holds of the input it has read: the builder,
the open tag it has seen when it can end, and the part of the open tag it is
matching. -/
def htmlHeld (i : Nat) (canEnd : Bool) (b : List Char) : List Char :=
  b ++ (if canEnd then openTag else []) ++ openTag.take i

end token

namespace naive

open token

/-- A bound on the tokens the parser can still read: none at the end of the input, and
otherwise one more than the characters the scanner has not returned yet. -/
def parser.left (p : parser) : Nat :=
  if p.tok.typ = .EOF then 0 else p.scan.rest.length + 1

/-- The queue of the scanner of the parser is in order unless the parser has reached
the token EOF. -/
def parser.QueueOK (p : parser) : Prop := p.tok.typ ≠ .EOF → queueOK p.scan.queue

end naive

/-! ## Theorems -/

namespace naive

open token

/-! ### The fields of the printer after an assignment -/

@[simp] theorem setTokens_opPrec (p : printer) (l : List Item) : (p.setTokens l).opPrec = p.opPrec := rfl
@[simp] theorem setTokens_tokens (p : printer) (l : List Item) : (p.setTokens l).tokens = l := rfl
@[simp] theorem setTokens_prevIndent (p : printer) (l : List Item) : (p.setTokens l).prevIndent = p.prevIndent := rfl
@[simp] theorem setTokens_indent (p : printer) (l : List Item) : (p.setTokens l).indent = p.indent := rfl
@[simp] theorem setTokens_alignNextAssign (p : printer) (l : List Item) : (p.setTokens l).alignNextAssign = p.alignNextAssign := rfl
@[simp] theorem setTokens_removeNextWS (p : printer) (l : List Item) : (p.setTokens l).removeNextWS = p.removeNextWS := rfl
@[simp] theorem setTokens_rmWSBeforeParen (p : printer) (l : List Item) : (p.setTokens l).rmWSBeforeParen = p.rmWSBeforeParen := rfl
@[simp] theorem setTokens_mightDeindent (p : printer) (l : List Item) : (p.setTokens l).mightDeindent = p.mightDeindent := rfl
@[simp] theorem setTokens_maxPrec (p : printer) (l : List Item) : (p.setTokens l).maxPrec = p.maxPrec := rfl
@[simp] theorem setTokens_scopeType (p : printer) (l : List Item) : (p.setTokens l).scopeType = p.scopeType := rfl
@[simp] theorem setTokens_multiline (p : printer) (l : List Item) : (p.setTokens l).multiline = p.multiline := rfl
@[simp] theorem setTokens_scopeOpen (p : printer) (l : List Item) : (p.setTokens l).scopeOpen = p.scopeOpen := rfl
@[simp] theorem setTokens_panicked (p : printer) (l : List Item) : (p.setTokens l).panicked = p.panicked := rfl
@[simp] theorem setPrevIndent_opPrec (p : printer) (n : Int) : (p.setPrevIndent n).opPrec = p.opPrec := rfl
@[simp] theorem setPrevIndent_tokens (p : printer) (n : Int) : (p.setPrevIndent n).tokens = p.tokens := rfl
@[simp] theorem setPrevIndent_prevIndent (p : printer) (n : Int) : (p.setPrevIndent n).prevIndent = n := rfl
@[simp] theorem setPrevIndent_indent (p : printer) (n : Int) : (p.setPrevIndent n).indent = p.indent := rfl
@[simp] theorem setPrevIndent_alignNextAssign (p : printer) (n : Int) : (p.setPrevIndent n).alignNextAssign = p.alignNextAssign := rfl
@[simp] theorem setPrevIndent_removeNextWS (p : printer) (n : Int) : (p.setPrevIndent n).removeNextWS = p.removeNextWS := rfl
@[simp] theorem setPrevIndent_rmWSBeforeParen (p : printer) (n : Int) : (p.setPrevIndent n).rmWSBeforeParen = p.rmWSBeforeParen := rfl
@[simp] theorem setPrevIndent_mightDeindent (p : printer) (n : Int) : (p.setPrevIndent n).mightDeindent = p.mightDeindent := rfl
@[simp] theorem setPrevIndent_maxPrec (p : printer) (n : Int) : (p.setPrevIndent n).maxPrec = p.maxPrec := rfl
@[simp] theorem setPrevIndent_scopeType (p : printer) (n : Int) : (p.setPrevIndent n).scopeType = p.scopeType := rfl
@[simp] theorem setPrevIndent_multiline (p : printer) (n : Int) : (p.setPrevIndent n).multiline = p.multiline := rfl
@[simp] theorem setPrevIndent_scopeOpen (p : printer) (n : Int) : (p.setPrevIndent n).scopeOpen = p.scopeOpen := rfl
@[simp] theorem setPrevIndent_panicked (p : printer) (n : Int) : (p.setPrevIndent n).panicked = p.panicked := rfl
@[simp] theorem setIndent_opPrec (p : printer) (n : Int) : (p.setIndent n).opPrec = p.opPrec := rfl
@[simp] theorem setIndent_tokens (p : printer) (n : Int) : (p.setIndent n).tokens = p.tokens := rfl
@[simp] theorem setIndent_prevIndent (p : printer) (n : Int) : (p.setIndent n).prevIndent = p.prevIndent := rfl
@[simp] theorem setIndent_indent (p : printer) (n : Int) : (p.setIndent n).indent = n := rfl
@[simp] theorem setIndent_alignNextAssign (p : printer) (n : Int) : (p.setIndent n).alignNextAssign = p.alignNextAssign := rfl
@[simp] theorem setIndent_removeNextWS (p : printer) (n : Int) : (p.setIndent n).removeNextWS = p.removeNextWS := rfl
@[simp] theorem setIndent_rmWSBeforeParen (p : printer) (n : Int) : (p.setIndent n).rmWSBeforeParen = p.rmWSBeforeParen := rfl
@[simp] theorem setIndent_mightDeindent (p : printer) (n : Int) : (p.setIndent n).mightDeindent = p.mightDeindent := rfl
@[simp] theorem setIndent_maxPrec (p : printer) (n : Int) : (p.setIndent n).maxPrec = p.maxPrec := rfl
@[simp] theorem setIndent_scopeType (p : printer) (n : Int) : (p.setIndent n).scopeType = p.scopeType := rfl
@[simp] theorem setIndent_multiline (p : printer) (n : Int) : (p.setIndent n).multiline = p.multiline := rfl
@[simp] theorem setIndent_scopeOpen (p : printer) (n : Int) : (p.setIndent n).scopeOpen = p.scopeOpen := rfl
@[simp] theorem setIndent_panicked (p : printer) (n : Int) : (p.setIndent n).panicked = p.panicked := rfl
@[simp] theorem setAlignNextAssign_opPrec (p : printer) (b : Bool) : (p.setAlignNextAssign b).opPrec = p.opPrec := rfl
@[simp] theorem setAlignNextAssign_tokens (p : printer) (b : Bool) : (p.setAlignNextAssign b).tokens = p.tokens := rfl
@[simp] theorem setAlignNextAssign_prevIndent (p : printer) (b : Bool) : (p.setAlignNextAssign b).prevIndent = p.prevIndent := rfl
@[simp] theorem setAlignNextAssign_indent (p : printer) (b : Bool) : (p.setAlignNextAssign b).indent = p.indent := rfl
@[simp] theorem setAlignNextAssign_alignNextAssign (p : printer) (b : Bool) : (p.setAlignNextAssign b).alignNextAssign = b := rfl
@[simp] theorem setAlignNextAssign_removeNextWS (p : printer) (b : Bool) : (p.setAlignNextAssign b).removeNextWS = p.removeNextWS := rfl
@[simp] theorem setAlignNextAssign_rmWSBeforeParen (p : printer) (b : Bool) : (p.setAlignNextAssign b).rmWSBeforeParen = p.rmWSBeforeParen := rfl
@[simp] theorem setAlignNextAssign_mightDeindent (p : printer) (b : Bool) : (p.setAlignNextAssign b).mightDeindent = p.mightDeindent := rfl
@[simp] theorem setAlignNextAssign_maxPrec (p : printer) (b : Bool) : (p.setAlignNextAssign b).maxPrec = p.maxPrec := rfl
@[simp] theorem setAlignNextAssign_scopeType (p : printer) (b : Bool) : (p.setAlignNextAssign b).scopeType = p.scopeType := rfl
@[simp] theorem setAlignNextAssign_multiline (p : printer) (b : Bool) : (p.setAlignNextAssign b).multiline = p.multiline := rfl
@[simp] theorem setAlignNextAssign_scopeOpen (p : printer) (b : Bool) : (p.setAlignNextAssign b).scopeOpen = p.scopeOpen := rfl
@[simp] theorem setAlignNextAssign_panicked (p : printer) (b : Bool) : (p.setAlignNextAssign b).panicked = p.panicked := rfl
@[simp] theorem setRemoveNextWS_opPrec (p : printer) (b : Bool) : (p.setRemoveNextWS b).opPrec = p.opPrec := rfl
@[simp] theorem setRemoveNextWS_tokens (p : printer) (b : Bool) : (p.setRemoveNextWS b).tokens = p.tokens := rfl
@[simp] theorem setRemoveNextWS_prevIndent (p : printer) (b : Bool) : (p.setRemoveNextWS b).prevIndent = p.prevIndent := rfl
@[simp] theorem setRemoveNextWS_indent (p : printer) (b : Bool) : (p.setRemoveNextWS b).indent = p.indent := rfl
@[simp] theorem setRemoveNextWS_alignNextAssign (p : printer) (b : Bool) : (p.setRemoveNextWS b).alignNextAssign = p.alignNextAssign := rfl
@[simp] theorem setRemoveNextWS_removeNextWS (p : printer) (b : Bool) : (p.setRemoveNextWS b).removeNextWS = b := rfl
@[simp] theorem setRemoveNextWS_rmWSBeforeParen (p : printer) (b : Bool) : (p.setRemoveNextWS b).rmWSBeforeParen = p.rmWSBeforeParen := rfl
@[simp] theorem setRemoveNextWS_mightDeindent (p : printer) (b : Bool) : (p.setRemoveNextWS b).mightDeindent = p.mightDeindent := rfl
@[simp] theorem setRemoveNextWS_maxPrec (p : printer) (b : Bool) : (p.setRemoveNextWS b).maxPrec = p.maxPrec := rfl
@[simp] theorem setRemoveNextWS_scopeType (p : printer) (b : Bool) : (p.setRemoveNextWS b).scopeType = p.scopeType := rfl
@[simp] theorem setRemoveNextWS_multiline (p : printer) (b : Bool) : (p.setRemoveNextWS b).multiline = p.multiline := rfl
@[simp] theorem setRemoveNextWS_scopeOpen (p : printer) (b : Bool) : (p.setRemoveNextWS b).scopeOpen = p.scopeOpen := rfl
@[simp] theorem setRemoveNextWS_panicked (p : printer) (b : Bool) : (p.setRemoveNextWS b).panicked = p.panicked := rfl
@[simp] theorem setRmWSBeforeParen_opPrec (p : printer) (b : Bool) : (p.setRmWSBeforeParen b).opPrec = p.opPrec := rfl
@[simp] theorem setRmWSBeforeParen_tokens (p : printer) (b : Bool) : (p.setRmWSBeforeParen b).tokens = p.tokens := rfl
@[simp] theorem setRmWSBeforeParen_prevIndent (p : printer) (b : Bool) : (p.setRmWSBeforeParen b).prevIndent = p.prevIndent := rfl
@[simp] theorem setRmWSBeforeParen_indent (p : printer) (b : Bool) : (p.setRmWSBeforeParen b).indent = p.indent := rfl
@[simp] theorem setRmWSBeforeParen_alignNextAssign (p : printer) (b : Bool) : (p.setRmWSBeforeParen b).alignNextAssign = p.alignNextAssign := rfl
@[simp] theorem setRmWSBeforeParen_removeNextWS (p : printer) (b : Bool) : (p.setRmWSBeforeParen b).removeNextWS = p.removeNextWS := rfl
@[simp] theorem setRmWSBeforeParen_rmWSBeforeParen (p : printer) (b : Bool) : (p.setRmWSBeforeParen b).rmWSBeforeParen = b := rfl
@[simp] theorem setRmWSBeforeParen_mightDeindent (p : printer) (b : Bool) : (p.setRmWSBeforeParen b).mightDeindent = p.mightDeindent := rfl
@[simp] theorem setRmWSBeforeParen_maxPrec (p : printer) (b : Bool) : (p.setRmWSBeforeParen b).maxPrec = p.maxPrec := rfl
@[simp] theorem setRmWSBeforeParen_scopeType (p : printer) (b : Bool) : (p.setRmWSBeforeParen b).scopeType = p.scopeType := rfl
@[simp] theorem setRmWSBeforeParen_multiline (p : printer) (b : Bool) : (p.setRmWSBeforeParen b).multiline = p.multiline := rfl
@[simp] theorem setRmWSBeforeParen_scopeOpen (p : printer) (b : Bool) : (p.setRmWSBeforeParen b).scopeOpen = p.scopeOpen := rfl
@[simp] theorem setRmWSBeforeParen_panicked (p : printer) (b : Bool) : (p.setRmWSBeforeParen b).panicked = p.panicked := rfl
@[simp] theorem setMightDeindent_opPrec (p : printer) (b : Bool) : (p.setMightDeindent b).opPrec = p.opPrec := rfl
@[simp] theorem setMightDeindent_tokens (p : printer) (b : Bool) : (p.setMightDeindent b).tokens = p.tokens := rfl
@[simp] theorem setMightDeindent_prevIndent (p : printer) (b : Bool) : (p.setMightDeindent b).prevIndent = p.prevIndent := rfl
@[simp] theorem setMightDeindent_indent (p : printer) (b : Bool) : (p.setMightDeindent b).indent = p.indent := rfl
@[simp] theorem setMightDeindent_alignNextAssign (p : printer) (b : Bool) : (p.setMightDeindent b).alignNextAssign = p.alignNextAssign := rfl
@[simp] theorem setMightDeindent_removeNextWS (p : printer) (b : Bool) : (p.setMightDeindent b).removeNextWS = p.removeNextWS := rfl
@[simp] theorem setMightDeindent_rmWSBeforeParen (p : printer) (b : Bool) : (p.setMightDeindent b).rmWSBeforeParen = p.rmWSBeforeParen := rfl
@[simp] theorem setMightDeindent_mightDeindent (p : printer) (b : Bool) : (p.setMightDeindent b).mightDeindent = b := rfl
@[simp] theorem setMightDeindent_maxPrec (p : printer) (b : Bool) : (p.setMightDeindent b).maxPrec = p.maxPrec := rfl
@[simp] theorem setMightDeindent_scopeType (p : printer) (b : Bool) : (p.setMightDeindent b).scopeType = p.scopeType := rfl
@[simp] theorem setMightDeindent_multiline (p : printer) (b : Bool) : (p.setMightDeindent b).multiline = p.multiline := rfl
@[simp] theorem setMightDeindent_scopeOpen (p : printer) (b : Bool) : (p.setMightDeindent b).scopeOpen = p.scopeOpen := rfl
@[simp] theorem setMightDeindent_panicked (p : printer) (b : Bool) : (p.setMightDeindent b).panicked = p.panicked := rfl
@[simp] theorem setMaxPrec_opPrec (p : printer) (n : Int) : (p.setMaxPrec n).opPrec = p.opPrec := rfl
@[simp] theorem setMaxPrec_tokens (p : printer) (n : Int) : (p.setMaxPrec n).tokens = p.tokens := rfl
@[simp] theorem setMaxPrec_prevIndent (p : printer) (n : Int) : (p.setMaxPrec n).prevIndent = p.prevIndent := rfl
@[simp] theorem setMaxPrec_indent (p : printer) (n : Int) : (p.setMaxPrec n).indent = p.indent := rfl
@[simp] theorem setMaxPrec_alignNextAssign (p : printer) (n : Int) : (p.setMaxPrec n).alignNextAssign = p.alignNextAssign := rfl
@[simp] theorem setMaxPrec_removeNextWS (p : printer) (n : Int) : (p.setMaxPrec n).removeNextWS = p.removeNextWS := rfl
@[simp] theorem setMaxPrec_rmWSBeforeParen (p : printer) (n : Int) : (p.setMaxPrec n).rmWSBeforeParen = p.rmWSBeforeParen := rfl
@[simp] theorem setMaxPrec_mightDeindent (p : printer) (n : Int) : (p.setMaxPrec n).mightDeindent = p.mightDeindent := rfl
@[simp] theorem setMaxPrec_maxPrec (p : printer) (n : Int) : (p.setMaxPrec n).maxPrec = n := rfl
@[simp] theorem setMaxPrec_scopeType (p : printer) (n : Int) : (p.setMaxPrec n).scopeType = p.scopeType := rfl
@[simp] theorem setMaxPrec_multiline (p : printer) (n : Int) : (p.setMaxPrec n).multiline = p.multiline := rfl
@[simp] theorem setMaxPrec_scopeOpen (p : printer) (n : Int) : (p.setMaxPrec n).scopeOpen = p.scopeOpen := rfl
@[simp] theorem setMaxPrec_panicked (p : printer) (n : Int) : (p.setMaxPrec n).panicked = p.panicked := rfl
@[simp] theorem setPanicked_opPrec (p : printer) (b : Bool) : (p.setPanicked b).opPrec = p.opPrec := rfl
@[simp] theorem setPanicked_tokens (p : printer) (b : Bool) : (p.setPanicked b).tokens = p.tokens := rfl
@[simp] theorem setPanicked_prevIndent (p : printer) (b : Bool) : (p.setPanicked b).prevIndent = p.prevIndent := rfl
@[simp] theorem setPanicked_indent (p : printer) (b : Bool) : (p.setPanicked b).indent = p.indent := rfl
@[simp] theorem setPanicked_alignNextAssign (p : printer) (b : Bool) : (p.setPanicked b).alignNextAssign = p.alignNextAssign := rfl
@[simp] theorem setPanicked_removeNextWS (p : printer) (b : Bool) : (p.setPanicked b).removeNextWS = p.removeNextWS := rfl
@[simp] theorem setPanicked_rmWSBeforeParen (p : printer) (b : Bool) : (p.setPanicked b).rmWSBeforeParen = p.rmWSBeforeParen := rfl
@[simp] theorem setPanicked_mightDeindent (p : printer) (b : Bool) : (p.setPanicked b).mightDeindent = p.mightDeindent := rfl
@[simp] theorem setPanicked_maxPrec (p : printer) (b : Bool) : (p.setPanicked b).maxPrec = p.maxPrec := rfl
@[simp] theorem setPanicked_scopeType (p : printer) (b : Bool) : (p.setPanicked b).scopeType = p.scopeType := rfl
@[simp] theorem setPanicked_multiline (p : printer) (b : Bool) : (p.setPanicked b).multiline = p.multiline := rfl
@[simp] theorem setPanicked_scopeOpen (p : printer) (b : Bool) : (p.setPanicked b).scopeOpen = p.scopeOpen := rfl
@[simp] theorem setPanicked_panicked (p : printer) (b : Bool) : (p.setPanicked b).panicked = b := rfl
@[simp] theorem setScope_opPrec (p : printer) (t : Typ) (m : Bool) (o : Typ) : (p.setScope t m o).opPrec = p.opPrec := rfl
@[simp] theorem setScope_tokens (p : printer) (t : Typ) (m : Bool) (o : Typ) : (p.setScope t m o).tokens = p.tokens := rfl
@[simp] theorem setScope_prevIndent (p : printer) (t : Typ) (m : Bool) (o : Typ) : (p.setScope t m o).prevIndent = p.prevIndent := rfl
@[simp] theorem setScope_indent (p : printer) (t : Typ) (m : Bool) (o : Typ) : (p.setScope t m o).indent = p.indent := rfl
@[simp] theorem setScope_alignNextAssign (p : printer) (t : Typ) (m : Bool) (o : Typ) : (p.setScope t m o).alignNextAssign = p.alignNextAssign := rfl
@[simp] theorem setScope_removeNextWS (p : printer) (t : Typ) (m : Bool) (o : Typ) : (p.setScope t m o).removeNextWS = p.removeNextWS := rfl
@[simp] theorem setScope_rmWSBeforeParen (p : printer) (t : Typ) (m : Bool) (o : Typ) : (p.setScope t m o).rmWSBeforeParen = p.rmWSBeforeParen := rfl
@[simp] theorem setScope_mightDeindent (p : printer) (t : Typ) (m : Bool) (o : Typ) : (p.setScope t m o).mightDeindent = p.mightDeindent := rfl
@[simp] theorem setScope_maxPrec (p : printer) (t : Typ) (m : Bool) (o : Typ) : (p.setScope t m o).maxPrec = p.maxPrec := rfl
@[simp] theorem setScope_scopeType (p : printer) (t : Typ) (m : Bool) (o : Typ) : (p.setScope t m o).scopeType = t := rfl
@[simp] theorem setScope_multiline (p : printer) (t : Typ) (m : Bool) (o : Typ) : (p.setScope t m o).multiline = m := rfl
@[simp] theorem setScope_scopeOpen (p : printer) (t : Typ) (m : Bool) (o : Typ) : (p.setScope t m o).scopeOpen = o := rfl
@[simp] theorem setScope_panicked (p : printer) (t : Typ) (m : Bool) (o : Typ) : (p.setScope t m o).panicked = p.panicked := rfl

/-! ### The buffer operations in normal form -/

theorem setTokens_self (p : printer) : p.setTokens p.tokens = p := rfl

@[simp] theorem setTokens_setTokens (p : printer) (a b : List Item) :
    (p.setTokens a).setTokens b = p.setTokens b := rfl

theorem removeLast_inl (p : printer) (x : Item) :
    p.removeLast (.inl x) = (takeItem x p.tokens, p.setTokens (dropItem x p.tokens)) := by
  unfold printer.removeLast
  cases h : p.tokens with
  | nil => simp only [takeItem, dropItem]; rw [← h, setTokens_self]
  | cons last rest =>
    simp only [takeItem, dropItem]
    split
    · rfl
    · rw [← h, setTokens_self]

theorem removeLast_inr (p : printer) (typ : Typ) :
    p.removeLast (.inr typ) = (takeType typ p.tokens, p.setTokens (dropType typ p.tokens)) := by
  unfold printer.removeLast
  cases h : p.tokens with
  | nil => simp only [takeType, dropType]; rw [← h, setTokens_self]
  | cons last rest =>
    cases last with
    | token t =>
      simp only [takeType, dropType]
      split
      · rfl
      · rw [← h, setTokens_self]
    | indentation n => simp only [takeType, dropType]; rw [← h, setTokens_self]
    | whitespace w => simp only [takeType, dropType]; rw [← h, setTokens_self]

theorem removeLastWS_eq (p : printer) (w : whitespace) :
    p.removeLastWS w = p.setTokens (dropItem (.whitespace w) p.tokens) := by
  simp only [printer.removeLastWS, removeLast_inl]

theorem removeLastIndent_eq (p : printer) (n : Int) :
    p.removeLastIndent n
      = (takeItem (.indentation n) p.tokens, p.setTokens (dropItem (.indentation n) p.tokens)) := by
  simp only [printer.removeLastIndent, removeLast_inl]

theorem removeLastType_eq (p : printer) (typ : Typ) :
    p.removeLastType typ = (takeType typ p.tokens, p.setTokens (dropType typ p.tokens)) := by
  simp only [printer.removeLastType, removeLast_inr]

theorem push_eq (p : printer) (x : Item) : p.push x = p.setTokens (x :: p.tokens) := rfl

theorem printWS_eq (p : printer) (w : whitespace) :
    p.printWS w = p.setTokens (.whitespace w ::
      (if w = .newline then dropItem (.whitespace .space) p.tokens else p.tokens)) := by
  unfold printer.printWS
  split <;> simp [*, removeLastWS_eq, push_eq]

theorem printIndent_eq (p : printer) (n : Int) :
    p.printIndent n = p.setTokens (.indentation n :: p.tokens) := rfl

theorem printType_eq (p : printer) (typ : Typ) :
    p.printType typ = p.setTokens
      (if typ = .EOF then p.tokens else .token (Token.mk0 typ typ.str) :: p.tokens) := by
  unfold printer.printType
  split <;> simp [*, push_eq, setTokens_self]

theorem printNL_eq (p : printer) :
    p.printNL = p.setTokens
      (Item.indentation p.indent :: Item.whitespace .newline
        :: dropItem (.whitespace .space) p.tokens) := by
  simp [printer.printNL, printWS_eq, printIndent_eq]

theorem removeAnyWS_eq (p : printer) :
    p.removeAnyWS = ((removeAnyWSLoop p.tokens).2,
      p.setTokens
          (if (removeAnyWSLoop p.tokens).2 then
            Item.indentation p.indent :: Item.whitespace .newline
              :: dropItem (.whitespace .space) (removeAnyWSLoop p.tokens).1
          else (removeAnyWSLoop p.tokens).1)) := by
  unfold printer.removeAnyWS
  by_cases h : (removeAnyWSLoop p.tokens).2 = true
  · simp [h, printNL_eq]
  · simp [h]

@[simp] theorem ite_tokens (c : Prop) [Decidable c] (a b : printer) :
    (if c then a else b).tokens = if c then a.tokens else b.tokens := by
  split <;> rfl

@[simp] theorem ite_fst_tokens {β : Type} (c : Prop) [Decidable c] (a b : printer × β) :
    (if c then a else b).1 = if c then a.1 else b.1 := by
  split <;> rfl

theorem lastToken_eq (p : printer) : p.lastToken = lastTokenOf p.tokens := rfl


/-! ### The cases of the token switch -/

theorem ite_elim {α : Type} {Φ : α → Prop} (c : Prop) [Decidable c] (a b : α)
    (ha : c → Φ a) (hb : ¬c → Φ b) : Φ (if c then a else b) := by
  by_cases h : c
  · rw [if_pos h]; exact ha h
  · rw [if_neg h]; exact hb h

theorem beforeToken_elim {Φ : printer × Bool × Bool → Prop} (p : printer)
    (f : printer → Token → printer) (arg : Token)
    (h0 : Φ (p, false, false)) (h1 : Φ (p, true, false))
    (hComment : arg.typ = .Comment → Φ (p.beforeComment arg)) (hIf : Φ p.beforeIf)
    (hElse : Φ p.beforeElse)
    (hUse : arg.typ = .Use → Φ (p.beforeUse f))
    (hConst : Φ (p.setAlignNextAssign true, false, false))
    (hMod : Φ (p.beforeModifier arg.typ)) (hAssign : Φ p.beforeAssign)
    (hDA : Φ p.beforeDoubleArrow) (hSemi : Φ (p.removeLastWS .space, false, false))
    (hBack : Φ p.beforeBackslash)
    (hArrow : Φ ((p.removeLastWS .space).setRemoveNextWS true, false, false))
    (hUnary : Φ (p.setRemoveNextWS true, false, false))
    (hCast : Φ (p.beforeCast arg.typ)) (hVar : Φ (p.beforeVarIdent arg.typ))
    (hInc : Φ p.beforeIncDec) (hDef : Φ (p.beforeDefault arg.typ)) :
    Φ (p.beforeToken f arg) := by
  unfold printer.beforeToken
  refine ite_elim _ _ _ (fun _ => h0) (fun _ => ?_)
  refine ite_elim _ _ _ (fun _ => h1) (fun _ => ?_)
  refine ite_elim _ _ _ (fun h => hComment h) (fun _ => ?_)
  refine ite_elim _ _ _ (fun _ => hIf) (fun _ => ?_)
  refine ite_elim _ _ _ (fun _ => hElse) (fun _ => ?_)
  refine ite_elim _ _ _ (fun h => hUse h) (fun _ => ?_)
  refine ite_elim _ _ _ (fun _ => hConst) (fun _ => ?_)
  refine ite_elim _ _ _ (fun _ => hMod) (fun _ => ?_)
  refine ite_elim _ _ _ (fun _ => hAssign) (fun _ => ?_)
  refine ite_elim _ _ _ (fun _ => hDA) (fun _ => ?_)
  refine ite_elim _ _ _ (fun _ => hSemi) (fun _ => ?_)
  refine ite_elim _ _ _ (fun _ => hBack) (fun _ => ?_)
  refine ite_elim _ _ _ (fun _ => hArrow) (fun _ => ?_)
  refine ite_elim _ _ _ (fun _ => hUnary) (fun _ => ?_)
  refine ite_elim _ _ _ (fun _ => hCast) (fun _ => ?_)
  refine ite_elim _ _ _ (fun _ => hVar) (fun _ => ?_)
  exact ite_elim _ _ _ (fun _ => hInc) (fun _ => hDef)

end naive

namespace naive

open token

theorem opPrec_get_ok (opPrec : PrecMap) (h : opPrec = opPrecInit ∨ opPrec = opPrecLegacy)
    (op : Typ) : (opPrec.get op).2 = true ↔ op ∈ opTable.flatten := by
  rcases h with rfl | rfl <;> cases op <;> decide

/-- C8: for the table `opPrec` as `init` builds it and as the PHP 7.4 mode changes it,
and every `max >= 0`, the second result of `decideOpSpaces` is true exactly when
`op` is in the precedence table and the first is true exactly when the level looked
up for `op` (0 when `op` is not in the table) is at least `max`; for `max < 0` the
result is `(false, false)`. -/
theorem decideOpSpaces_correct (opPrec : PrecMap)
    (h : opPrec = opPrecInit ∨ opPrec = opPrecLegacy) (max : Int) (op : Typ) :
    (0 ≤ max →
      ((decideOpSpaces opPrec max op).2 = true ↔ op ∈ opTable.flatten) ∧
      ((decideOpSpaces opPrec max op).1 = true ↔ max ≤ ((opPrec.get op).1 : Int))) ∧
    (max < 0 → decideOpSpaces opPrec max op = (false, false)) := by
  constructor
  · intro hmax
    have hn : ¬ max < 0 := not_lt.mpr hmax
    refine ⟨?_, ?_⟩
    · simpa [decideOpSpaces, hn] using opPrec_get_ok opPrec h op
    · simp [decideOpSpaces, hn]
  · intro hmax
    simp [decideOpSpaces, hmax]

theorem decideOpSpaces_correct_witness :
    ((decideOpSpaces opPrecInit 6 .Mul).2 = true ↔ Typ.Mul ∈ opTable.flatten) ∧
    ((decideOpSpaces opPrecInit 6 .Mul).1 = true ↔ (6 : Int) ≤ ((opPrecInit.get .Mul).1 : Int)) :=
  (decideOpSpaces_correct opPrecInit (Or.inl rfl) 6 .Mul).1 (by decide)

end naive

namespace format

open token naive

theorem orderLoop_eq_flatten (ls stmts : List (List Char)) :
    orderLoop ls stmts = (orderLines ls stmts).flatten := by
  induction ls generalizing stmts with
  | nil => simp [orderLoop, orderLines, flush]
  | cons line rest ih =>
    simp only [orderLoop, orderLines]
    split
    · exact ih _
    · simp [ih, flush]

theorem lines_body (body rest : List Char) (h : '\n' ∉ body) :
    lines (body ++ '\n' :: rest) = (body ++ ['\n']) :: lines rest := by
  induction body with
  | nil => simp [lines]
  | cons c cs ih =>
    have hc : c ≠ '\n' := fun e => h (by simp [e])
    have hcs : '\n' ∉ cs := fun e => h (by simp [e])
    simp [lines, hc, ih hcs]

theorem lines_flatten (ls : List (List Char)) (h : ∀ l ∈ ls, ProperLine l) :
    lines ls.flatten = ls := by
  induction ls with
  | nil => simp [lines]
  | cons l rest ih =>
    obtain ⟨body, rfl, hb⟩ := h l (by simp)
    have := ih (fun x hx => h x (by simp [hx]))
    simp [List.flatten, lines_body body _ hb, this]

theorem lines_shape (src : List Char) :
    ∀ l ∈ lines src, ProperLine l ∨ '\n' ∉ l := by
  induction src with
  | nil => simp [lines]
  | cons c rest ih =>
    intro l hl
    simp only [lines] at hl
    by_cases hc : c = '\n'
    · simp only [hc, if_true, List.mem_cons] at hl
      rcases hl with rfl | hl
      · exact Or.inl ⟨[], rfl, by simp⟩
      · exact ih l hl
    · simp only [hc, if_false] at hl
      cases hr : lines rest with
      | nil =>
        simp only [hr, List.mem_singleton] at hl
        subst hl
        exact Or.inr (by simp [Ne.symm hc])
      | cons l0 ls0 =>
        simp only [hr, List.mem_cons] at hl
        rcases hl with rfl | hl
        · rcases ih l0 (by simp [hr]) with ⟨body, rfl, hb⟩ | hn
          · exact Or.inl ⟨c :: body, rfl, by simp [Ne.symm hc, hb]⟩
          · exact Or.inr (by simp [Ne.symm hc, hn])
        · exact ih l (by simp [hr, hl])

theorem proper_of_last (l : List Char) (h : ProperLine l ∨ '\n' ∉ l)
    (hl : l.getLast? = some '\n') : ProperLine l := by
  rcases h with h | h
  · exact h
  · exact absurd (List.mem_of_getLast?_eq_some hl) h


theorem leText_total (a b : List Char) : leText a b = true ∨ leText b a = true := by
  induction a generalizing b with
  | nil => simp [leText]
  | cons x xs ih =>
    cases b with
    | nil => simp [leText]
    | cons y ys =>
      simp only [leText, Bool.or_eq_true, decide_eq_true_eq, Bool.and_eq_true, beq_iff_eq]
      rcases Nat.lt_trichotomy x.toNat y.toNat with h | h | h
      · exact Or.inl (Or.inl h)
      · rcases ih ys with h' | h'
        · exact Or.inl (Or.inr ⟨h, h'⟩)
        · exact Or.inr (Or.inr ⟨h.symm, h'⟩)
      · exact Or.inr (Or.inl h)

theorem useLe_total (a b : List Char) : useLe a b = true ∨ useLe b a = true :=
  leText_total _ _

theorem mem_insertStmt (x y : List Char) (l : List (List Char)) :
    y ∈ insertStmt x l ↔ y = x ∨ y ∈ l := by
  induction l with
  | nil => simp [insertStmt]
  | cons z zs ih =>
    simp only [insertStmt]
    split
    · simp only [List.mem_cons]
    · simp only [List.mem_cons, ih]; tauto

theorem mem_sortStmts (y : List Char) (l : List (List Char)) : y ∈ sortStmts l ↔ y ∈ l := by
  induction l with
  | nil => simp [sortStmts]
  | cons x xs ih => simp [sortStmts, mem_insertStmt, ih]

theorem chain_insertStmt (x : List Char) (l : List (List Char))
    (h : List.Chain' (fun a b => useLe a b = true) l) :
    List.Chain' (fun a b => useLe a b = true) (insertStmt x l) := by
  induction l with
  | nil => simp [insertStmt]
  | cons y ys ih =>
    simp only [insertStmt]
    split
    · rename_i hxy
      refine List.Chain'.cons' h ?_
      intro z hz
      simp only [List.head?_cons, Option.mem_def, Option.some.injEq] at hz
      subst hz
      exact hxy
    · rename_i hxy
      have hyx : useLe y x = true := by
        rcases useLe_total x y with h' | h'
        · exact absurd h' hxy
        · exact h'
      refine List.Chain'.cons' (ih h.tail) ?_
      intro z hz
      cases ys with
      | nil =>
        simp only [insertStmt, List.head?_cons, Option.mem_def, Option.some.injEq] at hz
        subst hz; exact hyx
      | cons w ws =>
        simp only [insertStmt] at hz
        split at hz
        · simp only [List.head?_cons, Option.mem_def, Option.some.injEq] at hz
          subst hz; exact hyx
        · simp only [List.head?_cons, Option.mem_def, Option.some.injEq] at hz
          subst hz; exact (List.chain'_cons.mp h).1

theorem chain_sortStmts (l : List (List Char)) :
    List.Chain' (fun a b => useLe a b = true) (sortStmts l) := by
  induction l with
  | nil => simp [sortStmts]
  | cons x xs ih => exact chain_insertStmt x _ ih

theorem isUseLine_useStmt (line : List Char) (h : isUseLine line = true) :
    isUseLine (useStmt line) = true := by
  simp only [isUseLine, Bool.and_eq_true, Bool.not_eq_true'] at h ⊢
  obtain ⟨h1, h2⟩ := h
  refine ⟨by simp [useStmt, useKw], ?_⟩
  have hmem : ∀ c, c ∈ useStmt line → c ∈ useKw ∨ c ∈ line := by
    intro c hc
    simp only [useStmt, List.mem_append] at hc
    rcases hc with hc | hc
    · exact Or.inl hc
    · exact Or.inr (List.mem_of_mem_drop ((List.dropWhile_sublist _).subset hc))
  by_contra hne
  have hin : '{' ∈ useStmt line := by
    simpa using hne
  rcases hmem _ hin with h' | h'
  · simp [useKw] at h'
  · simp only [List.contains_eq_any_beq, List.any_eq_false, beq_iff_eq] at h2
    exact h2 _ h' rfl

theorem chain_orderLines (ls stmts : List (List Char))
    (hs : ∀ s ∈ stmts, isUseLine s = true) :
    List.Chain' inOrder (orderLines ls stmts) := by
  induction ls generalizing stmts with
  | nil =>
    exact (chain_sortStmts stmts).imp (fun a b h _ _ => h)
  | cons line rest ih =>
    simp only [orderLines]
    split
    · rename_i hu
      apply ih
      intro s hs'
      simp only [List.mem_append, List.mem_singleton] at hs'
      rcases hs' with h | rfl
      · exact hs s h
      · exact isUseLine_useStmt line hu
    · rename_i hu
      refine List.Chain'.append ((chain_sortStmts stmts).imp (fun a b h _ _ => h)) ?_ ?_
      · refine List.Chain'.cons' (ih [] (by simp)) ?_
        intro y _ h1
        exact absurd h1 hu
      · intro x _ y hy _ h2
        simp only [List.head?_cons, Option.mem_def, Option.some.injEq] at hy
        subst hy
        exact absurd h2 hu

theorem proper_useStmt (line : List Char) (hu : isUseLine line = true) (hp : ProperLine line) :
    ProperLine (useStmt line) := by
  obtain ⟨body, rfl, hb⟩ := hp
  simp only [isUseLine, Bool.and_eq_true] at hu
  have hpre := hu.1
  rw [List.isPrefixOf_iff_prefix] at hpre
  obtain ⟨t, ht⟩ := hpre
  have hdrop : (body ++ ['\n']).drop useKw.length = t := by
    rw [← ht]; simp
  have ht' : ∃ t0, t = t0 ++ ['\n'] ∧ '\n' ∉ t0 := by
    have hlast : t.getLast? = some '\n' := by
      have : (useKw ++ t).getLast? = some '\n' := by rw [ht]; simp
      cases t with
      | nil => simp [useKw] at this
      | cons a as => simpa [List.getLast?_append] using this
    obtain ⟨t0, rfl⟩ := List.getLast?_eq_some_iff.mp hlast
    refine ⟨t0, rfl, ?_⟩
    intro hmem
    have : '\n' ∈ body := by
      have h1 : useKw ++ t0 ++ ['\n'] = body ++ ['\n'] := by simpa using ht
      have h2 : useKw ++ t0 = body := List.append_cancel_right h1
      rw [← h2]; simp [hmem]
    exact hb this
  obtain ⟨t0, rfl, ht0⟩ := ht'
  refine ⟨useKw ++ t0.dropWhile (fun c => c == '\\'), ?_, ?_⟩
  · simp only [useStmt, hdrop, List.append_assoc, List.append_cancel_left_eq]
    clear hdrop ht hu
    induction t0 with
    | nil => simp [List.dropWhile]
    | cons a as ih =>
      simp only [List.cons_append, List.dropWhile]
      split
      · exact ih (fun h => ht0 (by simp [h]))
      · rfl
  · intro hmem
    simp only [List.mem_append] at hmem
    rcases hmem with h | h
    · simp [useKw] at h
    · exact ht0 ((List.dropWhile_sublist _).subset h)

theorem proper_orderLines (ls stmts : List (List Char))
    (hl : ∀ l ∈ ls, ProperLine l) (hs : ∀ s ∈ stmts, ProperLine s) :
    ∀ l ∈ orderLines ls stmts, ProperLine l := by
  induction ls generalizing stmts with
  | nil =>
    intro l h
    exact hs l ((mem_sortStmts l stmts).mp h)
  | cons line rest ih =>
    simp only [orderLines]
    split
    · rename_i hu
      refine ih _ (fun l h => hl l (by simp [h])) ?_
      intro s h
      simp only [List.mem_append, List.mem_singleton] at h
      rcases h with h | rfl
      · exact hs s h
      · exact proper_useStmt line hu (hl line (by simp))
    · intro l h
      simp only [List.mem_append, List.mem_cons] at h
      rcases h with h | rfl | h
      · exact hs l ((mem_sortStmts l stmts).mp h)
      · exact hl l (by simp)
      · exact ih [] (fun l h => hl l (by simp [h])) (by simp) l h

/-- C10 (amended): for every text whose lines all end in a newline, in the lines of
the output of `orderUseStmts` any two neighbouring lines that both start with `use `
and contain no `{` are in non-decreasing order under the comparison of the lines
with every backslash replaced by a semicolon; so every maximal run of such lines
is sorted. -/
theorem orderUseStmts_runs_sorted (src : List Char)
    (h : ∀ l ∈ lines src, l.getLast? = some '\n') :
    List.Chain' (fun a b => isUseLine a = true → isUseLine b = true → useLe a b = true)
      (lines (orderUseStmts src)) := by
  have hp : ∀ l ∈ lines src, ProperLine l :=
    fun l hl => proper_of_last l (lines_shape src l hl) (h l hl)
  have hq := proper_orderLines (lines src) [] hp (by simp)
  rw [orderUseStmts, orderLoop_eq_flatten, lines_flatten _ hq]
  exact chain_orderLines (lines src) [] (by simp)

theorem orderUseStmts_runs_sorted_witness :
    (∀ l ∈ lines "use B\\Y;\nuse A\\X;\nx\n".toList, l.getLast? = some '\n') ∧
    List.Chain' (fun a b => isUseLine a = true → isUseLine b = true → useLe a b = true)
      (lines (orderUseStmts "use B\\Y;\nuse A\\X;\nx\n".toList)) :=
  ⟨by decide, orderUseStmts_runs_sorted _ (by decide)⟩

/-- C10 (counterexample): when the last line has no newline the sorted statements
run together: `use Za`, `use Z`, `use Z` (unterminated) come out as the two lines
`use Zuse Z` and `use Za`, which are out of order. -/
theorem orderUseStmts_unterminated_unsorted :
    ¬ List.Chain' (fun a b => isUseLine a = true → isUseLine b = true → useLe a b = true)
      (lines (orderUseStmts "use Za\nuse Z\nuse Z".toList)) := by
  have e : lines (orderUseStmts "use Za\nuse Z\nuse Z".toList)
      = ["use Zuse Z\n".toList, "use Za\n".toList] := by decide
  rw [e]
  intro h
  have h1 := (List.chain'_cons.mp h).1 (by decide) (by decide)
  revert h1
  decide

/-- The example of C10: the three `use` lines of the spec's scenario come out sorted. -/
theorem orderUseStmts_example :
    orderUseStmts "<?php\n\nuse B\\Y;\nuse A\\X;\nuse A\\Z;\n".toList
      = "<?php\n\nuse A\\X;\nuse A\\Z;\nuse B\\Y;\n".toList := by
  decide


/-- C1 (the code at the failing input): without `AlignColumns`, the second pass of
`Pipe` over `list($a, , , ) = $b;` yields `list($a,) = $b;` and the third yields
`list($a) = $b;`: two passes do not reach a fixed point. -/
theorem Pipe_three_passes :
    Pipe noDocs 0 "<?php\nlist($a, , , ) = $b;\n".toList = some "<?php\n\nlist($a,,) = $b;\n".toList ∧
    Pipe noDocs 0 "<?php\n\nlist($a,,) = $b;\n".toList = some "<?php\n\nlist($a,) = $b;\n".toList ∧
    Pipe noDocs 0 "<?php\n\nlist($a,) = $b;\n".toList = some "<?php\n\nlist($a) = $b;\n".toList ∧
    Pipe noDocs 0 "<?php\n\nlist($a) = $b;\n".toList = some "<?php\n\nlist($a) = $b;\n".toList := by
  refine ⟨?_, ?_, ?_, ?_⟩ <;> decide!

end format

/-! ### The legacy mode -/

namespace naive

open token

/-- Induction over a node together with the lists of nodes and of statements below it. -/
theorem Node.induct3 {P : Node → Prop} {Q : List Node → Prop}
    {R : List (StmtInfo × List Node) → Prop}
    (tok : ∀ t, P (.token t))
    (scope : ∀ info stmts, R stmts → P (.scope info stmts))
    (tern : ∀ nodes, Q nodes → P (.ternaryMiddle nodes))
    (nil : Q []) (cons : ∀ n ns, P n → Q ns → Q (n :: ns))
    (snil : R []) (scons : ∀ si ns rest, Q ns → R rest → R ((si, ns) :: rest)) :
    (∀ n, P n) ∧ (∀ ns, Q ns) ∧ (∀ ss, R ss) := by
  have hP : ∀ n, P n := by
    intro n
    exact Node.rec (motive_1 := P) (motive_2 := R) (motive_3 := Q) (motive_4 := fun s => Q s.2)
      tok scope tern snil (fun head tail h4 h2 => scons head.1 head.2 tail h4 h2) nil cons
      (fun _ _ h => h) n
  have hQ : ∀ ns, Q ns := by
    intro ns
    induction ns with
    | nil => exact nil
    | cons n ns ih => exact cons n ns (hP n) ih
  refine ⟨hP, hQ, ?_⟩
  intro ss
  induction ss with
  | nil => exact snil
  | cons s ss ih => exact scons s.1 s.2 ss (hQ s.2) ih

theorem scopeEnd_config (c1 c2 : Options)
    (h : (c1 &&& TrailingComma > 0) ↔ (c2 &&& TrailingComma > 0))
    (p : printer) (m : Bool) (t o : Typ) (arg : ScopeInfo) (nodes : List Stmt) :
    p.scopeEnd c1 m t o arg nodes = p.scopeEnd c2 m t o arg nodes := by
  have e : decide (c1 &&& TrailingComma > 0) = decide (c2 &&& TrailingComma > 0) := by
    simp only [h]
  simp only [printer.scopeEnd, printer.scopeEndBody, e]

theorem print_config (c1 c2 : Options)
    (h : (c1 &&& TrailingComma > 0) ↔ (c2 &&& TrailingComma > 0)) :
    (∀ n p ctx, printNode c1 p ctx n = printNode c2 p ctx n) ∧
    (∀ ns, (∀ p v l all, printStmtLoop c1 p v l all ns = printStmtLoop c2 p v l all ns) ∧
           (∀ p a b c, printTernaryLoop c1 p a b c ns = printTernaryLoop c2 p a b c ns)) ∧
    (∀ ss p, printStmts c1 p ss = printStmts c2 p ss) := by
  apply Node.induct3
  · intro t p ctx
    simp only [printNode]
  · intro info stmts ih p ctx
    simp only [printNode, ih, scopeEnd_config c1 c2 h]
  · intro nodes ih p ctx
    simp only [printNode, ih.2]
  · exact ⟨fun p v l all => by simp only [printStmtLoop],
           fun p a b c => by simp only [printTernaryLoop]⟩
  · intro n ns ihn ihns
    refine ⟨?_, ?_⟩
    · intro p v l all
      cases n with
      | token x => simp only [printStmtLoop, ihns.1]
      | scope info nodes => simp only [printStmtLoop, ihn, ihns.1]
      | ternaryMiddle nodes => simp only [printStmtLoop, ihn, ihns.1]
    · intro p a b c
      simp only [printTernaryLoop, ihn, ihns.2]
  · intro p
    simp only [printStmts]
  · intro si ns rest ihns ihrest p
    simp only [printStmts, ihns.1, ihrest]


theorem printFile_config (c1 c2 : Options)
    (h : (c1 &&& TrailingComma > 0) ↔ (c2 &&& TrailingComma > 0)) (p : printer) (file : File) :
    printFile c1 p file = printFile c2 p file := by
  simp only [printFile, (print_config c1 c2 h).1]

theorem legacy_bits (o : Nat) :
    (o ||| 4) &&& 4 > 0 ∧ ((o ||| 4) &&& 254) &&& 1 = 0 ∧ (o &&& 254) &&& 1 = 0 ∧
    ((o ||| 4) &&& 254) &&& 2 = (o &&& 254) &&& 2 := by
  refine ⟨?_, ?_, ?_, ?_⟩
  · have : (o ||| 4) &&& 4 = 4 := by
      apply Nat.eq_of_testBit_eq
      intro i
      simp only [Nat.testBit_and, Nat.testBit_or]
      cases h : Nat.testBit 4 i <;> simp
    omega
  · rw [Nat.and_assoc]; simp
  · rw [Nat.and_assoc]; simp
  · apply Nat.eq_of_testBit_eq
    intro i
    simp only [Nat.testBit_and, Nat.testBit_or]
    by_cases h2 : Nat.testBit 2 i
    · have h4 : Nat.testBit 4 i = false := by
        have : i = 1 := by
          by_contra hne
          have : Nat.testBit 2 i = false := by
            rcases Nat.lt_or_gt_of_ne hne with h | h
            · have : i = 0 := by omega
              subst this; decide
            · have : (2:Nat) < 2 ^ i := by
                calc (2:Nat) = 2 ^ 1 := by norm_num
                  _ < 2 ^ i := Nat.pow_lt_pow_right (by norm_num) h
              exact Nat.testBit_lt_two_pow this
          simp [this] at h2
        subst this; decide
      simp [h2, h4]
    · simp [h2]

/-- C9: for every file and every options value `o`, `Fprint` with `o ||| PHP74Compat`
returns what the printer of the legacy mode (`legacyFprint`: `TrailingComma` cleared
from `o`, the level of `concat` lowered by two) returns; the level of `concat` is 8
in the table of `init`, 6 in the lowered table, and 6 is the level of `+` and `-`. -/
theorem Fprint_legacy (file : File) (o : Options) :
    Fprint file (o ||| PHP74Compat) = legacyFprint file o ∧
    (opPrecInit.get .Concat).1 = 8 ∧
    (opPrecInit.set .Concat ((opPrecInit.get .Concat).1 - 2)).get .Concat = (6, true) ∧
    (opPrecInit.get .Add).1 = 6 ∧ (opPrecInit.get .Sub).1 = 6 := by
  refine ⟨?_, by decide, by decide, by decide, by decide⟩
  have hb := legacy_bits o
  have e : (opPrecInit.set .Concat ((opPrecInit.get .Concat).1 - 2)) = opPrecLegacy := by decide
  unfold Fprint legacyFprint FprintWith
  rw [e]
  have h1 : (o ||| PHP74Compat) &&& PHP74Compat > 0 := hb.1
  simp only [h1, if_true]
  have hc : ((o ||| PHP74Compat) &&& (255 ^^^ TrailingComma) &&& TrailingComma > 0) ↔
      (o &&& (255 ^^^ TrailingComma) &&& TrailingComma > 0) := by
    have a := hb.2.1
    have b := hb.2.2.1
    show ((o ||| 4) &&& 254 &&& 1 > 0) ↔ (o &&& 254 &&& 1 > 0)
    rw [a, b]
  have ha : ((o ||| PHP74Compat) &&& (255 ^^^ TrailingComma) &&& AlignColumns)
      = (o &&& (255 ^^^ TrailingComma) &&& AlignColumns) := hb.2.2.2
  rw [printFile_config _ _ hc, ha]

end naive

/-! ### Operator spacing -/

namespace naive

open token

theorem binaryOps_eq : binaryOps =
    [.Pow, .Mul, .Quo, .Rem, .Add, .Sub, .BitShl, .BitShr, .Concat, .Lt, .Gt, .Leq, .Geq, .Eq,
     .Neq, .Identical, .NotIdentical, .Spaceship, .BitAnd, .BitXor, .BitOr, .And, .Or,
     .Coalesce] := by decide

theorem beforeToken_binaryOp (p : printer) (f : printer → Token → printer) (arg : Token)
    (hop : arg.typ ∈ binaryOps) :
    p.beforeToken f arg = p.beforeDefault arg.typ := by
  obtain ⟨typ, text, pos⟩ := arg
  have hop2 : typ ∈ binaryOps := hop
  rw [binaryOps_eq] at hop2
  simp only [List.mem_cons, List.mem_singleton, List.not_mem_nil, or_false] at hop2
  rcases hop2 with h | h | h | h | h | h | h | h | h | h | h | h | h | h | h | h | h | h | h | h | h | h | h | h <;>
    subst h <;> simp [printer.beforeToken, metaTokenCast]

theorem binaryOp_facts (typ : Typ) (hop : typ ∈ binaryOps) :
    typ ≠ .Whitespace ∧ typ ≠ .Assign ∧ typ ≠ .Comma ∧ (spaceAfter typ = true → typ = .Coalesce) ∧
    (opPrecInit.get typ).2 = true ∧ (opPrecLegacy.get typ).2 = true := by
  rw [binaryOps_eq] at hop
  simp only [List.mem_cons, List.mem_singleton, List.not_mem_nil, or_false] at hop
  rcases hop with h | h | h | h | h | h | h | h | h | h | h | h | h | h | h | h | h | h | h | h | h | h | h | h <;>
    subst h <;> decide


theorem printToken_binaryOp_eq (p : printer) (arg : Token) (hop : arg.typ ∈ binaryOps)
    (hprec : p.opPrec = opPrecInit ∨ p.opPrec = opPrecLegacy) (hmax : 0 ≤ p.maxPrec) :
    p.printToken arg =
      if p.maxPrec ≤ ((p.opPrec.get arg.typ).1 : Int) then
        ((p.setRmWSBeforeParen false).setRemoveNextWS false).setTokens
          (.whitespace .space :: .token { arg with pos := ⟨0, 0⟩ } :: .whitespace .space
            :: dropItem (.whitespace .space) p.tokens)
      else
        ((p.setRmWSBeforeParen false).setRemoveNextWS true).setTokens
          (.token { arg with pos := ⟨0, 0⟩ } :: dropItem (.whitespace .space) p.tokens) := by
  obtain ⟨hws, has, hco, -, hi, hl⟩ := binaryOp_facts arg.typ hop
  have hin : (p.opPrec.get arg.typ).2 = true := by
    rcases hprec with h | h <;> rw [h] <;> assumption
  have hn : ¬ p.maxPrec < 0 := not_lt.mpr hmax
  simp only [printer.printToken, hws, if_false, printer.printTokenWith,
    beforeToken_binaryOp _ _ _ hop, printer.beforeDefault, decideOpSpaces,
    setRmWSBeforeParen_maxPrec, setRemoveNextWS_maxPrec, setRmWSBeforeParen_opPrec,
    setRemoveNextWS_opPrec, hn, hin, if_true]
  by_cases hle : p.maxPrec ≤ ((p.opPrec.get arg.typ).1 : Int)
  · simp [hle, has, hco, removeLastWS_eq, printWS_eq, push_eq]
    rfl
  · simp [hle, has, hco, removeLastWS_eq, printWS_eq, push_eq]
    rfl


theorem stmtToken_binaryOp (p : printer) (v : stmtVars) (isLabel : Bool) (x : Token)
    (rest : List Node) (hop : x.typ ∈ binaryOps) :
    (p.stmtToken v isLabel x rest).1 = p.printToken x := by
  have hop2 := hop
  rw [binaryOps_eq] at hop2
  simp only [List.mem_cons, List.mem_singleton, List.not_mem_nil, or_false] at hop2
  obtain ⟨typ, text, pos⟩ := x
  rcases hop2 with h | h | h | h | h | h | h | h | h | h | h | h | h | h | h | h | h | h | h | h | h | h | h | h <;>
    subst h <;>
    (simp only [printer.stmtToken, printer.stmtToken1, printer.stmtToken2]
     by_cases hm : p.multiline = true <;> simp [hm])

theorem stmtPrec_tokens (p : printer) (v : stmtVars) (all : List Node) :
    (p.stmtPrec v all).1.tokens = p.tokens ∧ (p.stmtPrec v all).1.opPrec = p.opPrec := by
  unfold printer.stmtPrec
  split_ifs <;> simp

/-- C7 (amended): one pass of the loop of a statement over a binary operator `x` of
the table.  At the head of the loop `maxPrec` is the value `analyseOps` computes
for the nodes of the statement (when the statement has not yet computed it and is
no class, function or arrow function).  If the level of `x` is at least `maxPrec`,
`x` is appended between two space marks, a space mark that ended the buffer being
replaced; if it is below `maxPrec`, `x` is appended with no mark before or after
it, a space mark that ended the buffer is removed, and a white space token that
follows is dropped. -/
theorem stmt_binaryOp_spacing (p : printer) (v : stmtVars) (isLabel : Bool) (all rest : List Node)
    (x : Token) (hop : x.typ ∈ binaryOps)
    (hprec : p.opPrec = opPrecInit ∨ p.opPrec = opPrecLegacy)
    (hmax : 0 ≤ (p.stmtPrec v all).1.maxPrec) :
    (v.maxPrec = -1 → v.kind ≠ .Class → v.kind ≠ .Function → v.kind ≠ .Fn →
      (p.stmtPrec v all).1.maxPrec = analyseOps p.opPrec all) ∧
    ((p.stmtPrec v all).1.maxPrec ≤ ((p.opPrec.get x.typ).1 : Int) →
      ((p.stmtPrec v all).1.stmtToken (p.stmtPrec v all).2 isLabel x rest).1.tokens
        = .whitespace .space :: .token { x with pos := ⟨0, 0⟩ } :: .whitespace .space
            :: dropItem (.whitespace .space) p.tokens) ∧
    (((p.opPrec.get x.typ).1 : Int) < (p.stmtPrec v all).1.maxPrec →
      ((p.stmtPrec v all).1.stmtToken (p.stmtPrec v all).2 isLabel x rest).1.tokens
        = .token { x with pos := ⟨0, 0⟩ } :: dropItem (.whitespace .space) p.tokens ∧
      ∀ w : Token, w.typ = .Whitespace →
        (((p.stmtPrec v all).1.stmtToken (p.stmtPrec v all).2 isLabel x rest).1.printToken w).tokens
          = .token { x with pos := ⟨0, 0⟩ } :: dropItem (.whitespace .space) p.tokens) := by
  obtain ⟨ht, ho⟩ := stmtPrec_tokens p v all
  have hprec2 : (p.stmtPrec v all).1.opPrec = opPrecInit ∨ (p.stmtPrec v all).1.opPrec = opPrecLegacy := by
    rw [ho]; exact hprec
  have e := printToken_binaryOp_eq (p.stmtPrec v all).1 x hop hprec2 hmax
  rw [ho, ht] at e
  refine ⟨?_, ?_, ?_⟩
  · intro h1 h2 h3 h4
    simp [printer.stmtPrec, h1, h2, h3, h4]
  · intro hle
    rw [stmtToken_binaryOp _ _ _ _ _ hop, e, if_pos hle]
    rfl
  · intro hlt
    have hnle : ¬ (p.stmtPrec v all).1.maxPrec ≤ ((p.opPrec.get x.typ).1 : Int) := not_le.mpr hlt
    rw [stmtToken_binaryOp _ _ _ _ _ hop, e, if_neg hnle]
    refine ⟨rfl, ?_⟩
    intro w hw
    simp only [printer.printToken, hw, if_true, printer.printWhitespaceToken]
    split <;> simp


theorem stmt_binaryOp_spacing_witness :
    Typ.Add ∈ binaryOps ∧
    (((printer.new opPrecInit).stmtPrec ⟨0, false, false, false, false, -1, false, .Echo⟩
        [.token (Token.mk0 .Var "$a".toList), .token (Token.mk0 .Add "+".toList),
         .token (Token.mk0 .Var "$b".toList)]).1.stmtToken
      ((printer.new opPrecInit).stmtPrec ⟨0, false, false, false, false, -1, false, .Echo⟩
        [.token (Token.mk0 .Var "$a".toList), .token (Token.mk0 .Add "+".toList),
         .token (Token.mk0 .Var "$b".toList)]).2 false (Token.mk0 .Add "+".toList)
      [.token (Token.mk0 .Var "$b".toList)]).1.tokens
      = [.whitespace .space, .token (Token.mk0 .Add "+".toList), .whitespace .space] :=
  ⟨by decide,
   (stmt_binaryOp_spacing (printer.new opPrecInit) ⟨0, false, false, false, false, -1, false, .Echo⟩
      false [.token (Token.mk0 .Var "$a".toList), .token (Token.mk0 .Add "+".toList),
         .token (Token.mk0 .Var "$b".toList)] [.token (Token.mk0 .Var "$b".toList)]
      (Token.mk0 .Add "+".toList) (by decide) (Or.inl rfl) (by decide)).2.1 (by decide)⟩

end naive

namespace format

open token naive

/-- C7 (the claim at three inputs): the example of the claim is printed as the claim
says; after the ternary of the second input `*`, whose level 5 is below the level 6
that `analyseOps` computes for the statement, is printed between two blanks; in the
third input `+`, whose level is the computed one, follows a line break and its
indentation, not a blank. -/
theorem formatCode_operator_spacing :
    formatCode "<?php\necho $a+$b * $c;\n".toList Standard
      = some "<?php\n\necho $a + $b*$c;\n".toList ∧
    formatCode "<?php\necho $a+$b ? 1 : $c+$d * $e;\n".toList Standard
      = some "<?php\n\necho $a + $b ? 1 : $c + $d * $e;\n".toList ∧
    formatCode "<?php\n$a\n+ $b;\n".toList Standard
      = some "<?php\n\n$a\n\t+ $b;\n".toList := by
  refine ⟨?_, ?_, ?_⟩ <;> decide!

end format

/-! ### Trailing commas -/

namespace naive

open token

@[simp] theorem tokenItems_ws (w : whitespace) (l : List Item) :
    tokenItems (.whitespace w :: l) = tokenItems l := rfl

@[simp] theorem tokenItems_indent (n : Int) (l : List Item) :
    tokenItems (.indentation n :: l) = tokenItems l := rfl

@[simp] theorem tokenItems_token (t : Token) (l : List Item) :
    tokenItems (.token t :: l) = t :: tokenItems l := rfl

@[simp] theorem tokenItems_dropWS (w : whitespace) (l : List Item) :
    tokenItems (dropItem (.whitespace w) l) = tokenItems l := by
  cases l with
  | nil => rfl
  | cons a l =>
    simp only [dropItem]
    split
    · subst_vars; rfl
    · rfl

@[simp] theorem tokenItems_dropIndent (n : Int) (l : List Item) :
    tokenItems (dropItem (.indentation n) l) = tokenItems l := by
  cases l with
  | nil => rfl
  | cons a l =>
    simp only [dropItem]
    split
    · subst_vars; rfl
    · rfl

theorem lastNonComment_of_tokenItems (a b : List Item) (h : tokenItems a = tokenItems b) :
    lastNonComment a = lastNonComment b := by
  have key : ∀ l : List Item, lastNonComment l
      = ((tokenItems l).find? (fun t => !isComment t)).map (fun t => t.typ) := by
    intro l
    induction l with
    | nil => rfl
    | cons x l ih =>
      cases x with
      | token t =>
        simp only [lastNonComment, tokenItems, List.find?]
        cases ht : isComment t
        · simp
        · simp [ih]
      | indentation n => simpa [lastNonComment, tokenItems] using ih
      | whitespace w => simpa [lastNonComment, tokenItems] using ih
  rw [key, key, h]

theorem fixFor_after_printNL (p : printer) : p.printNL.fixFor = p.printNL := by
  simp [printer.fixFor, printNL_eq, removeLastType_eq, takeType, dropType, printer.reprint]

theorem scopeEndStart_tokens (q : printer) (m : Bool) (t o : Typ) (info : ScopeInfo) :
    (q.scopeEndStart m t o info).tokens
      = dropItem (.whitespace .newline) (dropItem (.indentation q.indent) q.tokens) := by
  simp only [printer.scopeEndStart, removeLastIndent_eq, removeLastWS_eq]
  split_ifs <;> simp

theorem scopeEndBody_multiline (config : Options) (q : printer) (m : Bool) (t o : Typ)
    (info : ScopeInfo) (nodes : List Stmt) (hml : info.multiline = true) :
    q.scopeEndBody config m t o info nodes
      = (if config &&& TrailingComma > 0 && info.fixComma && !nodes.isEmpty then
          (q.scopeEndStart m t o info).fixTrailingComma
        else q.scopeEndStart m t o info).printNL := by
  have h1 : oneliner info nodes = false := by simp [oneliner, hml]
  simp only [printer.scopeEndBody, h1, hml, Bool.true_or, if_true, Bool.false_eq_true, if_false,
    fixFor_after_printNL]
  split_ifs <;> rfl

@[simp] theorem lastNonComment_ws (w : whitespace) (l : List Item) :
    lastNonComment (.whitespace w :: l) = lastNonComment l := rfl

@[simp] theorem lastNonComment_indent (n : Int) (l : List Item) :
    lastNonComment (.indentation n :: l) = lastNonComment l := rfl

@[simp] theorem lastNonComment_dropWS (w : whitespace) (l : List Item) :
    lastNonComment (dropItem (.whitespace w) l) = lastNonComment l :=
  lastNonComment_of_tokenItems _ _ (tokenItems_dropWS w l)

@[simp] theorem lastNonComment_dropIndent (n : Int) (l : List Item) :
    lastNonComment (dropItem (.indentation n) l) = lastNonComment l :=
  lastNonComment_of_tokenItems _ _ (tokenItems_dropIndent n l)

theorem lastNonComment_comment (t : Token) (l : List Item) (h : t.typ = .Comment) :
    lastNonComment (.token t :: l) = lastNonComment l := by
  simp [lastNonComment, isComment, h]

theorem beforeToken_comment (p : printer) (f : printer → Token → printer) (arg : Token)
    (h : arg.typ = .Comment) : p.beforeToken f arg = p.beforeComment arg := by
  simp [printer.beforeToken, h]

theorem beforeComment_lastNonComment (p : printer) (arg : Token) :
    lastNonComment (p.beforeComment arg).1.tokens = lastNonComment p.tokens := by
  simp only [printer.beforeComment]
  split_ifs <;> simp [removeLastWS_eq, printWS_eq]

theorem printToken_comment_lastNonComment (p : printer) (c : Token) (h : c.typ = .Comment) :
    lastNonComment (p.printToken c).tokens = lastNonComment p.tokens := by
  have hws : c.typ ≠ .Whitespace := by rw [h]; decide
  have hb := beforeComment_lastNonComment ((p.setRemoveNextWS false).setRmWSBeforeParen false) c
  simp only [setRmWSBeforeParen_tokens, setRemoveNextWS_tokens] at hb
  simp only [printer.printToken, hws, if_false, printer.printTokenWith, beforeToken_comment _ _ _ h]
  generalize (((p.setRemoveNextWS false).setRmWSBeforeParen false).beforeComment c) = r at hb
  obtain ⟨q, sp, skip⟩ := r
  simp only at hb
  simp only [h]
  split_ifs <;> simp [push_eq, printWS_eq, lastNonComment_comment, hb]

theorem takeType_cases (typ : Typ) (l : List Item) :
    takeType typ l = none ∨ ∃ t, takeType typ l = some (.token t) ∧ t.typ = typ := by
  cases l with
  | nil => exact Or.inl rfl
  | cons x l =>
    cases x with
    | token t =>
      simp only [takeType]
      split_ifs with h
      · exact Or.inr ⟨t, rfl, h⟩
      · exact Or.inl rfl
    | indentation n => exact Or.inl rfl
    | whitespace w => exact Or.inl rfl

theorem stripForComma_fst (p : printer) :
    p.stripForComma.1 = none ∨ ∃ t, p.stripForComma.1 = some (.token t) ∧ t.typ = .Comment := by
  simp only [printer.stripForComma, removeLastType_eq]
  exact takeType_cases _ _

theorem reprint_comment_lastNonComment (p : printer) (c : Option Item)
    (hc : c = none ∨ ∃ t, c = some (.token t) ∧ t.typ = .Comment) :
    lastNonComment (p.reprint printer.printToken c).tokens = lastNonComment p.tokens := by
  rcases hc with rfl | ⟨t, rfl, ht⟩
  · rfl
  · exact printToken_comment_lastNonComment p t ht

theorem fixTrailingComma_lastNonComment (p : printer) :
    (p.stripForComma.2.lastIsToken = true →
      lastNonComment p.fixTrailingComma.tokens = some .Comma) ∧
    (p.stripForComma.2.lastIsToken = false →
      lastNonComment p.fixTrailingComma.tokens = lastNonComment p.stripForComma.2.tokens) := by
  have hc := stripForComma_fst p
  unfold printer.fixTrailingComma
  generalize p.stripForComma = r at hc
  obtain ⟨c, q⟩ := r
  simp only at hc
  simp only []
  constructor
  · intro h
    rw [reprint_comment_lastNonComment _ _ hc]
    simp [h, printType_eq, lastNonComment, isComment, Token.mk0]
  · intro h
    rw [reprint_comment_lastNonComment _ _ hc]
    simp [h]

theorem scopeEnd_tokens (config : Options) (q : printer) (m : Bool) (t o : Typ)
    (info : ScopeInfo) (nodes : List Stmt) :
    (q.scopeEnd config m t o info nodes).tokens
      = closeItems info ++ (q.scopeEndBody config m t o info nodes).tokens := by
  simp only [printer.scopeEnd, closeItems, setRmWSBeforeParen_tokens, printType_eq]
  by_cases h1 : info.close = .EOF
  · simp [h1, printWS_eq]
  · by_cases h2 : ((info.close = .Rbrace && !isFetchOperator info.kind)
      || (info.close = .Rparen && info.kind ≠ .OpenTag)) = true
    · rw [if_pos h2, if_pos h2]
      simp [h1, printWS_eq]
    · rw [if_neg h2, if_neg h2]
      simp [h1]

theorem printNode_scope_tokens (config : Options) (p : printer) (ctx : Option Bool)
    (info : ScopeInfo) (nodes : List Stmt) :
    (printNode config p ctx (.scope info nodes)).1.tokens
      = closeItems info ++ (beforeClose config p info nodes).tokens := by
  simp only [printNode, beforeClose, afterStmts, scopeEnd_tokens]

/-- C5 (amended): with `TrailingComma` set, at the end of a comma-separated multiline
scope with at least one statement, the buffer is the closing bracket (and the space
after it) on top of the buffer `beforeClose`.  If what the statements have left,
once one comment that ends it and the marks around it are set aside, ends in a
token, the last token of `beforeClose` that is no comment is a comma; if it ends in
a mark (as after a second comment, or a comment on a line of its own), no comma is
added: the last token that is no comment is the one of the stripped buffer. -/
theorem scope_trailing_comma (config : Options) (p : printer) (ctx : Option Bool)
    (info : ScopeInfo) (nodes : List Stmt)
    (hcfg : config &&& TrailingComma > 0) (hfix : info.fixComma = true)
    (hml : info.multiline = true) (hne : nodes ≠ []) :
    (printNode config p ctx (.scope info nodes)).1.tokens
      = closeItems info ++ (beforeClose config p info nodes).tokens ∧
    ((strippedEnd config p info nodes).lastIsToken = true →
      lastNonComment (beforeClose config p info nodes).tokens = some .Comma) ∧
    ((strippedEnd config p info nodes).lastIsToken = false →
      lastNonComment (beforeClose config p info nodes).tokens
        = lastNonComment (strippedEnd config p info nodes).tokens) := by
  refine ⟨printNode_scope_tokens config p ctx info nodes, ?_, ?_⟩
  · intro h
    have hn : nodes.isEmpty = false := by cases nodes with
      | nil => exact absurd rfl hne
      | cons a l => rfl
    rw [beforeClose, scopeEndBody_multiline _ _ _ _ _ _ _ hml]
    simp only [hcfg, hfix, hn, decide_True, Bool.not_false, Bool.and_self, if_true]
    simp only [printNL_eq, setTokens_tokens, lastNonComment_indent, lastNonComment_ws,
      lastNonComment_dropWS]
    exact (fixTrailingComma_lastNonComment _).1 h
  · intro h
    have hn : nodes.isEmpty = false := by cases nodes with
      | nil => exact absurd rfl hne
      | cons a l => rfl
    rw [beforeClose, scopeEndBody_multiline _ _ _ _ _ _ _ hml]
    simp only [hcfg, hfix, hn, decide_True, Bool.not_false, Bool.and_self, if_true]
    simp only [printNL_eq, setTokens_tokens, lastNonComment_indent, lastNonComment_ws,
      lastNonComment_dropWS]
    exact (fixTrailingComma_lastNonComment _).2 h

theorem scope_trailing_comma_witness :
    lastNonComment (beforeClose TrailingComma (printer.new opPrecInit)
        ⟨.Illegal, .Lbrack, .Rbrack, none, true, false, true, true⟩
        [(⟨.Illegal, false, false, false⟩, [.token (Token.mk0 .Int "1".toList)])]).tokens
      = some .Comma :=
  (scope_trailing_comma TrailingComma (printer.new opPrecInit) none
      ⟨.Illegal, .Lbrack, .Rbrack, none, true, false, true, true⟩
      [(⟨.Illegal, false, false, false⟩, [.token (Token.mk0 .Int "1".toList)])]
      (by decide) rfl rfl (by simp)).2.1 (by decide)

/-- C6 (amended): with `TrailingComma` clear, the end of a multiline scope neither
adds nor removes a token.  The buffer is the closing bracket (and the space after
it) on top of the buffer `beforeClose`, and the tokens of `beforeClose` are the
tokens the statements of the scope have left: a comma stands before the closing
bracket exactly when a comma ended the last statement. -/
theorem scope_keeps_tokens (config : Options) (p : printer) (ctx : Option Bool)
    (info : ScopeInfo) (nodes : List Stmt)
    (hcfg : config &&& TrailingComma = 0) (hml : info.multiline = true) :
    (printNode config p ctx (.scope info nodes)).1.tokens
      = closeItems info ++ (beforeClose config p info nodes).tokens ∧
    tokenItems (beforeClose config p info nodes).tokens
      = tokenItems (afterStmts config p info nodes).tokens ∧
    lastNonComment (beforeClose config p info nodes).tokens
      = lastNonComment (afterStmts config p info nodes).tokens := by
  have e : tokenItems (beforeClose config p info nodes).tokens
      = tokenItems (afterStmts config p info nodes).tokens := by
    rw [beforeClose, scopeEndBody_multiline _ _ _ _ _ _ _ hml]
    simp [hcfg, printNL_eq, scopeEndStart_tokens]
  exact ⟨printNode_scope_tokens config p ctx info nodes, e, lastNonComment_of_tokenItems _ _ e⟩

theorem scope_keeps_tokens_witness :
    lastNonComment (beforeClose 0 (printer.new opPrecInit)
        ⟨.Illegal, .Lbrack, .Rbrack, none, true, false, true, true⟩
        [(⟨.Illegal, false, false, false⟩,
          [.token (Token.mk0 .Int "1".toList), .token (Token.mk0 .Comma ",".toList)])]).tokens
      = lastNonComment (afterStmts 0 (printer.new opPrecInit)
        ⟨.Illegal, .Lbrack, .Rbrack, none, true, false, true, true⟩
        [(⟨.Illegal, false, false, false⟩,
          [.token (Token.mk0 .Int "1".toList), .token (Token.mk0 .Comma ",".toList)])]).tokens :=
  (scope_keeps_tokens 0 (printer.new opPrecInit) none
      ⟨.Illegal, .Lbrack, .Rbrack, none, true, false, true, true⟩
      [(⟨.Illegal, false, false, false⟩,
        [.token (Token.mk0 .Int "1".toList), .token (Token.mk0 .Comma ",".toList)])]
      (by decide) rfl).2.2

end naive

namespace format

open token naive

/-- C5 (the claim at two inputs): with `TrailingComma` set, the comma is added after
an element that one comment follows on its line, and it is not added after an
element that a comment on a line of its own follows. -/
theorem formatCode_trailing_comma_comment :
    formatCode "<?php\n$a = [\n1 // a\n];\n".toList Standard
      = some "<?php\n\n$a = [\n\t1, // a\n];\n".toList ∧
    formatCode "<?php\n$a = [\n1\n// b\n];\n".toList Standard
      = some "<?php\n\n$a = [\n\t1\n\t\t// b\n];\n".toList := by
  refine ⟨?_, ?_⟩ <;> decide!

/-- C6 (the claim at an input): with `TrailingComma` clear, the comma that ends a
multiline array in the input is kept. -/
theorem formatCode_keeps_trailing_comma :
    formatCode "<?php\n$a = [\n1,\n2,\n];\n".toList AlignColumns
      = some "<?php\n\n$a = [\n\t1,\n\t2,\n];\n".toList ∧
    formatCode "<?php\n$a = [\n1,\n2,\n];\n".toList 0
      = some "<?php\n\n$a = [\n\t1,\n\t2,\n];\n".toList := by
  refine ⟨?_, ?_⟩ <;> decide!

end format

/-! ### Bracket balance -/

namespace naive

open token

@[simp] theorem brk_nil : brk [] = [] := rfl

@[simp] theorem brk_ite (c : Prop) [Decidable c] (a b : List Item) :
    brk (if c then a else b) = if c then brk a else brk b := by
  split <;> rfl

@[simp] theorem brk_ws (w : whitespace) (l : List Item) : brk (.whitespace w :: l) = brk l := rfl

@[simp] theorem brk_indent (n : Int) (l : List Item) : brk (.indentation n :: l) = brk l := rfl

theorem brk_token (t : Token) (l : List Item) :
    brk (.token t :: l) = if isBracket t.typ then t.typ :: brk l else brk l := rfl

@[simp] theorem brk_dropItem_ws (w : whitespace) (l : List Item) :
    brk (dropItem (.whitespace w) l) = brk l := by
  cases l with
  | nil => rfl
  | cons x xs =>
    simp only [dropItem]
    split
    · rename_i h; subst h; rfl
    · rfl

@[simp] theorem brk_dropItem_indent (n : Int) (l : List Item) :
    brk (dropItem (.indentation n) l) = brk l := by
  cases l with
  | nil => rfl
  | cons x xs =>
    simp only [dropItem]
    split
    · rename_i h; subst h; rfl
    · rfl

theorem brk_dropType (typ : Typ) (h : isBracket typ = false) (l : List Item) :
    brk (dropType typ l) = brk l := by
  cases l with
  | nil => rfl
  | cons x xs =>
    cases x with
    | token t =>
      simp only [dropType]
      split
      · rename_i e; simp [brk_token, e, h]
      · rfl
    | indentation n => rfl
    | whitespace w => rfl

theorem takeType_some (typ : Typ) (l : List Item) (x : Item) (h : takeType typ l = some x) :
    ∃ t, x = .token t ∧ t.typ = typ ∧ l = .token t :: dropType typ l := by
  cases l with
  | nil => simp [takeType] at h
  | cons y ys =>
    cases y with
    | token t =>
      simp only [takeType] at h
      split at h
      · rename_i e
        simp only [Option.some.injEq] at h
        exact ⟨t, h.symm, e, by simp [dropType, e]⟩
      · simp at h
    | indentation n => simp [takeType] at h
    | whitespace w => simp [takeType] at h

theorem takeType_none (typ : Typ) (l : List Item) (h : takeType typ l = none) :
    dropType typ l = l := by
  cases l with
  | nil => rfl
  | cons y ys =>
    cases y with
    | token t =>
      simp only [takeType] at h
      split at h
      · simp at h
      · rename_i e; simp [dropType, e]
    | indentation n => rfl
    | whitespace w => rfl

@[simp] theorem brk_removeAnyWSLoop (l : List Item) : brk (removeAnyWSLoop l).1 = brk l := by
  induction l with
  | nil => rfl
  | cons x xs ih =>
    cases x with
    | token t => rfl
    | indentation n => simpa [removeAnyWSLoop] using ih
    | whitespace w => simpa [removeAnyWSLoop] using ih

@[simp] theorem removeLastWS_brk (p : printer) (w : whitespace) :
    brk (p.removeLastWS w).tokens = brk p.tokens := by simp [removeLastWS_eq]

@[simp] theorem push_ws_brk (p : printer) (w : whitespace) :
    brk (p.push (.whitespace w)).tokens = brk p.tokens := rfl

@[simp] theorem printWS_brk (p : printer) (w : whitespace) :
    brk (p.printWS w).tokens = brk p.tokens := by
  simp only [printWS_eq, setTokens_tokens, brk_ws]; split <;> simp

@[simp] theorem printNL_brk (p : printer) : brk (p.printNL).tokens = brk p.tokens := by
  simp [printNL_eq]

@[simp] theorem printIndent_brk (p : printer) (n : Int) :
    brk (p.printIndent n).tokens = brk p.tokens := rfl

@[simp] theorem removeAnyWS_brk (p : printer) : brk (p.removeAnyWS).2.tokens = brk p.tokens := by
  simp only [removeAnyWS_eq, setTokens_tokens]; split <;> simp

@[simp] theorem removeLast_inl_ws_brk (p : printer) (w : whitespace) :
    brk (p.removeLast (.inl (.whitespace w))).2.tokens = brk p.tokens := by
  simp [removeLast_inl]

@[simp] theorem removeLastIndent_brk (p : printer) (n : Int) :
    brk (p.removeLastIndent n).2.tokens = brk p.tokens := by simp [removeLastIndent_eq]

theorem removeLastType_brk (p : printer) (typ : Typ) (h : isBracket typ = false) :
    brk (p.removeLastType typ).2.tokens = brk p.tokens := by
  simp [removeLastType_eq, brk_dropType typ h]

theorem printType_brk (p : printer) (typ : Typ) :
    brk (p.printType typ).tokens = (if isBracket typ then [typ] else []) ++ brk p.tokens := by
  simp only [printType_eq, setTokens_tokens]
  split
  · rename_i h; subst h; rfl
  · simp only [brk_token, Token.mk0]; split <;> rfl

@[simp] theorem printWhitespaceToken_brk (p : printer) (arg : Token) :
    brk (p.printWhitespaceToken arg).tokens = brk p.tokens := by
  unfold printer.printWhitespaceToken
  repeat' split
  all_goals simp

theorem brk_token' (t : Token) (l : List Item) : brk (.token t :: l) = brkOf t ++ brk l := by
  simp only [brk_token, brkOf]; split <;> rfl

theorem beforeUse_brk (p : printer) (f : printer → Token → printer)
    (hf : ∀ q t, t.typ = .Rparen → brk (f q t).tokens = .Rparen :: brk q.tokens) :
    brk (p.beforeUse f).1.tokens = brk p.tokens := by
  unfold printer.beforeUse
  simp only [removeLastType_eq]
  have hT : brk (p.removeLastWS .space).tokens = brk p.tokens := by simp
  cases h : takeType .Rparen (p.removeLastWS .space).tokens with
  | none =>
    simp [takeType_none _ _ h]
  | some x =>
    obtain ⟨t, rfl, ht, hl⟩ := takeType_some _ _ _ h
    simp only [Option.isSome_some, if_true, printer.reprint, printWS_brk]
    rw [hf _ t ht, ← hT]
    conv_rhs => rw [hl]
    simp [brk_token', brkOf, ht, isBracket]

theorem beforeComment_brk (p : printer) (arg : Token) :
    brk (p.beforeComment arg).1.tokens = brk p.tokens := by
  unfold printer.beforeComment
  repeat' split
  all_goals simp

theorem beforeIf_brk (p : printer) : brk (p.beforeIf).1.tokens = brk p.tokens := by
  unfold printer.beforeIf
  simp

theorem beforeElse_brk (p : printer) : brk (p.beforeElse).1.tokens = brk p.tokens := by
  unfold printer.beforeElse
  simp

theorem beforeModifier_brk (p : printer) (typ : Typ) :
    brk (p.beforeModifier typ).1.tokens = brk p.tokens := by
  unfold printer.beforeModifier
  simp

theorem beforeAssign_brk (p : printer) : brk (p.beforeAssign).1.tokens = brk p.tokens := by
  unfold printer.beforeAssign
  simp

theorem beforeDoubleArrow_brk (p : printer) :
    brk (p.beforeDoubleArrow).1.tokens = brk p.tokens := by
  unfold printer.beforeDoubleArrow
  simp

theorem beforeBackslash_brk (p : printer) :
    brk (p.beforeBackslash).1.tokens = brk p.tokens := by
  simp only [printer.beforeBackslash, removeLast_inl]
  split_ifs <;> simp

theorem beforeCast_brk (p : printer) (typ : Typ) :
    brk (p.beforeCast typ).1.tokens = brk p.tokens := by
  unfold printer.beforeCast
  simp

theorem beforeVarIdent_brk (p : printer) (typ : Typ) :
    brk (p.beforeVarIdent typ).1.tokens = brk p.tokens := by
  unfold printer.beforeVarIdent
  simp

theorem beforeIncDec_brk (p : printer) : brk (p.beforeIncDec).1.tokens = brk p.tokens := by
  unfold printer.beforeIncDec
  simp

theorem beforeDefault_brk (p : printer) (typ : Typ) :
    brk (p.beforeDefault typ).1.tokens = brk p.tokens := by
  unfold printer.beforeDefault
  simp

theorem beforeToken_brk (p : printer) (f : printer → Token → printer) (arg : Token)
    (hf : arg.typ = .Use → ∀ q t, t.typ = .Rparen → brk (f q t).tokens = .Rparen :: brk q.tokens) :
    brk (p.beforeToken f arg).1.tokens = brk p.tokens := by
  apply beforeToken_elim (Φ := fun r => brk r.1.tokens = brk p.tokens)
  · rfl
  · rfl
  · exact fun _ => beforeComment_brk p arg
  · exact beforeIf_brk p
  · exact beforeElse_brk p
  · exact fun h => beforeUse_brk p f (hf h)
  · simp
  · exact beforeModifier_brk p _
  · exact beforeAssign_brk p
  · exact beforeDoubleArrow_brk p
  · simp
  · exact beforeBackslash_brk p
  · simp
  · simp
  · exact beforeCast_brk p _
  · exact beforeVarIdent_brk p _
  · exact beforeIncDec_brk p
  · exact beforeDefault_brk p _

theorem beforeCast_skip (p : printer) (typ : Typ) : (p.beforeCast typ).2.2 = false := by
  simp only [printer.beforeCast]
  split_ifs <;> rfl

theorem beforeDefault_skip (p : printer) (typ : Typ) : (p.beforeDefault typ).2.2 = false := by
  simp only [printer.beforeDefault]
  split_ifs <;> rfl

theorem beforeToken_skip (p : printer) (f : printer → Token → printer) (arg : Token)
    (h : (p.beforeToken f arg).2.2 = true) : arg.typ = .Comment := by
  revert h
  apply beforeToken_elim (Φ := fun r => r.2.2 = true → arg.typ = .Comment)
  · simp
  · simp
  · exact fun h _ => h
  · simp [printer.beforeIf]
  · simp [printer.beforeElse]
  · intro _; simp [printer.beforeUse]
  · simp
  · simp [printer.beforeModifier]
  · simp [printer.beforeAssign]
  · simp [printer.beforeDoubleArrow]
  · simp
  · simp [printer.beforeBackslash]
  · simp
  · simp
  · simp [beforeCast_skip]
  · simp [printer.beforeVarIdent]
  · simp [printer.beforeIncDec]
  · simp [beforeDefault_skip]

/-- The state in which the first switch of the token case runs. -/
theorem printTokenWith_eq (f : printer → Token → printer) (p : printer) (arg : Token) :
    printer.printTokenWith f p arg =
      if (((p.setRemoveNextWS false).setRmWSBeforeParen false).beforeToken f arg).2.2 = true then
        (((p.setRemoveNextWS false).setRmWSBeforeParen false).beforeToken f arg).1
      else if (arg.typ = .Assign &&
          ((((p.setRemoveNextWS false).setRmWSBeforeParen false).beforeToken f arg).1.push
            (.token { arg with pos := ⟨0, 0⟩ })).scopeType = .Declare) = true then
        ((((p.setRemoveNextWS false).setRmWSBeforeParen false).beforeToken f arg).1.push
            (.token { arg with pos := ⟨0, 0⟩ })).setRemoveNextWS true
      else if (arg.typ = .Assign || arg.typ = .Comma) = true then
        ((((p.setRemoveNextWS false).setRmWSBeforeParen false).beforeToken f arg).1.push
            (.token { arg with pos := ⟨0, 0⟩ })).printWS .space
      else if (!((((p.setRemoveNextWS false).setRmWSBeforeParen false).beforeToken f arg).1.push
            (.token { arg with pos := ⟨0, 0⟩ })).removeNextWS &&
          ((((p.setRemoveNextWS false).setRmWSBeforeParen false).beforeToken f arg).2.1
            || spaceAfter arg.typ)) = true then
        ((((p.setRemoveNextWS false).setRmWSBeforeParen false).beforeToken f arg).1.push
            (.token { arg with pos := ⟨0, 0⟩ })).printWS .space
      else
        (((p.setRemoveNextWS false).setRmWSBeforeParen false).beforeToken f arg).1.push
            (.token { arg with pos := ⟨0, 0⟩ }) := rfl

theorem printTokenWith_brk (f : printer → Token → printer) (p : printer) (arg : Token)
    (hf : arg.typ = .Use → ∀ q t, t.typ = .Rparen → brk (f q t).tokens = .Rparen :: brk q.tokens) :
    brk (printer.printTokenWith f p arg).tokens = brkOf arg ++ brk p.tokens := by
  rw [printTokenWith_eq]
  have hb := beforeToken_brk ((p.setRemoveNextWS false).setRmWSBeforeParen false) f arg hf
  have hs := beforeToken_skip ((p.setRemoveNextWS false).setRmWSBeforeParen false) f arg
  simp only [setRmWSBeforeParen_tokens, setRemoveNextWS_tokens] at hb
  have e : brk ((((p.setRemoveNextWS false).setRmWSBeforeParen false).beforeToken f arg).1.push
      (.token { arg with pos := ⟨0, 0⟩ })).tokens = brkOf arg ++ brk p.tokens := by
    simp only [push_eq, setTokens_tokens, brk_token', hb]; rfl
  split_ifs with h1 h2 h3 h4
  · have := hs h1
    simp [brkOf, this, isBracket, hb]
  · simpa using e
  · simpa using e
  · simpa using e
  · exact e

theorem printToken0_brk (p : printer) (arg : Token) (h : arg.typ ≠ .Use) :
    brk (p.printToken0 arg).tokens = brkOf arg ++ brk p.tokens := by
  unfold printer.printToken0
  split
  · rename_i hw
    simp [brkOf, hw, isBracket]
  · exact printTokenWith_brk _ p arg (fun hu => absurd hu h)

theorem printToken_brk (p : printer) (arg : Token) :
    brk (p.printToken arg).tokens = brkOf arg ++ brk p.tokens := by
  unfold printer.printToken
  split
  · rename_i hw
    simp [brkOf, hw, isBracket]
  · refine printTokenWith_brk _ p arg (fun _ q t ht => ?_)
    rw [printToken0_brk q t (by rw [ht]; decide)]
    simp [brkOf, ht, isBracket]

theorem reprint_brk (p : printer) (x : Option Item) :
    brk (p.reprint printer.printToken x).tokens
      = (match x with
         | some (.token t) => brkOf t
         | _ => []) ++ brk p.tokens := by
  cases x with
  | none => rfl
  | some y =>
    cases y with
    | token t => exact printToken_brk p t
    | indentation n => rfl
    | whitespace w => simp [printer.reprint]

theorem scopeBeginWS_brk (p : printer) (info : ScopeInfo) :
    brk (p.scopeBeginWS info).tokens = brk p.tokens := by
  simp only [printer.scopeBeginWS]
  split_ifs <;> simp

theorem scopeBeginOpen_brk (p : printer) (info : ScopeInfo) :
    brk (p.scopeBeginOpen info).tokens = opnWord info ++ brk p.tokens := by
  simp only [printer.scopeBeginOpen, opnWord]
  cases info.commentTag with
  | none => simp only [printType_brk]; split_ifs <;> simp
  | some tag => simp only [printToken_brk, printWS_brk, printType_brk]; split_ifs <;> simp

theorem scopeBegin_brk (p : printer) (info : ScopeInfo) (nodes : List Stmt) :
    brk (p.scopeBegin info nodes).tokens = opnWord info ++ brk p.tokens := by
  have h := scopeBeginOpen_brk (p.scopeBeginWS info) info
  rw [scopeBeginWS_brk] at h
  simp only [printer.scopeBegin, setScope_tokens]
  split_ifs <;> simp [h]

theorem scopeEndStart_brk (q : printer) (m : Bool) (t o : Typ) (info : ScopeInfo) :
    brk (q.scopeEndStart m t o info).tokens = brk q.tokens := by
  simp [scopeEndStart_tokens]

theorem reprint_brk_of (p : printer) (typ : Typ) (l : List Item) (h : isBracket typ = false) :
    brk (p.reprint printer.printToken (takeType typ l)).tokens = brk p.tokens := by
  rcases takeType_cases typ l with e | ⟨t, e, ht⟩
  · rw [e]; rfl
  · rw [e]
    simp [printer.reprint, printToken_brk, brkOf, ht, h]

theorem stripForComma_brk (p : printer) : brk p.stripForComma.2.tokens = brk p.tokens := by
  simp [printer.stripForComma, removeLastType_eq, removeLastWS_eq, brk_dropType, isBracket]

theorem fixTrailingComma_brk (p : printer) : brk p.fixTrailingComma.tokens = brk p.tokens := by
  have h1 := stripForComma_brk p
  have h2 : p.stripForComma.1 = takeType .Comment (dropItem (.whitespace .space) p.tokens) := by
    simp [printer.stripForComma, removeLastType_eq, removeLastWS_eq]
  simp only [printer.fixTrailingComma]
  rw [h2, reprint_brk_of _ _ _ (by decide)]
  split_ifs <;> simp [printType_brk, isBracket, h1]

theorem fixFor_brk (p : printer) : brk p.fixFor.tokens = brk p.tokens := by
  simp only [printer.fixFor, removeLastType_eq, setTokens_tokens, removeLastWS_eq]
  by_cases h2 : (takeType .Semicolon (dropType .Semicolon p.tokens)).isSome = true
  · simp only [h2, if_true]
    cases hp : takeType .Lparen (dropItem (.whitespace .space)
        (dropType .Semicolon (dropType .Semicolon p.tokens))) with
    | none =>
      simp only [Option.isSome_none, Bool.false_eq_true, if_false]
      rw [reprint_brk_of _ _ _ (by decide)]
      simp only [printWS_brk]
      rw [reprint_brk_of _ _ _ (by decide)]
      simp [takeType_none _ _ hp, brk_dropType, isBracket]
    | some x =>
      obtain ⟨t, rfl, ht, hl⟩ := takeType_some _ _ _ hp
      simp only [Option.isSome_some, if_true, printer.reprint, printToken_brk, setTokens_tokens]
      have e : brk p.tokens = brk (dropItem (.whitespace .space)
          (dropType .Semicolon (dropType .Semicolon p.tokens))) := by
        simp [brk_dropType, isBracket]
      rw [e]
      conv_rhs => rw [hl]
      simp [brk_token', brkOf, ht, isBracket, Token.mk0]
  · simp only [h2, Bool.false_eq_true, if_false]
    rw [reprint_brk_of _ _ _ (by decide)]
    simp [brk_dropType, isBracket]

theorem scopeEndBody_brk (config : Options) (q : printer) (m : Bool) (t o : Typ)
    (info : ScopeInfo) (nodes : List Stmt) :
    brk (q.scopeEndBody config m t o info nodes).tokens = brk q.tokens := by
  simp only [printer.scopeEndBody]
  split_ifs <;>
    simp [fixFor_brk, fixTrailingComma_brk, scopeEndStart_brk, removeLastType_eq, brk_dropType,
      isBracket, removeLastWS_eq]

theorem scopeEnd_brk (config : Options) (q : printer) (m : Bool) (t o : Typ)
    (info : ScopeInfo) (nodes : List Stmt) :
    brk (q.scopeEnd config m t o info nodes).tokens = closeWord info ++ brk q.tokens := by
  simp only [printer.scopeEnd, closeWord, setRmWSBeforeParen_tokens]
  split_ifs <;> simp_all [printType_brk, scopeEndBody_brk]

theorem deindentLast_brk (p : printer) : brk p.deindentLast.tokens = brk p.tokens := by
  simp only [printer.deindentLast, removeLastIndent_eq]
  split_ifs <;> simp [printIndent_eq]

theorem stmtBegin_brk (p : printer) (arg : StmtInfo) :
    brk (p.stmtBegin arg).1.tokens = brk p.tokens := by
  simp only [printer.stmtBegin]
  split_ifs <;> simp [deindentLast_brk]

theorem stmtPrec_brk (p : printer) (v : stmtVars) (all : List Node) :
    brk (p.stmtPrec v all).1.tokens = brk p.tokens := by
  rw [(stmtPrec_tokens p v all).1]

theorem printAmp_brk (p : printer) (l : List Item) :
    brk (p.printAmp (takeType .BitAnd l)).tokens = brk p.tokens := by
  rcases takeType_cases .BitAnd l with e | ⟨t, e, ht⟩
  · rw [e]; rfl
  · rw [e]; simp [printer.printAmp, printToken_brk, brkOf, isBracket]

theorem fixParam_brk (p : printer) : brk p.fixParam.tokens = brk p.tokens := by
  simp only [printer.fixParam, removeLastType_eq, removeLastWS_eq, setTokens_tokens]
  rw [reprint_brk_of _ _ _ (by decide), printAmp_brk]
  split_ifs <;> simp [brk_dropType, isBracket]

theorem stmtToken1_brk (p : printer) (v : stmtVars) (x : Token) (rest : List Node) :
    brk (p.stmtToken1 v x rest).1.tokens = brk p.tokens := by
  simp only [printer.stmtToken1]
  split_ifs <;> simp [fixParam_brk]

theorem stmtToken2_brk (p : printer) (v : stmtVars) (isLabel : Bool) (x : Token) :
    brk (p.stmtToken2 v isLabel x).1.tokens = brk p.tokens := by
  simp only [printer.stmtToken2]
  split_ifs <;> simp [removeLastIndent_eq, printIndent_eq]

theorem stmtToken_brk (p : printer) (v : stmtVars) (isLabel : Bool) (x : Token)
    (rest : List Node) :
    brk (p.stmtToken v isLabel x rest).1.tokens = brkOf x ++ brk p.tokens := by
  simp only [printer.stmtToken]
  split_ifs <;> simp [printToken_brk, stmtToken1_brk, stmtToken2_brk]

theorem stmtScope_brk (p : printer) (v : stmtVars) (x : ScopeInfo) :
    brk (p.stmtScope v x).1.tokens = brk p.tokens := by
  simp only [printer.stmtScope]
  split_ifs <;> simp

theorem stmtEnd_brk (p : printer) (v : stmtVars) (arg : StmtInfo) :
    brk (p.stmtEnd v arg).tokens = brk p.tokens := by
  simp only [printer.stmtEnd]
  split_ifs <;> simp [printIndent_eq]

theorem ternaryBegin_brk (p : printer) : brk p.ternaryBegin.tokens = brk p.tokens := by
  simp [printer.ternaryBegin, printType_brk, isBracket]

theorem ternaryEnd_brk (p : printer) (a b : Bool) :
    brk (p.ternaryEnd a b).tokens = brk p.tokens := by
  simp only [printer.ternaryEnd]
  split_ifs <;> simp [printType_brk, isBracket, deindentLast_brk]

theorem print_brk (config : Options) :
    (∀ n p ctx, brk (printNode config p ctx n).1.tokens = nodeWord n ++ brk p.tokens) ∧
    (∀ ns, (∀ p v l all, brk (printStmtLoop config p v l all ns).1.tokens
              = nodesWord ns ++ brk p.tokens) ∧
           (∀ p a b c, brk (printTernaryLoop config p a b c ns).1.tokens
              = nodesWord ns ++ brk p.tokens)) ∧
    (∀ ss p, brk (printStmts config p ss).tokens = stmtsWord ss ++ brk p.tokens) := by
  apply Node.induct3
  · intro t p ctx
    simp only [printNode, nodeWord, printToken_brk]
  · intro info stmts ih p ctx
    simp only [printNode, nodeWord, scopeEnd_brk, ih, scopeBegin_brk, List.append_assoc]
  · intro nodes ih p ctx
    simp only [printNode, nodeWord, ternaryEnd_brk, ih.2, ternaryBegin_brk]
  · exact ⟨fun p v l all => by simp only [printStmtLoop, nodesWord, List.nil_append],
           fun p a b c => by simp only [printTernaryLoop, nodesWord, List.nil_append]⟩
  · intro n ns ihn ihns
    refine ⟨?_, ?_⟩
    · intro p v l all
      cases n with
      | token x =>
        simp only [printStmtLoop, ihns.1, nodesWord, nodeWord, stmtToken_brk, stmtPrec_brk,
          List.append_assoc]
      | scope info nodes =>
        simp only [printStmtLoop, ihns.1, nodesWord, ihn, stmtScope_brk, stmtPrec_brk,
          List.append_assoc]
      | ternaryMiddle nodes =>
        simp only [printStmtLoop, ihns.1, nodesWord, ihn, setMaxPrec_tokens, stmtPrec_brk,
          List.append_assoc]
    · intro p a b c
      simp only [printTernaryLoop, ihns.2, nodesWord, List.append_assoc]
      congr 1
      split_ifs <;> simp [ihn]
  · intro p
    simp only [printStmts, stmtsWord, List.nil_append]
  · intro si ns rest ihns ihrest p
    simp only [printStmts, stmtsWord, ihrest, stmtEnd_brk, ihns.1, stmtBegin_brk,
      List.append_assoc]

theorem wfNodes_append (a b : List Node) : wfNodes (a ++ b) = (wfNodes a && wfNodes b) := by
  induction a with
  | nil => simp [wfNodes]
  | cons x xs ih => simp [wfNodes, ih, Bool.and_assoc]

theorem wfStmts_append (a b : List Stmt) : wfStmts (a ++ b) = (wfStmts a && wfStmts b) := by
  induction a with
  | nil => simp [wfStmts]
  | cons x xs ih =>
    obtain ⟨si, ns⟩ := x
    simp [wfStmts, ih, Bool.and_assoc]

theorem wfNodes_reverse (a : List Node) : wfNodes a.reverse = wfNodes a := by
  induction a with
  | nil => rfl
  | cons x xs ih => simp [wfNodes_append, wfNodes, ih, Bool.and_comm]

theorem wfNodes_demoteLastKeyword (a : List Node) (h : wfNodes a = true) :
    wfNodes (demoteLastKeyword a) = true := by
  induction a with
  | nil => rfl
  | cons x xs ih =>
    cases x with
    | token t =>
      simp only [wfNodes, wfNode, Bool.and_eq_true] at h
      simp only [demoteLastKeyword]
      split_ifs
      · simp [wfNodes, wfNode, h.1, ih h.2]
      · simp [wfNodes, wfNode, h.2, isBracket]
      · simp [wfNodes, wfNode, h.1, h.2]
    | scope info stmts => simpa [demoteLastKeyword] using h
    | ternaryMiddle nodes => simpa [demoteLastKeyword] using h

theorem wfNodes_stripTrailingWS (s : StmtInfo) (a : List Node) (h : wfNodes a = true) :
    wfNodes (stripTrailingWS s a).2 = true := by
  unfold stripTrailingWS
  split
  · rename_i tok rest hr
    split_ifs
    · have h2 : wfNodes a.reverse = true := by rw [wfNodes_reverse]; exact h
      rw [hr] at h2
      simp only [wfNodes, Bool.and_eq_true] at h2
      simpa [wfNodes_reverse] using h2.2
    · exact h
  · exact h

theorem scopeInit_ok (kind opn : Typ)
    (h : opn = .OpenTag ∨ opn = .Lbrace ∨ opn = .Lparen ∨ opn = .Lbrack) :
    infoOK (scopeInit kind opn) = true := by
  rcases h with h | h | h | h <;> subst h <;> simp [infoOK, scopeInit, pairOK, tagOK]

theorem finishScope_wf (s : ScopeInfo) (nodes : List Stmt) (h : infoOK s = true)
    (hn : wfStmts nodes = true) :
    wfNode (.scope (finishScope s nodes).1 (finishScope s nodes).2) = true := by
  simp only [infoOK, pairOK, tagOK, Bool.and_eq_true] at h
  simp only [finishScope]
  split_ifs <;> simp_all [wfNode, pairOK, tagOK]

theorem parseStmt_step (n : Nat)
    (hC : ∀ p seps s nodes ns, wfNodes nodes = true →
      wfNodes (parseStmtLoop n p seps s nodes ns).2.2 = true) :
    ∀ p seps, wfNodes (parseStmt (n + 1) p seps).2.2 = true := by
  intro p seps
  simp only [parseStmt]
  exact hC _ _ _ _ _ rfl

theorem scopeHead_ok (s : ScopeInfo) (p : parser) (h : infoOK s = true)
    (ht : s.commentTag = none) : infoOK (scopeHead s p).1 = true := by
  simp only [infoOK, pairOK, tagOK, Bool.and_eq_true] at h ⊢
  simp only [scopeHead]
  split_ifs <;>
    simp_all [ScopeInfo.setMultiline, ScopeInfo.setCommentTag]

theorem parseScope_step (n : Nat)
    (hB : ∀ p s nodes sep, isBracket sep = false → infoOK s = true → wfStmts nodes = true →
      infoOK (parseScopeLoop n p s nodes sep).2.1 = true ∧
      wfStmts (parseScopeLoop n p s nodes sep).2.2 = true) :
    ∀ p kind opn, (opn = .OpenTag ∨ opn = .Lbrace ∨ opn = .Lparen ∨ opn = .Lbrack) →
      wfNode (.scope (parseScope (n + 1) p kind opn).2.1 (parseScope (n + 1) p kind opn).2.2)
        = true := by
  intro p kind opn ho
  have h0 := scopeInit_ok kind opn ho
  have h1 : (scopeInit kind opn).commentTag = none := by
    simp only [scopeInit]; split_ifs <;> rfl
  have h2 := hB (scopeHead (scopeInit kind opn) p).2 (scopeHead (scopeInit kind opn) p).1 []
    (if (scopeHead (scopeInit kind opn) p).1.fixComma then .Comma else .Semicolon)
    (by split_ifs <;> rfl) (scopeHead_ok _ _ h0 h1) rfl
  simp only [parseScope]
  exact finishScope_wf _ _ h2.1 h2.2

theorem got_typ (p : parser) (typ : Typ) (h : (p.got typ).1 = true) : p.tok.typ = typ := by
  unfold parser.got at h
  split_ifs at h with e
  exact e

theorem isLineComment_typ (t : Token) (h : isLineComment t = true) : t.typ = .Comment := by
  simp only [isLineComment, Bool.and_eq_true, beq_iff_eq] at h
  exact h.1

theorem attachSep_wf (p : parser) (sep : Typ) (sn : List Node) (hsep : isBracket sep = false)
    (h : wfNodes sn = true) : wfNodes (attachSep p sep sn).2 = true := by
  simp only [attachSep]
  split_ifs with hg
  · have := got_typ p sep hg
    simp [wfNodes_append, h, wfNodes, wfNode, this, hsep]
  · exact h

theorem attachComment_wf (p : parser) (sn : List Node) (h : wfNodes sn = true) :
    wfNodes (attachComment p sn).2 = true := by
  simp only [attachComment]
  split_ifs with h1 h2
  · have := isLineComment_typ _ h2
    simp [wfNodes_append, h, wfNodes, wfNode, this, isBracket]
  · exact h
  · exact h

theorem parseScopeLoop_step (n : Nat)
    (hD : ∀ p seps, wfNodes (parseStmt n p seps).2.2 = true)
    (hB : ∀ p s nodes sep, isBracket sep = false → infoOK s = true → wfStmts nodes = true →
      infoOK (parseScopeLoop n p s nodes sep).2.1 = true ∧
      wfStmts (parseScopeLoop n p s nodes sep).2.2 = true) :
    ∀ p s nodes sep, isBracket sep = false → infoOK s = true → wfStmts nodes = true →
      infoOK (parseScopeLoop (n + 1) p s nodes sep).2.1 = true ∧
      wfStmts (parseScopeLoop (n + 1) p s nodes sep).2.2 = true := by
  intro p s nodes sep hsep hs hn
  have h1 := attachComment_wf (attachSep (parseStmt n p [sep]).1 sep (parseStmt n p [sep]).2.2).1
    _ (attachSep_wf (parseStmt n p [sep]).1 sep _ hsep (hD p [sep]))
  have hs2 : infoOK (if (stmtFix s (parseStmt n p [sep]).2.1).multiline = true
      then s.setIndented true else s) = true := by
    split_ifs
    · simpa [infoOK, pairOK, tagOK, ScopeInfo.setIndented] using hs
    · exact hs
  have hn2 : wfStmts (if (!(attachComment (attachSep (parseStmt n p [sep]).1 sep
        (parseStmt n p [sep]).2.2).1 (attachSep (parseStmt n p [sep]).1 sep
        (parseStmt n p [sep]).2.2).2).2.isEmpty) = true
      then nodes ++ [(stmtFix s (parseStmt n p [sep]).2.1, (attachComment (attachSep
        (parseStmt n p [sep]).1 sep (parseStmt n p [sep]).2.2).1 (attachSep
        (parseStmt n p [sep]).1 sep (parseStmt n p [sep]).2.2).2).2)]
      else nodes) = true := by
    split_ifs
    · simp [wfStmts_append, hn, wfStmts, h1]
    · exact hn
  simp only [parseScopeLoop]
  refine ite_elim (Φ := fun r : parser × ScopeInfo × List Stmt =>
    infoOK r.2.1 = true ∧ wfStmts r.2.2 = true) _ _ _ (fun _ => ?_) (fun _ => ?_)
  · refine ⟨?_, hn2⟩
    simpa [infoOK, pairOK, tagOK, ScopeInfo.setOffsetEndParen] using hs2
  · refine ite_elim (Φ := fun r : parser × ScopeInfo × List Stmt =>
      infoOK r.2.1 = true ∧ wfStmts r.2.2 = true) _ _ _ (fun _ => ?_) (fun _ => ?_)
    · exact ⟨hs2, hn2⟩
    · exact hB _ _ _ _ hsep hs2 hn2

theorem opensNextScope_not_bracket (t : Typ) (h : opensNextScope t = true) :
    isBracket t = false := by
  revert h
  cases t <;> decide

theorem wfNodes_snoc (nodes : List Node) (x : Node) (h : wfNodes nodes = true)
    (hx : wfNode x = true) : wfNodes (nodes ++ [x]) = true := by
  simp [wfNodes_append, h, wfNodes, hx]

theorem wfNode_token (t : Token) (h : isBracket t.typ = false) : wfNode (.token t) = true := by
  simp [wfNode, h]

theorem castNode_wf (sub : Scope) (h : wfNode (.scope sub.1 sub.2) = true) :
    wfNode (castNode sub) = true := by
  unfold castNode
  split
  · rename_i cast hc
    unfold castOf at hc
    split_ifs at hc
    split at hc
    · split_ifs at hc
      simp only [Option.some.injEq] at hc
      subst hc
      rfl
    · simp at hc
  · exact h

theorem colonStmt_wf (p : parser) (s : StmtInfo) (nodes : List Node) (h : wfNodes nodes = true)
    (hp : p.tok.typ = .Colon) : wfNodes (colonStmt p s nodes).2 = true := by
  simp only [colonStmt]
  apply wfNodes_snoc
  · rw [wfNodes_reverse]
    apply wfNodes_demoteLastKeyword
    rw [wfNodes_reverse]; exact h
  · simp [wfNode, hp, isBracket]

theorem unaryTok_typ (p : parser) (nodes : List Node)
    (hp : p.tok.typ = .BitAnd ∨ p.tok.typ = .Add ∨ p.tok.typ = .Sub) :
    isBracket (unaryTok p nodes).tok.typ = false := by
  simp only [unaryTok]
  split_ifs
  · rfl
  · rcases hp with h | h | h <;> rw [h] <;> rfl

theorem parseStmtLoop_step (n : Nat)
    (hA : ∀ p kind opn, (opn = .OpenTag ∨ opn = .Lbrace ∨ opn = .Lparen ∨ opn = .Lbrack) →
      wfNode (.scope (parseScope n p kind opn).2.1 (parseScope n p kind opn).2.2) = true)
    (hC : ∀ p seps s nodes ns, wfNodes nodes = true →
      wfNodes (parseStmtLoop n p seps s nodes ns).2.2 = true)
    (hD : ∀ p seps, wfNodes (parseStmt n p seps).2.2 = true) :
    ∀ p seps s nodes ns, wfNodes nodes = true →
      wfNodes (parseStmtLoop (n + 1) p seps s nodes ns).2.2 = true := by
  intro p0 seps s nodes ns hn
  simp only [parseStmtLoop]
  generalize demoteKeyword p0 nodes = p
  refine ite_elim (Φ := fun r : parser × Stmt => wfNodes r.2.2 = true) _ _ _
    (fun _ => wfNodes_stripTrailingWS s nodes hn) (fun h1 => ?_)
  refine ite_elim (Φ := fun r : parser × Stmt => wfNodes r.2.2 = true) _ _ _
    (fun h => wfNodes_snoc _ _ hn (wfNode_token _ (by rw [h]; rfl))) (fun _ => ?_)
  refine ite_elim (Φ := fun r : parser × Stmt => wfNodes r.2.2 = true) _ _ _
    (fun h => hC _ _ _ _ _ (wfNodes_snoc _ _ hn
      (wfNode_token _ (opensNextScope_not_bracket _ h)))) (fun _ => ?_)
  refine ite_elim (Φ := fun r : parser × Stmt => wfNodes r.2.2 = true) _ _ _
    (fun _ => hC _ _ _ _ _ (wfNodes_snoc _ _ hn
      (castNode_wf _ (hA _ _ _ (Or.inr (Or.inr (Or.inl rfl))))))) (fun h4 => ?_)
  refine ite_elim (Φ := fun r : parser × Stmt => wfNodes r.2.2 = true) _ _ _
    (fun _ => ?_) (fun h5 => ?_)
  · have hw := wfNodes_snoc _ _ hn (hA p.next ns .Lbrace (Or.inr (Or.inl rfl)))
    refine ite_elim (Φ := fun r : parser × Stmt => wfNodes r.2.2 = true) _ _ _
      (fun _ => hC _ _ _ _ _ hw) (fun _ => ?_)
    exact ite_elim (Φ := fun r : parser × Stmt => wfNodes r.2.2 = true) _ _ _
      (fun _ => hC _ _ _ _ _ hw) (fun _ => hw)
  refine ite_elim (Φ := fun r : parser × Stmt => wfNodes r.2.2 = true) _ _ _
    (fun _ => ?_) (fun h6 => ?_)
  · have hw := wfNodes_snoc _ _ hn (hA p.next ns .Lbrack (Or.inr (Or.inr (Or.inr rfl))))
    exact ite_elim (Φ := fun r : parser × Stmt => wfNodes r.2.2 = true) _ _ _
      (fun _ => hw) (fun _ => hC _ _ _ _ _ hw)
  refine ite_elim (Φ := fun r : parser × Stmt => wfNodes r.2.2 = true) _ _ _
    (fun h7 => ?_) (fun _ => ?_)
  · have hm := hD p.next [.Colon, .Semicolon, .Comma]
    refine ite_elim (Φ := fun r : parser × Stmt => wfNodes r.2.2 = true) _ _ _
      (fun _ => hC _ _ _ _ _ (wfNodes_snoc _ _ hn (by simpa [wfNode] using hm)))
      (fun _ => hC _ _ _ _ _ ?_)
    rw [wfNodes_append, hm, Bool.and_true]
    exact wfNodes_snoc _ _ hn (wfNode_token _ (by rw [h7]; rfl))
  refine ite_elim (Φ := fun r : parser × Stmt => wfNodes r.2.2 = true) _ _ _
    (fun h8 => ?_) (fun _ => ?_)
  · refine ite_elim (Φ := fun r : parser × Stmt => wfNodes r.2.2 = true) _ _ _
      (fun _ => hn) (fun _ => ?_)
    exact ite_elim (Φ := fun r : parser × Stmt => wfNodes r.2.2 = true) _ _ _
      (fun _ => colonStmt_wf p s nodes hn h8) (fun _ => hC _ _ _ _ _ (colonStmt_wf p s nodes hn h8))
  refine ite_elim (Φ := fun r : parser × Stmt => wfNodes r.2.2 = true) _ _ _
    (fun h9 => hC _ _ _ _ _ (wfNodes_snoc _ _ hn (wfNode_token _ (unaryTok_typ p nodes
      (by simpa [or_assoc] using h9))))) (fun _ => ?_)
  refine ite_elim (Φ := fun r : parser × Stmt => wfNodes r.2.2 = true) _ _ _
    (fun _ => hn) (fun _ => hC _ _ _ _ _ (wfNodes_snoc _ _ hn (wfNode_token _ ?_)))
  simp only [Bool.or_eq_true, decide_eq_true_eq, not_or] at h1
  simp [isBracket, h1, h4, h5, h6]

theorem parse_wf (n : Nat) :
    (∀ p kind opn, (opn = .OpenTag ∨ opn = .Lbrace ∨ opn = .Lparen ∨ opn = .Lbrack) →
      wfNode (.scope (parseScope n p kind opn).2.1 (parseScope n p kind opn).2.2) = true) ∧
    (∀ p s nodes sep, isBracket sep = false → infoOK s = true → wfStmts nodes = true →
      infoOK (parseScopeLoop n p s nodes sep).2.1 = true ∧
      wfStmts (parseScopeLoop n p s nodes sep).2.2 = true) ∧
    (∀ p seps s nodes ns, wfNodes nodes = true →
      wfNodes (parseStmtLoop n p seps s nodes ns).2.2 = true) ∧
    (∀ p seps, wfNodes (parseStmt n p seps).2.2 = true) := by
  induction n with
  | zero =>
    refine ⟨?_, ?_, ?_, ?_⟩
    · intro p kind opn ho
      simp only [parseScope]
      exact finishScope_wf _ _ (scopeInit_ok kind opn ho) rfl
    · intro p s nodes sep _ hs hn
      simp only [parseScopeLoop]
      exact ⟨hs, hn⟩
    · intro p seps s nodes ns hn
      simp only [parseStmtLoop]
      exact hn
    · intro p seps
      simp only [parseStmt]
      rfl
  | succ n ih =>
    obtain ⟨hA, hB, hC, hD⟩ := ih
    exact ⟨parseScope_step n hB, parseScopeLoop_step n hD hB, parseStmtLoop_step n hA hC hD,
      parseStmt_step n hC⟩

theorem parseFile_wf (fuel : Nat) (p : parser) (f : File)
    (h : (parseFile fuel p).2 = some f) : wfFile f = true := by
  have hs := (parse_wf fuel).1 ((p.got .InlineHTML).2.got .OpenTag).2 .Illegal .OpenTag
    (Or.inl rfl)
  have hg := got_typ p .InlineHTML
  simp only [parseFile] at h
  split_ifs at h with h1 h2
  · simp only [Option.some.injEq] at h
    subst h
    simp only [wfFile, Bool.and_eq_true]
    exact ⟨by simpa [wfNode, pairOK, tagOK] using hs, by simp [hg h2]⟩
  · simp only [Option.some.injEq] at h
    subst h
    simp only [wfFile, Bool.and_eq_true]
    exact ⟨by simpa [wfNode, pairOK, tagOK] using hs, rfl⟩

theorem Parse_wf (r : List Char) (c : Bool) (f : File) (h : Parse r c = .ok f) :
    wfFile f = true := by
  simp only [Parse, ParseFuel] at h
  split_ifs at h
  split at h
  · simp at h
  · rename_i hd
    simp only [ParseResult.ok.injEq] at h
    subst h
    exact parseFile_wf _ _ _ hd
  · simp at h

theorem opnWord_of_ok (info : ScopeInfo) (h : tagOK info = true) :
    opnWord info = if isBracket info.opn then [info.opn] else [] := by
  simp only [tagOK, Bool.and_eq_true] at h
  simp only [opnWord]
  cases hc : info.commentTag with
  | none => simp
  | some tag =>
    rw [hc] at h
    simp only [Option.all_some, beq_iff_eq] at h
    simp [brkOf, h.1, isBracket]

theorem scopeWord_nested (info : ScopeInfo) (w : List Typ) (h : infoOK info = true)
    (hw : ∀ stack rest, wellNestedFrom stack (w.reverse ++ rest) = wellNestedFrom stack rest) :
    ∀ stack rest, wellNestedFrom stack ((closeWord info ++ w ++ opnWord info).reverse ++ rest)
      = wellNestedFrom stack rest := by
  intro stack rest
  simp only [infoOK, Bool.and_eq_true] at h
  rw [opnWord_of_ok info h.2]
  have hp := h.1
  simp only [pairOK, Bool.or_eq_true, Bool.and_eq_true, decide_eq_true_eq] at hp
  rcases hp with ((⟨ho, hc⟩ | ⟨ho, hc⟩) | ⟨ho, hc⟩) | ⟨ho, hc⟩ <;>
    simp [closeWord, ho, hc, isBracket, hw, wellNestedFrom, closerOf]

theorem word_nested :
    (∀ n, wfNode n = true → ∀ stack rest,
      wellNestedFrom stack ((nodeWord n).reverse ++ rest) = wellNestedFrom stack rest) ∧
    (∀ ns, wfNodes ns = true → ∀ stack rest,
      wellNestedFrom stack ((nodesWord ns).reverse ++ rest) = wellNestedFrom stack rest) ∧
    (∀ ss, wfStmts ss = true → ∀ stack rest,
      wellNestedFrom stack ((stmtsWord ss).reverse ++ rest) = wellNestedFrom stack rest) := by
  apply Node.induct3
  · intro t h stack rest
    simp only [wfNode, Bool.not_eq_true'] at h
    simp [nodeWord, brkOf, h]
  · intro info stmts ih h stack rest
    simp only [wfNode, Bool.and_eq_true] at h
    simp only [nodeWord]
    exact scopeWord_nested info _ (by simp [infoOK, h.1.1, h.1.2]) (ih h.2) stack rest
  · intro nodes ih h stack rest
    simp only [wfNode] at h
    simpa [nodeWord] using ih h stack rest
  · intro _ stack rest
    simp [nodesWord]
  · intro n ns ihn ihns h stack rest
    simp only [wfNodes, Bool.and_eq_true] at h
    simp only [nodesWord, List.reverse_append, List.append_assoc]
    rw [ihn h.1, ihns h.2]
  · intro _ stack rest
    simp [stmtsWord]
  · intro si ns rest ihns ihrest h stack rest2
    simp only [wfStmts, Bool.and_eq_true] at h
    simp only [stmtsWord, List.reverse_append, List.append_assoc]
    rw [ihns h.1, ihrest h.2]

theorem printPreamble_brk (p : printer) (d : Option Token)
    (h : d.all (fun d => d.typ == .InlineHTML) = true) :
    brk (p.printPreamble d).tokens = brk p.tokens := by
  cases d with
  | none => rfl
  | some d =>
    simp only [Option.all_some, beq_iff_eq] at h
    simp [printer.printPreamble, printToken_brk, brkOf, h, isBracket]

theorem printTrimmed_brk (p : printer) (l : List Item) :
    brk (p.printTrimmed (takeType .InlineHTML l)).tokens = brk p.tokens := by
  rcases takeType_cases .InlineHTML l with e | ⟨t, e, ht⟩
  · rw [e]; rfl
  · rw [e]; simp [printer.printTrimmed, printToken_brk, brkOf, ht, isBracket]

theorem printFile_brk (config : Options) (p : printer) (file : File)
    (h : file.htmlPreamble.all (fun d => d.typ == .InlineHTML) = true) :
    brk (printFile config p file).tokens
      = nodeWord (.scope file.scope.1 file.scope.2) ++ brk p.tokens := by
  simp only [printFile, removeLastType_eq]
  split_ifs <;>
    simp [printTrimmed_brk, brk_dropType, isBracket, (print_brk config).1, printPreamble_brk _ _ h]

/-- C4: for every input that `Parse` accepts, every options value and every value
of the precedence map, the bracket kinds (parentheses, square brackets and braces,
the collapsed `(;;` counting as `(`) of the tokens the printer emits, read in the order
of the output, are well nested: every closer is the one the innermost open bracket
expects, and no bracket is left open. -/
theorem emitted_brackets_nested (src : List Char) (php74Compat : Bool) (file : File)
    (opPrec : PrecMap) (config : Options) (h : Parse src php74Compat = .ok file) :
    wellNested (emittedBrackets opPrec config file) = true := by
  have hw := Parse_wf src php74Compat file h
  simp only [wfFile, Bool.and_eq_true] at hw
  have e := printFile_brk config (printer.new opPrec) file hw.2
  have hn := word_nested.1 _ hw.1 [] []
  simp only [List.append_nil] at hn
  simp only [wellNested, emittedBrackets, e]
  simpa [printer.new] using hn

theorem emitted_brackets_nested_witness :
    Parse "<?php f();".toList false = .ok
      ⟨none, (⟨.Illegal, .OpenTag, .EOF, none, false, false, false, false⟩,
        [(⟨.Illegal, false, false, false⟩,
          [.token ⟨.Ident, "f".toList, ⟨1, 7⟩⟩,
           .scope ⟨.Ident, .Lparen, .Rparen, none, false, false, false, true⟩ [],
           .token ⟨.Semicolon, ";".toList, ⟨1, 10⟩⟩])])⟩ ∧
    wellNested (emittedBrackets opPrecInit Standard
      ⟨none, (⟨.Illegal, .OpenTag, .EOF, none, false, false, false, false⟩,
        [(⟨.Illegal, false, false, false⟩,
          [.token ⟨.Ident, "f".toList, ⟨1, 7⟩⟩,
           .scope ⟨.Ident, .Lparen, .Rparen, none, false, false, false, true⟩ [],
           .token ⟨.Semicolon, ";".toList, ⟨1, 10⟩⟩])])⟩) = true :=
  ⟨rfl, emitted_brackets_nested "<?php f();".toList false _ opPrecInit Standard rfl⟩

end naive

/-! ### Space marks before newline marks -/

namespace naive

open token

theorem tidy_tail (x : Item) (l : List Item) (h : tidy (x :: l) = true) : tidy l = true := by
  simp only [tidy, Bool.and_eq_true] at h
  exact h.2

theorem tidy_dropItem (x : Item) (l : List Item) (h : tidy l = true) :
    tidy (dropItem x l) = true := by
  cases l with
  | nil => rfl
  | cons a l =>
    simp only [dropItem]
    split_ifs
    · exact tidy_tail a l h
    · exact h

theorem tidy_dropType (typ : Typ) (l : List Item) (h : tidy l = true) :
    tidy (dropType typ l) = true := by
  cases l with
  | nil => rfl
  | cons a l =>
    cases a with
    | token t =>
      simp only [dropType]
      split_ifs
      · exact tidy_tail _ l h
      · exact h
    | indentation n => exact h
    | whitespace w => exact h

theorem tidy_removeAnyWSLoop (l : List Item) (h : tidy l = true) :
    tidy (removeAnyWSLoop l).1 = true := by
  induction l with
  | nil => rfl
  | cons a l ih =>
    cases a with
    | token t => exact h
    | indentation n => exact ih (tidy_tail _ l h)
    | whitespace w => exact ih (tidy_tail _ l h)

theorem topSpace_removeAnyWSLoop (l : List Item) : topSpace (removeAnyWSLoop l).1 = false := by
  induction l with
  | nil => rfl
  | cons a l ih =>
    cases a with
    | token t => rfl
    | indentation n => exact ih
    | whitespace w => exact ih

theorem tidy_cons_token (t : Token) (l : List Item) (h : tidy l = true) :
    tidy (.token t :: l) = true := by
  simpa [tidy, spaceOrNL] using h

theorem tidy_cons_indent (n : Int) (l : List Item) (h : tidy l = true) :
    tidy (.indentation n :: l) = true := by
  simpa [tidy, spaceOrNL] using h

theorem tidy_cons_nextcol (l : List Item) (h : tidy l = true) :
    tidy (.whitespace .nextcol :: l) = true := by
  simpa [tidy, spaceOrNL] using h

theorem tidy_cons_ws (w : whitespace) (l : List Item) (h : tidy l = true)
    (ht : topSpace l = false) : tidy (.whitespace w :: l) = true := by
  simp [tidy, ht, h]

theorem topSpace_dropItem (l : List Item) (h : tidy l = true) :
    topSpace (dropItem (.whitespace .space) l) = false := by
  cases l with
  | nil => rfl
  | cons a l =>
    simp only [dropItem]
    split_ifs with e
    · subst e
      simp only [tidy, spaceOrNL, Bool.true_and, Bool.and_eq_true, Bool.not_eq_true'] at h
      exact h.1
    · cases a with
      | token t => rfl
      | indentation n => rfl
      | whitespace w => cases w <;> first | rfl | exact absurd rfl e

/-! The invariant under the assignments and the buffer operations. -/

theorem Inv_setTokens (p : printer) (l : List Item) (h : p.Inv) (hl : tidy l = true) :
    (p.setTokens l).Inv := ⟨hl, h.2⟩

@[simp] theorem Inv_setPrevIndent (p : printer) (n : Int) : (p.setPrevIndent n).Inv ↔ p.Inv :=
  Iff.rfl
@[simp] theorem Inv_setIndent (p : printer) (n : Int) : (p.setIndent n).Inv ↔ p.Inv := Iff.rfl
@[simp] theorem Inv_setAlignNextAssign (p : printer) (b : Bool) :
    (p.setAlignNextAssign b).Inv ↔ p.Inv := Iff.rfl
@[simp] theorem Inv_setRemoveNextWS (p : printer) (b : Bool) :
    (p.setRemoveNextWS b).Inv ↔ p.Inv := Iff.rfl
@[simp] theorem Inv_setRmWSBeforeParen (p : printer) (b : Bool) :
    (p.setRmWSBeforeParen b).Inv ↔ p.Inv := Iff.rfl
@[simp] theorem Inv_setMightDeindent (p : printer) (b : Bool) :
    (p.setMightDeindent b).Inv ↔ p.Inv := Iff.rfl
@[simp] theorem Inv_setMaxPrec (p : printer) (n : Int) : (p.setMaxPrec n).Inv ↔ p.Inv := Iff.rfl
@[simp] theorem Inv_setPanicked (p : printer) (b : Bool) : (p.setPanicked b).Inv ↔ p.Inv :=
  Iff.rfl
@[simp] theorem Inv_setScope (p : printer) (t : Typ) (m : Bool) (o : Typ) :
    (p.setScope t m o).Inv ↔ p.Inv := Iff.rfl

theorem removeLastWS_inv (p : printer) (w : whitespace) (h : p.Inv) : (p.removeLastWS w).Inv := by
  rw [removeLastWS_eq]; exact Inv_setTokens p _ h (tidy_dropItem _ _ h.1)

theorem removeLast_inl_inv (p : printer) (x : Item) (h : p.Inv) :
    (p.removeLast (.inl x)).2.Inv := by
  rw [removeLast_inl]; exact Inv_setTokens p _ h (tidy_dropItem _ _ h.1)

theorem removeLastIndent_inv (p : printer) (n : Int) (h : p.Inv) :
    (p.removeLastIndent n).2.Inv := by
  rw [removeLastIndent_eq]; exact Inv_setTokens p _ h (tidy_dropItem _ _ h.1)

theorem removeLastType_inv (p : printer) (typ : Typ) (h : p.Inv) :
    (p.removeLastType typ).2.Inv := by
  rw [removeLastType_eq]; exact Inv_setTokens p _ h (tidy_dropType _ _ h.1)

theorem push_token_inv (p : printer) (t : Token) (h : p.Inv) : (p.push (.token t)).Inv :=
  Inv_setTokens p _ h (tidy_cons_token t _ h.1)

theorem printIndent_inv (p : printer) (n : Int) (h : p.Inv) : (p.printIndent n).Inv :=
  Inv_setTokens p _ h (tidy_cons_indent n _ h.1)

theorem printType_inv (p : printer) (typ : Typ) (h : p.Inv) : (p.printType typ).Inv := by
  rw [printType_eq]
  split_ifs
  · exact Inv_setTokens p _ h h.1
  · exact Inv_setTokens p _ h (tidy_cons_token _ _ h.1)

theorem printWS_newline_inv (p : printer) (h : p.Inv) : (p.printWS .newline).Inv := by
  rw [printWS_eq]
  exact Inv_setTokens p _ h
    (tidy_cons_ws _ _ (by simpa using tidy_dropItem _ _ h.1) (by simpa using topSpace_dropItem _ h.1))

theorem printWS_nextcol_inv (p : printer) (h : p.Inv) : (p.printWS .nextcol).Inv := by
  rw [printWS_eq]
  exact Inv_setTokens p _ h (tidy_cons_nextcol _ (by simpa using h.1))

theorem printWS_space_inv (p : printer) (h : p.Inv) (ht : topSpace p.tokens = false) :
    (p.printWS .space).Inv := by
  rw [printWS_eq]
  exact Inv_setTokens p _ h (tidy_cons_ws _ _ (by simpa using h.1) (by simpa using ht))

theorem printNL_inv (p : printer) (h : p.Inv) : p.printNL.Inv :=
  printIndent_inv _ _ (printWS_newline_inv p h)

theorem removeAnyWS_inv (p : printer) (h : p.Inv) : p.removeAnyWS.2.Inv := by
  simp only [printer.removeAnyWS]
  split_ifs
  · exact printNL_inv _ (Inv_setTokens p _ h (tidy_removeAnyWSLoop _ h.1))
  · exact Inv_setTokens p _ h (tidy_removeAnyWSLoop _ h.1)

/-! The newest element after the buffer operations. -/

theorem removeLastWS_top (p : printer) (h : p.Inv) :
    topSpace (p.removeLastWS .space).tokens = false := by
  rw [removeLastWS_eq]; exact topSpace_dropItem _ h.1

theorem removeLast_inl_top (p : printer) (h : p.Inv) :
    topSpace (p.removeLast (.inl (.whitespace .space))).2.tokens = false := by
  rw [removeLast_inl]; exact topSpace_dropItem _ h.1

theorem push_token_top (p : printer) (t : Token) : topSpace (p.push (.token t)).tokens = false :=
  rfl

theorem printType_top (p : printer) (typ : Typ) (h : typ ≠ .EOF) :
    topSpace (p.printType typ).tokens = false := by
  rw [printType_eq]; simp [h, topSpace]

theorem removeAnyWS_top (p : printer) : topSpace p.removeAnyWS.2.tokens = false := by
  simp only [printer.removeAnyWS]
  split_ifs
  · rfl
  · exact topSpace_removeAnyWSLoop _

/-! The invariant under the token case of `print`. -/

theorem printWhitespaceToken_inv (p : printer) (arg : Token) (h : p.Inv) :
    (p.printWhitespaceToken arg).Inv := by
  simp only [printer.printWhitespaceToken]
  split
  · split_ifs
    · simpa using h
    · exact printNL_inv _ (printWS_newline_inv _ (by simpa using h))
    · exact printNL_inv _ (by simpa using h)
  · split_ifs
    · exact printWS_space_inv _ (removeLastWS_inv _ _ h) (removeLastWS_top _ h)
    · exact removeLastWS_inv _ _ h
    · exact h

theorem beforeComment_inv (p : printer) (arg : Token) (h : p.Inv) :
    (p.beforeComment arg).1.Inv := by
  simp only [printer.beforeComment]
  split_ifs
  · exact printWS_space_inv _ (removeLastWS_inv _ _ h) (removeLastWS_top _ h)
  · exact h
  · exact h
  · exact printWS_nextcol_inv _ (removeLastWS_inv _ _ h)
  · exact removeLastWS_inv _ _ h

theorem beforeIf_inv (p : printer) (h : p.Inv) : p.beforeIf.1.Inv := by
  simp only [printer.beforeIf]
  split_ifs
  · exact removeAnyWS_inv _ h
  · exact h

theorem beforeElse_inv (p : printer) (h : p.Inv) : p.beforeElse.1.Inv := by
  simp only [printer.beforeElse]
  split_ifs
  · exact printWS_space_inv _ (removeAnyWS_inv _ h) (removeAnyWS_top _)
  · exact h

theorem beforeUse_inv (p : printer) (f : printer → Token → printer) (h : p.Inv)
    (hf : ∀ q t, t.typ = .Rparen → q.Inv → (f q t).Inv ∧ topSpace (f q t).tokens = false) :
    (p.beforeUse f).1.Inv := by
  have h1 := removeLastWS_inv p .space h
  have h2 := removeLastType_inv _ .Rparen h1
  simp only [printer.beforeUse]
  rw [removeLastType_eq] at h2 ⊢
  simp only at h2 ⊢
  rcases takeType_cases .Rparen (p.removeLastWS .space).tokens with e | ⟨t, e, ht⟩
  · rw [e]; exact h2
  · rw [e]
    simp only [Option.isSome_some, if_true, printer.reprint]
    exact printWS_space_inv _ (hf _ t ht h2).1 (hf _ t ht h2).2

theorem beforeModifier_inv (p : printer) (typ : Typ) (h : p.Inv) :
    (p.beforeModifier typ).1.Inv := by
  simp only [printer.beforeModifier]
  split_ifs <;> simpa using h

theorem beforeAssign_inv (p : printer) (h : p.Inv) : p.beforeAssign.1.Inv := by
  simp only [printer.beforeAssign]
  split_ifs
  · exact printWS_nextcol_inv _ (removeLastWS_inv _ _ h)
  · exact printWS_space_inv _ (removeLastWS_inv _ _ h) (removeLastWS_top _ h)
  · exact removeLastWS_inv _ _ h

theorem beforeDoubleArrow_inv (p : printer) (h : p.Inv) : p.beforeDoubleArrow.1.Inv := by
  simp only [printer.beforeDoubleArrow]
  split_ifs
  · exact printWS_nextcol_inv _ (removeLastWS_inv _ _ h)
  · exact printWS_space_inv _ (removeLastWS_inv _ _ h) (removeLastWS_top _ h)

theorem beforeBackslash_inv (p : printer) (h : p.Inv) : p.beforeBackslash.1.Inv := by
  simp only [printer.beforeBackslash, Inv_setRemoveNextWS]
  split_ifs
  · exact printWS_space_inv _ (removeLast_inl_inv _ _ h) (removeLast_inl_top _ h)
  · exact removeLast_inl_inv _ _ h

theorem beforeCast_inv (p : printer) (typ : Typ) (h : p.Inv) : (p.beforeCast typ).1.Inv := by
  simp only [printer.beforeCast]
  split_ifs <;> (try simp only [Inv_setRemoveNextWS]) <;>
    first | exact removeLastWS_inv _ _ h | exact h

theorem beforeVarIdent_inv (p : printer) (typ : Typ) (h : p.Inv) :
    (p.beforeVarIdent typ).1.Inv := by
  simp only [printer.beforeVarIdent, Inv_setRmWSBeforeParen]
  split_ifs
  · exact printWS_space_inv _ (removeLastWS_inv _ _ h) (removeLastWS_top _ h)
  · exact h

theorem beforeIncDec_inv (p : printer) (h : p.Inv) : p.beforeIncDec.1.Inv := by
  simp only [printer.beforeIncDec]
  split_ifs
  · exact removeLastWS_inv _ _ h
  · simpa using h

theorem beforeDefault_inv (p : printer) (typ : Typ) (h : p.Inv) :
    (p.beforeDefault typ).1.Inv := by
  simp only [printer.beforeDefault]
  split_ifs
  · exact printWS_space_inv _ (removeLastWS_inv _ _ h) (removeLastWS_top _ h)
  · simpa using removeLastWS_inv _ _ h
  · exact printWS_space_inv _ (removeLastWS_inv _ _ h) (removeLastWS_top _ h)
  · exact h

theorem beforeToken_inv (p : printer) (f : printer → Token → printer) (arg : Token) (h : p.Inv)
    (hf : arg.typ = .Use →
      ∀ q t, t.typ = .Rparen → q.Inv → (f q t).Inv ∧ topSpace (f q t).tokens = false) :
    (p.beforeToken f arg).1.Inv := by
  apply beforeToken_elim (Φ := fun r => r.1.Inv)
  · exact h
  · exact h
  · exact fun _ => beforeComment_inv p arg h
  · exact beforeIf_inv p h
  · exact beforeElse_inv p h
  · exact fun hu => beforeUse_inv p f h (hf hu)
  · simpa using h
  · exact beforeModifier_inv p _ h
  · exact beforeAssign_inv p h
  · exact beforeDoubleArrow_inv p h
  · exact removeLastWS_inv _ _ h
  · exact beforeBackslash_inv p h
  · simpa using removeLastWS_inv _ _ h
  · simpa using h
  · exact beforeCast_inv p _ h
  · exact beforeVarIdent_inv p _ h
  · exact beforeIncDec_inv p h
  · exact beforeDefault_inv p _ h

theorem printTokenWith_inv (f : printer → Token → printer) (p : printer) (arg : Token)
    (h : p.Inv)
    (hf : arg.typ = .Use →
      ∀ q t, t.typ = .Rparen → q.Inv → (f q t).Inv ∧ topSpace (f q t).tokens = false) :
    (printer.printTokenWith f p arg).Inv := by
  have hb := beforeToken_inv ((p.setRemoveNextWS false).setRmWSBeforeParen false) f arg
    (by simpa using h) hf
  rw [printTokenWith_eq]
  split_ifs
  · exact hb
  · simpa using push_token_inv _ _ hb
  · exact printWS_space_inv _ (push_token_inv _ _ hb) (push_token_top _ _)
  · exact printWS_space_inv _ (push_token_inv _ _ hb) (push_token_top _ _)
  · exact push_token_inv _ _ hb

theorem beforeToken_rparen (p : printer) (f : printer → Token → printer) (arg : Token)
    (h : arg.typ = .Rparen) (ho : (p.opPrec.get .Rparen).2 = false) :
    p.beforeToken f arg = (p, false, false) := by
  have hd : (decideOpSpaces p.opPrec p.maxPrec .Rparen).2 = false := by
    simp only [decideOpSpaces]
    split_ifs
    · rfl
    · exact ho
  simp [printer.beforeToken, h, metaTokenCast, printer.beforeDefault, hd, spacesAround]

theorem printToken0_rparen (p : printer) (t : Token) (h : t.typ = .Rparen) (hp : p.Inv) :
    (p.printToken0 t).Inv ∧ topSpace (p.printToken0 t).tokens = false := by
  have hw : t.typ ≠ .Whitespace := by rw [h]; decide
  have hb := beforeToken_rparen ((p.setRemoveNextWS false).setRmWSBeforeParen false)
    (fun q _ => q) t h hp.2
  simp only [printer.printToken0, hw, if_false, printTokenWith_eq, hb]
  simp only [h, spaceAfter, spacesAround]
  simp only [decide_False, Bool.false_and, Bool.false_or, Bool.or_self, Bool.and_false,
    Bool.false_eq_true, if_false]
  exact ⟨push_token_inv _ _ (by simpa using hp), rfl⟩

theorem printToken_inv (p : printer) (arg : Token) (h : p.Inv) : (p.printToken arg).Inv := by
  simp only [printer.printToken]
  split_ifs
  · exact printWhitespaceToken_inv p arg h
  · exact printTokenWith_inv _ p arg h (fun _ q t ht hq => printToken0_rparen q t ht hq)

theorem printToken_unary_top (p : printer) (t : Token) (h : t.typ = .Not ∨ t.typ = .At) :
    topSpace (p.printToken t).tokens = false := by
  have hw : t.typ ≠ .Whitespace := by rcases h with h | h <;> rw [h] <;> decide
  have hb : ((p.setRemoveNextWS false).setRmWSBeforeParen false).beforeToken
      printer.printToken0 t
      = (((p.setRemoveNextWS false).setRmWSBeforeParen false).setRemoveNextWS true, false, false) := by
    rcases h with h | h <;> simp [printer.beforeToken, h, metaTokenCast]
  simp only [printer.printToken, hw, if_false, printTokenWith_eq, hb]
  rcases h with h | h <;> simp [h, push_eq, topSpace]

theorem printToken_semicolon (p : printer) (t : Token) (h : t.typ = .Semicolon) :
    (p.printToken t).tokens
      = .whitespace .space :: .token { t with pos := ⟨0, 0⟩ }
          :: dropItem (.whitespace .space) p.tokens := by
  have hw : t.typ ≠ .Whitespace := by rw [h]; decide
  have hb : ((p.setRemoveNextWS false).setRmWSBeforeParen false).beforeToken
      printer.printToken0 t
      = (((p.setRemoveNextWS false).setRmWSBeforeParen false).removeLastWS .space, false, false) := by
    simp [printer.beforeToken, h, metaTokenCast]
  simp only [printer.printToken, hw, if_false, printTokenWith_eq, hb]
  simp [h, push_eq, removeLastWS_eq, printWS_eq, spaceAfter]

theorem reprint_inv (p : printer) (x : Option Item) (typ : Typ) (l : List Item) (h : p.Inv)
    (hx : x = takeType typ l) : (p.reprint printer.printToken x).Inv := by
  subst hx
  rcases takeType_cases typ l with e | ⟨t, e, _⟩
  · rw [e]; exact h
  · rw [e]; exact printToken_inv p t h

/-! The invariant under the scope case of `print`. -/

theorem scopeBeginWS_inv (p : printer) (info : ScopeInfo) (h : p.Inv) :
    (p.scopeBeginWS info).Inv := by
  simp only [printer.scopeBeginWS]
  split_ifs <;> (try simp only [Inv_setAlignNextAssign]) <;>
    first
    | exact h
    | exact removeAnyWS_inv _ h
    | exact removeLastWS_inv _ _ h
    | exact printNL_inv _ (removeAnyWS_inv _ h)
    | exact printWS_space_inv _ (removeAnyWS_inv _ h) (removeAnyWS_top _)

theorem pairOK_opn (info : ScopeInfo) (h : pairOK info = true) : info.opn ≠ .EOF := by
  simp only [pairOK, Bool.or_eq_true, Bool.and_eq_true, decide_eq_true_eq] at h
  rcases h with ((⟨ho, _⟩ | ⟨ho, _⟩) | ⟨ho, _⟩) | ⟨ho, _⟩ <;> rw [ho] <;> decide

theorem scopeBeginOpen_inv (p : printer) (info : ScopeInfo) (h : p.Inv)
    (hi : infoOK info = true) :
    (p.scopeBeginOpen info).Inv ∧
    (info.commentTag = none → topSpace (p.scopeBeginOpen info).tokens = false) := by
  simp only [infoOK, Bool.and_eq_true] at hi
  have ho := pairOK_opn info hi.1
  have h1 : (if (info.opn ≠ .Lbrace && p.rmWSBeforeParen) = true
      then p.removeLastWS .space else p).Inv := by
    split_ifs
    · exact removeLastWS_inv _ _ h
    · exact h
  simp only [printer.scopeBeginOpen]
  cases info.commentTag with
  | none => exact ⟨printType_inv _ _ h1, fun _ => printType_top _ _ ho⟩
  | some tag =>
    refine ⟨?_, fun hc => by simp at hc⟩
    exact printToken_inv _ _ (printWS_space_inv _ (printType_inv _ _ h1) (printType_top _ _ ho))

theorem oneliner_tag (info : ScopeInfo) (nodes : List Stmt) (hi : infoOK info = true)
    (h : oneliner info nodes = true) : info.commentTag = none ∧ info.opn ≠ .OpenTag := by
  simp only [infoOK, tagOK, Bool.and_eq_true, Bool.or_eq_true, Bool.not_eq_true'] at hi
  simp only [oneliner, Bool.and_eq_true, beq_iff_eq, Bool.not_eq_true'] at h
  refine ⟨?_, by rw [h.1.1.1]; decide⟩
  rcases hi.2.2 with e | e
  · simpa using e
  · rw [h.1.1.2] at e; simp at e

theorem scopeBegin_inv (p : printer) (info : ScopeInfo) (nodes : List Stmt) (h : p.Inv)
    (hi : infoOK info = true) : (p.scopeBegin info nodes).Inv := by
  obtain ⟨h1, h2⟩ := scopeBeginOpen_inv (p.scopeBeginWS info) info (scopeBeginWS_inv p info h) hi
  simp only [printer.scopeBegin, Inv_setScope]
  by_cases hm : (info.multiline && !nodes.isEmpty) = true
  · rw [if_pos hm]
    apply printNL_inv
    split_ifs <;> (try simp only [Inv_setIndent]) <;>
      first
      | exact h1
      | exact printWS_newline_inv _ h1
  · rw [if_neg hm]
    by_cases ho : oneliner info nodes = true
    · rw [if_pos ho]
      obtain ⟨ht, hn⟩ := oneliner_tag info nodes hi ho
      simp only [hn, if_false]
      split_ifs
      · exact printWS_space_inv _ (by simpa using h1) (by simpa using h2 ht)
      · exact printWS_space_inv _ h1 (h2 ht)
    · rw [if_neg ho]
      split_ifs <;> (try simp only [Inv_setIndent]) <;>
        first
        | exact h1
        | exact printWS_newline_inv _ h1

theorem scopeEndStart_inv (q : printer) (m : Bool) (t o : Typ) (info : ScopeInfo) (h : q.Inv) :
    (q.scopeEndStart m t o info).Inv := by
  have h1 : (((q.setScope t m o).removeLastIndent (q.setScope t m o).indent).2.removeLastWS
      .newline).Inv :=
    removeLastWS_inv _ _ (removeLastIndent_inv _ _ (by simpa using h))
  simp only [printer.scopeEndStart]
  split_ifs <;> simpa using h1

theorem stripForComma_inv (p : printer) (h : p.Inv) :
    p.stripForComma.2.Inv ∧
    p.stripForComma.1 = takeType .Comment (dropItem (.whitespace .space) p.tokens) := by
  simp only [printer.stripForComma, removeLastType_eq, removeLastWS_eq, setTokens_tokens,
    setTokens_setTokens, and_true]
  exact Inv_setTokens _ _ h (tidy_dropType _ _ (tidy_dropItem _ _ (tidy_dropItem _ _
    (tidy_dropType _ _ (tidy_dropItem _ _ h.1)))))

theorem fixTrailingComma_inv (p : printer) (h : p.Inv) : p.fixTrailingComma.Inv := by
  obtain ⟨h1, h2⟩ := stripForComma_inv p h
  simp only [printer.fixTrailingComma]
  apply reprint_inv _ _ _ _ _ h2
  split_ifs
  · exact printType_inv _ _ h1
  · exact h1

theorem takeType_dropType_none (typ : Typ) (l : List Item) (h : takeType typ l = none) :
    takeType typ (dropType typ l) = none := by
  cases l with
  | nil => rfl
  | cons a l =>
    cases a with
    | token t =>
      simp only [takeType] at h
      split_ifs at h with e
      simp [dropType, e, takeType]
    | indentation n => rfl
    | whitespace w => rfl

theorem printWS_opPrec (p : printer) (w : whitespace) : (p.printWS w).opPrec = p.opPrec := by
  rw [printWS_eq]; rfl

theorem removeAnyWS_opPrec (p : printer) : p.removeAnyWS.2.opPrec = p.opPrec := by
  rw [removeAnyWS_eq]; rfl

theorem printWhitespaceToken_opPrec (p : printer) (arg : Token) :
    (p.printWhitespaceToken arg).opPrec = p.opPrec := by
  simp only [printer.printWhitespaceToken]
  split
  · split_ifs <;> simp [printNL_eq, printWS_opPrec]
  · split_ifs <;> simp [removeLastWS_eq, printWS_opPrec]

theorem reprint_opPrec (f : printer → Token → printer) (q : printer) (x : Option Item)
    (hf : ∀ q t, (f q t).opPrec = q.opPrec) : (q.reprint f x).opPrec = q.opPrec := by
  cases x with
  | none => rfl
  | some y =>
    cases y with
    | token t => exact hf q t
    | indentation n => rfl
    | whitespace w => exact printWS_opPrec q w

theorem beforeToken_opPrec (p : printer) (f : printer → Token → printer) (arg : Token)
    (hf : ∀ q t, (f q t).opPrec = q.opPrec) : (p.beforeToken f arg).1.opPrec = p.opPrec := by
  apply beforeToken_elim (Φ := fun r => r.1.opPrec = p.opPrec)
  · rfl
  · rfl
  · intro _
    simp only [printer.beforeComment]
    split_ifs <;> simp [removeLastWS_eq, printWS_opPrec]
  · simp only [printer.beforeIf]
    split_ifs <;> simp [removeAnyWS_opPrec]
  · simp only [printer.beforeElse]
    split_ifs <;> simp [removeAnyWS_opPrec, printWS_opPrec]
  · intro _
    simp only [printer.beforeUse, removeLastType_eq, removeLastWS_eq]
    split_ifs
    · simp only [printWS_opPrec, reprint_opPrec _ _ _ hf]
      rfl
    · rfl
  · rfl
  · simp only [printer.beforeModifier]
    split_ifs <;> rfl
  · simp only [printer.beforeAssign]
    split_ifs <;> simp [removeLastWS_eq, printWS_opPrec]
  · simp only [printer.beforeDoubleArrow]
    split_ifs <;> simp [removeLastWS_eq, printWS_opPrec]
  · simp [removeLastWS_eq]
  · simp only [printer.beforeBackslash, removeLast_inl]
    split_ifs <;> simp [printWS_opPrec]
  · simp [removeLastWS_eq]
  · rfl
  · simp only [printer.beforeCast]
    split_ifs <;> simp [removeLastWS_eq]
  · simp only [printer.beforeVarIdent]
    split_ifs <;> simp [removeLastWS_eq, printWS_opPrec]
  · simp only [printer.beforeIncDec]
    split_ifs <;> simp [removeLastWS_eq]
  · simp only [printer.beforeDefault]
    split_ifs <;> simp [removeLastWS_eq, printWS_opPrec]

theorem printTokenWith_opPrec (f : printer → Token → printer) (p : printer) (arg : Token)
    (hf : ∀ q t, (f q t).opPrec = q.opPrec) :
    (printer.printTokenWith f p arg).opPrec = p.opPrec := by
  have hb := beforeToken_opPrec ((p.setRemoveNextWS false).setRmWSBeforeParen false) f arg hf
  simp only [setRmWSBeforeParen_opPrec, setRemoveNextWS_opPrec] at hb
  rw [printTokenWith_eq]
  split_ifs <;> simp [hb, push_eq, printWS_opPrec]

theorem printToken_opPrec (p : printer) (arg : Token) : (p.printToken arg).opPrec = p.opPrec := by
  have h0 : ∀ q t, (printer.printToken0 q t).opPrec = q.opPrec := by
    intro q t
    simp only [printer.printToken0]
    split_ifs
    · exact printWhitespaceToken_opPrec q t
    · exact printTokenWith_opPrec _ q t (fun _ _ => rfl)
  simp only [printer.printToken]
  split_ifs
  · exact printWhitespaceToken_opPrec p arg
  · exact printTokenWith_opPrec _ p arg h0

theorem fixFor_inv (p : printer) (h : p.Inv) : p.fixFor.Inv := by
  have h1 : (p.setTokens (dropType .Semicolon p.tokens)).Inv :=
    Inv_setTokens _ _ h (tidy_dropType _ _ h.1)
  have h2 : (p.setTokens (dropType .Semicolon (dropType .Semicolon p.tokens))).Inv :=
    Inv_setTokens _ _ h (tidy_dropType _ _ h1.1)
  simp only [printer.fixFor, removeLastType_eq, setTokens_tokens, removeLastWS_eq,
    setTokens_setTokens]
  rcases takeType_cases .Semicolon (dropType .Semicolon p.tokens) with e2 | ⟨t2, e2, ht2⟩
  · simp only [e2, Option.isSome_none, Bool.false_eq_true, if_false]
    exact reprint_inv _ _ _ _ h2 rfl
  · simp only [e2, Option.isSome_some, if_true]
    have h3 : (p.setTokens (dropItem (.whitespace .space)
        (dropType .Semicolon (dropType .Semicolon p.tokens)))).Inv :=
      Inv_setTokens _ _ h (tidy_dropItem _ _ h2.1)
    rcases takeType_cases .Lparen (dropItem (.whitespace .space)
        (dropType .Semicolon (dropType .Semicolon p.tokens))) with e3 | ⟨t3, e3, _⟩
    · simp only [e3, Option.isSome_none, Bool.false_eq_true, if_false]
      have h4 : (p.setTokens (dropType .Lparen (dropItem (.whitespace .space)
          (dropType .Semicolon (dropType .Semicolon p.tokens))))).Inv :=
        Inv_setTokens _ _ h (tidy_dropType _ _ h3.1)
      rcases takeType_cases .Semicolon p.tokens with e1 | ⟨t1, e1, ht1⟩
      · rw [takeType_dropType_none _ _ e1] at e2
        simp at e2
      · rw [e1]
        simp only [printer.reprint]
        constructor
        · rw [printToken_semicolon _ _ ht1, printWS_eq]
          simp only [setTokens_tokens, printToken_semicolon _ _ ht2]
          simp only [reduceCtorEq, if_false, dropItem, if_true]
          exact tidy_cons_ws _ _ (tidy_cons_token _ _ (tidy_cons_ws _ _ (tidy_cons_token _ _
            (tidy_dropItem _ _ h4.1)) rfl)) rfl
        · rw [printToken_opPrec, printWS_opPrec, printToken_opPrec]
          exact h.2
    · simp only [e3, Option.isSome_some, if_true, printer.reprint]
      exact printToken_inv _ _ (Inv_setTokens _ _ h (tidy_dropType _ _ h3.1))

theorem scopeEndBody_inv (config : Options) (q : printer) (m : Bool) (t o : Typ)
    (info : ScopeInfo) (nodes : List Stmt) (h : q.Inv) :
    (q.scopeEndBody config m t o info nodes).Inv := by
  have h1 := scopeEndStart_inv q m t o info h
  have h2 : (if oneliner info nodes = true then
        ((q.scopeEndStart m t o info).removeLastWS .space).printWS .space
      else if (info.multiline || info.offsetEndParen) = true then
        (if (decide (config &&& TrailingComma > 0) && info.fixComma && !nodes.isEmpty) = true then
          (q.scopeEndStart m t o info).fixTrailingComma
        else q.scopeEndStart m t o info).printNL
      else (((q.scopeEndStart m t o info).removeLastWS .space).removeLastType .Comma).2).Inv := by
    split_ifs
    · exact printWS_space_inv _ (removeLastWS_inv _ _ h1) (removeLastWS_top _ h1)
    · exact printNL_inv _ (fixTrailingComma_inv _ h1)
    · exact printNL_inv _ h1
    · exact removeLastType_inv _ _ (removeLastWS_inv _ _ h1)
  simp only [printer.scopeEndBody]
  split_ifs at h2 ⊢ <;> first | exact h2 | exact fixFor_inv _ h2

theorem scopeEnd_inv (config : Options) (q : printer) (m : Bool) (t o : Typ)
    (info : ScopeInfo) (nodes : List Stmt) (h : q.Inv) :
    (q.scopeEnd config m t o info nodes).Inv := by
  have h1 := printType_inv _ info.close (scopeEndBody_inv config q m t o info nodes h)
  simp only [printer.scopeEnd, Inv_setRmWSBeforeParen]
  split_ifs with hc
  · refine printWS_space_inv _ h1 (printType_top _ _ ?_)
    simp only [Bool.or_eq_true, Bool.and_eq_true, decide_eq_true_eq] at hc
    rcases hc with ⟨e, _⟩ | ⟨e, _⟩ <;> rw [e] <;> decide
  · exact h1

/-! The invariant under the statement case and the ternary case of `print`. -/

theorem deindentLast_inv (p : printer) (h : p.Inv) : p.deindentLast.Inv := by
  simp only [printer.deindentLast]
  split_ifs
  · exact printIndent_inv _ _ (removeLastIndent_inv _ _ h)
  · exact removeLastIndent_inv _ _ h

theorem stmtBegin_inv (p : printer) (arg : StmtInfo) (h : p.Inv) : (p.stmtBegin arg).1.Inv := by
  simp only [printer.stmtBegin]
  split_ifs
  · simpa using deindentLast_inv p h
  · simpa using h

theorem stmtPrec_inv (p : printer) (v : stmtVars) (all : List Node) (h : p.Inv) :
    (p.stmtPrec v all).1.Inv := by
  simp only [printer.stmtPrec]
  split_ifs <;> simpa using h

theorem printAmp_inv (p : printer) (l : List Item) (h : p.Inv) :
    (p.printAmp (takeType .BitAnd l)).Inv := by
  rcases takeType_cases .BitAnd l with e | ⟨t, e, _⟩
  · rw [e]; exact h
  · rw [e]; exact printToken_inv _ _ h

theorem fixParam_inv (p : printer) (h : p.Inv) : p.fixParam.Inv := by
  have h1 : (p.setTokens (dropItem (.whitespace .space) (dropType .BitAnd
      (dropItem (.whitespace .space) (dropType .Ellipsis
        (dropItem (.whitespace .space) p.tokens)))))).Inv :=
    Inv_setTokens _ _ h (tidy_dropItem _ _ (tidy_dropType _ _ (tidy_dropItem _ _
      (tidy_dropType _ _ (tidy_dropItem _ _ h.1)))))
  have h2 : topSpace (dropItem (.whitespace .space) (dropType .BitAnd
      (dropItem (.whitespace .space) (dropType .Ellipsis
        (dropItem (.whitespace .space) p.tokens))))) = false :=
    topSpace_dropItem _ (tidy_dropType _ _ (tidy_dropItem _ _
      (tidy_dropType _ _ (tidy_dropItem _ _ h.1))))
  simp only [printer.fixParam, removeLastType_eq, removeLastWS_eq, setTokens_tokens,
    setTokens_setTokens]
  apply reprint_inv _ _ _ _ _ rfl
  apply printAmp_inv
  split_ifs
  · exact printWS_space_inv _ h1 h2
  · exact h1

theorem stmtToken1_inv (p : printer) (v : stmtVars) (x : Token) (rest : List Node) (h : p.Inv) :
    (p.stmtToken1 v x rest).1.Inv ∧
    ((p.stmtToken1 v x rest).2.2 = true → x.typ = .Not ∨ x.typ = .At) := by
  simp only [printer.stmtToken1]
  split_ifs with h1 h2 h3 h4 h5 h6 h7 h8
  · exact ⟨h, fun hh => by simp at hh⟩
  · exact ⟨removeLastWS_inv _ _ h, fun hh => by simp at hh⟩
  · exact ⟨h, fun _ => Or.inl h3⟩
  · exact ⟨by simpa using h, fun _ => Or.inr h4⟩
  · exact ⟨h, fun hh => by simp at hh⟩
  · exact ⟨h, fun hh => by simp at hh⟩
  · exact ⟨fixParam_inv _ h, fun hh => by simp at hh⟩
  · exact ⟨h, fun hh => by simp at hh⟩
  · exact ⟨h, fun hh => by simp at hh⟩

theorem stmtToken2_inv (p : printer) (v : stmtVars) (isLabel : Bool) (x : Token) (h : p.Inv) :
    (p.stmtToken2 v isLabel x).1.Inv := by
  simp only [printer.stmtToken2]
  split_ifs <;> (try simp only [Inv_setIndent]) <;>
    first
    | exact h
    | exact printIndent_inv _ _ (removeLastIndent_inv _ _ h)

theorem stmtToken_fst (p : printer) (v : stmtVars) (isLabel : Bool) (x : Token)
    (rest : List Node) :
    (p.stmtToken v isLabel x rest).1 =
      if (p.stmtToken1 v x rest).2.2 = true then
        ((if (!(p.stmtToken1 v x rest).1.multiline) = true then (p.stmtToken1 v x rest).1
          else ((p.stmtToken1 v x rest).1.stmtToken2 (p.stmtToken1 v x rest).2.1 isLabel x).1).printToken
            x).printWS .space
      else
        (if (!(p.stmtToken1 v x rest).1.multiline) = true then (p.stmtToken1 v x rest).1
          else ((p.stmtToken1 v x rest).1.stmtToken2 (p.stmtToken1 v x rest).2.1 isLabel x).1).printToken
            x := by
  simp only [printer.stmtToken]
  split_ifs <;> rfl

theorem stmtToken_inv (p : printer) (v : stmtVars) (isLabel : Bool) (x : Token)
    (rest : List Node) (h : p.Inv) : (p.stmtToken v isLabel x rest).1.Inv := by
  obtain ⟨h1, h2⟩ := stmtToken1_inv p v x rest h
  have h3 : (if (!(p.stmtToken1 v x rest).1.multiline) = true then (p.stmtToken1 v x rest).1
      else ((p.stmtToken1 v x rest).1.stmtToken2 (p.stmtToken1 v x rest).2.1 isLabel x).1).Inv := by
    split_ifs
    · exact h1
    · exact stmtToken2_inv _ _ _ _ h1
  rw [stmtToken_fst]
  by_cases ha : (p.stmtToken1 v x rest).2.2 = true
  · rw [if_pos ha]
    exact printWS_space_inv _ (printToken_inv _ _ h3) (printToken_unary_top _ _ (h2 ha))
  · rw [if_neg ha]
    exact printToken_inv _ _ h3

theorem stmtScope_inv (p : printer) (v : stmtVars) (x : ScopeInfo) (h : p.Inv) :
    (p.stmtScope v x).1.Inv := by
  simp only [printer.stmtScope]
  split_ifs <;> simpa using h

theorem stmtEnd_inv (p : printer) (v : stmtVars) (arg : StmtInfo) (h : p.Inv) :
    (p.stmtEnd v arg).Inv := by
  have h1 : (if arg.isLabel = true then
      (p.setIndent (p.indent - v.extraIndented)).printNL.setRemoveNextWS true
      else p.setIndent (p.indent - v.extraIndented)).Inv := by
    split_ifs
    · simpa using printNL_inv _ (by simpa using h)
    · simpa using h
  simp only [printer.stmtEnd]
  split_ifs at h1 ⊢ <;> simp only [Inv_setRemoveNextWS, Inv_setAlignNextAssign] at h1 ⊢ <;>
    first
    | exact h1
    | exact printIndent_inv _ _ (printWS_newline_inv _ (printWS_newline_inv _ (by simpa using h1)))

theorem ternaryBegin_inv (p : printer) (h : p.Inv) : p.ternaryBegin.Inv := by
  simp only [printer.ternaryBegin, Inv_setRmWSBeforeParen]
  exact printWS_space_inv _ (printType_inv _ _ (printWS_space_inv _ (removeLastWS_inv _ _ h)
    (removeLastWS_top _ h))) (printType_top _ _ (by decide))

theorem ternaryEnd_inv (p : printer) (a b : Bool) (h : p.Inv) : (p.ternaryEnd a b).Inv := by
  have h1 : (if a = true then p.deindentLast else p).Inv := by
    split_ifs
    · exact deindentLast_inv _ h
    · exact h
  simp only [printer.ternaryEnd, Inv_setRmWSBeforeParen]
  refine printWS_space_inv _ (printType_inv _ _ ?_) (printType_top _ _ (by decide))
  by_cases hb : b = true
  · rw [if_pos hb]
    exact printWS_space_inv _ (removeLastWS_inv _ _ h1) (removeLastWS_top _ h1)
  · rw [if_neg hb]
    exact removeLastWS_inv _ _ h1

theorem print_inv (config : Options) :
    (∀ n, wfNode n = true → ∀ p ctx, p.Inv → (printNode config p ctx n).1.Inv) ∧
    (∀ ns, wfNodes ns = true →
      (∀ p v l all, p.Inv → (printStmtLoop config p v l all ns).1.Inv) ∧
      (∀ p a b c, p.Inv → (printTernaryLoop config p a b c ns).1.Inv)) ∧
    (∀ ss, wfStmts ss = true → ∀ p, p.Inv → (printStmts config p ss).Inv) := by
  apply Node.induct3
  · intro t _ p ctx h
    simp only [printNode]
    exact printToken_inv p t h
  · intro info stmts ih hw p ctx h
    simp only [wfNode, Bool.and_eq_true] at hw
    simp only [printNode]
    exact scopeEnd_inv _ _ _ _ _ _ _
      (ih hw.2 _ (scopeBegin_inv p info stmts h (by simp [infoOK, hw.1.1, hw.1.2])))
  · intro nodes ih hw p ctx h
    simp only [wfNode] at hw
    simp only [printNode]
    exact ternaryEnd_inv _ _ _ ((ih hw).2 _ _ _ _ (ternaryBegin_inv p h))
  · intro _
    exact ⟨fun p v l all h => by simpa only [printStmtLoop] using h,
           fun p a b c h => by simpa only [printTernaryLoop] using h⟩
  · intro n ns ihn ihns hw
    simp only [wfNodes, Bool.and_eq_true] at hw
    refine ⟨?_, ?_⟩
    · intro p v l all h
      have hp := stmtPrec_inv p v all h
      cases n with
      | token x =>
        simp only [printStmtLoop]
        exact (ihns hw.2).1 _ _ _ _ (stmtToken_inv _ _ _ _ _ hp)
      | scope info nodes =>
        simp only [printStmtLoop]
        exact (ihns hw.2).1 _ _ _ _ (ihn hw.1 _ _ (stmtScope_inv _ _ _ hp))
      | ternaryMiddle nodes =>
        simp only [printStmtLoop]
        refine (ihns hw.2).1 _ _ _ _ ?_
        simpa using ihn hw.1 _ _ (by simpa using hp)
    · intro p a b c h
      simp only [printTernaryLoop]
      refine (ihns hw.2).2 _ _ _ _ (ihn hw.1 _ _ ?_)
      split_ifs <;> simpa using h
  · intro _ p h
    simpa only [printStmts] using h
  · intro si ns rest ihns ihrest hw p h
    simp only [wfStmts, Bool.and_eq_true] at hw
    simp only [printStmts]
    exact ihrest hw.2 _ (stmtEnd_inv _ _ _ ((ihns hw.1).1 _ _ _ _ (stmtBegin_inv p si h)))

theorem printTrimmed_inv (p : printer) (l : List Item) (h : p.Inv) :
    (p.printTrimmed (takeType .InlineHTML l)).Inv := by
  rcases takeType_cases .InlineHTML l with e | ⟨t, e, _⟩
  · rw [e]; exact h
  · rw [e]; exact printToken_inv _ _ h

theorem printFile_inv (config : Options) (p : printer) (file : File) (h : p.Inv)
    (hw : wfFile file = true) : (printFile config p file).Inv := by
  simp only [wfFile, Bool.and_eq_true] at hw
  have h1 : (p.printPreamble file.htmlPreamble).Inv := by
    cases hd : file.htmlPreamble with
    | none => exact h
    | some d => exact printToken_inv _ _ h
  have h2 := removeLastType_inv _ .InlineHTML
    (removeAnyWS_inv _ ((print_inv config).1 _ hw.1 _ none h1))
  simp only [printFile]
  rw [removeLastType_eq] at h2 ⊢
  split_ifs
  · exact printWS_newline_inv _ (printTrimmed_inv _ _ h2)
  · exact printTrimmed_inv _ _ h2

theorem tidy_append (a b : List Item) (h : tidy (a ++ b) = true) : tidy b = true := by
  induction a with
  | nil => exact h
  | cons x a ih => exact ih (tidy_tail _ _ h)

theorem tidy_reverse (l l1 l2 : List Item) (x : Item) (h : tidy l = true)
    (e : l.reverse = l1 ++ .whitespace .space :: x :: l2) :
    x ≠ .whitespace .newline ∧ x ≠ .whitespace .space := by
  have e2 : l = l2.reverse ++ x :: .whitespace .space :: l1.reverse := by
    have := congrArg List.reverse e
    simpa using this
  rw [e2] at h
  have h3 := tidy_append _ _ h
  simp only [tidy, topSpace, Bool.and_true, Bool.and_eq_true, Bool.not_eq_true'] at h3
  constructor <;> (intro hx; rw [hx] at h3; simp [spaceOrNL] at h3)

/-- C3 (amended): for every input that `Parse` accepts, every options value and both
values the precedence map takes, in the sequence of elements the printer hands to
the loop of `Fprint` no space mark is directly followed by a newline mark, nor by
another space mark. -/
theorem emitted_no_space_before_newline (src : List Char) (php74Compat : Bool) (file : File)
    (opPrec : PrecMap) (config : Options) (h : Parse src php74Compat = .ok file)
    (hp : opPrec = opPrecInit ∨ opPrec = opPrecLegacy)
    (l1 l2 : List Item) (x : Item)
    (e : emitted opPrec config file = l1 ++ .whitespace .space :: x :: l2) :
    x ≠ .whitespace .newline ∧ x ≠ .whitespace .space := by
  have h0 : (printer.new opPrec).Inv := by
    refine ⟨rfl, ?_⟩
    rcases hp with rfl | rfl <;> decide
  exact tidy_reverse _ l1 l2 x
    (printFile_inv config _ file h0 (Parse_wf src php74Compat file h)).1 e

theorem emitted_no_space_before_newline_witness :
    Parse "<?php echo 1;".toList false = .ok echoFile ∧
    emitted opPrecInit Standard echoFile
      = [.token (Token.mk0 .OpenTag "<?php".toList), .whitespace .nextcol,
         .token (Token.mk0 .Echo "echo".toList)]
        ++ .whitespace .space :: .token (Token.mk0 .Int "1".toList)
        :: [.token (Token.mk0 .Semicolon ";".toList), .whitespace .newline] ∧
    Item.token (Token.mk0 .Int "1".toList) ≠ .whitespace .newline ∧
    Item.token (Token.mk0 .Int "1".toList) ≠ .whitespace .space :=
  ⟨rfl, by decide,
   emitted_no_space_before_newline "<?php echo 1;".toList false echoFile opPrecInit Standard rfl
     (Or.inl rfl)
     [.token (Token.mk0 .OpenTag "<?php".toList), .whitespace .nextcol,
      .token (Token.mk0 .Echo "echo".toList)]
     [.token (Token.mk0 .Semicolon ";".toList), .whitespace .newline]
     (.token (Token.mk0 .Int "1".toList)) (by decide)⟩

/-- C3 (the claim at two inputs): a line comment that ends in blanks is written with
them, so the line ends in blanks; and after a comment that consists of `//` only,
which is dropped, the line keeps its indentation and ends in a tab. -/
theorem formatCode_trailing_blanks :
    format.formatCode "<?php\n// c  \n".toList Standard = some "<?php\n\n// c  \n".toList ∧
    format.formatCode "<?php\n\x7b\n$a;\n//\n$b;\n\x7d\n".toList Standard
      = some "<?php\n\x7b\n\t$a;\n\t\n\t$b;\n\x7d\n".toList := by
  refine ⟨?_, ?_⟩ <;> decide!

end naive

/-! ### Token preservation -/

namespace format

open token naive

/-- C2 (the code at the failing input): in `$a . $b - -$c;` the binary `-` is below
the level of the statement and is printed without spaces, the unary `-` after it
removes the space that follows, and the two are written side by side: the output
`$a . $b--$c;` scans as the decrement operator where the input had two `-`. -/
theorem formatCode_merges_minus :
    formatCode "<?php\n$a . $b - -$c;\n".toList Standard
      = some "<?php\n\n$a . $b--$c;\n".toList ∧
    nonTrivia "<?php\n$a . $b - -$c;\n".toList
      = [(.OpenTag, "<?php".toList), (.Var, "$a".toList), (.Concat, ".".toList),
         (.Var, "$b".toList), (.Sub, "-".toList), (.Sub, "-".toList), (.Var, "$c".toList),
         (.Semicolon, ";".toList)] ∧
    nonTrivia "<?php\n\n$a . $b--$c;\n".toList
      = [(.OpenTag, "<?php".toList), (.Var, "$a".toList), (.Concat, ".".toList),
         (.Var, "$b".toList), (.Dec, "--".toList), (.Var, "$c".toList),
         (.Semicolon, ";".toList)] := by
  refine ⟨?_, ?_, ?_⟩ <;> decide!

end format

namespace format

open token naive

theorem leText_refl (a : List Char) : leText a a = true := by
  induction a with
  | nil => rfl
  | cons x xs ih => simp [leText, ih]

theorem leText_trans (a b c : List Char) (h1 : leText a b = true) (h2 : leText b c = true) :
    leText a c = true := by
  induction a generalizing b c with
  | nil => rfl
  | cons x xs ih =>
    cases b with
    | nil => simp [leText] at h1
    | cons y ys =>
      cases c with
      | nil => simp [leText] at h2
      | cons z zs =>
        simp only [leText, Bool.or_eq_true, decide_eq_true_eq, Bool.and_eq_true, beq_iff_eq] at *
        rcases h1 with h1 | ⟨e1, h1⟩ <;> rcases h2 with h2 | ⟨e2, h2⟩
        · left; omega
        · left; omega
        · left; omega
        · right; exact ⟨by omega, ih ys zs h1 h2⟩

theorem useLe_trans (a b c : List Char) (h1 : useLe a b = true) (h2 : useLe b c = true) :
    useLe a c = true := leText_trans _ _ _ h1 h2

theorem leText_append_left (p a b : List Char) : leText (p ++ a) (p ++ b) = leText a b := by
  induction p with
  | nil => rfl
  | cons x xs ih => simp [leText, ih]

/-- The characters `scanIdent` accepts at the start of an identifier come after `;`. -/
theorem identStart_after_semicolon (c : Char) (h : isIdentStart c = true) :
    59 < c.toNat ∧ c ≠ '\\' := by
  constructor
  · simp only [isIdentStart, Bool.or_eq_true, beq_iff_eq, Bool.and_eq_true, decide_eq_true_eq,
      ge_iff_le] at h
    rcases h with ((rfl | ⟨h1, _⟩) | ⟨h1, _⟩) | h1
    · decide
    · have : 'a'.toNat ≤ c.toNat := h1
      have e : 'a'.toNat = 97 := rfl
      omega
    · have : 'A'.toNat ≤ c.toNat := h1
      have e : 'A'.toNat = 65 := rfl
      omega
    · omega
  · rintro rfl
    revert h
    decide

theorem useLe_separator (p a b : List Char) (c : Char) (hc : isIdentStart c = true) :
    useLe (p ++ c :: b) (p ++ '\\' :: a) = false := by
  obtain ⟨h1, h2⟩ := identStart_after_semicolon c hc
  have e : (';' : Char).toNat = 59 := rfl
  simp only [useLe, slashes, List.map_append, List.map_cons, leText_append_left, if_neg h2,
    if_true, leText, e]
  simp only [Bool.or_eq_false_iff, decide_eq_false_iff_not, Bool.and_eq_false_iff]
  exact ⟨by omega, Or.inl (by simp; omega)⟩

/-- Within a block of sortable lines of a chain, lines are in order at any distance. -/
theorem chain_block (out : List (List Char))
    (h : List.Chain' (fun a b => isUseLine a = true → isUseLine b = true → useLe a b = true) out)
    (j i : Nat) (hji : j ≤ i) (x y : List Char)
    (hj : out[j]? = some y) (hi : out[i]? = some x)
    (hrun : ∀ k, j ≤ k → k ≤ i → ∃ l, out[k]? = some l ∧ isUseLine l = true) :
    useLe y x = true := by
  induction out generalizing j i x y with
  | nil => simp at hj
  | cons z rest ih =>
    cases i with
    | zero =>
      have : j = 0 := by omega
      subst this
      simp only [List.getElem?_cons_zero, Option.some.injEq] at hj hi
      subst hj; subst hi
      exact leText_refl _
    | succ i =>
      cases j with
      | succ j =>
        refine ih (List.Chain'.tail h) j i (by omega) x y (by simpa using hj) (by simpa using hi) ?_
        intro k h1 h2
        simpa using hrun (k + 1) (by omega) (by omega)
      | zero =>
        simp only [List.getElem?_cons_zero, Option.some.injEq] at hj
        subst hj
        obtain ⟨l0, e0, u0⟩ := hrun 0 (by omega) (by omega)
        obtain ⟨l1, e1, u1⟩ := hrun 1 (by omega) (by omega)
        simp only [List.getElem?_cons_zero, Option.some.injEq] at e0
        subst e0
        cases rest with
        | nil => simp at e1
        | cons w rest =>
          simp only [List.getElem?_cons_succ, List.getElem?_cons_zero, Option.some.injEq] at e1
          subst e1
          have h01 := (List.chain'_cons.mp h).1 u0 u1
          have := ih (List.Chain'.tail h) 0 i (by omega) x w (by simp) (by simpa using hi) (by
            intro k h1 h2
            simpa using hrun (k + 1) (by omega) (by omega))
          exact useLe_trans _ _ _ h01 this

/-- C11 (amended): for every text whose lines all end in a newline, when two lines of
one run of sortable lines of the output of `orderUseStmts` agree up to a position
where one has a backslash and the other a letter, an underscore or a character from
128 up, the line with the backslash comes first. -/
theorem orderUseStmts_separator_first (src : List Char)
    (h : ∀ l ∈ lines src, l.getLast? = some '\n')
    (i j : Nat) (p a b : List Char) (c : Char) (hc : isIdentStart c = true)
    (hi : (lines (orderUseStmts src))[i]? = some (p ++ '\\' :: a))
    (hj : (lines (orderUseStmts src))[j]? = some (p ++ c :: b))
    (hrun : ∀ k, min i j ≤ k → k ≤ max i j →
      ∃ l, (lines (orderUseStmts src))[k]? = some l ∧ isUseLine l = true) :
    i < j := by
  by_contra hn
  have hji : j ≤ i := by omega
  have hp : ∀ l ∈ lines src, ProperLine l :=
    fun l hl => proper_of_last l (lines_shape src l hl) (h l hl)
  have hq := proper_orderLines (lines src) [] hp (by simp)
  have hch : List.Chain' (fun a b => isUseLine a = true → isUseLine b = true → useLe a b = true)
      (lines (orderUseStmts src)) := by
    rw [orderUseStmts, orderLoop_eq_flatten, lines_flatten _ hq]
    exact chain_orderLines (lines src) [] (by simp)
  have := chain_block _ hch j i hji _ _ hj hi (fun k h1 h2 =>
    hrun k (by rw [min_eq_right hji]; exact h1) (by rw [max_eq_left hji]; exact h2))
  rw [useLe_separator p a b c hc] at this
  exact Bool.noConfusion this

theorem orderUseStmts_separator_first_witness :
    (∀ l ∈ lines "use Ab;\nuse A\\B;\n".toList, l.getLast? = some '\n') ∧
    isIdentStart 'b' = true ∧
    (lines (orderUseStmts "use Ab;\nuse A\\B;\n".toList))[0]?
      = some ("use A".toList ++ '\\' :: "B;\n".toList) ∧
    (lines (orderUseStmts "use Ab;\nuse A\\B;\n".toList))[1]?
      = some ("use A".toList ++ 'b' :: ";\n".toList) ∧
    0 < 1 :=
  ⟨by decide, by decide, by decide, by decide,
   orderUseStmts_separator_first "use Ab;\nuse A\\B;\n".toList (by decide) 0 1
     "use A".toList "B;\n".toList ";\n".toList 'b' (by decide) (by decide) (by decide)
     (by
       intro k h1 h2
       have hk : k = 0 ∨ k = 1 := by
         simp at h2
         omega
       rcases hk with rfl | rfl
       · exact ⟨"use A\\B;\n".toList, by decide, by decide⟩
       · exact ⟨"use Ab;\n".toList, by decide, by decide⟩)⟩

/-- C11 (the claim at two inputs): a digit sorts before the separator, so `use A1;`
comes out before `use A\B;`; and backslashes directly after `use ` are removed
before the comparison, so `use \B;` comes out, as `use B;`, after `use A;`. -/
theorem orderUseStmts_separator_not_first :
    orderUseStmts "use A\\B;\nuse A1;\n".toList = "use A1;\nuse A\\B;\n".toList ∧
    orderUseStmts "use \\B;\nuse A;\n".toList = "use A;\nuse B;\n".toList := by
  refine ⟨?_, ?_⟩ <;> decide

end format

namespace format

open token naive

theorem perm_insertStmt (x : List Char) (l : List (List Char)) :
    List.Perm (insertStmt x l) (x :: l) := by
  induction l with
  | nil => exact List.Perm.refl _
  | cons y ys ih =>
    simp only [insertStmt]
    split
    · exact List.Perm.refl _
    · exact ((List.Perm.cons y ih).trans (List.Perm.swap x y ys))

theorem perm_sortStmts (l : List (List Char)) : List.Perm (sortStmts l) l := by
  induction l with
  | nil => exact List.Perm.refl _
  | cons x xs ih => exact (perm_insertStmt x _).trans (List.Perm.cons x ih)

theorem length_sortStmts (l : List (List Char)) : (sortStmts l).length = l.length :=
  (perm_sortStmts l).length_eq

theorem length_orderLines (ls stmts : List (List Char)) :
    (orderLines ls stmts).length = stmts.length + ls.length := by
  induction ls generalizing stmts with
  | nil => simp [orderLines, length_sortStmts]
  | cons line rest ih =>
    simp only [orderLines]
    split
    · rw [ih]; simp only [List.length_append, List.length_cons, List.length_nil]; omega
    · simp only [List.length_append, List.length_cons, ih, length_sortStmts, List.length_nil]; omega

/-- A line that is not collected closes what stands before it. -/
theorem orderLines_split (pre : List (List Char)) (l : List Char) (rest stmts : List (List Char))
    (hl : isUseLine l = false) :
    orderLines (pre ++ l :: rest) stmts = orderLines (pre ++ [l]) stmts ++ orderLines rest [] := by
  induction pre generalizing stmts with
  | nil => simp [orderLines, hl, sortStmts]
  | cons p pre ih =>
    simp only [List.cons_append, orderLines]
    split
    · exact ih _
    · simp [ih]

theorem orderLines_last (pre : List (List Char)) (l : List Char) (stmts : List (List Char))
    (hl : isUseLine l = false) :
    ∃ A, orderLines (pre ++ [l]) stmts = A ++ [l] ∧ A.length = stmts.length + pre.length := by
  induction pre generalizing stmts with
  | nil => exact ⟨sortStmts stmts, by simp [orderLines, hl, sortStmts], by simp [length_sortStmts]⟩
  | cons p pre ih =>
    simp only [List.cons_append, orderLines]
    split
    · obtain ⟨A, e, n⟩ := ih (stmts ++ [useStmt p])
      exact ⟨A, e, by simp at n ⊢; omega⟩
    · obtain ⟨A, e, n⟩ := ih []
      exact ⟨sortStmts stmts ++ p :: A, by simp [e], by simp [length_sortStmts] at n ⊢; omega⟩

theorem orderLines_run (run rest stmts : List (List Char))
    (h : ∀ l ∈ run, isUseLine l = true) :
    orderLines (run ++ rest) stmts = orderLines rest (stmts ++ run.map useStmt) := by
  induction run generalizing stmts with
  | nil => simp
  | cons p run ih =>
    have hp : isUseLine p = true := h p (by simp)
    have e := ih (stmts ++ [useStmt p]) (fun l hl => h l (by simp [hl]))
    rw [List.cons_append, orderLines, if_pos hp, e]
    simp

/-- The lines written for a text cut into what stands before a run, the run, and what follows. -/
theorem orderLines_parts (pre run post : List (List Char))
    (hpre : pre = [] ∨ ∃ pre0 l, pre = pre0 ++ [l] ∧ isUseLine l = false)
    (hrun : ∀ l ∈ run, isUseLine l = true)
    (hpost : post = [] ∨ ∃ p post0, post = p :: post0 ∧ isUseLine p = false) :
    ∃ A B, orderLines (pre ++ (run ++ post)) [] = A ++ (sortStmts (run.map useStmt) ++ B)
      ∧ A.length = pre.length := by
  have hmid : ∃ B, orderLines (run ++ post) [] = sortStmts (run.map useStmt) ++ B := by
    rw [orderLines_run run post [] hrun]
    rcases hpost with rfl | ⟨p, post0, rfl, hp⟩
    · exact ⟨[], by simp [orderLines]⟩
    · exact ⟨p :: orderLines post0 [], by simp [orderLines, hp]⟩
  obtain ⟨B, hB⟩ := hmid
  rcases hpre with rfl | ⟨pre0, l, rfl, hl⟩
  · exact ⟨[], B, by simpa using hB, rfl⟩
  · obtain ⟨A, hA, n⟩ := orderLines_last pre0 l [] hl
    refine ⟨A ++ [l], B, ?_, by simp at n ⊢; omega⟩
    rw [List.append_assoc, List.singleton_append, orderLines_split pre0 l _ [] hl, hA, hB]

theorem orderLines_fixed (ls : List (List Char)) (i : Nat) (l : List Char)
    (hi : ls[i]? = some l) (hl : isUseLine l = false) : (orderLines ls [])[i]? = some l := by
  have hlt : i < ls.length := by
    by_contra hn
    rw [List.getElem?_eq_none (by omega)] at hi
    exact Option.noConfusion hi
  have e : ls = ls.take i ++ l :: ls.drop (i + 1) := by
    conv_lhs => rw [← List.take_append_drop i ls]
    congr 1
    rw [List.drop_eq_getElem_cons hlt]
    congr 1
    have := List.getElem?_eq_getElem hlt
    rw [this] at hi
    exact Option.some.inj hi
  have n : (ls.take i).length = i := by simp; omega
  rw [e, orderLines_split _ l _ [] hl]
  obtain ⟨A, hA, nA⟩ := orderLines_last (ls.take i) l [] hl
  have nA2 : A.length = i := by simp at nA; omega
  rw [hA, List.append_assoc, List.getElem?_append_right (by omega)]
  simp [nA2]

theorem orderLines_permutes (ls : List (List Char)) (i n : Nat)
    (hrun : ∀ k, i ≤ k → k < i + n → ∃ l, ls[k]? = some l ∧ isUseLine l = true)
    (hpre : i = 0 ∨ ∃ l, ls[i - 1]? = some l ∧ isUseLine l = false)
    (hpost : i + n = ls.length ∨ ∃ l, ls[i + n]? = some l ∧ isUseLine l = false) :
    List.Perm (((orderLines ls []).drop i).take n) (((ls.drop i).take n).map useStmt) := by
  rcases Nat.eq_zero_or_pos n with rfl | hn
  · simp
  have hlen : i + n ≤ ls.length := by
    obtain ⟨l, e, _⟩ := hrun (i + n - 1) (by omega) (by omega)
    by_contra hc
    rw [List.getElem?_eq_none (by omega)] at e
    exact Option.noConfusion e
  have e : ls = ls.take i ++ ((ls.drop i).take n ++ ls.drop (i + n)) := by
    conv_lhs => rw [← List.take_append_drop i ls, ← List.take_append_drop n (ls.drop i)]
    simp [List.drop_drop, Nat.add_comm]
  have n1 : (ls.take i).length = i := by simp; omega
  have n2 : ((ls.drop i).take n).length = n := by simp; omega
  have h1 : ls.take i = [] ∨ ∃ pre0 l, ls.take i = pre0 ++ [l] ∧ isUseLine l = false := by
    rcases hpre with rfl | ⟨l, hl, hu⟩
    · exact Or.inl (by simp)
    · rcases Nat.eq_zero_or_pos i with rfl | hi
      · exact Or.inl (by simp)
      · refine Or.inr ⟨ls.take (i - 1), l, ?_, hu⟩
        have : i = (i - 1) + 1 := by omega
        conv_lhs => rw [this, List.take_succ, hl]
        rfl
  have h2 : ∀ l ∈ (ls.drop i).take n, isUseLine l = true := by
    intro l hl
    obtain ⟨k, hk⟩ := List.mem_iff_getElem?.mp hl
    have hkn : k < n := by
      by_contra hc
      rw [List.getElem?_eq_none (by omega)] at hk
      exact Option.noConfusion hk
    rw [List.getElem?_take_of_lt hkn, List.getElem?_drop] at hk
    obtain ⟨l1, e1, u1⟩ := hrun (i + k) (by omega) (by omega)
    rw [hk] at e1
    cases e1
    exact u1
  have h3 : ls.drop (i + n) = [] ∨
      ∃ p post0, ls.drop (i + n) = p :: post0 ∧ isUseLine p = false := by
    rcases hpost with h | ⟨l, hl, hu⟩
    · exact Or.inl (by simp [h])
    · have hlt : i + n < ls.length := by
        by_contra hc
        rw [List.getElem?_eq_none (by omega)] at hl
        exact Option.noConfusion hl
      refine Or.inr ⟨l, ls.drop (i + n + 1), ?_, hu⟩
      rw [List.drop_eq_getElem_cons hlt]
      congr 1
      rw [List.getElem?_eq_getElem hlt] at hl
      exact Option.some.inj hl
  obtain ⟨A, B, hAB, nA⟩ := orderLines_parts _ _ _ h1 h2 h3
  rw [← e] at hAB
  have nA2 : A.length = i := by omega
  have nS : (sortStmts (((ls.drop i).take n).map useStmt)).length = n := by
    rw [length_sortStmts]; simp; omega
  rw [hAB, List.drop_left' nA2, List.take_left' nS]
  exact perm_sortStmts _

/-- C12: for every text whose lines all end in a newline, the output of
`orderUseStmts` has as many lines as the input; a line that does not start with
`use ` or that contains `\x7b` stands unchanged at its index; and where a maximal run of
sortable lines stood, the same positions hold a permutation of the lines of the run,
each without the backslashes directly after `use `. -/
theorem orderUseStmts_permutes_runs (src : List Char)
    (h : ∀ l ∈ lines src, l.getLast? = some '\n') :
    (lines (orderUseStmts src)).length = (lines src).length ∧
    (∀ (i : Nat) (l : List Char), (lines src)[i]? = some l → isUseLine l = false →
      (lines (orderUseStmts src))[i]? = some l) ∧
    (∀ i n : Nat, (∀ k, i ≤ k → k < i + n → ∃ l, (lines src)[k]? = some l ∧ isUseLine l = true) →
      (i = 0 ∨ ∃ l, (lines src)[i - 1]? = some l ∧ isUseLine l = false) →
      (i + n = (lines src).length ∨ ∃ l, (lines src)[i + n]? = some l ∧ isUseLine l = false) →
      List.Perm (((lines (orderUseStmts src)).drop i).take n)
        ((((lines src).drop i).take n).map useStmt)) := by
  have hp : ∀ l ∈ lines src, ProperLine l :=
    fun l hl => proper_of_last l (lines_shape src l hl) (h l hl)
  have hq := proper_orderLines (lines src) [] hp (by simp)
  rw [orderUseStmts, orderLoop_eq_flatten, lines_flatten _ hq]
  refine ⟨by simpa using length_orderLines (lines src) [], ?_, ?_⟩
  · exact fun i l hi hl => orderLines_fixed _ i l hi hl
  · exact fun i n h1 h2 h3 => orderLines_permutes _ i n h1 h2 h3

theorem orderUseStmts_permutes_runs_witness :
    (∀ l ∈ lines "a\nuse B;\nuse \\A;\nx\n".toList, l.getLast? = some '\n') ∧
    lines (orderUseStmts "a\nuse B;\nuse \\A;\nx\n".toList)
      = ["a\n".toList, "use A;\n".toList, "use B;\n".toList, "x\n".toList] ∧
    (lines (orderUseStmts "a\nuse B;\nuse \\A;\nx\n".toList)).length
      = (lines "a\nuse B;\nuse \\A;\nx\n".toList).length :=
  ⟨by decide, by decide,
   (orderUseStmts_permutes_runs "a\nuse B;\nuse \\A;\nx\n".toList (by decide)).1⟩

end format

namespace token

/-! ### The primitive operations of the scanner -/

theorem read_done (s : Scanner) (h : s.done = true) : s.read = (none, s) := by
  simp [Scanner.read, h]

theorem read_nil (s : Scanner) (h : s.done = false) (hr : s.r = []) :
    s.read = (none, { s with done := true, lastRune := none }) := by
  simp [Scanner.read, h, hr]

theorem read_cons (s : Scanner) (c : Char) (t : List Char) (h : s.done = false)
    (hr : s.r = c :: t) :
    s.read.1 = some c ∧ s.read.2.r = t ∧ s.read.2.done = false ∧ s.read.2.lastRune = some c := by
  by_cases hc : c = '\n' <;> simp [Scanner.read, h, hr, hc]

theorem read_pos (s : Scanner) (c : Char) (t : List Char) (h : s.done = false)
    (hr : s.r = c :: t) (hc : c ≠ '\n') :
    s.read.2.line = s.line ∧ s.read.2.col = s.col + 1 := by
  simp [Scanner.read, h, hr, hc]

@[simp] theorem read_err (s : Scanner) : s.read.2.err = s.err := by
  unfold Scanner.read; split
  · rfl
  · split
    · rfl
    · split <;> rfl

@[simp] theorem read_queue (s : Scanner) : s.read.2.queue = s.queue := by
  unfold Scanner.read; split
  · rfl
  · split
    · rfl
    · split <;> rfl

@[simp] theorem read_state (s : Scanner) : s.read.2.state = s.state := by
  unfold Scanner.read; split
  · rfl
  · split
    · rfl
    · split <;> rfl

@[simp] theorem unread_err (s : Scanner) : s.unread.err = s.err := by
  unfold Scanner.unread; split
  · rfl
  · split
    · rfl
    · simp only []; split <;> rfl

@[simp] theorem unread_queue (s : Scanner) : s.unread.queue = s.queue := by
  unfold Scanner.unread; split
  · rfl
  · split
    · rfl
    · simp only []; split <;> rfl

@[simp] theorem unread_state (s : Scanner) : s.unread.state = s.state := by
  unfold Scanner.unread; split
  · rfl
  · split
    · rfl
    · simp only []; split <;> rfl

theorem peek_eq (s : Scanner) : s.peek = (s.read.1, s.read.2.unread) := rfl

@[simp] theorem peek_err (s : Scanner) : s.peek.2.err = s.err := by simp [peek_eq]
@[simp] theorem peek_queue (s : Scanner) : s.peek.2.queue = s.queue := by simp [peek_eq]
@[simp] theorem peek_state (s : Scanner) : s.peek.2.state = s.state := by simp [peek_eq]
theorem peek_fst_cons (s : Scanner) (c : Char) (t : List Char) (h : s.done = false)
    (hr : s.r = c :: t) : s.peek.1 = some c := (read_cons s c t h hr).1

theorem peek_fst_nil (s : Scanner) (hr : s.r = []) : s.peek.1 = none := by
  cases h : s.done <;> simp [peek_eq, Scanner.read, h, hr]

@[simp] theorem peek_r (s : Scanner) : s.peek.2.r = s.r := by
  obtain ⟨r, lr, st, q, d, e, ln, cl, lll⟩ := s
  cases d
  · cases r with
    | nil => simp [peek_eq, Scanner.read, Scanner.unread]
    | cons c t =>
      by_cases hc : c = '\n'
      · simp [peek_eq, Scanner.read, Scanner.unread, hc]
      · simp only [peek_eq, Scanner.read, Scanner.unread, hc, if_false, Bool.false_eq_true]
        split <;> rfl
  · simp [peek_eq, Scanner.read, Scanner.unread]

theorem peek_done (s : Scanner) : s.peek.2.done = (s.done || s.r.isEmpty) := by
  obtain ⟨r, lr, st, q, d, e, ln, cl, lll⟩ := s
  cases d
  · cases r with
    | nil => simp [peek_eq, Scanner.read, Scanner.unread]
    | cons c t =>
      by_cases hc : c = '\n'
      · simp [peek_eq, Scanner.read, Scanner.unread, hc]
      · simp only [peek_eq, Scanner.read, Scanner.unread, hc, if_false, Bool.false_eq_true]
        split <;> rfl
  · simp [peek_eq, Scanner.read, Scanner.unread]

theorem peek_pos (s : Scanner) (hcol : 1 ≤ s.col) :
    s.peek.2.line = s.line ∧ s.peek.2.col = s.col := by
  obtain ⟨r, lr, st, q, d, e, ln, cl, lll⟩ := s
  simp only at hcol
  cases d
  · cases r with
    | nil => simp [peek_eq, Scanner.read, Scanner.unread]
    | cons c t =>
      by_cases hc : c = '\n'
      · simp [peek_eq, Scanner.read, Scanner.unread, hc]
      · have h0 : ¬ cl = 0 := by omega
        simp [peek_eq, Scanner.read, Scanner.unread, hc, h0]
  · simp [peek_eq, Scanner.read, Scanner.unread]

theorem skip_word (v rest : List Char) (s : Scanner) (hd : s.done = false)
    (hr : s.r = v ++ rest) (hv : '\n' ∉ v) :
    (s.skip v.length).r = rest ∧ (s.skip v.length).done = false ∧
    (s.skip v.length).line = s.line ∧ (s.skip v.length).col = s.col + v.length ∧
    (s.skip v.length).err = s.err ∧ (s.skip v.length).queue = s.queue ∧
    (s.skip v.length).state = s.state := by
  induction v generalizing s with
  | nil => simpa [Scanner.skip, hd] using hr
  | cons c cs ih =>
    have hc : c ≠ '\n' := fun e => hv (by simp [e])
    obtain ⟨_, h2, h3, _⟩ := read_cons s c (cs ++ rest) hd hr
    obtain ⟨h4, h5⟩ := read_pos s c (cs ++ rest) hd hr hc
    have := ih s.read.2 h3 h2 (fun e => hv (by simp [e]))
    simp only [Scanner.skip, List.length_cons, this, h4, h5, read_err, read_queue, read_state,
      true_and, and_true]
    push_cast
    omega

theorem identChar_ne_newline (some : Bool) (c : Char) (h : identChar some c = true) :
    c ≠ '\n' := by
  rintro rfl
  revert h
  cases some <;> decide

theorem identWord_no_newline (some : Bool) (v : List Char) (h : identWord some v = true) :
    '\n' ∉ v := by
  induction v generalizing some with
  | nil => simp
  | cons c cs ih =>
    simp only [identWord, Bool.and_eq_true] at h
    simp only [List.mem_cons, not_or]
    exact ⟨fun e => identChar_ne_newline some c h.1 e.symm, ih true h.2⟩

theorem scanIdentLoop_succ (n : Nat) (s : Scanner) (b : List Char) :
    scanIdentLoop (n + 1) s b =
      match s.read.1 with
      | some c =>
        if identChar (!b.isEmpty) c then scanIdentLoop n s.read.2 (b ++ [c]) else (b, s.peek.2)
      | none => (b, s.peek.2) := by
  rcases h : s.read with ⟨_ | c, s1⟩
  · simp [scanIdentLoop, h, peek_eq]
  · simp only [scanIdentLoop, h, peek_eq, identChar]
    by_cases h1 : isIdentStart c = true
    · simp [h1]
    · simp [h1]

/-- `scanIdent` on a text that starts with a word the loop accepts and stops after. -/
theorem scanIdentLoop_word (v rest : List Char) (n : Nat) (s : Scanner) (b : List Char)
    (hd : s.done = false) (hr : s.r = v ++ rest) (hv : identWord (!b.isEmpty) v = true)
    (hs : identStop (!(b ++ v).isEmpty) rest = true) (hn : v.length < n) :
    scanIdentLoop n s b = (b ++ v, (s.skip v.length).peek.2) := by
  induction v generalizing n s b with
  | nil =>
    obtain ⟨m, rfl⟩ : ∃ m, n = m + 1 := ⟨n - 1, by simp at hn; omega⟩
    rw [scanIdentLoop_succ]
    cases rest with
    | nil =>
      have : s.read.1 = none := by simp [read_nil s hd (by simpa using hr)]
      simp [this, Scanner.skip]
    | cons c t =>
      have := (read_cons s c t hd (by simpa using hr)).1
      simp only [identStop, List.append_nil, Bool.not_eq_true'] at hs
      simp [this, hs, Scanner.skip]
  | cons c cs ih =>
    obtain ⟨m, rfl⟩ : ∃ m, n = m + 1 := ⟨n - 1, by simp at hn; omega⟩
    obtain ⟨h1, h2, h3, _⟩ := read_cons s c (cs ++ rest) hd hr
    simp only [identWord, Bool.and_eq_true] at hv
    rw [scanIdentLoop_succ, h1]
    simp only [hv.1, if_true]
    rw [ih m s.read.2 (b ++ [c]) h3 h2 (by rw [show (!(b ++ [c]).isEmpty) = true by simp]; exact hv.2) (by simpa using hs)
      (by simp at hn; omega)]
    simp [Scanner.skip]

theorem identStart_ne (c d : Char) (h : isIdentStart c = true) (hd : isIdentStart d = false) :
    c ≠ d := by
  rintro rfl
  rw [h] at hd
  cases hd

theorem identStart_not_space (c : Char) (h : isIdentStart c = true) : isSpaceRune c = false := by
  have h1 := identStart_ne c ' ' h (by decide)
  have h2 := identStart_ne c '\t' h (by decide)
  have h3 := identStart_ne c '\r' h (by decide)
  have h4 := identStart_ne c '\n' h (by decide)
  simp [isSpaceRune, h1, h2, h3, h4]

theorem identStart_not_digit (c : Char) (h : isIdentStart c = true) :
    isDigit (some c) = false := by
  simp only [isIdentStart, Bool.or_eq_true, beq_iff_eq, Bool.and_eq_true, decide_eq_true_eq,
    ge_iff_le] at h
  simp only [isDigit, Bool.and_eq_false_iff, decide_eq_false_iff_not]
  have e0 : ('0' : Char).toNat = 48 := rfl
  have e9 : ('9' : Char).toNat = 57 := rfl
  by_cases h9 : c ≤ '9'
  · left
    have h9n : c.toNat ≤ ('9' : Char).toNat := h9
    rcases h with ((rfl | ⟨h1, _⟩) | ⟨h1, _⟩) | h1
    · exact absurd h9 (by decide)
    · have : ('a' : Char).toNat ≤ c.toNat := h1
      have e : ('a' : Char).toNat = 97 := rfl
      omega
    · have : ('A' : Char).toNat ≤ c.toNat := h1
      have e : ('A' : Char).toNat = 65 := rfl
      omega
    · omega
  · right; exact h9

/-- The last case of the switch of `scanAny`: a rune that starts an identifier. -/
theorem scanAnyRune_word (s s2 : Scanner) (c : Char) (v : List Char)
    (hc : isIdentStart c = true) (hid : (s.unread).scanIdent = (v, s2)) (hv : v ≠ []) :
    s.scanAnyRune c =
      match keywords (toLower v) with
      | some t => (Token.mk0 t v, s2)
      | none =>
        if toLower v = "elseif".toList then
          (Token.mk0 .Else (v.take 4),
            { s2 with queue := s2.queue ++ [⟨.If, v.drop 4, ⟨s2.line, s2.col - 2⟩⟩] })
        else (Token.mk0 .Ident v, s2) := by
  have hne : ∀ d, isIdentStart d = false → c ≠ d := fun d hd => identStart_ne c d hc hd
  simp only [Scanner.scanAnyRune, hne '/' (by decide), hne '#' (by decide), hne '$' (by decide),
    hne '\\' (by decide), hne '?' (by decide), hne '(' (by decide), hne ')' (by decide),
    hne '[' (by decide), hne ']' (by decide), hne '{' (by decide), hne '}' (by decide),
    hne '=' (by decide), hne '!' (by decide), hne '+' (by decide), hne '-' (by decide),
    hne '*' (by decide), hne '%' (by decide), hne '<' (by decide), hne '>' (by decide),
    hne '.' (by decide), hne ',' (by decide), hne ':' (by decide), hne ';' (by decide),
    hne '|' (by decide), hne '&' (by decide), hne '^' (by decide), hne '~' (by decide),
    hne '@' (by decide), hne '\'' (by decide), hne '"' (by decide),
    identStart_not_space c hc, identStart_not_digit c hc, if_false, hid]
  have hv2 : v.isEmpty = false := by cases v <;> simp at hv ⊢
  simp only [hv2, Bool.not_false, if_true]
  cases keywords (toLower v) <;> rfl

/-- The kinds the deferred function of `scanAny` shifts. -/
theorem scanAny_plain (s s2 : Scanner) (c : Char) (tok : Token) (h1 : s.read.1 = some c)
    (h2 : (s.read.2).scanAnyRune c = (tok, s2))
    (h3 : (decide (Typ.Add.toNat ≤ tok.typ.toNat)
      && decide (tok.typ.toNat ≤ Typ.Coalesce.toNat)) = false) :
    s.scanAny = (tok, s2) := by
  rcases hrd : s.read with ⟨r, s1⟩
  rw [hrd] at h1 h2
  simp only at h1 h2
  subst h1
  simp only [Scanner.scanAny, hrd, h2, h3]
  simp

/-- `Next` in script mode with an empty queue, from the result of `scanAny`. -/
theorem Next_scan (s s2 : Scanner) (tok : Token) (hq : s.queue = []) (hs : s.state = inPHP)
    (h : s.scanAny = (tok, s2)) (h1 : tok.typ ≠ .OpenTag) (h2 : tok.typ ≠ .CloseTag) :
    s.Next = (⟨tok.typ, if tok.text.isEmpty && tok.typ.isSymbol then tok.typ.str else tok.text,
      s.getPos⟩, s2) := by
  have hs2 : ¬ s.state = inHTML := by rw [hs]; decide
  cases ht : (tok.text.isEmpty && tok.typ.isSymbol) <;>
    simp only [Scanner.Next, hq, hs2, if_false, h, ht, if_true, Bool.false_eq_true]

theorem Next_queue (s : Scanner) (t : Token) (q : List Token) (hq : s.queue = t :: q)
    (h1 : t.typ ≠ .OpenTag) (h2 : t.typ ≠ .CloseTag) :
    s.Next = (t, { s with queue := q }) := by
  simp only [Scanner.Next, hq]

/-- The scanner after a word was read by `scanAny`: put back, read again, and the
rune after it peeked. -/
theorem scanIdent_word (s : Scanner) (v rest : List Char) (hd : s.done = false)
    (hr : s.r = v ++ rest) (hv : identWord false v = true) (hne : v ≠ [])
    (hstop : identStop true rest = true) :
    (s.read.2.unread).scanIdent = (v, ((s.peek.2).skip v.length).peek.2) := by
  have hd2 : s.peek.2.done = false := by
    rw [peek_done, hd, hr]
    cases v with
    | nil => exact absurd rfl hne
    | cons c cs => rfl
  have hr2 : s.peek.2.r = v ++ rest := by rw [peek_r, hr]
  have hv2 : (!(([] : List Char) ++ v).isEmpty) = true := by
    cases v with
    | nil => exact absurd rfl hne
    | cons c cs => rfl
  have := scanIdentLoop_word v rest (s.peek.2.r.length + 1) s.peek.2 [] hd2 hr2 hv
    (by rw [hv2]; exact hstop) (by rw [hr2]; simp; omega)
  simpa [Scanner.scanIdent, peek_eq] using this

theorem keywords_some (k : List Char) (t : Typ) (h : keywords k = some t) :
    t ∈ keywordList ∧ t.str = k := by
  unfold keywords at h
  exact ⟨List.mem_of_find?_eq_some h, by simpa using List.find?_some h⟩

theorem keywordList_plain : ∀ t ∈ keywordList,
    (decide (Typ.Add.toNat ≤ t.toNat) && decide (t.toNat ≤ Typ.Coalesce.toNat)) = false
      ∧ t ≠ .OpenTag ∧ t ≠ .CloseTag := by
  decide

theorem keywordList_str : ∀ t ∈ keywordList, keywords t.str = some t := by
  decide

theorem word_head (v : List Char) (hv : identWord false v = true) (hne : v ≠ []) :
    ∃ c cs, v = c :: cs ∧ isIdentStart c = true := by
  cases v with
  | nil => exact absurd rfl hne
  | cons c cs =>
    refine ⟨c, cs, rfl, ?_⟩
    simp only [identWord, identChar, Bool.and_false, Bool.or_false, Bool.and_eq_true] at hv
    exact hv.1

/-- `Next` on a word whose lower-case form is a keyword. -/
theorem Next_word_keyword (s : Scanner) (v rest : List Char) (t : Typ) (hq : s.queue = [])
    (hs : s.state = inPHP) (hd : s.done = false) (hr : s.r = v ++ rest)
    (hv : identWord false v = true) (hne : v ≠ []) (hstop : identStop true rest = true)
    (hk : keywords (toLower v) = some t) :
    s.Next = (⟨t, v, s.getPos⟩, ((s.peek.2).skip v.length).peek.2) := by
  obtain ⟨c, cs, rfl, hc⟩ := word_head v hv hne
  obtain ⟨h1, h2, h3⟩ := keywordList_plain t (keywords_some _ _ hk).1
  have hrd := (read_cons s c (cs ++ rest) hd hr).1
  have hid := scanIdent_word s (c :: cs) rest hd hr hv hne hstop
  have hrune := scanAnyRune_word s.read.2 _ c (c :: cs) hc hid hne
  rw [hk] at hrune
  have hany := scanAny_plain s _ c _ hrd hrune h1
  rw [Next_scan s _ _ hq hs hany h2 h3]
  simp [Token.mk0]

/-- `Next` on a word whose lower-case form is neither a keyword nor `elseif`. -/
theorem Next_word_ident (s : Scanner) (v rest : List Char) (hq : s.queue = [])
    (hs : s.state = inPHP) (hd : s.done = false) (hr : s.r = v ++ rest)
    (hv : identWord false v = true) (hne : v ≠ []) (hstop : identStop true rest = true)
    (hk : keywords (toLower v) = none) (he : toLower v ≠ "elseif".toList) :
    s.Next = (⟨.Ident, v, s.getPos⟩, ((s.peek.2).skip v.length).peek.2) := by
  obtain ⟨c, cs, rfl, hc⟩ := word_head v hv hne
  have hrd := (read_cons s c (cs ++ rest) hd hr).1
  have hid := scanIdent_word s (c :: cs) rest hd hr hv hne hstop
  have hrune := scanAnyRune_word s.read.2 _ c (c :: cs) hc hid hne
  rw [hk] at hrune
  simp only [he, if_false] at hrune
  have hany := scanAny_plain s _ c _ hrd hrune rfl
  rw [Next_scan s _ _ hq hs hany (by simp [Token.mk0]) (by simp [Token.mk0])]
  simp [Token.mk0]

end token

namespace token

theorem word_rest (s : Scanner) (v rest : List Char) (hd : s.done = false)
    (hr : s.r = v ++ rest) (hv : identWord false v = true) (hne : v ≠ []) :
    (((s.peek.2).skip v.length).peek.2).r = rest ∧
    (((s.peek.2).skip v.length).peek.2).queue = s.queue ∧
    (((s.peek.2).skip v.length).peek.2).err = s.err ∧
    (1 ≤ s.col → (((s.peek.2).skip v.length).peek.2).line = s.line ∧
      (((s.peek.2).skip v.length).peek.2).col = s.col + v.length) := by
  have hd2 : s.peek.2.done = false := by
    rw [peek_done, hd, hr]
    cases v with
    | nil => exact absurd rfl hne
    | cons c cs => rfl
  have hr2 : s.peek.2.r = v ++ rest := by rw [peek_r, hr]
  obtain ⟨h1, h2, h3, h4, h5, h6, _⟩ :=
    skip_word v rest s.peek.2 hd2 hr2 (identWord_no_newline false v hv)
  refine ⟨by rw [peek_r, h1], by rw [peek_queue, h6, peek_queue], by rw [peek_err, h5, peek_err],
    ?_⟩
  intro hcol
  obtain ⟨p1, p2⟩ := peek_pos s hcol
  have hc2 : 1 ≤ ((s.peek.2).skip v.length).col := by rw [h4, p2]; omega
  obtain ⟨q1, q2⟩ := peek_pos _ hc2
  exact ⟨by rw [q1, h3, p1], by rw [q2, h4, p2]⟩

theorem keywords_none (k : List Char) (h : ∀ t ∈ keywordList, k ≠ t.str) : keywords k = none := by
  unfold keywords
  rw [List.find?_eq_none]
  intro t ht
  simpa using fun e => h t ht e.symm

/-- C13 (amended): in script mode with an empty queue, at a whole word `v` (identifier
characters, followed by the end of the input or by a character that does not continue an
identifier), `Next` returns one token at the position of the word: when the lower-case
form of `v` is the word of a keyword, the token has that keyword's kind and the text
`v` as spelled; when the lower-case form is neither a keyword nor `elseif`, it is an
`Ident` token with the text `v`.  The scanner is left at the rest, with nothing queued. -/
theorem Next_keyword_or_ident (s : Scanner) (v rest : List Char) (hq : s.queue = [])
    (hs : s.state = inPHP) (hd : s.done = false) (hr : s.r = v ++ rest)
    (hv : identWord false v = true) (hne : v ≠ []) (hstop : identStop true rest = true) :
    (∀ t ∈ keywordList, toLower v = t.str →
      s.Next.1 = ⟨t, v, s.getPos⟩ ∧ s.Next.2.r = rest ∧ s.Next.2.queue = []) ∧
    ((∀ t ∈ keywordList, toLower v ≠ t.str) → toLower v ≠ "elseif".toList →
      s.Next.1 = ⟨.Ident, v, s.getPos⟩ ∧ s.Next.2.r = rest ∧ s.Next.2.queue = []) := by
  obtain ⟨w1, w2, _, _⟩ := word_rest s v rest hd hr hv hne
  constructor
  · intro t ht e
    have hk : keywords (toLower v) = some t := by rw [e]; exact keywordList_str t ht
    rw [Next_word_keyword s v rest t hq hs hd hr hv hne hstop hk]
    exact ⟨rfl, w1, by rw [w2, hq]⟩
  · intro h1 h2
    rw [Next_word_ident s v rest hq hs hd hr hv hne hstop (keywords_none _ h1) h2]
    exact ⟨rfl, w1, by rw [w2, hq]⟩

theorem Next_keyword_or_ident_witness :
    ((NewScanner "<?php ForEach(".toList true).Next.2.Next.2).queue = [] ∧
    ((NewScanner "<?php ForEach(".toList true).Next.2.Next.2).state = inPHP ∧
    ((NewScanner "<?php ForEach(".toList true).Next.2.Next.2).done = false ∧
    ((NewScanner "<?php ForEach(".toList true).Next.2.Next.2).r = "ForEach".toList ++ "(".toList ∧
    identWord false "ForEach".toList = true ∧ "ForEach".toList ≠ [] ∧
    identStop true "(".toList = true ∧ Typ.Foreach ∈ keywordList ∧
    toLower "ForEach".toList = Typ.Foreach.str ∧
    ((NewScanner "<?php ForEach(".toList true).Next.2.Next.2).Next.1
      = ⟨.Foreach, "ForEach".toList,
          ((NewScanner "<?php ForEach(".toList true).Next.2.Next.2).getPos⟩ ∧
    ((NewScanner "<?php ForEach(".toList true).Next.2.Next.2).Next.2.r = "(".toList ∧
    ((NewScanner "<?php ForEach(".toList true).Next.2.Next.2).Next.2.queue = [] :=
  ⟨by decide, by decide, by decide, by decide, by decide, by decide, by decide, by decide,
   by decide,
   (Next_keyword_or_ident ((NewScanner "<?php ForEach(".toList true).Next.2.Next.2)
      "ForEach".toList "(".toList (by decide) (by decide) (by decide) (by decide) (by decide)
      (by decide) (by decide)).1 .Foreach (by decide) (by decide)⟩

/-- C13 (the claim at an input): `elseif` is not a word of the keyword set, and the
scanner returns for it a token of kind `Else`, not `Ident`. -/
theorem Next_elseif_not_ident :
    keywords "elseif".toList = none ∧
    (∀ t ∈ keywordList, t.str ≠ "elseif".toList) ∧
    ((NewScanner "<?php elseif".toList true).Next.2.Next.2).Next.1
      = ⟨.Else, "else".toList, ⟨1, 7⟩⟩ := by
  refine ⟨by decide, by decide, by decide⟩


theorem identStart_of_lower (c : Char) (h : isIdentStart (toLowerRune c) = true) :
    isIdentStart c = true := by
  unfold toLowerRune at h
  split at h
  · rename_i hu
    simp only [Bool.and_eq_true, decide_eq_true_eq] at hu
    simp [isIdentStart, hu.1, hu.2]
  · split at h
    · rename_i h1
      simp [isIdentStart, h1]
    · split at h
      · rename_i h1
        simp [isIdentStart, h1]
      · exact h

theorem identWord_of_starts (b : Bool) (v : List Char) (h : ∀ c ∈ v, isIdentStart c = true) :
    identWord b v = true := by
  induction v generalizing b with
  | nil => rfl
  | cons c cs ih =>
    simp only [identWord, identChar, Bool.and_eq_true, Bool.or_eq_true]
    exact ⟨Or.inl (h c (by simp)), ih true (fun d hd => h d (by simp [hd]))⟩

theorem identWord_of_lower (v w : List Char) (h : toLower v = w)
    (hw : ∀ c ∈ w, isIdentStart c = true) : identWord false v = true := by
  apply identWord_of_starts
  intro c hc
  apply identStart_of_lower
  apply hw
  rw [← h]
  exact List.mem_map_of_mem _ hc

/-- `Next` on a word whose lower-case form is `elseif`. -/
theorem Next_word_elseif (s : Scanner) (v rest : List Char) (hq : s.queue = [])
    (hs : s.state = inPHP) (hd : s.done = false) (hr : s.r = v ++ rest)
    (hv : identWord false v = true) (hne : v ≠ []) (hstop : identStop true rest = true)
    (he : toLower v = "elseif".toList) :
    s.Next = (⟨.Else, v.take 4, s.getPos⟩,
      { ((s.peek.2).skip v.length).peek.2 with
        queue := (((s.peek.2).skip v.length).peek.2).queue ++
          [⟨.If, v.drop 4, ⟨(((s.peek.2).skip v.length).peek.2).line,
            (((s.peek.2).skip v.length).peek.2).col - 2⟩⟩] }) := by
  obtain ⟨c, cs, rfl, hc⟩ := word_head v hv hne
  have hrd := (read_cons s c (cs ++ rest) hd hr).1
  have hid := scanIdent_word s (c :: cs) rest hd hr hv hne hstop
  have hrune := scanAnyRune_word s.read.2 _ c (c :: cs) hc hid hne
  have hk : keywords (toLower (c :: cs)) = none := by rw [he]; decide
  rw [hk] at hrune
  simp only [he, if_true] at hrune
  have hany := scanAny_plain s _ c _ hrd hrune rfl
  rw [Next_scan s _ _ hq hs hany (by simp [Token.mk0]) (by simp [Token.mk0])]
  simp [Token.mk0]

/-- C14: in script mode with an empty queue, at a whole word `v` whose lower-case form
is `elseif` and that starts at line `l`, column `c` (from 1), `Next` returns an `Else`
token with the first four characters of `v` at `(l, c)`, and the call after it returns
an `If` token with the other two at `(l, c + 4)`. -/
theorem Next_elseif_split (s : Scanner) (v rest : List Char) (hq : s.queue = [])
    (hs : s.state = inPHP) (hd : s.done = false) (hr : s.r = v ++ rest) (hcol : 1 ≤ s.col)
    (he : toLower v = "elseif".toList) (hstop : identStop true rest = true) :
    s.Next.1 = ⟨.Else, v.take 4, ⟨s.line, s.col⟩⟩ ∧
    s.Next.2.Next.1 = ⟨.If, v.drop 4, ⟨s.line, s.col + 4⟩⟩ ∧ v.length = 6 := by
  have hlen : v.length = 6 := by
    have := congrArg List.length he
    simpa [toLower] using this
  have hne : v ≠ [] := by
    rintro rfl
    simp at hlen
  have hv : identWord false v = true := identWord_of_lower v _ he (by decide)
  obtain ⟨w1, w2, _, w4⟩ := word_rest s v rest hd hr hv hne
  obtain ⟨w5, w6⟩ := w4 hcol
  rw [Next_word_elseif s v rest hq hs hd hr hv hne hstop he]
  generalize ((s.peek.2).skip v.length).peek.2 = A at w1 w2 w5 w6
  refine ⟨rfl, ?_, hlen⟩
  rw [Next_queue _ ⟨.If, v.drop 4, ⟨A.line, A.col - 2⟩⟩ [] (by rw [w2, hq]; rfl) (by simp)
    (by simp)]
  rw [w5, w6, hlen]
  have e : s.col + ((6 : Nat) : Int) - 2 = s.col + 4 := by push_cast; omega
  simp only [e]

theorem Next_elseif_split_witness :
    ((NewScanner "<?php ElseIF (".toList true).Next.2.Next.2).queue = [] ∧
    ((NewScanner "<?php ElseIF (".toList true).Next.2.Next.2).state = inPHP ∧
    ((NewScanner "<?php ElseIF (".toList true).Next.2.Next.2).done = false ∧
    ((NewScanner "<?php ElseIF (".toList true).Next.2.Next.2).r
      = "ElseIF".toList ++ " (".toList ∧
    1 ≤ ((NewScanner "<?php ElseIF (".toList true).Next.2.Next.2).col ∧
    toLower "ElseIF".toList = "elseif".toList ∧ identStop true " (".toList = true ∧
    ((NewScanner "<?php ElseIF (".toList true).Next.2.Next.2).Next.1
      = ⟨.Else, "ElseIF".toList.take 4,
          ⟨((NewScanner "<?php ElseIF (".toList true).Next.2.Next.2).line,
           ((NewScanner "<?php ElseIF (".toList true).Next.2.Next.2).col⟩⟩ ∧
    ((NewScanner "<?php ElseIF (".toList true).Next.2.Next.2).Next.2.Next.1
      = ⟨.If, "ElseIF".toList.drop 4,
          ⟨((NewScanner "<?php ElseIF (".toList true).Next.2.Next.2).line,
           ((NewScanner "<?php ElseIF (".toList true).Next.2.Next.2).col + 4⟩⟩ ∧
    "ElseIF".toList.length = 6 :=
  ⟨by decide, by decide, by decide, by decide, by decide, by decide, by decide,
   Next_elseif_split ((NewScanner "<?php ElseIF (".toList true).Next.2.Next.2)
     "ElseIF".toList " (".toList (by decide) (by decide) (by decide) (by decide) (by decide)
     (by decide) (by decide)⟩

end token

namespace token

/-- C15 (the code at the failing input): in `?-=` the case `?` of `scanAny` queues a
ready-made `Sub` token, which the deferred shift to the assignment form never sees: the
scanner returns `?`, `-` and `=`; on `-=` alone it returns the one token `-=`. -/
theorem scanAll_qmark_sub_assign :
    (scanAll "<?php ?-=".toList true).1
      = [⟨.OpenTag, "<?php".toList, ⟨1, 1⟩⟩, ⟨.Whitespace, " ".toList, ⟨1, 6⟩⟩,
         ⟨.Qmark, "?".toList, ⟨1, 7⟩⟩, ⟨.Sub, "-".toList, ⟨1, 8⟩⟩,
         ⟨.Assign, "=".toList, ⟨1, 9⟩⟩, ⟨.EOF, [], ⟨1, 10⟩⟩] ∧
    (scanAll "<?php -=".toList true).1
      = [⟨.OpenTag, "<?php".toList, ⟨1, 1⟩⟩, ⟨.Whitespace, " ".toList, ⟨1, 6⟩⟩,
         ⟨.SubAssign, "-=".toList, ⟨1, 7⟩⟩, ⟨.EOF, [], ⟨1, 9⟩⟩] := by
  refine ⟨?_, ?_⟩ <;> decide

end token

namespace token

theorem read_of_done (s : Scanner) (hd : s.done = true → s.r = []) (c : Char) (t : List Char)
    (hr : s.r = c :: t) : s.done = false := by
  cases h : s.done
  · rfl
  · rw [hd h] at hr
    cases hr

theorem read_fst_nil (s : Scanner) (hr : s.r = []) : s.read.1 = none := by
  cases h : s.done <;> simp [Scanner.read, h, hr]

theorem peek_fst (s : Scanner) (hd : s.done = true → s.r = []) : s.peek.1 = s.r.head? := by
  cases hr : s.r with
  | nil => simpa using peek_fst_nil s hr
  | cons c t => simpa using peek_fst_cons s c t (read_of_done s hd c t hr) hr

theorem peek_done_nil (s : Scanner) (hd : s.done = true → s.r = []) :
    s.peek.2.done = true → s.peek.2.r = [] := by
  rw [peek_done, peek_r]
  intro h
  simp only [Bool.or_eq_true, List.isEmpty_iff] at h
  rcases h with h | h
  · exact hd h
  · exact h

theorem read_done_nil (s : Scanner) (hd : s.done = true → s.r = []) :
    s.read.2.done = true → s.read.2.r = [] := by
  cases hr : s.r with
  | nil =>
    intro _
    cases h : s.done <;> simp [Scanner.read, h, hr]
  | cons c t =>
    have := read_cons s c t (read_of_done s hd c t hr) hr
    intro h
    rw [this.2.2.1] at h
    cases h

/-- The text `scanLineComment` collects. -/
theorem scanLineCommentLoop_text (start rest : List Char) (n : Nat) (s : Scanner) (b : List Char)
    (hd : s.done = true → s.r = []) (hr : s.r = rest) (hn : rest.length < n) :
    (scanLineCommentLoop start n s b).1
      = Token.mk0 .Comment (start ++ (b ++ lineCommentText rest)) := by
  induction rest generalizing n s b with
  | nil =>
    obtain ⟨m, rfl⟩ : ∃ m, n = m + 1 := ⟨n - 1, by simp at hn; omega⟩
    have h1 := read_fst_nil s hr
    rcases hrd : s.read with ⟨_ | c, s1⟩
    · simp [scanLineCommentLoop, hrd, lineCommentText]
    · rw [hrd] at h1
      cases h1
  | cons c t ih =>
    obtain ⟨m, rfl⟩ : ∃ m, n = m + 1 := ⟨n - 1, by simp at hn; omega⟩
    have hd0 := read_of_done s hd c t hr
    obtain ⟨h1, h2, h3, _⟩ := read_cons s c t hd0 hr
    have hd1 : s.read.2.done = true → s.read.2.r = [] := fun h => by rw [h3] at h; cases h
    rcases hrd : s.read with ⟨r, s1⟩
    rw [hrd] at h1 h2 h3 hd1
    simp only at h1 h2 h3 hd1
    subst h1
    simp only [scanLineCommentLoop, hrd]
    by_cases hq : c = '?'
    · have hp : s1.peek.1 = t.head? := by rw [peek_fst s1 hd1, h2]
      rcases hpk : s1.peek with ⟨r2, s2⟩
      have hs2 : s2 = s1.peek.2 := by rw [hpk]
      rw [hpk] at hp
      simp only at hp
      simp only [hq, if_true]
      by_cases hgt : t.head? = some '>'
      · simp [hp, hgt, lineCommentText]
      · have hr2 : ¬ r2 = some '>' := by rw [hp]; exact hgt
        simp only [hr2, if_false]
        rw [ih m s2 _ (by rw [hs2]; exact peek_done_nil s1 hd1) (by rw [hs2, peek_r, h2])
          (by simp at hn; omega)]
        simp [lineCommentText, hgt]
    · simp only [hq, if_false]
      by_cases hnl : c = '\n'
      · simp [hnl, lineCommentText]
      · simp only [hnl, if_false]
        rw [ih m s1 _ hd1 h2 (by simp at hn; omega)]
        simp [lineCommentText, hnl, hq]

theorem scanAnyRune_hash (s : Scanner) :
    s.scanAnyRune '#' = s.scanLineComment "#".toList := by
  rcases hp : s.peek with ⟨r2, sp⟩
  simp [Scanner.scanAnyRune, hp]

theorem scanAnyRune_lbrack (s : Scanner) : s.scanAnyRune '[' = (sym .Lbrack, s) := by
  rcases hp : s.peek with ⟨r2, sp⟩
  simp [Scanner.scanAnyRune, hp]

/-- C17: in script mode with an empty queue, at `#` the scanner returns a `Comment`
token whose text is `#` and the rest of the line, up to its end or to a `?>` inside the
line, whatever follows the `#` and whatever mode bit `NewScanner` was called with. The
text `<?php #[ \Basic] class Foo{}` of the scanner test is scanned, with either mode
bit, to the open tag, a blank and one comment: `#[` is not lexed as `Hash` and
`Lbrack`. -/
theorem Next_hash (s : Scanner) (rest : List Char) (hq : s.queue = []) (hs : s.state = inPHP)
    (hd : s.done = false) (hr : s.r = '#' :: rest) :
    s.Next.1 = ⟨.Comment, '#' :: lineCommentText rest, ⟨s.line, s.col⟩⟩ ∧
    ∀ c : Bool, (scanAll "<?php #[ \\Basic] class Foo{}".toList c).1
      = [⟨.OpenTag, "<?php".toList, ⟨1, 1⟩⟩, ⟨.Whitespace, " ".toList, ⟨1, 6⟩⟩,
         ⟨.Comment, "#[ \\Basic] class Foo{}".toList, ⟨1, 7⟩⟩, ⟨.EOF, [], ⟨1, 29⟩⟩] := by
  refine ⟨?_, fun c => by cases c <;> decide⟩
  obtain ⟨h1, h2, h3, _⟩ := read_cons s '#' rest hd hr
  have htxt := scanLineCommentLoop_text "#".toList rest (s.read.2.r.length + 1) s.read.2 []
    (fun h => by rw [h3] at h; cases h) h2 (by rw [h2]; omega)
  have hrune : s.read.2.scanAnyRune '#'
      = (Token.mk0 .Comment ('#' :: lineCommentText rest),
          (s.read.2.scanLineComment "#".toList).2) := by
    rw [scanAnyRune_hash]
    apply Prod.ext
    · simpa [Scanner.scanLineComment] using htxt
    · rfl
  have hany := scanAny_plain s _ '#' _ h1 hrune rfl
  rw [Next_scan s _ _ hq hs hany (by simp [Token.mk0]) (by simp [Token.mk0])]
  rfl

/-- C17, an instance: after `<?php ` the scanner stands at `#[A]` in script mode and
returns the comment `#[A]`, which ends at the end of the line. -/
theorem Next_hash_witness :
    ((NewScanner "<?php #[A]\n1".toList false).Next.2.Next.2).queue = [] ∧
    ((NewScanner "<?php #[A]\n1".toList false).Next.2.Next.2).state = inPHP ∧
    ((NewScanner "<?php #[A]\n1".toList false).Next.2.Next.2).done = false ∧
    ((NewScanner "<?php #[A]\n1".toList false).Next.2.Next.2).r = '#' :: "[A]\n1".toList ∧
    ((NewScanner "<?php #[A]\n1".toList false).Next.2.Next.2).Next.1
      = ⟨.Comment, "#[A]".toList, ⟨1, 7⟩⟩ :=
  ⟨by decide, by decide, by decide, by decide,
   ((Next_hash ((NewScanner "<?php #[A]\n1".toList false).Next.2.Next.2) "[A]\n1".toList
     (by decide) (by decide) (by decide) (by decide)).1).trans (by decide)⟩

/-- C17 (the comment at an input): the comment that `#` starts in `#[a ?> b` ends before
the `?>`, not at the end of the line. -/
theorem Next_hash_comment_close_tag :
    ((NewScanner "<?php #[a ?> b".toList true).Next.2.Next.2).Next.1
      = ⟨.Comment, "#[a ".toList, ⟨1, 7⟩⟩ ∧
    ((NewScanner "<?php #[a ?> b".toList true).Next.2.Next.2).Next.2.Next.1
      = ⟨.CloseTag, "?>".toList, ⟨1, 11⟩⟩ := by
  refine ⟨?_, ?_⟩ <;> decide

end token

namespace token

/-! ### Steps that keep the error and the end position -/

theorem Keeps.refl (s : Scanner) : Keeps s s := ⟨rfl, Nat.le_refl _, fun h => ⟨h, rfl⟩⟩

theorem Keeps.trans {s t u : Scanner} (h1 : Keeps s t) (h2 : Keeps t u) : Keeps s u := by
  refine ⟨h2.1.trans h1.1, Nat.le_trans h2.2.1 h1.2.1, fun h => ?_⟩
  obtain ⟨a, b⟩ := h1.2.2 h
  obtain ⟨c, d⟩ := h2.2.2 a
  exact ⟨c, d.trans b⟩

theorem Keeps.step {s t : Scanner} {res : Token × Scanner} (h1 : Keeps s t)
    (h2 : ErrStep t res) : ErrStep s res := by
  rcases h2 with h2 | ⟨a, b, e, he, hp⟩
  · exact Or.inl (h2.trans h1.1)
  · refine Or.inr ⟨by rw [← h1.1]; exact a, b, e, he, fun hu hc => ?_⟩
    obtain ⟨c1, c2⟩ := h1.2.2 hc
    rw [hp hu c1, c2]

theorem ErrStep.keep {s : Scanner} {res : Token × Scanner} (h : res.2.err = s.err) :
    ErrStep s res := Or.inl h

theorem Keeps.errStep {s t : Scanner} (h : Keeps s t) (tok : Token) : ErrStep s (tok, t) :=
  Or.inl h.1

theorem keeps_read (s : Scanner) : Keeps s s.read.2 := by
  obtain ⟨r, lr, st, q, d, e, ln, cl, lll⟩ := s
  cases d
  · cases r with
    | nil => simp [Keeps, Scanner.read, endPos, endOf, Scanner.getPos]
    | cons c t =>
      by_cases hc : c = '\n'
      · simp [Keeps, Scanner.read, endPos, endOf, hc]
      · simp only [Keeps, Scanner.read, endPos, endOf, hc, if_false, Bool.false_eq_true,
          List.length_cons, true_and]
        exact ⟨by omega, fun h => ⟨by omega, trivial⟩⟩
  · simp [Keeps, Scanner.read]

theorem keeps_peek (s : Scanner) : Keeps s s.peek.2 := by
  refine ⟨peek_err s, by rw [peek_r], fun h => ?_⟩
  obtain ⟨p1, p2⟩ := peek_pos s h
  refine ⟨by rw [p2]; exact h, ?_⟩
  simp only [endPos, peek_done, peek_r, p1, p2, Scanner.getPos]
  cases hd : s.done
  · cases hr : s.r with
    | nil => simp [endOf]
    | cons c t => simp
  · simp

theorem keeps_scanIdentLoop (n : Nat) (s : Scanner) (b : List Char) :
    Keeps s (scanIdentLoop n s b).2 := by
  induction n generalizing s b with
  | zero => exact Keeps.refl s
  | succ n ih =>
    rcases hrd : s.read with ⟨_ | c, s1⟩
    · have e2 : s1.unread = s.peek.2 := by rw [peek_eq, hrd]
      simp only [scanIdentLoop, hrd, e2]
      exact keeps_peek s
    · have e1 : s1 = s.read.2 := by rw [hrd]
      have e2 : s1.unread = s.peek.2 := by rw [peek_eq, hrd]
      simp only [scanIdentLoop, hrd, e2]
      split
      · rw [e1]; exact (keeps_read s).trans (ih _ _)
      · split
        · rw [e1]; exact (keeps_read s).trans (ih _ _)
        · exact keeps_peek s

theorem keeps_scanIdent (s : Scanner) : Keeps s s.scanIdent.2 := keeps_scanIdentLoop _ s []

theorem keeps_scanWhitespaceLoop (n : Nat) (s : Scanner) (b : List Char) :
    Keeps s (scanWhitespaceLoop n s b).2 := by
  induction n generalizing s b with
  | zero => exact Keeps.refl s
  | succ n ih =>
    rcases hrd : s.read with ⟨_ | c, s1⟩
    · have e2 : s1.unread = s.peek.2 := by rw [peek_eq, hrd]
      simp only [scanWhitespaceLoop, hrd, e2]
      exact keeps_peek s
    · have e1 : s1 = s.read.2 := by rw [hrd]
      have e2 : s1.unread = s.peek.2 := by rw [peek_eq, hrd]
      simp only [scanWhitespaceLoop, hrd, e2]
      split
      · rw [e1]; exact (keeps_read s).trans (ih _ _)
      · exact keeps_peek s

theorem keeps_scanWhitespace (s : Scanner) : Keeps s s.scanWhitespace.2 :=
  keeps_scanWhitespaceLoop _ s []

theorem keeps_hereDocSkipWS (n : Nat) (s : Scanner) (b : List Char) :
    Keeps s (hereDocSkipWS n s b).2.2.2 := by
  induction n generalizing s b with
  | zero => exact Keeps.refl s
  | succ n ih =>
    rcases hrd : s.read with ⟨_ | c, s1⟩
    · have e2 : s1.unread = s.peek.2 := by rw [peek_eq, hrd]
      simp only [hereDocSkipWS, hrd, e2]
      exact keeps_peek s
    · have e1 : s1 = s.read.2 := by rw [hrd]
      have e2 : s1.unread = s.peek.2 := by rw [peek_eq, hrd]
      simp only [hereDocSkipWS, hrd, e2]
      split
      · rw [e1]; exact (keeps_read s).trans (ih _ _)
      · split
        · exact keeps_peek s
        · exact keeps_peek s

/-! ### Steps that may record an error -/

theorem errorf_errStep (s : Scanner) (msg : String)
    (h : unterminated msg → 1 ≤ s.col → s.getPos = endPos s) : ErrStep s (s.errorf msg) := by
  cases he : s.err with
  | none =>
    refine Or.inr ⟨he, rfl, ⟨s.getPos, msg⟩, ?_, h⟩
    simp [Scanner.errorf, he]
  | some e =>
    refine Or.inl ?_
    simp [Scanner.errorf, he]

theorem errorf_done (s : Scanner) (msg : String) (h : s.done = true) :
    ErrStep s (s.errorf msg) :=
  errorf_errStep s msg (fun _ _ => by simp [endPos, h])

theorem read_none_done (s : Scanner) (h : s.read.1 = none) : s.read.2.done = true := by
  obtain ⟨r, lr, st, q, d, e, ln, cl, lll⟩ := s
  cases d
  · cases r with
    | nil => simp [Scanner.read]
    | cons c t =>
      by_cases hc : c = '\n' <;> simp [Scanner.read, hc] at h
  · simp [Scanner.read]

theorem read_some (s : Scanner) (c : Char) (h : s.read.1 = some c) :
    s.done = false ∧ s.r = c :: s.read.2.r := by
  obtain ⟨r, lr, st, q, d, e, ln, cl, lll⟩ := s
  cases d
  · cases r with
    | nil => simp [Scanner.read] at h
    | cons x t =>
      by_cases hc : x = '\n'
      · simp [Scanner.read, hc] at h ⊢
        exact hc ▸ h
      · simp [Scanner.read, hc] at h ⊢
        exact h
  · simp [Scanner.read] at h

theorem read_some_length (s : Scanner) (c : Char) (h : s.read.1 = some c) :
    s.read.2.r.length + 1 = s.r.length := by
  have := congrArg List.length (read_some s c h).2
  rw [this, List.length_cons]

theorem errStep_scanQuotedLoop (q : Char) (n : Nat) (s : Scanner) (b : List Char)
    (hn : s.r.length < n) : ErrStep s (scanQuotedLoop q n s b) := by
  induction n generalizing s b with
  | zero => omega
  | succ n ih =>
    rcases hrd : s.read with ⟨_ | c, s1⟩
    · have e1 : s1 = s.read.2 := by rw [hrd]
      have h1 : s.read.1 = none := by rw [hrd]
      simp only [scanQuotedLoop, hrd]
      rw [e1]
      exact (keeps_read s).step (errorf_done _ _ (read_none_done s h1))
    · have e1 : s1 = s.read.2 := by rw [hrd]
      have h1 : s.read.1 = some c := by rw [hrd]
      have hl := read_some_length s c h1
      simp only [scanQuotedLoop, hrd]
      subst e1
      split
      · rcases hrd2 : s.read.2.read with ⟨r2, s2⟩
        have e2 : s2 = s.read.2.read.2 := by rw [hrd2]
        subst e2
        simp only []
        have hk := (keeps_read s).trans (keeps_read s.read.2)
        exact hk.step (ih _ _ (by have := (keeps_read s.read.2).2.1; omega))
      · split
        · exact (keeps_read s).errStep _
        · exact (keeps_read s).step (ih _ _ (by omega))

theorem errStep_scanBlockCommentLoop (n : Nat) (s : Scanner) (b : List Char)
    (hn : s.r.length < n) : ErrStep s (scanBlockCommentLoop n s b) := by
  induction n generalizing s b with
  | zero => omega
  | succ n ih =>
    rcases hrd : s.read with ⟨r, s1⟩
    have e1 : s1 = s.read.2 := by rw [hrd]
    have h1 : s.read.1 = r := by rw [hrd]
    simp only [scanBlockCommentLoop, hrd]
    subst e1
    by_cases hstar : r = some '*'
    · have hl := read_some_length s '*' (by rw [h1, hstar])
      rcases hpk : s.read.2.peek with ⟨r2, s2⟩
      have e2 : s2 = s.read.2.peek.2 := by rw [hpk]
      simp only [hstar, if_true, hpk]
      subst e2
      have hk := (keeps_read s).trans (keeps_peek s.read.2)
      split
      · exact (hk.trans (keeps_read _)).errStep _
      · exact hk.step (ih _ _ (by rw [peek_r]; omega))
    · simp only [hstar, if_false, Bool.false_and, Bool.false_eq_true]
      cases r with
      | none =>
        exact (keeps_read s).step (errorf_done _ _ (read_none_done s h1))
      | some c =>
        have hl := read_some_length s c h1
        exact (keeps_read s).step (ih _ _ (by omega))

theorem errStep_hereDocBody (delim : List Char) (n : Nat) (s : Scanner) (b : List Char)
    (hn : s.r.length < n) : ErrStep s (hereDocBody delim n s b) := by
  induction n generalizing s b with
  | zero => omega
  | succ n ih =>
    rcases hrd : s.read with ⟨r, s1⟩
    have e1 : s1 = s.read.2 := by rw [hrd]
    have h1 : s.read.1 = r := by rw [hrd]
    simp only [hereDocBody, hrd]
    subst e1
    cases r with
    | none => exact (keeps_read s).step (errorf_done _ _ (read_none_done s h1))
    | some c =>
      have hl := read_some_length s c h1
      simp only []
      split
      · rcases hws : s.read.2.scanWhitespace with ⟨ws, s2⟩
        have e2 : s2 = s.read.2.scanWhitespace.2 := by rw [hws]
        subst e2
        rcases hid : s.read.2.scanWhitespace.2.scanIdent with ⟨id, s3⟩
        have e3 : s3 = s.read.2.scanWhitespace.2.scanIdent.2 := by rw [hid]
        subst e3
        have hk := ((keeps_read s).trans (keeps_scanWhitespace _)).trans (keeps_scanIdent _)
        simp only []
        split
        · exact hk.errStep _
        · exact hk.step (ih _ _ (by
            have h2 := (keeps_scanWhitespace s.read.2).2.1
            have h3 := (keeps_scanIdent s.read.2.scanWhitespace.2).2.1
            omega))
      · exact (keeps_read s).step (ih _ _ (by omega))

theorem not_unterminated_unexpected (X Y : String) :
    ¬ unterminated ("unexpected " ++ X ++ Y) := by
  have hd : ("unexpected " ++ X ++ Y).data
      = 'u' :: 'n' :: 'e' :: ("xpected ".data ++ X.data ++ Y.data) := by
    simp [String.data_append]
  rintro (h | h | h) <;>
  · have h3 := congrArg (List.take 3) (hd.symm.trans (congrArg String.data h))
    change ['u', 'n', 'e'] = _ at h3
    revert h3
    decide

theorem not_unterminated_invalid (X Y : String) :
    ¬ unterminated ("invalid digit " ++ X ++ Y) := by
  have hd : ("invalid digit " ++ X ++ Y).data
      = 'i' :: ("nvalid digit ".data ++ X.data ++ Y.data) := by
    simp [String.data_append]
  rintro (h | h | h) <;>
  · have h3 := congrArg (List.take 1) (hd.symm.trans (congrArg String.data h))
    change ['i'] = _ at h3
    revert h3
    decide

theorem errorf_other (s : Scanner) (msg : String) (h : ¬ unterminated msg) :
    ErrStep s (s.errorf msg) :=
  errorf_errStep s msg (fun hu => absurd hu h)

theorem errStep_scanHereDoc (s : Scanner) : ErrStep s s.scanHereDoc := by
  rcases hws : s.scanWhitespace with ⟨ws, s1⟩
  have e1 : s1 = s.scanWhitespace.2 := by rw [hws]
  rcases hpk : s1.peek with ⟨p1, s2⟩
  have e2 : s2 = s1.peek.2 := by rw [hpk]
  simp only [Scanner.scanHereDoc, hws, hpk]
  have k2 : Keeps s s2 := by rw [e2, e1]; exact (keeps_scanWhitespace s).trans (keeps_peek _)
  clear hws hpk e1 e2
  split
  · exact k2.step (errorf_other _ _ (by unfold unterminated; decide))
  · generalize hq : (if (p1 = some '"' || p1 = some '\'') = true
        then (p1, ws.text ++ [runeChar p1], s2.read.2)
        else ((none : Option Char), ws.text, s2)) = qt
    obtain ⟨quote, b, s3⟩ := qt
    have k3 : Keeps s s3 := by
      split at hq
      · cases hq; exact k2.trans (keeps_read _)
      · cases hq; exact k2
    clear hq
    simp only []
    rcases hid : s3.scanIdent with ⟨delim, s4⟩
    have k4 : Keeps s s4 := by
      have : s4 = s3.scanIdent.2 := by rw [hid]
      rw [this]; exact k3.trans (keeps_scanIdent _)
    clear hid
    simp only []
    split
    · exact k4.step (errorf_other _ _ (by unfold unterminated; decide))
    · have tail : ∀ (okq : Bool) (b2 : List Char) (s5 : Scanner), Keeps s s5 →
          ErrStep s (if (!okq) = true then s5.errorf "quoted heredoc identifier not terminated"
            else if (!(hereDocSkipWS (s5.r.length + 1) s5 b2).1) = true then
              (hereDocSkipWS (s5.r.length + 1) s5 b2).2.2.2.errorf
                ("unexpected " ++ quoteRune (hereDocSkipWS (s5.r.length + 1) s5 b2).2.1
                  ++ " after heredoc identifier, expecting newline")
            else hereDocBody delim ((hereDocSkipWS (s5.r.length + 1) s5 b2).2.2.2.r.length + 1)
              (hereDocSkipWS (s5.r.length + 1) s5 b2).2.2.2
              (hereDocSkipWS (s5.r.length + 1) s5 b2).2.2.1) := by
        intro okq b2 s5 k5
        have k6 := k5.trans (keeps_hereDocSkipWS (s5.r.length + 1) s5 b2)
        split
        · exact k5.step (errorf_other _ _ (by unfold unterminated; decide))
        · split
          · exact k6.step (errorf_other _ _ (not_unterminated_unexpected _ _))
          · exact k6.step (errStep_hereDocBody _ _ _ _ (by omega))
      cases quote with
      | none => exact tail true _ s4 k4
      | some q =>
        by_cases he : s4.read.1 = some q
        · simp only [ne_eq, he, not_true_eq_false, if_false]
          exact tail true _ _ (k4.trans (keeps_read _))
        · simp only [ne_eq, he, not_false_eq_true, if_true]
          exact tail false _ _ (k4.trans (keeps_read _))

end token

namespace token

/-! ### The parts of the scanner that never record an error -/

@[simp] theorem scanDecimalLoop_err (n : Nat) (s : Scanner) (b : List Char) :
    (scanDecimalLoop n s b).2.2.err = s.err := by
  induction n generalizing s b with
  | zero => rfl
  | succ n ih =>
    unfold scanDecimalLoop
    rcases hp : s.peek with ⟨p, s1⟩
    have e1 : s1.err = s.err := by have := peek_err s; rw [hp] at this; exact this
    rw [← e1]
    clear e1 hp
    cases hu : (!b.isEmpty && decide (p = some '_'))
    · simp only [hu, Bool.false_eq_true, if_false, Bool.false_and]
      split_ifs
      · simp
      · simp [ih]
    · simp only [hu, if_true, Bool.true_and]
      split_ifs
      · simp
      · simp
      · simp [ih]

@[simp] theorem scanDecimal_err (s : Scanner) (b : List Char) :
    (s.scanDecimal b).2.2.err = s.err := scanDecimalLoop_err _ s b

@[simp] theorem scanFloat_err (s : Scanner) (b : List Char) : (s.scanFloat b).2.err = s.err := by
  unfold Scanner.scanFloat
  rcases hd : s.scanDecimal b with ⟨ok, b1, s1⟩
  have e1 : s1.err = s.err := by have := scanDecimal_err s b; rw [hd] at this; exact this
  rw [← e1]
  clear e1 hd
  simp only []
  split
  · rfl
  · rcases hp : s1.peek with ⟨r, s2⟩
    have e2 : s2.err = s1.err := by have := peek_err s1; rw [hp] at this; exact this
    rw [← e2]
    clear e2 hp
    simp only []
    split
    · rcases hr : s2.read with ⟨r1, s3⟩
      have e3 : s3.err = s2.err := by have := read_err s2; rw [hr] at this; exact this
      rw [← e3]
      clear e3 hr
      rcases hp2 : s3.peek with ⟨r2, s4⟩
      have e4 : s4.err = s3.err := by have := peek_err s3; rw [hp2] at this; exact this
      rw [← e4]
      clear e4 hp2
      simp only []
      generalize hq : (if (r2 = some '+' || r2 = some '-') = true then
          (b1 ++ [runeChar r1] ++ [runeChar s4.read.1], s4.read.2)
          else (b1 ++ [runeChar r1], s4)) = q
      obtain ⟨b3, s5⟩ := q
      have e5 : s5.err = s4.err := by
        split at hq
        · cases hq; simp
        · cases hq; rfl
      rw [← e5]
      clear e5 hq
      simp only []
      split <;> simp
    · rfl

@[simp] theorem scanRadixLoop_err (digit : Char → Bool) (delim : Option Char) (n : Nat)
    (s : Scanner) (b : List Char) : (scanRadixLoop digit delim n s b).2.err = s.err := by
  induction n generalizing s b with
  | zero => rfl
  | succ n ih =>
    simp only [scanRadixLoop]
    split
    · split_ifs <;> simp [ih]
    · simp

@[simp] theorem scanLineCommentLoop_err (start : List Char) (n : Nat) (s : Scanner)
    (b : List Char) : (scanLineCommentLoop start n s b).2.err = s.err := by
  induction n generalizing s b with
  | zero => rfl
  | succ n ih =>
    rcases hrd : s.read with ⟨_ | c, s1⟩
    · have e1 : s1 = s.read.2 := by rw [hrd]
      simp only [scanLineCommentLoop, hrd]
      subst e1
      simp
    · have e1 : s1 = s.read.2 := by rw [hrd]
      simp only [scanLineCommentLoop, hrd]
      subst e1
      split_ifs <;> simp [ih]

@[simp] theorem scanLineComment_err (s : Scanner) (start : List Char) :
    (s.scanLineComment start).2.err = s.err := scanLineCommentLoop_err _ _ s []

@[simp] theorem scanInlineHTMLLoop_err (n : Nat) (s : Scanner) (i : Nat) (canEnd : Bool)
    (b : List Char) : (scanInlineHTMLLoop n s i canEnd b).2.err = s.err := by
  induction n generalizing s i canEnd b with
  | zero => rfl
  | succ n ih =>
    simp only [scanInlineHTMLLoop]
    split_ifs
    all_goals first
      | (simp [ih]; done)
      | (split <;> simp [ih])

@[simp] theorem scanWhitespace_err (s : Scanner) : s.scanWhitespace.2.err = s.err :=
  (keeps_scanWhitespace s).1

@[simp] theorem scanIdent_err (s : Scanner) : s.scanIdent.2.err = s.err :=
  (keeps_scanIdent s).1

@[simp] theorem scanHexa_err (s : Scanner) (d : Option Char) : (s.scanHexa d).2.err = s.err :=
  scanRadixLoop_err _ _ _ s []

@[simp] theorem scanBinary_err (s : Scanner) (d : Option Char) :
    (s.scanBinary d).2.err = s.err := scanRadixLoop_err _ _ _ s []

theorem errStep_scanOctalLoop (n : Nat) (s : Scanner) (b : List Char) :
    ErrStep s (scanOctalLoop n s b) := by
  induction n generalizing s b with
  | zero => exact ErrStep.keep rfl
  | succ n ih =>
    simp only [scanOctalLoop]
    split
    · split_ifs
      · exact (keeps_peek s).step (errorf_other _ _ (not_unterminated_invalid _ _))
      · exact ((keeps_peek s).trans (keeps_read _)).step (ih _ _)
      · exact (keeps_peek s).errStep _
    · exact (keeps_peek s).errStep _

theorem errStep_scanNumber (s : Scanner) (r : Char) : ErrStep s (s.scanNumber r) := by
  simp only [Scanner.scanNumber]
  by_cases h0 : r = '0'
  · simp only [h0, if_true, decide_True, Bool.true_and]
    split_ifs
    all_goals first
      | exact ErrStep.keep (by simp)
      | exact (keeps_peek s).step (errStep_scanOctalLoop _ _ _)
  · simp only [h0, if_false, decide_False, Bool.false_and, Bool.false_eq_true]
    split_ifs <;> exact ErrStep.keep (by simp)

theorem errStep_scanHash (s : Scanner) : ErrStep s (s.scanLineComment "#".toList) :=
  ErrStep.keep (by simp)

end token

namespace token

theorem ite_cases {α : Type} (Φ : α → Prop) (c : Prop) [Decidable c] (a b : α)
    (ha : c → Φ a) (hb : ¬c → Φ b) : Φ (if c then a else b) := by
  by_cases h : c
  · rw [if_pos h]; exact ha h
  · rw [if_neg h]; exact hb h

theorem errStep_scanAnyRune (s : Scanner) (r : Char) : ErrStep s (s.scanAnyRune r) := by
  unfold Scanner.scanAnyRune
  rcases hp : s.peek with ⟨r2, sp⟩
  have ksp : Keeps s sp := by
    have : sp = s.peek.2 := by rw [hp]
    rw [this]; exact keeps_peek s
  clear hp
  dsimp only
  repeat' with_reducible refine ite_cases (ErrStep s) _ _ _ (fun _ => ?_) (fun _ => ?_)
  all_goals first
    | (refine ErrStep.keep ?_; simp [ksp.1]; done)
    | exact errStep_scanHash _
    | exact errStep_scanNumber _ _
    | exact (keeps_read s).step (errStep_scanBlockCommentLoop _ _ _ (by omega))
    | exact errStep_scanQuotedLoop _ _ _ _ (by omega)
    | exact (((ksp.trans (keeps_read _)).trans (keeps_peek _)).trans
        (keeps_read _)).step (errStep_scanHereDoc _)
    | (refine ErrStep.keep ?_
       split
       · simp
       · split <;> simp)

theorem errStep_scanAny (s : Scanner) : ErrStep s s.scanAny := by
  have tail : ∀ (tok : Token) (s2 : Scanner), ErrStep s (tok, s2) →
      ErrStep s (if (decide (Typ.Add.toNat ≤ tok.typ.toNat)
          && decide (tok.typ.toNat ≤ Typ.Coalesce.toNat)) = true then
        (if s2.peek.1 = some '=' then
          (({ tok with typ := assignForm tok.typ } : Token), s2.peek.2.read.2)
        else (tok, s2.peek.2))
        else (tok, s2)) := by
    intro tok s2 h2
    split
    · rename_i hrange
      rcases h2 with h2 | ⟨a, b, _⟩
      · simp only [] at h2
        split
        · refine ErrStep.keep ?_
          simp [h2]
        · refine ErrStep.keep ?_
          simp [h2]
      · simp only [] at b
        rw [b] at hrange
        exact absurd hrange (by decide)
    · exact h2
  unfold Scanner.scanAny
  rcases hrd : s.read with ⟨r, s1⟩
  have k1 : Keeps s s1 := by
    have : s1 = s.read.2 := by rw [hrd]
    rw [this]; exact keeps_read s
  clear hrd
  cases r with
  | none => exact tail (sym .EOF) s1 (k1.errStep _)
  | some c =>
    exact tail (s1.scanAnyRune c).1 (s1.scanAnyRune c).2 (k1.step (errStep_scanAnyRune s1 c))

theorem errStep_Next (s : Scanner) : ErrStep s s.Next := by
  have key : ∀ (tok : Token) (s1 : Scanner), ErrStep s (tok, s1) →
      ErrStep s (tok,
        match tok.typ with
        | .OpenTag => { s1 with state := inPHP }
        | .CloseTag => { s1 with state := inHTML }
        | _ => s1) := by
    intro tok s1 h
    rcases h with h | ⟨a, b, e, he, hpos⟩
    · refine ErrStep.keep ?_
      split <;> exact h
    · refine Or.inr ⟨a, b, e, ?_, hpos⟩
      simp only [] at b
      simp only [b]
      exact he
  unfold Scanner.Next
  cases hq : s.queue with
  | cons t q =>
    exact key t { s with queue := q } (ErrStep.keep rfl)
  | nil =>
    dsimp only
    split
    · exact key _ _ (ErrStep.keep (by simp [Scanner.scanInlineHTML]))
    · refine key _ _ ?_
      rcases errStep_scanAny s with h | ⟨a, b, e, he, hpos⟩
      · exact ErrStep.keep h
      · refine Or.inr ⟨a, ?_, e, he, hpos⟩
        simp only []
        split <;> exact b

end token

namespace token

/-- C18 (amended): for every state of the scanner, a call of `Next` that records an
error (none was recorded before, one is after) returns a token of kind EOF, and an
error that is recorded stays the recorded error after every call of `Next`. -/
theorem Next_first_error (s : Scanner) :
    (s.err = none → s.Next.2.err ≠ none → s.Next.1.typ = .EOF) ∧
    (∀ e, s.err = some e → s.Next.2.err = some e) := by
  rcases errStep_Next s with h | ⟨a, b, _⟩
  · refine ⟨fun h0 h1 => absurd (h.trans h0) h1, fun e he => by rw [h, he]⟩
  · refine ⟨fun _ _ => b, fun e he => ?_⟩
    rw [a] at he
    cases he

theorem Next_first_error_witness :
    ((NewScanner "<?php 08 1".toList true).Next.2.Next.2).err = none ∧
    ((NewScanner "<?php 08 1".toList true).Next.2.Next.2).Next.2.err ≠ none ∧
    ((NewScanner "<?php 08 1".toList true).Next.2.Next.2).Next.1.typ = .EOF ∧
    ((NewScanner "<?php 08 1".toList true).Next.2.Next.2.Next.2).err
      = some ⟨⟨1, 8⟩, "invalid digit 8 in octal literal"⟩ ∧
    ((NewScanner "<?php 08 1".toList true).Next.2.Next.2.Next.2).Next.2.err
      = some ⟨⟨1, 8⟩, "invalid digit 8 in octal literal"⟩ :=
  ⟨by decide, by decide,
   (Next_first_error ((NewScanner "<?php 08 1".toList true).Next.2.Next.2)).1 (by decide)
     (by decide),
   by decide,
   (Next_first_error ((NewScanner "<?php 08 1".toList true).Next.2.Next.2.Next.2)).2 _
     (by decide)⟩

/-- C18 (the claim at an input): in `08 1` the call of `Next` at `08` records the error
of the octal literal and returns EOF; the calls after it return the tokens `8`, a
blank and `1`, not EOF. -/
theorem Next_after_error :
    ((NewScanner "<?php 08 1".toList true).Next.2.Next.2).Next.1 = ⟨.EOF, [], ⟨1, 7⟩⟩ ∧
    ((NewScanner "<?php 08 1".toList true).Next.2.Next.2).Next.2.err
      = some ⟨⟨1, 8⟩, "invalid digit 8 in octal literal"⟩ ∧
    ((NewScanner "<?php 08 1".toList true).Next.2.Next.2).Next.2.Next.1
      = ⟨.Int, "8".toList, ⟨1, 8⟩⟩ ∧
    ((NewScanner "<?php 08 1".toList true).Next.2.Next.2).Next.2.Next.2.Next.1
      = ⟨.Whitespace, " ".toList, ⟨1, 9⟩⟩ ∧
    ((NewScanner "<?php 08 1".toList true).Next.2.Next.2).Next.2.Next.2.Next.2.Next.1
      = ⟨.Int, "1".toList, ⟨1, 10⟩⟩ := by
  refine ⟨?_, ?_, ?_, ?_, ?_⟩ <;> decide

/-- C20 (amended): when a call of `Next`, from a column of at least 1 and with no error
recorded, records the error of an unterminated string, block comment or heredoc, the
position of the error is the position at which the input ends: the scanner has read
the rest of the input and stands behind its last character. -/
theorem Next_error_pos (s : Scanner) (e : ScanError) (hcol : 1 ≤ s.col) (herr : s.err = none)
    (h : s.Next.2.err = some e) (hu : unterminated e.err) : e.pos = endPos s := by
  rcases errStep_Next s with h1 | ⟨_, _, e1, he, hpos⟩
  · rw [h, herr] at h1
    cases h1
  · rw [h] at he
    cases he
    exact hpos hu hcol

theorem Next_error_pos_witness :
    1 ≤ ((NewScanner "<?php 'ab\nc".toList true).Next.2.Next.2).col ∧
    ((NewScanner "<?php 'ab\nc".toList true).Next.2.Next.2).err = none ∧
    ((NewScanner "<?php 'ab\nc".toList true).Next.2.Next.2).Next.2.err
      = some ⟨⟨2, 2⟩, "string not terminated"⟩ ∧
    unterminated "string not terminated" ∧
    (⟨2, 2⟩ : Pos) = endPos ((NewScanner "<?php 'ab\nc".toList true).Next.2.Next.2) ∧
    endPos ((NewScanner "<?php 'ab\nc".toList true).Next.2.Next.2) = ⟨2, 2⟩ :=
  ⟨by decide, by decide, by decide, Or.inl rfl,
   Next_error_pos ((NewScanner "<?php 'ab\nc".toList true).Next.2.Next.2)
     ⟨⟨2, 2⟩, "string not terminated"⟩ (by decide) (by decide) (by decide) (Or.inl rfl),
   by decide⟩

/-- C20 (the claim at three inputs): the string of `'abc` starts at line 1, column 7,
where the EOF token of the failing call stands, and the error has column 11; the block
comment that starts at line 1, column 7 gives an error at line 3, column 2; the heredoc
that starts at line 1, column 7 gives an error at line 3, column 1. -/
theorem scanAll_error_pos_end :
    (scanAll "<?php 'abc".toList true).1
      = [⟨.OpenTag, "<?php".toList, ⟨1, 1⟩⟩, ⟨.Whitespace, " ".toList, ⟨1, 6⟩⟩,
         ⟨.EOF, [], ⟨1, 7⟩⟩] ∧
    (scanAll "<?php 'abc".toList true).2.err = some ⟨⟨1, 11⟩, "string not terminated"⟩ ∧
    (scanAll "<?php /*\nnic\n ".toList true).1
      = [⟨.OpenTag, "<?php".toList, ⟨1, 1⟩⟩, ⟨.Whitespace, " ".toList, ⟨1, 6⟩⟩,
         ⟨.EOF, [], ⟨1, 7⟩⟩] ∧
    (scanAll "<?php /*\nnic\n ".toList true).2.err
      = some ⟨⟨3, 2⟩, "unterminated block comment"⟩ ∧
    (scanAll "<?php <<<A\nfoo\n".toList true).1
      = [⟨.OpenTag, "<?php".toList, ⟨1, 1⟩⟩, ⟨.Whitespace, " ".toList, ⟨1, 6⟩⟩,
         ⟨.EOF, [], ⟨1, 7⟩⟩] ∧
    (scanAll "<?php <<<A\nfoo\n".toList true).2.err
      = some ⟨⟨3, 1⟩, "heredoc not terminated"⟩ := by
  refine ⟨?_, ?_, ?_, ?_, ?_, ?_⟩ <;> decide

end token

namespace token

theorem read_fst (s : Scanner) (hd : s.done = true → s.r = []) : s.read.1 = s.r.head? := by
  cases hr : s.r with
  | nil => simpa using read_fst_nil s hr
  | cons c t => simpa using (read_cons s c t (read_of_done s hd c t hr) hr).1

theorem scanOctalLoop_succ (n : Nat) (s : Scanner) (b : List Char) :
    scanOctalLoop (n + 1) s b =
      match s.peek.1 with
      | some c =>
        if c = '8' || c = '9' then
          s.peek.2.errorf ("invalid digit " ++ String.mk [c] ++ " in octal literal")
        else if decide ('0' ≤ c) && decide (c ≤ '7') then
          scanOctalLoop n s.peek.2.read.2 (b ++ [runeChar s.peek.2.read.1])
        else (Token.mk0 .Int ('0' :: b), s.peek.2)
      | none => (Token.mk0 .Int ('0' :: b), s.peek.2) := by
  rcases hp : s.peek with ⟨r, s1⟩
  cases r <;> simp only [scanOctalLoop, hp]

/-- `scanOctal` on octal digits that a digit 8 or 9 follows. -/
theorem scanOctalLoop_digits (ds rest : List Char) (c : Char) (n : Nat) (s : Scanner)
    (b : List Char) (hd : s.done = false) (hr : s.r = ds ++ c :: rest)
    (hds : ∀ d ∈ ds, isOctalDigit d = true) (hc : c = '8' ∨ c = '9') (hn : ds.length < n) :
    ∃ t : Scanner, t.err = s.err ∧
      scanOctalLoop n s b = t.errorf ("invalid digit " ++ String.mk [c] ++ " in octal literal") := by
  induction ds generalizing n s b with
  | nil =>
    obtain ⟨m, rfl⟩ : ∃ m, n = m + 1 := ⟨n - 1, by simp at hn; omega⟩
    have hp : s.peek.1 = some c := peek_fst_cons s c rest hd (by simpa using hr)
    refine ⟨s.peek.2, peek_err s, ?_⟩
    rw [scanOctalLoop_succ, hp]
    rcases hc with rfl | rfl <;> simp
  | cons d ds ih =>
    obtain ⟨m, rfl⟩ : ∃ m, n = m + 1 := ⟨n - 1, by simp at hn; omega⟩
    have hp : s.peek.1 = some d := peek_fst_cons s d (ds ++ c :: rest) hd hr
    have hd1 : s.peek.2.done = false := by rw [peek_done, hd, hr]; rfl
    have hr1 : s.peek.2.r = d :: (ds ++ c :: rest) := by rw [peek_r, hr]; rfl
    obtain ⟨_, h2, h3, _⟩ := read_cons s.peek.2 d _ hd1 hr1
    have hoct := hds d (by simp)
    have h89 : (d = '8' || d = '9') = false := by
      simp only [isOctalDigit, Bool.and_eq_true, decide_eq_true_eq] at hoct
      have h7 : ¬ ('8' : Char) ≤ '7' := by decide
      have h7b : ¬ ('9' : Char) ≤ '7' := by decide
      simp only [Bool.or_eq_false_iff, decide_eq_false_iff_not]
      exact ⟨fun e => h7 (e ▸ hoct.2), fun e => h7b (e ▸ hoct.2)⟩
    obtain ⟨t, ht, he⟩ := ih m s.peek.2.read.2 (b ++ [runeChar s.peek.2.read.1]) h3 h2
      (fun x hx => hds x (by simp [hx])) (by simp at hn; omega)
    refine ⟨t, by rw [ht, read_err, peek_err], ?_⟩
    rw [scanOctalLoop_succ, hp]
    simp only [h89, Bool.false_eq_true, if_false]
    simp only [isOctalDigit] at hoct
    simp only [hoct, if_true]
    exact he

theorem digit_ne (c d : Char) (h : isDigit (some c) = true) (hd : isDigit (some d) = false) :
    c ≠ d := by
  rintro rfl
  rw [h] at hd
  cases hd

theorem digit_not_space (c : Char) (h : isDigit (some c) = true) : isSpaceRune c = false := by
  have h1 := digit_ne c ' ' h (by decide)
  have h2 := digit_ne c '\t' h (by decide)
  have h3 := digit_ne c '\r' h (by decide)
  have h4 := digit_ne c '\n' h (by decide)
  simp [isSpaceRune, h1, h2, h3, h4]

/-- The case of a digit in the switch of `scanAny`. -/
theorem scanAnyRune_digit (s : Scanner) (c : Char) (hc : isDigit (some c) = true) :
    s.scanAnyRune c = s.scanNumber c := by
  have hne : ∀ d, isDigit (some d) = false → c ≠ d := fun d hd => digit_ne c d hc hd
  rcases hp : s.peek with ⟨r2, sp⟩
  simp only [Scanner.scanAnyRune, hp, hne '/' (by decide), hne '#' (by decide),
    hne '$' (by decide),
    hne '\\' (by decide), hne '?' (by decide), hne '(' (by decide), hne ')' (by decide),
    hne '[' (by decide), hne ']' (by decide), hne '{' (by decide), hne '}' (by decide),
    hne '=' (by decide), hne '!' (by decide), hne '+' (by decide), hne '-' (by decide),
    hne '*' (by decide), hne '%' (by decide), hne '<' (by decide), hne '>' (by decide),
    hne '.' (by decide), hne ',' (by decide), hne ':' (by decide), hne ';' (by decide),
    hne '|' (by decide), hne '&' (by decide), hne '^' (by decide), hne '~' (by decide),
    hne '@' (by decide), hne '\'' (by decide), hne '"' (by decide),
    digit_not_space c hc, hc, if_false, if_true, Bool.false_eq_true]

/-- The case `..` in the switch of `scanAny`. -/
theorem scanAnyRune_dotdot (s : Scanner) (h1 : s.peek.1 = some '.')
    (h2 : s.peek.2.read.2.peek.1 ≠ some '.') :
    s.scanAnyRune '.' = (Token.mk0 .Illegal "..".toList, s.peek.2.read.2.peek.2) := by
  rcases hp : s.peek with ⟨r2, sp⟩
  rw [hp] at h1 h2
  simp only at h1 h2
  subst h1
  simp [Scanner.scanAnyRune, hp, h2]

theorem scanNumber_octal (s : Scanner) (h : isDigit s.peek.1 = true) :
    s.scanNumber '0' = s.peek.2.scanOctal := by
  rcases hp : s.peek with ⟨p, s1⟩
  rw [hp] at h
  simp only at h
  simp [Scanner.scanNumber, hp, h]

theorem scanNumber_decimal (s : Scanner) (c : Char) (hc : c ≠ '0')
    (h : (s.scanDecimal [c]).1 = false) :
    s.scanNumber c = (Token.mk0 .Illegal (s.scanDecimal [c]).2.1, (s.scanDecimal [c]).2.2) := by
  rcases hd : s.scanDecimal [c] with ⟨ok, b, s2⟩
  rw [hd] at h
  simp only at h
  subst h
  simp [Scanner.scanNumber, hc, hd]

theorem scanDecimalLoop_succ (n : Nat) (s : Scanner) (b : List Char) :
    scanDecimalLoop (n + 1) s b =
      if (!b.isEmpty && decide (s.peek.1 = some '_')) = true then
        if (!isDigit s.peek.2.read.2.peek.1) = true then
          (false, b ++ [runeChar s.peek.2.read.1] ++ [runeChar s.peek.2.read.2.peek.2.read.1],
            s.peek.2.read.2.peek.2.read.2)
        else if (!isDigit s.peek.2.read.2.peek.2.peek.1) = true then
          (!(b ++ [runeChar s.peek.2.read.1]).isEmpty, b ++ [runeChar s.peek.2.read.1],
            s.peek.2.read.2.peek.2.peek.2)
        else scanDecimalLoop n s.peek.2.read.2.peek.2.peek.2.read.2
          (b ++ [runeChar s.peek.2.read.1] ++ [runeChar s.peek.2.read.2.peek.2.peek.2.read.1])
      else
        if (!isDigit s.peek.2.peek.1) = true then (!b.isEmpty, b, s.peek.2.peek.2)
        else scanDecimalLoop n s.peek.2.peek.2.read.2 (b ++ [runeChar s.peek.2.peek.2.read.1]) := by
  rw [scanDecimalLoop]
  rcases hp : s.peek with ⟨p, s1⟩
  cases hu : (!b.isEmpty && decide (p = some '_'))
  · simp only [hu, Bool.false_eq_true, if_false, Bool.false_and]
  · simp only [hu, if_true, Bool.true_and]

/-- `scanDecimal` on digits that a `_` and then no digit follow. -/
theorem scanDecimalLoop_underscore (ds rest : List Char) (n : Nat) (s : Scanner) (b : List Char)
    (hb : b ≠ []) (hd : s.done = false) (hr : s.r = ds ++ '_' :: rest)
    (hds : ∀ d ∈ ds, isDigit (some d) = true) (hrest : isDigit rest.head? = false)
    (hn : ds.length < n) :
    (scanDecimalLoop n s b).1 = false ∧
    (scanDecimalLoop n s b).2.1 = b ++ ds ++ ['_', runeChar rest.head?] ∧
    (scanDecimalLoop n s b).2.2.err = s.err := by
  have hbe : b.isEmpty = false := by cases b <;> simp at hb ⊢
  induction ds generalizing n s b with
  | nil =>
    obtain ⟨m, rfl⟩ : ∃ m, n = m + 1 := ⟨n - 1, by simp at hn; omega⟩
    have hr0 : s.r = '_' :: rest := by simpa using hr
    have hp : s.peek.1 = some '_' := peek_fst_cons s '_' rest hd hr0
    have hd1 : s.peek.2.done = false := by rw [peek_done, hd, hr0]; rfl
    have hr1 : s.peek.2.r = '_' :: rest := by rw [peek_r, hr0]
    obtain ⟨k1, k2, k3, _⟩ := read_cons s.peek.2 '_' rest hd1 hr1
    have hp2 : s.peek.2.read.2.peek.1 = rest.head? := by
      rw [peek_fst _ (fun h => by rw [k3] at h; cases h), k2]
    have hr3 : s.peek.2.read.2.peek.2.read.1 = rest.head? := by
      rw [read_fst _ (peek_done_nil _ (fun h => by rw [k3] at h; cases h)), peek_r, k2]
    rw [scanDecimalLoop_succ]
    simp only [hbe, hp, hp2, hrest, k1, hr3, Bool.not_false, Bool.true_and, decide_True, if_true]
    simp [runeChar]
  | cons d ds ih =>
    obtain ⟨m, rfl⟩ : ∃ m, n = m + 1 := ⟨n - 1, by simp at hn; omega⟩
    have hdig := hds d (by simp)
    have hne : d ≠ '_' := digit_ne d '_' hdig (by decide)
    have hp : s.peek.1 = some d := peek_fst_cons s d _ hd hr
    have hd1 : s.peek.2.done = false := by rw [peek_done, hd, hr]; rfl
    have hr1 : s.peek.2.r = d :: (ds ++ '_' :: rest) := by rw [peek_r, hr]; rfl
    have hp2 : s.peek.2.peek.1 = some d := peek_fst_cons _ d _ hd1 hr1
    have hd2 : s.peek.2.peek.2.done = false := by rw [peek_done, hd1, hr1]; rfl
    have hr2 : s.peek.2.peek.2.r = d :: (ds ++ '_' :: rest) := by rw [peek_r, hr1]
    obtain ⟨k1, k2, k3, _⟩ := read_cons s.peek.2.peek.2 d _ hd2 hr2
    have hu : (!b.isEmpty && decide (some d = some '_')) = false := by simp [hne]
    rw [scanDecimalLoop_succ]
    simp only [hp, hu, Bool.false_eq_true, if_false, hp2, hdig, Bool.not_true, k1]
    obtain ⟨i1, i2, i3⟩ := ih m s.peek.2.peek.2.read.2 (b ++ [runeChar (some d)]) (by simp) k3 k2
      (fun x hx => hds x (by simp [hx])) (by simp at hn; omega) (by simp)
    refine ⟨i1, ?_, ?_⟩
    · rw [i2]; simp [runeChar]
    · rw [i3]; simp

theorem octalDigit_digit (d : Char) (h : isOctalDigit d = true) : isDigit (some d) = true := by
  simp only [isOctalDigit, Bool.and_eq_true, decide_eq_true_eq] at h
  simp only [isDigit, Bool.and_eq_true, decide_eq_true_eq]
  have h7 : d.toNat ≤ ('7' : Char).toNat := h.2
  have e7 : ('7' : Char).toNat = 55 := rfl
  have e9 : ('9' : Char).toNat = 57 := rfl
  refine ⟨h.1, ?_⟩
  show d.toNat ≤ ('9' : Char).toNat
  omega

/-- C19 (amended): in script mode with an empty queue, (1) at a literal that starts with
`0`, goes on with octal digits and then has a digit 8 or 9, `Next` returns EOF and
records the error of the invalid digit; (2) at `..` that no third dot follows, `Next`
returns a token of kind `Illegal` with the text `..` and records no error; (3) at a
decimal literal (a digit other than `0`, then digits) that `_` and then no digit
follow, `Next` returns a token of kind `Illegal` with the digits, the `_` and the next
rune as text, and records no error. -/
theorem Next_invalid_number (s : Scanner) (hq : s.queue = []) (hs : s.state = inPHP)
    (hd : s.done = false) :
    (∀ ds rest c, s.r = '0' :: (ds ++ c :: rest) → (∀ d ∈ ds, isOctalDigit d = true) →
      (c = '8' ∨ c = '9') → s.err = none →
      s.Next.1.typ = .EOF ∧
      ∃ p, s.Next.2.err
        = some ⟨p, "invalid digit " ++ String.mk [c] ++ " in octal literal"⟩) ∧
    (∀ rest, s.r = '.' :: '.' :: rest → rest.head? ≠ some '.' →
      s.Next.1 = ⟨.Illegal, "..".toList, s.getPos⟩ ∧ s.Next.2.err = s.err) ∧
    (∀ d ds rest, s.r = d :: (ds ++ '_' :: rest) → isDigit (some d) = true → d ≠ '0' →
      (∀ x ∈ ds, isDigit (some x) = true) → isDigit rest.head? = false →
      s.Next.1 = ⟨.Illegal, d :: (ds ++ ['_', runeChar rest.head?]), s.getPos⟩ ∧
      s.Next.2.err = s.err) := by
  refine ⟨?_, ?_, ?_⟩
  · intro ds rest c hr hds hc herr
    obtain ⟨h1, h2, h3, _⟩ := read_cons s '0' _ hd hr
    have hpk : isDigit s.read.2.peek.1 = true := by
      cases ds with
      | nil =>
        rw [peek_fst_cons _ c rest h3 (by simpa using h2)]
        rcases hc with rfl | rfl <;> decide
      | cons d ds =>
        rw [peek_fst_cons _ d (ds ++ c :: rest) h3 (by simpa using h2)]
        exact octalDigit_digit d (hds d (by simp))
    have hd1 : s.read.2.peek.2.done = false := by rw [peek_done, h3, h2]; simp
    obtain ⟨t, ht, he⟩ := scanOctalLoop_digits ds rest c (s.read.2.peek.2.r.length + 1)
      s.read.2.peek.2 [] hd1 (by rw [peek_r, h2]) hds hc (by rw [peek_r, h2]; simp; omega)
    have hte : t.err = none := by rw [ht, peek_err, read_err, herr]
    have hrune : s.read.2.scanAnyRune '0' = (Token.mk0 .EOF [],
        (t.errorf ("invalid digit " ++ String.mk [c] ++ " in octal literal")).2) := by
      rw [scanAnyRune_digit _ _ (by decide), scanNumber_octal _ hpk]
      exact he
    have hany := scanAny_plain s _ '0' _ h1 hrune rfl
    rw [Next_scan s _ _ hq hs hany (by simp [Token.mk0]) (by simp [Token.mk0])]
    exact ⟨rfl, t.getPos, by simp [Scanner.errorf, hte]⟩
  · intro rest hr hrest
    obtain ⟨h1, h2, h3, _⟩ := read_cons s '.' _ hd hr
    have hp1 : s.read.2.peek.1 = some '.' := peek_fst_cons _ '.' rest h3 h2
    have hd1 : s.read.2.peek.2.done = false := by rw [peek_done, h3, h2]; rfl
    obtain ⟨_, k2, k3, _⟩ := read_cons s.read.2.peek.2 '.' rest hd1 (by rw [peek_r, h2])
    have hp2 : s.read.2.peek.2.read.2.peek.1 ≠ some '.' := by
      rw [peek_fst _ (fun h => by rw [k3] at h; cases h), k2]
      exact hrest
    have hany := scanAny_plain s _ '.' _ h1 (scanAnyRune_dotdot _ hp1 hp2) rfl
    rw [Next_scan s _ _ hq hs hany (by simp [Token.mk0]) (by simp [Token.mk0])]
    exact ⟨rfl, by simp⟩
  · intro d ds rest hr hdig hd0 hds hrest
    obtain ⟨h1, h2, h3, _⟩ := read_cons s d _ hd hr
    obtain ⟨i1, i2, i3⟩ := scanDecimalLoop_underscore ds rest (s.read.2.r.length + 1) s.read.2 [d]
      (by simp) h3 h2 hds hrest (by rw [h2]; simp; omega)
    have hrune : s.read.2.scanAnyRune d = (Token.mk0 .Illegal (s.read.2.scanDecimal [d]).2.1,
        (s.read.2.scanDecimal [d]).2.2) := by
      rw [scanAnyRune_digit _ _ hdig, scanNumber_decimal _ _ hd0 i1]
    have hany := scanAny_plain s _ d _ h1 hrune rfl
    rw [Next_scan s _ _ hq hs hany (by simp [Token.mk0]) (by simp [Token.mk0])]
    refine ⟨?_, ?_⟩
    · have : (s.read.2.scanDecimal [d]).2.1 = [d] ++ ds ++ ['_', runeChar rest.head?] := i2
      simp [Token.mk0, this]
    · simp

theorem Next_invalid_number_witness :
    ((NewScanner "<?php 0178 ".toList true).Next.2.Next.2).queue = [] ∧
    ((NewScanner "<?php 0178 ".toList true).Next.2.Next.2).state = inPHP ∧
    ((NewScanner "<?php 0178 ".toList true).Next.2.Next.2).done = false ∧
    ((NewScanner "<?php 0178 ".toList true).Next.2.Next.2).r
      = '0' :: ("17".toList ++ '8' :: " ".toList) ∧
    (∀ d ∈ "17".toList, isOctalDigit d = true) ∧
    ((NewScanner "<?php 0178 ".toList true).Next.2.Next.2).err = none ∧
    (((NewScanner "<?php 0178 ".toList true).Next.2.Next.2).Next.1.typ = .EOF ∧
      ∃ p, ((NewScanner "<?php 0178 ".toList true).Next.2.Next.2).Next.2.err
        = some ⟨p, "invalid digit " ++ String.mk ['8'] ++ " in octal literal"⟩) ∧
    ((NewScanner "<?php ..1".toList true).Next.2.Next.2).r = '.' :: '.' :: "1".toList ∧
    (((NewScanner "<?php ..1".toList true).Next.2.Next.2).Next.1
        = ⟨.Illegal, "..".toList, ((NewScanner "<?php ..1".toList true).Next.2.Next.2).getPos⟩ ∧
      ((NewScanner "<?php ..1".toList true).Next.2.Next.2).Next.2.err
        = ((NewScanner "<?php ..1".toList true).Next.2.Next.2).err) ∧
    ((NewScanner "<?php 12_x".toList true).Next.2.Next.2).r
      = '1' :: ("2".toList ++ '_' :: "x".toList) ∧
    (((NewScanner "<?php 12_x".toList true).Next.2.Next.2).Next.1
        = ⟨.Illegal, '1' :: ("2".toList ++ ['_', runeChar "x".toList.head?]),
            ((NewScanner "<?php 12_x".toList true).Next.2.Next.2).getPos⟩ ∧
      ((NewScanner "<?php 12_x".toList true).Next.2.Next.2).Next.2.err
        = ((NewScanner "<?php 12_x".toList true).Next.2.Next.2).err) :=
  ⟨by decide, by decide, by decide, by decide, by decide, by decide,
   (Next_invalid_number ((NewScanner "<?php 0178 ".toList true).Next.2.Next.2) (by decide)
     (by decide) (by decide)).1 "17".toList " ".toList '8' (by decide) (by decide)
     (Or.inl rfl) (by decide),
   by decide,
   (Next_invalid_number ((NewScanner "<?php ..1".toList true).Next.2.Next.2) (by decide)
     (by decide) (by decide)).2.1 "1".toList (by decide) (by decide),
   by decide,
   (Next_invalid_number ((NewScanner "<?php 12_x".toList true).Next.2.Next.2) (by decide)
     (by decide) (by decide)).2.2 '1' "2".toList "x".toList (by decide) (by decide) (by decide)
     (by decide) (by decide)⟩

/-- C19 (the claim at two inputs): at `..` the scanner returns a token of kind `Illegal`
and goes on to the end of the input with no error recorded; at `1_x` it returns the
`Illegal` token `1_x`, again with no error. -/
theorem scanAll_illegal_no_error :
    (scanAll "<?php ..".toList true).1
      = [⟨.OpenTag, "<?php".toList, ⟨1, 1⟩⟩, ⟨.Whitespace, " ".toList, ⟨1, 6⟩⟩,
         ⟨.Illegal, "..".toList, ⟨1, 7⟩⟩, ⟨.EOF, [], ⟨1, 9⟩⟩] ∧
    (scanAll "<?php ..".toList true).2.err = none ∧
    (scanAll "<?php 1_x".toList true).1
      = [⟨.OpenTag, "<?php".toList, ⟨1, 1⟩⟩, ⟨.Whitespace, " ".toList, ⟨1, 6⟩⟩,
         ⟨.Illegal, "1_x".toList, ⟨1, 7⟩⟩, ⟨.EOF, [], ⟨1, 10⟩⟩] ∧
    (scanAll "<?php 1_x".toList true).2.err = none := by
  refine ⟨?_, ?_, ?_, ?_⟩ <;> decide

end token

namespace token

/-! ### The loops of the scanner as functions on the text -/

theorem identTake_append_identDrop (some : Bool) (r : List Char) :
    identTake some r ++ identDrop some r = r := by
  induction r generalizing some with
  | nil => rfl
  | cons c cs ih =>
    simp only [identTake, identDrop]
    split
    · simp [ih]
    · rfl

theorem identTake_no_newline (some : Bool) (r : List Char) : '\n' ∉ identTake some r := by
  induction r generalizing some with
  | nil => simp [identTake]
  | cons c cs ih =>
    simp only [identTake]
    split
    · rename_i h
      simp only [List.mem_cons, not_or]
      exact ⟨fun e => identChar_ne_newline some c h e.symm, ih true⟩
    · simp

theorem sound_read (s : Scanner) (h : s.Sound) : s.read.2.Sound := read_done_nil s h

theorem sound_peek (s : Scanner) (h : s.Sound) : s.peek.2.Sound := peek_done_nil s h

theorem read_snd_r (s : Scanner) (h : s.Sound) : s.read.2.r = s.r.tail := by
  cases hr : s.r with
  | nil =>
    cases hd : s.done <;> simp [Scanner.read, hd, hr]
  | cons c t => simpa using (read_cons s c t (read_of_done s h c t hr) hr).2.1

theorem scanIdentLoop_text (n : Nat) (s : Scanner) (b : List Char) (h : s.Sound)
    (hn : s.r.length < n) :
    (scanIdentLoop n s b).1 = b ++ identTake (!b.isEmpty) s.r ∧
    (scanIdentLoop n s b).2.r = identDrop (!b.isEmpty) s.r ∧
    (scanIdentLoop n s b).2.Sound := by
  induction n generalizing s b with
  | zero => omega
  | succ n ih =>
    rw [scanIdentLoop_succ, read_fst s h]
    cases hr : s.r with
    | nil => simp [identTake, identDrop, hr, sound_peek s h]
    | cons c t =>
      have hr1 : s.read.2.r = t := by rw [read_snd_r s h, hr]; rfl
      simp only [List.head?_cons, identTake, identDrop]
      split
      · obtain ⟨i1, i2, i3⟩ := ih s.read.2 (b ++ [c]) (sound_read s h)
          (by rw [hr1]; rw [hr] at hn; simp at hn; omega)
        have e : (!(b ++ [c]).isEmpty) = true := by simp
        rw [e, hr1] at i1 i2
        exact ⟨by rw [i1]; simp, i2, i3⟩
      · exact ⟨by simp, by rw [peek_r, hr], sound_peek s h⟩

theorem scanWhitespaceLoop_succ (n : Nat) (s : Scanner) (b : List Char) :
    scanWhitespaceLoop (n + 1) s b =
      match s.read.1 with
      | some c =>
        if isSpaceRune c then scanWhitespaceLoop n s.read.2 (b ++ [c])
        else (Token.mk0 .Whitespace b, s.peek.2)
      | none => (Token.mk0 .Whitespace b, s.peek.2) := by
  rcases h : s.read with ⟨_ | c, s1⟩
  · simp [scanWhitespaceLoop, h, peek_eq]
  · simp only [scanWhitespaceLoop, h, peek_eq]

theorem scanWhitespaceLoop_text (n : Nat) (s : Scanner) (b : List Char) (h : s.Sound)
    (hn : s.r.length < n) :
    (scanWhitespaceLoop n s b).1 = Token.mk0 .Whitespace (b ++ s.r.takeWhile isSpaceRune) ∧
    (scanWhitespaceLoop n s b).2.r = s.r.dropWhile isSpaceRune ∧
    (scanWhitespaceLoop n s b).2.Sound := by
  induction n generalizing s b with
  | zero => omega
  | succ n ih =>
    rw [scanWhitespaceLoop_succ, read_fst s h]
    cases hr : s.r with
    | nil => simp [hr, sound_peek s h]
    | cons c t =>
      have hr1 : s.read.2.r = t := by rw [read_snd_r s h, hr]; rfl
      simp only [List.head?_cons, List.takeWhile_cons, List.dropWhile_cons]
      split
      · obtain ⟨i1, i2, i3⟩ := ih s.read.2 (b ++ [c]) (sound_read s h)
          (by rw [hr1]; rw [hr] at hn; simp at hn; omega)
        rw [hr1] at i1 i2
        exact ⟨by rw [i1]; simp, i2, i3⟩
      · exact ⟨by simp, by rw [peek_r, hr], sound_peek s h⟩

/-! ### The heredoc body against the terminator test of the specification -/

theorem heredocText_skip_plain (delim w x : List Char) (hw : '\n' ∉ w) :
    heredocText delim (w ++ x) = (heredocText delim x).map (fun t => w ++ t) := by
  induction w with
  | nil => simp
  | cons c w ih =>
    have hc : c ≠ '\n' := fun e => hw (by simp [e])
    have := ih (fun e => hw (by simp [e]))
    simp only [List.cons_append, heredocText, hc, false_and, if_false, List.append_eq, this,
      Option.map_map]
    cases heredocText delim x <;> rfl

theorem dropWhile_space_append (w x : List Char) (hw : ∀ c ∈ w, isSpaceRune c = true) :
    (w ++ x).dropWhile isSpaceRune = x.dropWhile isSpaceRune := by
  induction w with
  | nil => rfl
  | cons c w ih =>
    simp only [List.cons_append, List.dropWhile_cons, hw c (by simp), if_true]
    exact ih (fun d hd => hw d (by simp [hd]))

theorem heredocText_skip_space (delim w x : List Char) (hw : ∀ c ∈ w, isSpaceRune c = true)
    (hx : heredocEndsAt delim x = false) :
    heredocText delim (w ++ x) = (heredocText delim x).map (fun t => w ++ t) := by
  induction w with
  | nil => simp
  | cons c w ih =>
    have hw2 : ∀ d ∈ w, isSpaceRune d = true := fun d hd => hw d (by simp [hd])
    have he : heredocEndsAt delim (w ++ x) = false := by
      unfold heredocEndsAt at hx ⊢
      rw [dropWhile_space_append w x hw2]
      exact hx
    simp only [List.cons_append, heredocText, List.append_eq, he, Bool.false_eq_true,
      and_false, if_false, ih hw2, Option.map_map]
    cases heredocText delim x <;> rfl

theorem hereDocBody_succ (delim : List Char) (n : Nat) (s : Scanner) (b : List Char) :
    hereDocBody delim (n + 1) s b =
      match s.read.1 with
      | none => s.read.2.errorf "heredoc not terminated"
      | some c =>
        if c = '\n' then
          if s.read.2.scanWhitespace.2.scanIdent.1 = delim then
            (Token.mk0 .String ("<<<".toList ++ (b ++ [c] ++ s.read.2.scanWhitespace.1.text
              ++ s.read.2.scanWhitespace.2.scanIdent.1)), s.read.2.scanWhitespace.2.scanIdent.2)
          else hereDocBody delim n s.read.2.scanWhitespace.2.scanIdent.2
            (b ++ [c] ++ s.read.2.scanWhitespace.1.text ++ s.read.2.scanWhitespace.2.scanIdent.1)
        else hereDocBody delim n s.read.2 (b ++ [c]) := by
  rw [hereDocBody]
  all_goals
    rcases hrd : s.read with ⟨r, s1⟩
    cases r <;> rfl

/-- The loop of the heredoc body returns the text up to the first terminator of the
specification, and fails when there is none. -/
theorem hereDocBody_text (delim : List Char) (n : Nat) (s : Scanner) (b : List Char)
    (h : s.Sound) (hn : s.r.length < n) :
    (hereDocBody delim n s b).1 =
      (match heredocText delim s.r with
        | some t => Token.mk0 .String ("<<<".toList ++ (b ++ t))
        | none => Token.mk0 .EOF []) ∧
    (∀ t, heredocText delim s.r = some t → s.r = t ++ (hereDocBody delim n s b).2.r) := by
  induction n generalizing s b with
  | zero => omega
  | succ n ih =>
    rw [hereDocBody_succ, read_fst s h]
    cases hr : s.r with
    | nil => simp [heredocText, Scanner.errorf]
    | cons c rest =>
      have hr1 : s.read.2.r = rest := by rw [read_snd_r s h, hr]; rfl
      have hlen : rest.length < n := by rw [hr] at hn; simp at hn; omega
      simp only [List.head?_cons]
      by_cases hc : c = '\n'
      · subst hc
        obtain ⟨w1, w2, w3⟩ := scanWhitespaceLoop_text (s.read.2.r.length + 1) s.read.2 []
          (sound_read s h) (by omega)
        obtain ⟨j1, j2, j3⟩ := scanIdentLoop_text (s.read.2.scanWhitespace.2.r.length + 1)
          s.read.2.scanWhitespace.2 [] w3 (by omega)
        have w2b : s.read.2.scanWhitespace.2.r = rest.dropWhile isSpaceRune := by
          have : s.read.2.scanWhitespace.2.r = s.read.2.r.dropWhile isSpaceRune := w2
          rw [this, hr1]
        have w1b : s.read.2.scanWhitespace.1.text = rest.takeWhile isSpaceRune := by
          have : s.read.2.scanWhitespace.1
              = Token.mk0 .Whitespace ([] ++ s.read.2.r.takeWhile isSpaceRune) := w1
          rw [this, hr1]; rfl
        have j1b : s.read.2.scanWhitespace.2.scanIdent.1
            = identTake false (rest.dropWhile isSpaceRune) := by
          have : s.read.2.scanWhitespace.2.scanIdent.1
              = [] ++ identTake (!([] : List Char).isEmpty) s.read.2.scanWhitespace.2.r := j1
          rw [this, w2b]; rfl
        have j2b : s.read.2.scanWhitespace.2.scanIdent.2.r
            = identDrop false (rest.dropWhile isSpaceRune) := by
          have : s.read.2.scanWhitespace.2.scanIdent.2.r
              = identDrop (!([] : List Char).isEmpty) s.read.2.scanWhitespace.2.r := j2
          rw [this, w2b]; rfl
        have hsplit : rest = rest.takeWhile isSpaceRune
            ++ (identTake false (rest.dropWhile isSpaceRune)
              ++ identDrop false (rest.dropWhile isSpaceRune)) := by
          rw [identTake_append_identDrop, List.takeWhile_append_dropWhile]
        simp only [if_true, w1b, j1b]
        by_cases hm : identTake false (rest.dropWhile isSpaceRune) = delim
        · have he : heredocEndsAt delim rest = true := by simp [heredocEndsAt, hm]
          simp only [hm, if_true, heredocText, he, and_self]
          refine ⟨by simp, ?_⟩
          intro t ht
          cases ht
          rw [j2b]
          conv_lhs => rw [hsplit, hm]
          simp
        · have he : heredocEndsAt delim rest = false := by simp [heredocEndsAt, hm]
          have he2 : heredocEndsAt delim (identTake false (rest.dropWhile isSpaceRune)
              ++ identDrop false (rest.dropWhile isSpaceRune)) = false := by
            rw [identTake_append_identDrop]
            unfold heredocEndsAt at he ⊢
            rw [List.dropWhile_idempotent]
            exact he
          have hskip : heredocText delim rest
              = (heredocText delim (identDrop false (rest.dropWhile isSpaceRune))).map
                (fun t => rest.takeWhile isSpaceRune
                  ++ (identTake false (rest.dropWhile isSpaceRune) ++ t)) := by
            conv_lhs => rw [hsplit]
            rw [heredocText_skip_space delim _ _
              (fun c hc => (List.mem_takeWhile_imp hc)) he2,
              heredocText_skip_plain delim _ _ (identTake_no_newline false _), Option.map_map]
            rfl
          obtain ⟨i1, i2⟩ := ih s.read.2.scanWhitespace.2.scanIdent.2
            (b ++ ['\n'] ++ rest.takeWhile isSpaceRune
              ++ identTake false (rest.dropWhile isSpaceRune)) j3 (by
              rw [j2b]
              have := congrArg List.length hsplit
              simp at this
              omega)
          rw [j2b] at i1 i2
          simp only [hm, if_false, heredocText, he, Bool.false_eq_true, and_false, hskip]
          constructor
          · rw [i1]
            cases heredocText delim (identDrop false (rest.dropWhile isSpaceRune)) <;>
              simp
          · intro t ht
            cases hq : heredocText delim (identDrop false (rest.dropWhile isSpaceRune)) with
            | none => rw [hq] at ht; simp at ht
            | some u =>
              rw [hq] at ht
              simp only [Option.map_some', Option.some.injEq] at ht
              subst ht
              have := i2 u hq
              conv_lhs => rw [hsplit, this]
              simp
      · obtain ⟨i1, i2⟩ := ih s.read.2 (b ++ [c]) (sound_read s h) (by rw [hr1]; exact hlen)
        rw [hr1] at i1 i2
        simp only [hc, if_false, heredocText, false_and]
        constructor
        · rw [i1]
          cases heredocText delim rest <;> simp
        · intro t ht
          cases hq : heredocText delim rest with
          | none => rw [hq] at ht; simp at ht
          | some u =>
            rw [hq] at ht
            simp only [Option.map_some', Option.some.injEq] at ht
            subst ht
            have := i2 u hq
            conv_lhs => rw [this]
            simp

end token

namespace token

theorem identTake_word (some : Bool) (v rest : List Char) (hv : identWord some v = true) :
    identTake some (v ++ rest) = v ++ identTake (some || !v.isEmpty) rest ∧
    identDrop some (v ++ rest) = identDrop (some || !v.isEmpty) rest := by
  induction v generalizing some with
  | nil => simp
  | cons c cs ih =>
    simp only [identWord, Bool.and_eq_true] at hv
    obtain ⟨i1, i2⟩ := ih true hv.2
    simp only [Bool.true_or] at i1 i2
    simp only [List.cons_append, identTake, identDrop, hv.1, if_true]
    simp
    exact ⟨i1, i2⟩

theorem identTake_stop (some : Bool) (rest : List Char) (h : identStop some rest = true) :
    identTake some rest = [] ∧ identDrop some rest = rest := by
  cases rest with
  | nil => exact ⟨rfl, rfl⟩
  | cons c cs =>
    simp only [identStop, Bool.not_eq_true'] at h
    simp [identTake, identDrop, h]

theorem identWord_mono (v : List Char) (h : identWord false v = true) :
    identWord true v = true := by
  cases v with
  | nil => rfl
  | cons c cs =>
    simp only [identWord, identChar, Bool.and_eq_true, Bool.or_eq_true, Bool.and_false,
      Bool.or_false, Bool.and_true] at h ⊢
    exact ⟨Or.inl (by simpa using h.1), h.2⟩

theorem takeWhile_space_prefix (sp rest : List Char) (hsp : ∀ c ∈ sp, isSpaceRune c = true)
    (hrest : ∀ c, rest.head? = some c → isSpaceRune c = false) :
    (sp ++ rest).takeWhile isSpaceRune = sp ∧ (sp ++ rest).dropWhile isSpaceRune = rest := by
  induction sp with
  | nil =>
    cases rest with
    | nil => exact ⟨rfl, rfl⟩
    | cons c cs =>
      have := hrest c rfl
      simp [List.takeWhile_cons, List.dropWhile_cons, this]
  | cons c cs ih =>
    obtain ⟨i1, i2⟩ := ih (fun d hd => hsp d (by simp [hd]))
    simp only [List.cons_append, List.takeWhile_cons, List.dropWhile_cons, hsp c (by simp),
      if_true, i1, i2, and_self]

theorem hereDocSkipWS_succ (n : Nat) (s : Scanner) (b : List Char) :
    hereDocSkipWS (n + 1) s b =
      match s.read.1 with
      | some c =>
        if c = ' ' || c = '\t' || c = '\r' then hereDocSkipWS n s.read.2 (b ++ [c])
        else if c = '\n' then (true, some c, b, s.peek.2)
        else (false, some c, b, s.peek.2)
      | none => (false, none, b, s.peek.2) := by
  rcases h : s.read with ⟨_ | c, s1⟩
  · simp [hereDocSkipWS, h, peek_eq]
  · simp only [hereDocSkipWS, h, peek_eq]

theorem hereDocSkipWS_text (sp body : List Char) (n : Nat) (s : Scanner) (b : List Char)
    (h : s.Sound) (hr : s.r = sp ++ '\n' :: body)
    (hsp : ∀ c ∈ sp, c = ' ' ∨ c = '\t' ∨ c = '\r') (hn : sp.length < n) :
    (hereDocSkipWS n s b).1 = true ∧ (hereDocSkipWS n s b).2.2.1 = b ++ sp ∧
    (hereDocSkipWS n s b).2.2.2.r = '\n' :: body ∧ (hereDocSkipWS n s b).2.2.2.Sound := by
  induction sp generalizing n s b with
  | nil =>
    obtain ⟨m, rfl⟩ : ∃ m, n = m + 1 := ⟨n - 1, by simp at hn; omega⟩
    rw [hereDocSkipWS_succ, read_fst s h, hr]
    simp only [List.nil_append, List.head?_cons]
    refine ⟨by simp, by simp, ?_, ?_⟩
    · simp [hr]
    · simpa using sound_peek s h
  | cons c cs ih =>
    obtain ⟨m, rfl⟩ : ∃ m, n = m + 1 := ⟨n - 1, by simp at hn; omega⟩
    have hc : (c = ' ' || c = '\t' || c = '\r') = true := by
      rcases hsp c (by simp) with rfl | rfl | rfl <;> decide
    have hr1 : s.read.2.r = cs ++ '\n' :: body := by rw [read_snd_r s h, hr]; rfl
    rw [hereDocSkipWS_succ, read_fst s h, hr]
    simp only [List.cons_append, List.head?_cons, hc, if_true]
    obtain ⟨i1, i2, i3, i4⟩ := ih m s.read.2 (b ++ [c]) (sound_read s h) hr1
      (fun d hd => hsp d (by simp [hd])) (by simp at hn; omega)
    exact ⟨i1, by rw [i2]; simp, i3, i4⟩

/-- The case `<<<` in the switch of `scanAny`. -/
theorem scanAnyRune_heredoc (s : Scanner) (h1 : s.peek.1 = some '<')
    (h2 : s.peek.2.read.2.peek.1 = some '<') :
    s.scanAnyRune '<' = s.peek.2.read.2.peek.2.read.2.scanHereDoc := by
  rcases hp : s.peek with ⟨r2, sp⟩
  rw [hp] at h1 h2
  simp only at h1 h2
  subst h1
  simp [Scanner.scanAnyRune, hp, h2]

theorem scanWhitespace_text (s : Scanner) (h : s.Sound) :
    s.scanWhitespace.1.text = s.r.takeWhile isSpaceRune ∧
    s.scanWhitespace.2.r = s.r.dropWhile isSpaceRune ∧ s.scanWhitespace.2.Sound := by
  obtain ⟨w1, w2, w3⟩ := scanWhitespaceLoop_text (s.r.length + 1) s [] h (by omega)
  refine ⟨?_, w2, w3⟩
  have : s.scanWhitespace.1 = Token.mk0 .Whitespace ([] ++ s.r.takeWhile isSpaceRune) := w1
  rw [this]; rfl

theorem scanIdent_text (s : Scanner) (h : s.Sound) :
    s.scanIdent.1 = identTake false s.r ∧ s.scanIdent.2.r = identDrop false s.r ∧
    s.scanIdent.2.Sound := by
  obtain ⟨j1, j2, j3⟩ := scanIdentLoop_text (s.r.length + 1) s [] h (by omega)
  exact ⟨by simpa using j1, j2, j3⟩

theorem scanIdent_word_text (s : Scanner) (h : s.Sound) (v rest : List Char)
    (hr : s.r = v ++ rest) (hv : identWord false v = true) (hne : v ≠ [])
    (hstop : identStop true rest = true) :
    s.scanIdent.1 = v ∧ s.scanIdent.2.r = rest ∧ s.scanIdent.2.Sound := by
  obtain ⟨j1, j2, j3⟩ := scanIdent_text s h
  obtain ⟨t1, t2⟩ := identTake_word false v rest hv
  have e : (false || !v.isEmpty) = true := by cases v <;> simp at hne ⊢
  rw [e] at t1 t2
  obtain ⟨u1, u2⟩ := identTake_stop true rest hstop
  rw [hr, t1, u1] at j1
  rw [hr, t2, u2] at j2
  exact ⟨by simpa using j1, j2, j3⟩

theorem not_any_newline (sp : List Char) (hsp : ∀ c ∈ sp, c = ' ' ∨ c = '\t') :
    sp.any (fun c => c == '\r' || c == '\n') = false := by
  rw [List.any_eq_false]
  intro c hc
  rcases hsp c hc with rfl | rfl <;> decide

theorem space_of_blank (sp : List Char) (hsp : ∀ c ∈ sp, c = ' ' ∨ c = '\t') :
    ∀ c ∈ sp, isSpaceRune c = true := by
  intro c hc
  rcases hsp c hc with rfl | rfl <;> decide

/-- The opening line of a heredoc without quotes: the loop of the body starts at the
newline, with the opening line in the builder. -/
theorem scanHereDoc_plain (s : Scanner) (h : s.Sound) (sp ID sp2 body : List Char)
    (hsp : ∀ c ∈ sp, c = ' ' ∨ c = '\t') (hID : identWord false ID = true) (hne : ID ≠ [])
    (hsp2 : ∀ c ∈ sp2, c = ' ' ∨ c = '\t' ∨ c = '\r')
    (hr : s.r = sp ++ (ID ++ (sp2 ++ '\n' :: body))) :
    ∃ S : Scanner, S.Sound ∧ S.r = '\n' :: body ∧
      s.scanHereDoc = hereDocBody ID (S.r.length + 1) S (sp ++ ID ++ sp2) := by
  obtain ⟨c0, cs, rfl, hc0⟩ := word_head ID hID hne
  have hstop : identStop true (sp2 ++ '\n' :: body) = true := by
    cases sp2 with
    | nil => rfl
    | cons x xs =>
      rcases hsp2 x (by simp) with rfl | rfl | rfl <;> rfl
  obtain ⟨tw, dw⟩ := takeWhile_space_prefix sp (c0 :: cs ++ (sp2 ++ '\n' :: body))
    (space_of_blank sp hsp) (fun c hc => by
      simp only [List.cons_append, List.head?_cons, Option.some.injEq] at hc
      subst hc
      exact identStart_not_space c0 hc0)
  obtain ⟨w1, w2, w3⟩ := scanWhitespace_text s h
  rw [hr, tw] at w1
  rw [hr, dw] at w2
  rcases hws : s.scanWhitespace with ⟨ws, s1⟩
  rw [hws] at w1 w2 w3
  simp only at w1 w2 w3
  have p1v : s1.peek.1 = some c0 := by rw [peek_fst s1 w3, w2]; rfl
  have p1r : s1.peek.2.r = c0 :: cs ++ (sp2 ++ '\n' :: body) := by rw [peek_r, w2]
  have p1s := sound_peek s1 w3
  rcases hpk : s1.peek with ⟨p1, s2⟩
  rw [hpk] at p1v p1r p1s
  simp only at p1v p1r p1s
  subst p1v
  obtain ⟨i1, i2, i3⟩ := scanIdent_word_text s2 p1s (c0 :: cs) _ p1r hID hne hstop
  rcases hid : s2.scanIdent with ⟨delim, s4⟩
  rw [hid] at i1 i2 i3
  simp only at i1 i2 i3
  subst i1
  obtain ⟨k1, k2, k3, k4⟩ := hereDocSkipWS_text sp2 body (s4.r.length + 1) s4
    (ws.text ++ c0 :: cs) i3 i2 hsp2 (by rw [i2]; simp; omega)
  rcases hsk : hereDocSkipWS (s4.r.length + 1) s4 (ws.text ++ c0 :: cs) with ⟨ok, r, b3, s6⟩
  rw [hsk] at k1 k2 k3 k4
  simp only at k1 k2 k3 k4
  subst k1
  refine ⟨s6, k4, k3, ?_⟩
  rw [w1] at hsk k2
  have hq0 : (some c0 = some '"' || some c0 = some '\'') = false := by
    have h1 := identStart_ne c0 '"' hc0 (by decide)
    have h2 := identStart_ne c0 '\'' hc0 (by decide)
    simp [h1, h2]
  simp only [Scanner.scanHereDoc, hws, hpk, w1, not_any_newline sp hsp, Option.isNone_some,
    Bool.or_self, Bool.false_eq_true, if_false, hq0, hid, List.isEmpty_cons, hsk,
    Bool.not_true]
  rw [k2]

/-- The opening line of a heredoc or nowdoc with its identifier in quotes. -/
theorem scanHereDoc_quoted (s : Scanner) (h : s.Sound) (q : Char) (sp ID sp2 body : List Char)
    (hq : q = '"' ∨ q = '\'')
    (hsp : ∀ c ∈ sp, c = ' ' ∨ c = '\t') (hID : identWord false ID = true) (hne : ID ≠ [])
    (hsp2 : ∀ c ∈ sp2, c = ' ' ∨ c = '\t' ∨ c = '\r')
    (hr : s.r = sp ++ (q :: (ID ++ (q :: (sp2 ++ '\n' :: body))))) :
    ∃ S : Scanner, S.Sound ∧ S.r = '\n' :: body ∧
      s.scanHereDoc = hereDocBody ID (S.r.length + 1) S (sp ++ [q] ++ ID ++ [q] ++ sp2) := by
  have hstop : identStop true (q :: (sp2 ++ '\n' :: body)) = true := by
    rcases hq with rfl | rfl <;> rfl
  have hqs : isSpaceRune q = false := by rcases hq with rfl | rfl <;> rfl
  obtain ⟨tw, dw⟩ := takeWhile_space_prefix sp (q :: (ID ++ (q :: (sp2 ++ '\n' :: body))))
    (space_of_blank sp hsp) (fun c hc => by
      simp only [List.head?_cons, Option.some.injEq] at hc
      subst hc
      exact hqs)
  obtain ⟨w1, w2, w3⟩ := scanWhitespace_text s h
  rw [hr, tw] at w1
  rw [hr, dw] at w2
  rcases hws : s.scanWhitespace with ⟨ws, s1⟩
  rw [hws] at w1 w2 w3
  simp only at w1 w2 w3
  have p1v : s1.peek.1 = some q := by rw [peek_fst s1 w3, w2]; rfl
  have p1r : s1.peek.2.r = q :: (ID ++ (q :: (sp2 ++ '\n' :: body))) := by rw [peek_r, w2]
  have p1s := sound_peek s1 w3
  rcases hpk : s1.peek with ⟨p1, s2⟩
  rw [hpk] at p1v p1r p1s
  simp only at p1v p1r p1s
  subst p1v
  have r3 : s2.read.2.r = ID ++ (q :: (sp2 ++ '\n' :: body)) := by
    rw [read_snd_r s2 p1s, p1r]; rfl
  have s3s := sound_read s2 p1s
  obtain ⟨i1, i2, i3⟩ := scanIdent_word_text s2.read.2 s3s ID _ r3 hID hne hstop
  rcases hid : s2.read.2.scanIdent with ⟨delim, s4⟩
  rw [hid] at i1 i2 i3
  simp only at i1 i2 i3
  subst i1
  have r4v : s4.read.1 = some q := by rw [read_fst s4 i3, i2]; rfl
  have r5 : s4.read.2.r = sp2 ++ '\n' :: body := by rw [read_snd_r s4 i3, i2]; rfl
  have s5s := sound_read s4 i3
  rcases hrd4 : s4.read with ⟨r4, s5⟩
  rw [hrd4] at r4v r5 s5s
  simp only at r4v r5 s5s
  subst r4v
  obtain ⟨k1, k2, k3, k4⟩ := hereDocSkipWS_text sp2 body (s5.r.length + 1) s5
    (sp ++ [runeChar (some q)] ++ delim ++ [q]) s5s r5 hsp2 (by rw [r5]; simp; omega)
  rcases hsk : hereDocSkipWS (s5.r.length + 1) s5 (sp ++ [runeChar (some q)] ++ delim ++ [q])
    with ⟨ok, r, b3, s6⟩
  rw [hsk] at k1 k2 k3 k4
  simp only at k1 k2 k3 k4
  subst k1
  refine ⟨s6, k4, k3, ?_⟩
  have hq0 : (some q = some '"' || some q = some '\'') = true := by
    rcases hq with rfl | rfl <;> rfl
  have hde : delim.isEmpty = false := by cases delim <;> simp at hne ⊢
  simp only [Scanner.scanHereDoc, hws, hpk, w1, not_any_newline sp hsp, Option.isNone_some,
    Bool.or_self, Bool.false_eq_true, if_false, hq0, if_true, hid, hde, hrd4, ne_eq,
    not_true_eq_false, hsk, Bool.not_true]
  rw [k2]
  rfl

theorem dropWhile_word (v rest : List Char) (hv : identWord false v = true) (hne : v ≠ []) :
    (v ++ rest).dropWhile isSpaceRune = v ++ rest := by
  obtain ⟨c, cs, rfl, hc⟩ := word_head v hv hne
  simp [List.dropWhile_cons, identStart_not_space c hc]

/-- The terminator test rejects an identifier that goes on behind `ID`, and one in which
other identifier characters stand before `ID`. -/
theorem heredocEndsAt_exact (ID : List Char) (hID : identWord false ID = true) (hne : ID ≠ []) :
    (∀ ws x rest, (∀ c ∈ ws, isSpaceRune c = true) → identChar true x = true →
      heredocEndsAt ID (ws ++ (ID ++ x :: rest)) = false) ∧
    (∀ ws pre rest, (∀ c ∈ ws, isSpaceRune c = true) → pre ≠ [] → identWord false pre = true →
      heredocEndsAt ID (ws ++ (pre ++ (ID ++ rest))) = false) := by
  have hIDe : (false || !ID.isEmpty) = true := by cases ID <;> simp at hne ⊢
  constructor
  · intro ws x rest hws hx
    unfold heredocEndsAt
    rw [dropWhile_space_append ws _ hws, dropWhile_word ID _ hID hne,
      (identTake_word false ID _ hID).1, hIDe]
    simp only [identTake, hx, if_true, beq_eq_false_iff_ne, ne_eq]
    intro e
    have := congrArg List.length e
    simp at this
  · intro ws pre rest hws hpne hpre
    have hpe : (false || !pre.isEmpty) = true := by cases pre <;> simp at hpne ⊢
    unfold heredocEndsAt
    rw [dropWhile_space_append ws _ hws, dropWhile_word pre _ hpre hpne,
      (identTake_word false pre _ hpre).1, hpe,
      (identTake_word true ID _ (identWord_mono ID hID)).1]
    simp only [beq_eq_false_iff_ne, ne_eq]
    intro e
    have := congrArg List.length e
    have hp : 0 < pre.length := List.length_pos.mpr hpne
    simp at this
    omega

/-- C16: in script mode with an empty queue, at a heredoc or nowdoc `<<<`, optional
blanks, the identifier `ID` (bare or in quotes), optional blanks and a newline, `Next`
returns one String token that ends at the first point behind a newline where, after
optional white space, the maximal identifier is `ID` exactly; its text is the source
from `<<<` through that identifier; without such a point the call returns EOF.  A line
on which the identifier goes on behind `ID`, or has other identifier characters before
`ID`, is no such point. -/
theorem Next_heredoc (s : Scanner) (hq : s.queue = []) (hs : s.state = inPHP)
    (hd : s.done = false) (sp qs ID sp2 body : List Char)
    (hsp : ∀ c ∈ sp, c = ' ' ∨ c = '\t') (hqs : qs = [] ∨ qs = ['"'] ∨ qs = ['\''])
    (hID : identWord false ID = true) (hne : ID ≠ [])
    (hsp2 : ∀ c ∈ sp2, c = ' ' ∨ c = '\t' ∨ c = '\r')
    (hr : s.r = "<<<".toList ++ (sp ++ qs ++ ID ++ qs ++ sp2 ++ '\n' :: body)) :
    (∀ t, heredocText ID ('\n' :: body) = some t →
      s.Next.1 = ⟨.String, "<<<".toList ++ (sp ++ qs ++ ID ++ qs ++ sp2 ++ t), s.getPos⟩ ∧
      s.r = "<<<".toList ++ (sp ++ qs ++ ID ++ qs ++ sp2 ++ t) ++ s.Next.2.r) ∧
    (heredocText ID ('\n' :: body) = none → s.Next.1.typ = .EOF) ∧
    (∀ ws x rest, (∀ c ∈ ws, isSpaceRune c = true) → identChar true x = true →
      heredocEndsAt ID (ws ++ (ID ++ x :: rest)) = false) ∧
    (∀ ws pre rest, (∀ c ∈ ws, isSpaceRune c = true) → pre ≠ [] → identWord false pre = true →
      heredocEndsAt ID (ws ++ (pre ++ (ID ++ rest))) = false) := by
  refine ⟨?_, ?_, (heredocEndsAt_exact ID hID hne).1, (heredocEndsAt_exact ID hID hne).2⟩
  all_goals
    have hsound : s.Sound := fun h => by rw [hd] at h; cases h
    have hr0 : s.r = '<' :: '<' :: '<' :: (sp ++ qs ++ ID ++ qs ++ sp2 ++ '\n' :: body) := hr
    obtain ⟨h1, h2, h3, _⟩ := read_cons s '<' _ hd hr0
    have s1s := sound_read s hsound
    have p1 : s.read.2.peek.1 = some '<' := peek_fst_cons _ '<' _ h3 h2
    have a1 : s.read.2.peek.2.read.2.r
        = '<' :: (sp ++ qs ++ ID ++ qs ++ sp2 ++ '\n' :: body) := by
      rw [read_snd_r _ (sound_peek _ s1s), peek_r, h2]; rfl
    have a1s := sound_read _ (sound_peek _ s1s)
    have p2 : s.read.2.peek.2.read.2.peek.1 = some '<' := by rw [peek_fst _ a1s, a1]; rfl
    have a2 : s.read.2.peek.2.read.2.peek.2.read.2.r
        = sp ++ qs ++ ID ++ qs ++ sp2 ++ '\n' :: body := by
      rw [read_snd_r _ (sound_peek _ a1s), peek_r, a1]; rfl
    have a2s := sound_read _ (sound_peek _ a1s)
    have hdoc : ∃ S : Scanner, S.Sound ∧ S.r = '\n' :: body ∧
        s.read.2.peek.2.read.2.peek.2.read.2.scanHereDoc
          = hereDocBody ID (S.r.length + 1) S (sp ++ qs ++ ID ++ qs ++ sp2) := by
      rcases hqs with rfl | rfl | rfl
      · simpa using scanHereDoc_plain _ a2s sp ID sp2 body hsp hID hne hsp2 (by simpa using a2)
      · simpa using scanHereDoc_quoted _ a2s '"' sp ID sp2 body (Or.inl rfl) hsp hID hne hsp2
          (by simpa using a2)
      · simpa using scanHereDoc_quoted _ a2s '\'' sp ID sp2 body (Or.inr rfl) hsp hID hne hsp2
          (by simpa using a2)
    obtain ⟨S, hS, hSr, hSd⟩ := hdoc
    obtain ⟨b1, b2⟩ := hereDocBody_text ID (S.r.length + 1) S (sp ++ qs ++ ID ++ qs ++ sp2) hS
      (by omega)
    conv at b1 => rhs; rw [hSr]
    have b3 : ∀ t, heredocText ID ('\n' :: body) = some t → '\n' :: body
        = t ++ (hereDocBody ID (S.r.length + 1) S (sp ++ qs ++ ID ++ qs ++ sp2)).2.r :=
      fun t ht => hSr.symm.trans (b2 t (by rw [hSr]; exact ht))
    have hrune : s.read.2.scanAnyRune '<'
        = hereDocBody ID (S.r.length + 1) S (sp ++ qs ++ ID ++ qs ++ sp2) := by
      rw [scanAnyRune_heredoc _ p1 p2, hSd]
  · intro t ht
    rw [ht] at b1
    have hrune2 : s.read.2.scanAnyRune '<'
        = (Token.mk0 .String ("<<<".toList ++ (sp ++ qs ++ ID ++ qs ++ sp2 ++ t)),
            (hereDocBody ID (S.r.length + 1) S (sp ++ qs ++ ID ++ qs ++ sp2)).2) := by
      rw [hrune]
      exact Prod.ext b1 rfl
    have hany := scanAny_plain s _ '<' _ h1 hrune2 rfl
    rw [Next_scan s _ _ hq hs hany (by simp [Token.mk0]) (by simp [Token.mk0])]
    refine ⟨by simp [Token.mk0], ?_⟩
    have := b3 t ht
    simp only []
    rw [hr0, this]
    simp
  · intro ht
    rw [ht] at b1
    have hrune2 : s.read.2.scanAnyRune '<'
        = (Token.mk0 .EOF [],
            (hereDocBody ID (S.r.length + 1) S (sp ++ qs ++ ID ++ qs ++ sp2)).2) := by
      rw [hrune]
      exact Prod.ext b1 rfl
    have hany := scanAny_plain s _ '<' _ h1 hrune2 rfl
    rw [Next_scan s _ _ hq hs hany (by simp [Token.mk0]) (by simp [Token.mk0])]
    rfl

theorem Next_heredoc_witness :
    ((NewScanner "<?php <<<\t END \nbuf\n  ENDx\nxEND:\nEND_;\nEND;".toList true).Next.2.Next.2).queue
      = [] ∧
    ((NewScanner "<?php <<<\t END \nbuf\n  ENDx\nxEND:\nEND_;\nEND;".toList true).Next.2.Next.2).state
      = inPHP ∧
    ((NewScanner "<?php <<<\t END \nbuf\n  ENDx\nxEND:\nEND_;\nEND;".toList true).Next.2.Next.2).done
      = false ∧
    (∀ c ∈ "\t ".toList, c = ' ' ∨ c = '\t') ∧
    (([] : List Char) = [] ∨ ([] : List Char) = ['"'] ∨ ([] : List Char) = ['\'']) ∧
    identWord false "END".toList = true ∧ "END".toList ≠ [] ∧
    (∀ c ∈ " ".toList, c = ' ' ∨ c = '\t' ∨ c = '\r') ∧
    ((NewScanner "<?php <<<\t END \nbuf\n  ENDx\nxEND:\nEND_;\nEND;".toList true).Next.2.Next.2).r
      = "<<<".toList ++ ("\t ".toList ++ [] ++ "END".toList ++ [] ++ " ".toList
          ++ '\n' :: "buf\n  ENDx\nxEND:\nEND_;\nEND;".toList) ∧
    heredocText "END".toList ('\n' :: "buf\n  ENDx\nxEND:\nEND_;\nEND;".toList)
      = some "\nbuf\n  ENDx\nxEND:\nEND_;\nEND".toList ∧
    ((NewScanner "<?php <<<\t END \nbuf\n  ENDx\nxEND:\nEND_;\nEND;".toList true).Next.2.Next.2).Next.1
      = ⟨.String, "<<<".toList ++ ("\t ".toList ++ [] ++ "END".toList ++ [] ++ " ".toList
          ++ "\nbuf\n  ENDx\nxEND:\nEND_;\nEND".toList),
        ((NewScanner "<?php <<<\t END \nbuf\n  ENDx\nxEND:\nEND_;\nEND;".toList
          true).Next.2.Next.2).getPos⟩ :=
  ⟨by decide, by decide, by decide, by decide, by decide, by decide, by decide, by decide,
   by decide, by decide,
   ((Next_heredoc
       ((NewScanner "<?php <<<\t END \nbuf\n  ENDx\nxEND:\nEND_;\nEND;".toList true).Next.2.Next.2)
       (by decide) (by decide) (by decide) "\t ".toList [] "END".toList " ".toList
       "buf\n  ENDx\nxEND:\nEND_;\nEND;".toList (by decide) (by decide) (by decide)
       (by decide) (by decide) (by decide)).1
     "\nbuf\n  ENDx\nxEND:\nEND_;\nEND".toList (by decide)).1⟩

end token

/-! ### The precedence table -/

namespace naive

open token

/-- C27 (amended): the map that `init` compiles from `opTable` is the listed table with
the cast kind `metaTokenCast` at level 2: a kind has a level exactly when the table
lists it, and the lookup returns that level. -/
theorem opPrecInit_eq_table (t : Typ) :
    opPrecInit.get t = (match specPrec t with
      | some n => (n, true)
      | none => (0, false)) := by
  cases t <;> rfl

/-- C27, the claim as worded fails: the kind `At`, which the parser gives to a unary
`&`, `+` or `-`, has no level, and the kind at level 2 is `metaTokenCast`. -/
theorem opPrecInit_at_absent :
    opPrecInit.get .At = (0, false) ∧ opPrecInit.get metaTokenCast = (2, true) := by
  decide

end naive

/-! ### The analysis of the operators of a statement -/

namespace naive

open token

theorem analyseOpsLoop_max (opPrec : PrecMap) (nodes : List Node) :
    ∀ (last : Typ) (h : Bool) (m : Nat),
      (∀ n ∈ nodes, isTernary n = false) → concatNextToInt nodes = false →
      concatInt (nextKind nodes) last = false →
      analyseOpsLoop opPrec nodes last h m
        = (max m (maxPrecOf (countedPrecs opPrec nodes)), h || nodes.any isLowWord) := by
  induction nodes with
  | nil => intro last h m _ _ _; simp [analyseOpsLoop, countedPrecs, maxPrecOf]
  | cons x rest ih =>
    intro last h m ht hc hl
    have htr : ∀ n ∈ rest, isTernary n = false := fun n hn => ht n (List.mem_cons_of_mem _ hn)
    cases x with
    | ternaryMiddle ns => simpa [isTernary] using ht (.ternaryMiddle ns) (List.mem_cons_self _ _)
    | scope info ss =>
      have hc2 : concatNextToInt rest = false := by simpa [concatNextToInt] using hc
      rw [analyseOpsLoop, ih .Illegal h m htr hc2 (by simp [concatInt])]
      simp [countedPrecs, isLowWord]
    | token t =>
      simp only [concatNextToInt, Bool.or_eq_false_iff] at hc
      rw [analyseOpsLoop]
      by_cases h1 : t.typ = .And ∨ t.typ = .Or
      · have hp : passedOver t.typ = true := by rcases h1 with e | e <;> simp [passedOver, e]
        have hl2 : concatInt (nextKind rest) last = false := by simpa [nextKind, hp] using hl
        have hw : isLowWord (.token t) = false := by rcases h1 with e | e <;> simp [isLowWord, e]
        have hcp : countedPrecs opPrec (.token t :: rest) = countedPrecs opPrec rest := by
          rcases h1 with e | e <;> simp [countedPrecs, e]
        rw [if_pos (by simpa using h1), ih last h m htr hc.2 hl2, hcp]
        simp [hw]
      · rw [if_neg (by simpa using h1)]
        by_cases h2 : t.typ = .LowPrecAnd ∨ t.typ = .LowPrecOr ∨ t.typ = .LowPrecXor
        · have hp : passedOver t.typ = true := by
            rcases h2 with e | e | e <;> simp [passedOver, e]
          have hl2 : concatInt (nextKind rest) last = false := by simpa [nextKind, hp] using hl
          have hw : isLowWord (.token t) = true := by
            rcases h2 with e | e | e <;> simp [isLowWord, e]
          have hcp : countedPrecs opPrec (.token t :: rest) = countedPrecs opPrec rest := by
            simp [countedPrecs, hw]
          rw [if_pos (by simpa [or_assoc] using h2), ih last true m htr hc.2 hl2, hcp]
          simp [hw]
        · rw [if_neg (by simpa [or_assoc] using h2)]
          have hw : isLowWord (.token t) = false := by
            simp only [not_or] at h2
            simp [isLowWord, h2]
          have hci : concatInt t.typ last = false := by
            by_cases hws : t.typ = .Whitespace
            · simp [concatInt, hws]
            · have hp : passedOver t.typ = false := by
                simp only [not_or] at h1 h2
                simp [passedOver, hws, h1, h2]
              simpa [nextKind, hp] using hl
          have hci2 : ((t.typ = .Concat && last = .Int) || (t.typ = .Int && last = .Concat)) = false := by
            simpa [concatInt] using hci
          rw [if_neg (by simp only [hci2]; decide)]
          have hl2 : concatInt (nextKind rest) (if t.typ ≠ .Whitespace then t.typ else last) = false := by
            by_cases hws : t.typ = .Whitespace
            · have hp : passedOver t.typ = true := by simp [passedOver, hws]
              simpa [nextKind, hp, hws] using hl
            · simp only [hws, ne_eq, not_false_eq_true, if_true]
              have := hc.1
              simp only [concatInt, Bool.or_eq_false_iff, Bool.and_eq_false_iff] at this ⊢
              tauto
          simp only [not_or] at h1
          by_cases h3 : (opPrec.get t.typ).2 = true ∧ (opPrec.get t.typ).1 > m ∧ (opPrec.get t.typ).1 ≠ 9
          · rw [if_pos (by simpa [and_assoc] using h3), ih _ h _ htr hc.2 hl2]
            have hcp : countedPrecs opPrec (.token t :: rest)
                = (opPrec.get t.typ).1 :: countedPrecs opPrec rest := by
              simp [countedPrecs, h1, hw, h3.1, h3.2.2]
            rw [hcp]
            simp only [maxPrecOf, List.any_cons, hw, Bool.false_or]
            congr 1
            omega
          · rw [if_neg (by simpa [and_assoc] using h3), ih _ h _ htr hc.2 hl2]
            simp only [List.any_cons, hw, Bool.false_or]
            congr 1
            by_cases h4 : (opPrec.get t.typ).2 = true ∧ (opPrec.get t.typ).1 ≠ 9
            · have hcp : countedPrecs opPrec (.token t :: rest)
                  = (opPrec.get t.typ).1 :: countedPrecs opPrec rest := by
                simp [countedPrecs, h1, hw, h4.1, h4.2]
              rw [hcp]
              simp only [maxPrecOf]
              have : ¬ (opPrec.get t.typ).1 > m := fun h5 => h3 ⟨h4.1, h5, h4.2⟩
              omega
            · have hcp : countedPrecs opPrec (.token t :: rest) = countedPrecs opPrec rest := by
                simp only [countedPrecs]
                rw [if_neg]
                tauto
              rw [hcp]


theorem analyseOpsLoop_fst (opPrec : PrecMap) (nodes : List Node) :
    ∀ (last : Typ) (h h2 : Bool) (m : Nat),
      (analyseOpsLoop opPrec nodes last h m).1
        = (analyseOpsLoop opPrec (dropLowWords nodes) last h2 m).1 := by
  induction nodes with
  | nil => intro last h h2 m; simp [analyseOpsLoop, dropLowWords]
  | cons x rest ih =>
    intro last h h2 m
    cases x with
    | ternaryMiddle ns => simp [analyseOpsLoop, dropLowWords, isLowWord]
    | scope info ss =>
      have e : dropLowWords (.scope info ss :: rest) = .scope info ss :: dropLowWords rest := by
        simp [dropLowWords, isLowWord]
      rw [e, analyseOpsLoop, analyseOpsLoop]
      exact ih _ _ _ _
    | token t =>
      by_cases hw : isLowWord (.token t) = true
      · have e : dropLowWords (.token t :: rest) = dropLowWords rest := by
          simp [dropLowWords, hw]
        have hw2 : t.typ = .LowPrecAnd ∨ t.typ = .LowPrecOr ∨ t.typ = .LowPrecXor := by
          simpa [isLowWord, or_assoc] using hw
        have h1 : ¬ (t.typ = .And ∨ t.typ = .Or) := by
          rcases hw2 with e | e | e <;> simp [e]
        rw [e, analyseOpsLoop, if_neg (by simpa using h1), if_pos (by simpa [or_assoc] using hw2)]
        exact ih _ _ _ _
      · have e : dropLowWords (.token t :: rest) = .token t :: dropLowWords rest := by
          simp [dropLowWords, hw]
        have hw2 : ¬ (t.typ = .LowPrecAnd ∨ t.typ = .LowPrecOr ∨ t.typ = .LowPrecXor) := by
          simpa [isLowWord, or_assoc] using hw
        rw [e, analyseOpsLoop, analyseOpsLoop]
        dsimp only
        split_ifs <;> first | rfl | exact ih _ _ _ _

theorem analyseOpsLoop_snd (opPrec : PrecMap) (nodes : List Node) :
    ∀ (last : Typ) (h : Bool) (m : Nat),
      (analyseOpsLoop opPrec nodes last h m).2 = (h || (beforeTernary nodes).any isLowWord)
        ∨ (analyseOpsLoop opPrec nodes last h m).1 = (opPrec.get .Concat).1 := by
  induction nodes with
  | nil => intro last h m; simp [analyseOpsLoop, beforeTernary]
  | cons x rest ih =>
    intro last h m
    cases x with
    | ternaryMiddle ns => simp [analyseOpsLoop, beforeTernary, isTernary]
    | scope info ss =>
      have e : beforeTernary (.scope info ss :: rest) = .scope info ss :: beforeTernary rest := by
        simp [beforeTernary, isTernary]
      rw [e, analyseOpsLoop]
      simpa [isLowWord] using ih .Illegal h m
    | token t =>
      have e : beforeTernary (.token t :: rest) = .token t :: beforeTernary rest := by
        simp [beforeTernary, isTernary]
      rw [e, analyseOpsLoop]
      by_cases hw : isLowWord (.token t) = true
      · have hw2 : t.typ = .LowPrecAnd ∨ t.typ = .LowPrecOr ∨ t.typ = .LowPrecXor := by
          simpa [isLowWord, or_assoc] using hw
        have h1 : ¬ (t.typ = .And ∨ t.typ = .Or) := by
          rcases hw2 with e | e | e <;> simp [e]
        rw [if_neg (by simpa using h1), if_pos (by simpa [or_assoc] using hw2)]
        simpa [hw] using ih last true m
      · have hw2 : ¬ (t.typ = .LowPrecAnd ∨ t.typ = .LowPrecOr ∨ t.typ = .LowPrecXor) := by
          simpa [isLowWord, or_assoc] using hw
        simp only [List.any_cons, hw, Bool.false_or]
        have hw3 : (decide (t.typ = .LowPrecAnd) || decide (t.typ = .LowPrecOr)
            || decide (t.typ = .LowPrecXor)) = false := by
          simp only [not_or] at hw2
          simp [hw2]
        simp only [hw3, Bool.false_eq_true, if_false]
        split_ifs <;> first | exact ih _ _ _ | exact Or.inr rfl

theorem analyseOpsLoop_flag (opPrec : PrecMap) (nodes : List Node)
    (hw : nodes.any isLowWord = false) :
    ∀ (last : Typ) (h : Bool) (m : Nat), (analyseOpsLoop opPrec nodes last h m).2 = h := by
  induction nodes with
  | nil => intro last h m; simp [analyseOpsLoop]
  | cons x rest ih =>
    intro last h m
    simp only [List.any_cons, Bool.or_eq_false_iff] at hw
    cases x with
    | ternaryMiddle ns => simp [analyseOpsLoop]
    | scope info ss => rw [analyseOpsLoop]; exact ih hw.2 _ _ _
    | token t =>
      have hw2 : ¬ (t.typ = .LowPrecAnd ∨ t.typ = .LowPrecOr ∨ t.typ = .LowPrecXor) := by
        have := hw.1
        simp only [isLowWord, Bool.or_eq_false_iff, decide_eq_false_iff_not] at this
        tauto
      have hw3 : (decide (t.typ = .LowPrecAnd) || decide (t.typ = .LowPrecOr)
          || decide (t.typ = .LowPrecXor)) = false := by
        simp only [not_or] at hw2
        simp [hw2]
      rw [analyseOpsLoop]
      simp only [hw3, Bool.false_eq_true, if_false]
      split_ifs <;> first | exact ih hw.2 _ _ _ | rfl

theorem dropLowWords_any (nodes : List Node) : (dropLowWords nodes).any isLowWord = false := by
  simp [dropLowWords, List.any_eq_false]

theorem analyseOps_dropLowWords (opPrec : PrecMap) (nodes : List Node) :
    analyseOps opPrec (dropLowWords nodes)
      = (analyseOpsLoop opPrec nodes .Illegal false 0).1 := by
  simp only [analyseOps, analyseOpsLoop_flag opPrec _ (dropLowWords_any nodes)]
  simp [← analyseOpsLoop_fst opPrec nodes .Illegal false false 0]

theorem analyseOps_promoted (opPrec : PrecMap) (hc : (opPrec.get .Concat).1 ≤ 9)
    (nodes : List Node) :
    analyseOps opPrec nodes
      = if (beforeTernary nodes).any isLowWord = true ∧ analyseOps opPrec (dropLowWords nodes) > 9
        then 22 else analyseOps opPrec (dropLowWords nodes) := by
  rw [analyseOps_dropLowWords]
  simp only [analyseOps]
  rcases analyseOpsLoop_snd opPrec nodes .Illegal false 0 with h | h
  · rw [h]; simp
  · rw [h]
    have : ¬ (opPrec.get .Concat).1 > 9 := by omega
    simp [this]


theorem analyseOpsLoop_blanks (opPrec : PrecMap) (b : Token) (post : List Node) (ws : List Node)
    (hws : ∀ n ∈ ws, isBlank n = true) :
    ∀ (last : Typ) (h : Bool) (m : Nat), concatInt b.typ last = true →
      (analyseOpsLoop opPrec (ws ++ .token b :: post) last h m).1 = (opPrec.get .Concat).1 := by
  induction ws with
  | nil =>
    intro last h m hb
    have hb2 : b.typ = .Concat ∧ last = .Int ∨ b.typ = .Int ∧ last = .Concat := by
      simpa [concatInt] using hb
    have h1 : (decide (b.typ = .And) || decide (b.typ = .Or)) = false := by
      rcases hb2 with e | e <;> simp [e.1]
    have h2 : (decide (b.typ = .LowPrecAnd) || decide (b.typ = .LowPrecOr)
        || decide (b.typ = .LowPrecXor)) = false := by
      rcases hb2 with e | e <;> simp [e.1]
    have h3 : (decide (b.typ = .Concat) && decide (last = .Int)
        || decide (b.typ = .Int) && decide (last = .Concat)) = true := by
      rcases hb2 with e | e <;> simp [e.1, e.2]
    rw [List.nil_append, analyseOpsLoop]
    simp only [h1, h2, h3, Bool.false_eq_true, if_false, if_true]
  | cons x rest ih =>
    intro last h m hb
    have hx := hws x (List.mem_cons_self _ _)
    have hr : ∀ n ∈ rest, isBlank n = true := fun n hn => hws n (List.mem_cons_of_mem _ hn)
    cases x with
    | ternaryMiddle ns => simp [isBlank] at hx
    | scope info ss => simp [isBlank] at hx
    | token t =>
      have ht : t.typ = .Whitespace := by simpa [isBlank] using hx
      rw [List.cons_append, analyseOpsLoop]
      simp only [ht]
      split_ifs <;> first | exact ih hr _ _ _ hb | (exfalso; simp_all)

theorem analyseOpsLoop_pair (opPrec : PrecMap) (a b : Token) (ws post : List Node)
    (hws : ∀ n ∈ ws, isBlank n = true) (hab : concatInt a.typ b.typ = true) (pre : List Node)
    (hpre : ∀ n ∈ pre, isTernary n = false) :
    ∀ (last : Typ) (h : Bool) (m : Nat),
      (analyseOpsLoop opPrec (pre ++ .token a :: (ws ++ .token b :: post)) last h m).1
        = (opPrec.get .Concat).1 := by
  induction pre with
  | nil =>
    intro last h m
    have hab2 : a.typ = .Concat ∧ b.typ = .Int ∨ a.typ = .Int ∧ b.typ = .Concat := by
      simpa [concatInt] using hab
    have hba : concatInt b.typ a.typ = true := by
      rcases hab2 with e | e <;> simp [concatInt, e.1, e.2]
    have h1 : (decide (a.typ = .And) || decide (a.typ = .Or)) = false := by
      rcases hab2 with e | e <;> simp [e.1]
    have h2 : (decide (a.typ = .LowPrecAnd) || decide (a.typ = .LowPrecOr)
        || decide (a.typ = .LowPrecXor)) = false := by
      rcases hab2 with e | e <;> simp [e.1]
    have h3 : a.typ ≠ .Whitespace := by
      rcases hab2 with e | e <;> simp [e.1]
    rw [List.nil_append, analyseOpsLoop]
    simp only [h1, h2, Bool.false_eq_true, if_false, h3, ne_eq, not_false_eq_true, if_true]
    split_ifs <;> first | rfl | exact analyseOpsLoop_blanks opPrec b post ws hws _ _ _ hba
  | cons x rest ih =>
    intro last h m
    have hx := hpre x (List.mem_cons_self _ _)
    have hr : ∀ n ∈ rest, isTernary n = false := fun n hn => hpre n (List.mem_cons_of_mem _ hn)
    cases x with
    | ternaryMiddle ns => simp [isTernary] at hx
    | scope info ss => rw [List.cons_append, analyseOpsLoop]; exact ih hr _ _ _
    | token t =>
      rw [List.cons_append, analyseOpsLoop]
      dsimp only
      split_ifs <;> first | rfl | exact ih hr _ _ _


/-- C24 (amended): for every node list with no ternary middle, no word operator and no
concat next to an int literal, `analyseOps` returns the greatest level among the token
nodes of the list that have a level other than 9 and are not `&&` or `||` (0 when
there is none): the comparison level 9 is left out of the maximum as well. -/
theorem analyseOps_max (opPrec : PrecMap) (nodes : List Node)
    (ht : ∀ n ∈ nodes, isTernary n = false) (hw : nodes.any isLowWord = false)
    (hc : concatNextToInt nodes = false) :
    analyseOps opPrec nodes = maxPrecOf (countedPrecs opPrec nodes) := by
  have h := analyseOpsLoop_max opPrec nodes .Illegal false 0 ht hc (by
    simp only [concatInt, Bool.or_eq_false_iff, Bool.and_eq_false_iff, decide_eq_false_iff_not]
    exact ⟨Or.inr (by decide), Or.inr (by decide)⟩)
  simp [analyseOps, h, hw]

/-- C24, an instance: in `$a + $b * $c` the greatest counted level is that of `+`. -/
theorem analyseOps_max_witness :
    (∀ n ∈ [Node.token (Token.mk0 .Var "$a".toList), .token (Token.mk0 .Add []),
        .token (Token.mk0 .Var "$b".toList), .token (Token.mk0 .Mul []),
        .token (Token.mk0 .Var "$c".toList)], isTernary n = false) ∧
    analyseOps opPrecInit [.token (Token.mk0 .Var "$a".toList), .token (Token.mk0 .Add []),
        .token (Token.mk0 .Var "$b".toList), .token (Token.mk0 .Mul []),
        .token (Token.mk0 .Var "$c".toList)] = 6 :=
  ⟨by decide,
   (analyseOps_max opPrecInit _ (by decide) (by decide) (by decide)).trans (by decide)⟩

/-- C24, the claim as worded fails: in `$a < $b + $c` the level of `<` is 9, the
greatest in the list, and `analyseOps` returns 6; in `$a < $b` it returns 0. -/
theorem analyseOps_skips_comparison :
    analyseOps opPrecInit [.token (Token.mk0 .Var "$a".toList), .token (Token.mk0 .Lt []),
        .token (Token.mk0 .Var "$b".toList), .token (Token.mk0 .Add []),
        .token (Token.mk0 .Var "$c".toList)] = 6 ∧
    analyseOps opPrecInit [.token (Token.mk0 .Var "$a".toList), .token (Token.mk0 .Lt []),
        .token (Token.mk0 .Var "$b".toList)] = 0 ∧
    opPrecInit.get .Lt = (9, true) := by
  decide

/-- C25: for every node list, in both tables `Fprint` runs with: when a word operator
`and`, `or` or `xor` stands before the first ternary middle and the result for the list
without its word operators is greater than 9, `analyseOps` returns 22; when there is no
such word, or that result is at most 9, `analyseOps` returns that result. -/
theorem analyseOps_promotion (opPrec : PrecMap)
    (hp : opPrec = opPrecInit ∨ opPrec = opPrecLegacy) (nodes : List Node) :
    ((beforeTernary nodes).any isLowWord = true → analyseOps opPrec (dropLowWords nodes) > 9 →
      analyseOps opPrec nodes = 22) ∧
    ((beforeTernary nodes).any isLowWord = false ∨ analyseOps opPrec (dropLowWords nodes) ≤ 9 →
      analyseOps opPrec nodes = analyseOps opPrec (dropLowWords nodes)) := by
  have hc : (opPrec.get .Concat).1 ≤ 9 := by
    rcases hp with e | e <;> subst e <;> decide
  have h := analyseOps_promoted opPrec hc nodes
  refine ⟨fun h1 h2 => ?_, fun h1 => ?_⟩
  · rw [h, if_pos ⟨h1, h2⟩]
  · rw [h, if_neg]
    rintro ⟨a, b⟩
    rcases h1 with c | c
    · rw [c] at a; exact Bool.false_ne_true a
    · omega

/-- C25, an instance: `$a | $b or $c` is promoted to 22, `$a + $b or $c` stays at 6. -/
theorem analyseOps_promotion_witness :
    (opPrecInit = opPrecInit ∨ opPrecInit = opPrecLegacy) ∧
    analyseOps opPrecInit [.token (Token.mk0 .Var "$a".toList), .token (Token.mk0 .BitOr []),
        .token (Token.mk0 .Var "$b".toList), .token (Token.mk0 .LowPrecOr "or".toList),
        .token (Token.mk0 .Var "$c".toList)] = 22 ∧
    analyseOps opPrecInit [.token (Token.mk0 .Var "$a".toList), .token (Token.mk0 .Add []),
        .token (Token.mk0 .Var "$b".toList), .token (Token.mk0 .LowPrecOr "or".toList),
        .token (Token.mk0 .Var "$c".toList)] = 6 :=
  ⟨Or.inl rfl,
   (analyseOps_promotion opPrecInit (Or.inl rfl) _).1 (by decide) (by decide),
   ((analyseOps_promotion opPrecInit (Or.inl rfl) _).2 (Or.inr (by decide))).trans (by decide)⟩

/-- C26: for every node list in which a concat token and an int literal token stand
next to each other, in either order, with only white-space tokens between them and no
ternary middle before them, `analyseOps` returns the level of concat, in both tables
`Fprint` runs with, and `decideOpSpaces` then reports `add = true` for concat. -/
theorem analyseOps_concat_int (opPrec : PrecMap)
    (hp : opPrec = opPrecInit ∨ opPrec = opPrecLegacy) (pre ws post : List Node) (a b : Token)
    (hpre : ∀ n ∈ pre, isTernary n = false) (hws : ∀ n ∈ ws, isBlank n = true)
    (hab : concatInt a.typ b.typ = true) :
    analyseOps opPrec (pre ++ .token a :: (ws ++ .token b :: post)) = (opPrec.get .Concat).1 ∧
    decideOpSpaces opPrec (analyseOps opPrec (pre ++ .token a :: (ws ++ .token b :: post)))
      .Concat = (true, true) := by
  have h := analyseOpsLoop_pair opPrec a b ws post hws hab pre hpre .Illegal false 0
  have hc : (opPrec.get .Concat).1 ≤ 9 ∧ (opPrec.get .Concat).2 = true := by
    rcases hp with e | e <;> subst e <;> decide
  have e : analyseOps opPrec (pre ++ .token a :: (ws ++ .token b :: post))
      = (opPrec.get .Concat).1 := by
    simp only [analyseOps, h]
    rw [if_neg]
    simp only [Bool.and_eq_true, decide_eq_true_eq, not_and, not_lt]
    exact fun _ => hc.1
  refine ⟨e, ?_⟩
  rw [e]
  simp [decideOpSpaces, hc.2]

/-- C26, an instance: in `$a . 1 + 2` the concat keeps its spaces although `+` binds
tighter. -/
theorem analyseOps_concat_int_witness :
    (opPrecInit = opPrecInit ∨ opPrecInit = opPrecLegacy) ∧
    concatInt Typ.Concat Typ.Int = true ∧
    analyseOps opPrecInit ([.token (Token.mk0 .Var "$a".toList)] ++ .token (Token.mk0 .Concat [])
      :: ([.token (Token.mk0 .Whitespace " ".toList)] ++ .token (Token.mk0 .Int "1".toList)
      :: [.token (Token.mk0 .Add []), .token (Token.mk0 .Int "2".toList)])) = 8 :=
  ⟨Or.inl rfl, rfl,
   (analyseOps_concat_int opPrecInit (Or.inl rfl) [.token (Token.mk0 .Var "$a".toList)]
      [.token (Token.mk0 .Whitespace " ".toList)]
      [.token (Token.mk0 .Add []), .token (Token.mk0 .Int "2".toList)]
      (Token.mk0 .Concat []) (Token.mk0 .Int "1".toList)
      (by decide) (by decide) rfl).1.trans (by decide)⟩

end naive

/-! ### The precedence map across calls of `Fprint` -/

namespace naive

open token

theorem set_restore (m : PrecMap) (k : Typ) (v : Nat) (h : (m.get k).2 = true) :
    (m.set k v).set k (m.get k).1 = m := by
  induction m with
  | nil => simp [PrecMap.get] at h
  | cons e rest ih =>
    by_cases hk : e.1 = k
    · have hb : (e.1 == k) = true := by simpa using hk
      have hg : PrecMap.get (e :: rest) k = (e.2, true) := by
        simp only [PrecMap.get, List.find?, hb]
      rw [hg]
      simp only [PrecMap.set, hk, if_true]
      rw [← hk]
    · have hb : (e.1 == k) = false := by simpa using hk
      have hg : PrecMap.get (e :: rest) k = PrecMap.get rest k := by
        simp only [PrecMap.get, List.find?, hb]
      rw [hg] at h ⊢
      simp only [PrecMap.set, hk, if_false]
      rw [ih h]

/-- C28: for every call of `Fprint`, with any options and on every way out of the call,
the precedence map after the call is the map before it, provided concat has an entry
(which it has after `init`); started from the table of `init` the map is that table
again, with concat at 8, and a later call writes exactly what it writes when no call
went before. -/
theorem Fprint_restores_opPrec (file later : File) (options o : Options) :
    (∀ m : PrecMap, (m.get .Concat).2 = true → (FprintFrom m file options).2 = m) ∧
    (FprintFrom opPrecInit file options).2 = opPrecInit ∧
    (FprintFrom opPrecInit file options).2.get .Concat = (8, true) ∧
    FprintFrom (FprintFrom opPrecInit file options).2 later o = FprintFrom opPrecInit later o ∧
    (FprintFrom opPrecInit later o).1 = Fprint later o := by
  have key : ∀ m : PrecMap, (m.get .Concat).2 = true → (FprintFrom m file options).2 = m := by
    intro m hm
    simp only [FprintFrom]
    split_ifs
    · exact set_restore m .Concat 6 hm
    · rfl
  have e := key opPrecInit (by decide)
  refine ⟨key, e, ?_, ?_, ?_⟩
  · rw [e]; decide
  · rw [e]
  · simp only [FprintFrom, Fprint]
    split_ifs <;> rfl

/-- C28, an instance: a call in PHP 7.4 mode that starts from the table of `init`
leaves that table behind. -/
theorem Fprint_restores_opPrec_witness :
    (opPrecInit.get .Concat).2 = true ∧
    (FprintFrom opPrecInit echoFile PHP74Compat).2 = opPrecInit :=
  ⟨by decide,
   (Fprint_restores_opPrec echoFile echoFile PHP74Compat Standard).1 opPrecInit (by decide)⟩

end naive

/-! ### The header of a `for` loop -/

namespace naive

open token

theorem printToken_lparen (p : printer) (t : Token) (h : t.typ = .Lparen)
    (hp : (p.opPrec.get .Lparen).2 = false) :
    (p.printToken t).tokens = .token { t with pos := ⟨0, 0⟩ } :: p.tokens := by
  have hw : t.typ ≠ .Whitespace := by rw [h]; decide
  have hd : ∀ m : Int, (decideOpSpaces p.opPrec m .Lparen).2 = false := by
    intro m
    simp only [decideOpSpaces]
    split_ifs
    · rfl
    · exact hp
  have hb : ((p.setRemoveNextWS false).setRmWSBeforeParen false).beforeToken
      printer.printToken0 t
      = ((p.setRemoveNextWS false).setRmWSBeforeParen false, false, false) := by
    simp [printer.beforeToken, h, metaTokenCast, printer.beforeDefault, hd, spacesAround]
  simp only [printer.printToken, hw, if_false, printTokenWith_eq, hb]
  simp [h, push_eq, spaceAfter, spacesAround]

/-- C22: the `for` block of the scope case of `print`, which runs for a parenthesised
scope of kind `for`, on a buffer whose last two elements are semicolons.  When the
element before them, past one blank, is the opening parenthesis, the block and the
closing parenthesis leave `(;;` and `)` side by side, with no blank; otherwise they
leave the two semicolons with exactly one blank between them (and one after).  The
input `for(;;) {break;}` is printed with the header `for (;;)`. -/
theorem fixFor_semicolons (p : printer) (s1 s2 : Token) (rest : List Item)
    (hprec : p.opPrec = opPrecInit ∨ p.opPrec = opPrecLegacy)
    (hp : p.tokens = .token s1 :: .token s2 :: rest)
    (h1 : s1.typ = .Semicolon) (h2 : s2.typ = .Semicolon) :
    (∀ x, takeType .Lparen (dropItem (.whitespace .space) rest) = some x →
      (p.fixFor.printType .Rparen).tokens
        = .token (Token.mk0 .Rparen ")".toList) :: .token (Token.mk0 .Lparen "(;;".toList)
            :: dropType .Lparen (dropItem (.whitespace .space) rest)) ∧
    (takeType .Lparen (dropItem (.whitespace .space) rest) = none →
      (p.fixFor.printType .Rparen).tokens
        = .token (Token.mk0 .Rparen ")".toList) :: .whitespace .space
            :: .token { s1 with pos := ⟨0, 0⟩ } :: .whitespace .space
            :: .token { s2 with pos := ⟨0, 0⟩ }
            :: dropItem (.whitespace .space) (dropItem (.whitespace .space) rest)) ∧
    format.formatCode "<?php\nfor(;;) \x7bbreak;\x7d\n".toList Standard
      = some "<?php\n\nfor (;;) \x7b\n\tbreak;\n\x7d\n".toList := by
  have hl : (p.opPrec.get .Lparen).2 = false := by
    rcases hprec with e | e <;> rw [e] <;> decide
  have e1 : takeType .Semicolon p.tokens = some (.token s1) := by simp [hp, takeType, h1]
  have e2 : dropType .Semicolon p.tokens = .token s2 :: rest := by simp [hp, dropType, h1]
  have e3 : takeType .Semicolon (.token s2 :: rest) = some (.token s2) := by simp [takeType, h2]
  have e4 : dropType .Semicolon (.token s2 :: rest) = rest := by simp [dropType, h2]
  refine ⟨fun x hx => ?_, fun hx => ?_, by decide!⟩
  · simp only [printer.fixFor, removeLastType_eq, setTokens_tokens, removeLastWS_eq,
      setTokens_setTokens, e1, e2, e3, e4, hx, Option.isSome_some, if_true, printer.reprint,
      printType_eq]
    rw [printToken_lparen _ (Token.mk0 .Lparen "(;;".toList) rfl (by simpa using hl)]
    simp [Token.mk0]
    rfl
  · simp only [printer.fixFor, removeLastType_eq, setTokens_tokens, removeLastWS_eq,
      setTokens_setTokens, e1, e2, e3, e4, hx, Option.isSome_some, Option.isSome_none, if_true,
      Bool.false_eq_true, if_false, printer.reprint, printType_eq]
    rw [takeType_none _ _ hx]
    simp only [printToken_semicolon _ _ h1, printToken_semicolon _ _ h2, printWS_eq,
      setTokens_tokens, setTokens_setTokens]
    simp [dropItem, Token.mk0]
    rfl

/-- C22, an instance: after `for (` the two semicolons are folded into `(;;`. -/
theorem fixFor_semicolons_witness :
    ((printer.new opPrecInit).setTokens
        [.token (Token.mk0 .Semicolon ";".toList), .token (Token.mk0 .Semicolon ";".toList),
         .token (Token.mk0 .Lparen "(".toList), .whitespace .space,
         .token (Token.mk0 .For "for".toList)]).tokens
      = [.token (Token.mk0 .Semicolon ";".toList), .token (Token.mk0 .Semicolon ";".toList),
         .token (Token.mk0 .Lparen "(".toList), .whitespace .space,
         .token (Token.mk0 .For "for".toList)] ∧
    ((((printer.new opPrecInit).setTokens
        [.token (Token.mk0 .Semicolon ";".toList), .token (Token.mk0 .Semicolon ";".toList),
         .token (Token.mk0 .Lparen "(".toList), .whitespace .space,
         .token (Token.mk0 .For "for".toList)]).fixFor).printType .Rparen).tokens
      = [.token (Token.mk0 .Rparen ")".toList), .token (Token.mk0 .Lparen "(;;".toList),
         .whitespace .space, .token (Token.mk0 .For "for".toList)] :=
  ⟨rfl, (fixFor_semicolons _ (Token.mk0 .Semicolon ";".toList) (Token.mk0 .Semicolon ";".toList)
      [.token (Token.mk0 .Lparen "(".toList), .whitespace .space,
       .token (Token.mk0 .For "for".toList)] (Or.inl rfl) rfl rfl rfl).1
      (.token (Token.mk0 .Lparen "(".toList)) rfl⟩

end naive

/-! ### The brace of a declaration -/

namespace naive

open token

theorem dropItem_removeAnyWSLoop (w : whitespace) (l : List Item) :
    dropItem (.whitespace w) (removeAnyWSLoop l).1 = (removeAnyWSLoop l).1 := by
  induction l with
  | nil => rfl
  | cons x rest ih =>
    cases x with
    | token t => simp [removeAnyWSLoop, dropItem]
    | indentation n => simpa [removeAnyWSLoop] using ih
    | whitespace v => simpa [removeAnyWSLoop] using ih

/-- C23 (amended): for every brace scope whose kind is class, function, interface, enum,
trait or open-tag, the printer removes all white space before the brace and puts a
newline and the current indentation there, so `\x7b` is always on a new line, whether or
not the source had a newline before it. -/
theorem scopeBegin_declaration_brace (p : printer) (arg : ScopeInfo)
    (ho : arg.opn = .Lbrace)
    (hk : arg.kind = .OpenTag ∨ arg.kind = .Class ∨ arg.kind = .Interface ∨ arg.kind = .Trait
      ∨ arg.kind = .Enum ∨ arg.kind = .Function) :
    (p.scopeBeginWS arg).tokens
      = .indentation p.indent :: .whitespace .newline :: (removeAnyWSLoop p.tokens).1 ∧
    (arg.commentTag = none →
      ((p.scopeBeginWS arg).scopeBeginOpen arg).tokens
        = .token (Token.mk0 .Lbrace "\x7b".toList) :: .indentation p.indent
            :: .whitespace .newline :: (removeAnyWSLoop p.tokens).1) := by
  have e : (p.scopeBeginWS arg).tokens
      = .indentation p.indent :: .whitespace .newline :: (removeAnyWSLoop p.tokens).1 := by
    have h1 : arg.kind ≠ .Lbrace := by rcases hk with h | h | h | h | h | h <;> simp [h]
    have h2 : arg.kind ≠ .Arrow := by rcases hk with h | h | h | h | h | h <;> simp [h]
    have h3 : arg.kind ≠ .DoubleColon := by rcases hk with h | h | h | h | h | h <;> simp [h]
    have h4 : (decide (arg.kind = .OpenTag) || decide (arg.kind = .Class)
        || decide (arg.kind = .Interface) || decide (arg.kind = .Trait)
        || decide (arg.kind = .Enum) || decide (arg.kind = .Function)) = true := by
      rcases hk with h | h | h | h | h | h <;> simp [h]
    simp only [printer.scopeBeginWS, ho, h1, h2, h3, h4, removeAnyWS_eq]
    by_cases hr : (removeAnyWSLoop p.tokens).2 = true
    · simp [hr, dropItem_removeAnyWSLoop]
    · simp [hr, printNL_eq, dropItem_removeAnyWSLoop]
  refine ⟨e, fun hc => ?_⟩
  simp only [printer.scopeBeginOpen, ho, hc, printType_eq, e]
  simp [Token.mk0]
  exact ⟨rfl, e⟩

/-- C23, an instance: a class scope after `class A` and a blank. -/
theorem scopeBegin_declaration_brace_witness :
    (⟨.Class, .Lbrace, .Rbrace, none, true, false, true, false⟩ : ScopeInfo).opn = .Lbrace ∧
    (((printer.new opPrecInit).setTokens
        [.whitespace .space, .token (Token.mk0 .Ident "A".toList)]).scopeBeginWS
          ⟨.Class, .Lbrace, .Rbrace, none, true, false, true, false⟩).tokens
      = [.indentation 0, .whitespace .newline, .token (Token.mk0 .Ident "A".toList)] :=
  ⟨rfl, (scopeBegin_declaration_brace _ _ rfl (Or.inr (Or.inl rfl))).1⟩

/-- C23, the claim as worded fails: in `class A{}` and in `function f(){}` the source
has no newline before the brace, and the brace is printed on a new line, not on the
same line after one blank. -/
theorem formatCode_brace_on_new_line :
    format.formatCode "<?php\nclass A\x7b\x7d\n".toList Standard
      = some "<?php\n\nclass A\n\x7b\n\x7d\n".toList ∧
    format.formatCode "<?php\nfunction f()\x7b\x7d\n".toList Standard
      = some "<?php\n\nfunction f()\n\x7b\n\x7d\n".toList := by
  refine ⟨?_, ?_⟩ <;> decide!

end naive

/-! ### The scopes of a parsed file -/

namespace naive

open token

theorem allScopesNodes_append (Q : ScopeInfo → Bool) (a b : List Node) :
    allScopesNodes Q (a ++ b) = (allScopesNodes Q a && allScopesNodes Q b) := by
  induction a with
  | nil => simp [allScopesNodes]
  | cons x xs ih => simp [allScopesNodes, ih, Bool.and_assoc]

theorem allScopesStmts_append (Q : ScopeInfo → Bool) (a b : List Stmt) :
    allScopesStmts Q (a ++ b) = (allScopesStmts Q a && allScopesStmts Q b) := by
  induction a with
  | nil => simp [allScopesStmts]
  | cons x xs ih =>
    obtain ⟨si, ns⟩ := x
    simp [allScopesStmts, ih, Bool.and_assoc]

theorem allScopesNodes_reverse (Q : ScopeInfo → Bool) (a : List Node) :
    allScopesNodes Q a.reverse = allScopesNodes Q a := by
  induction a with
  | nil => rfl
  | cons x xs ih => simp [allScopesNodes_append, allScopesNodes, ih, Bool.and_comm]

theorem allScopesNodes_snoc (Q : ScopeInfo → Bool) (nodes : List Node) (x : Node)
    (h : allScopesNodes Q nodes = true) (hx : allScopesNode Q x = true) :
    allScopesNodes Q (nodes ++ [x]) = true := by
  simp [allScopesNodes_append, h, allScopesNodes, hx]

theorem allScopesNodes_demoteLastKeyword (Q : ScopeInfo → Bool) (a : List Node)
    (h : allScopesNodes Q a = true) : allScopesNodes Q (demoteLastKeyword a) = true := by
  induction a with
  | nil => rfl
  | cons x xs ih =>
    cases x with
    | token t =>
      simp only [allScopesNodes, allScopesNode, Bool.and_eq_true] at h
      simp only [demoteLastKeyword]
      split_ifs
      · simp [allScopesNodes, allScopesNode, ih h.2]
      · simp [allScopesNodes, allScopesNode, h.2]
      · simp [allScopesNodes, allScopesNode, h.2]
    | scope info stmts => simpa [demoteLastKeyword] using h
    | ternaryMiddle nodes => simpa [demoteLastKeyword] using h

theorem allScopesNodes_stripTrailingWS (Q : ScopeInfo → Bool) (s : StmtInfo) (a : List Node)
    (h : allScopesNodes Q a = true) : allScopesNodes Q (stripTrailingWS s a).2 = true := by
  unfold stripTrailingWS
  split
  · rename_i tok rest hr
    split_ifs
    · have h2 : allScopesNodes Q a.reverse = true := by rw [allScopesNodes_reverse]; exact h
      rw [hr] at h2
      simp only [allScopesNodes, Bool.and_eq_true] at h2
      simpa [allScopesNodes_reverse] using h2.2
    · exact h
  · exact h

theorem finishScope_allScopes (Q : ScopeInfo → Bool)
    (hQ : ∀ s nodes, Q (finishScope s nodes).1 = true) (s : ScopeInfo) (nodes : List Stmt)
    (hn : allScopesStmts Q nodes = true) :
    allScopesNode Q (.scope (finishScope s nodes).1 (finishScope s nodes).2) = true := by
  have e : (finishScope s nodes).2 = nodes := rfl
  simp [allScopesNode, hQ, e, hn]

theorem attachSep_allScopes (Q : ScopeInfo → Bool) (p : parser) (sep : Typ) (sn : List Node)
    (h : allScopesNodes Q sn = true) : allScopesNodes Q (attachSep p sep sn).2 = true := by
  simp only [attachSep]
  split_ifs
  · exact allScopesNodes_snoc Q _ _ h rfl
  · exact h

theorem attachComment_allScopes (Q : ScopeInfo → Bool) (p : parser) (sn : List Node)
    (h : allScopesNodes Q sn = true) : allScopesNodes Q (attachComment p sn).2 = true := by
  simp only [attachComment]
  split_ifs
  · exact allScopesNodes_snoc Q _ _ h rfl
  · exact h
  · exact h

theorem castNode_allScopes (Q : ScopeInfo → Bool) (sub : Scope)
    (h : allScopesNode Q (.scope sub.1 sub.2) = true) : allScopesNode Q (castNode sub) = true := by
  unfold castNode
  split
  · rfl
  · exact h

theorem colonStmt_allScopes (Q : ScopeInfo → Bool) (p : parser) (s : StmtInfo)
    (nodes : List Node) (h : allScopesNodes Q nodes = true) :
    allScopesNodes Q (colonStmt p s nodes).2 = true := by
  simp only [colonStmt]
  apply allScopesNodes_snoc
  · rw [allScopesNodes_reverse]
    apply allScopesNodes_demoteLastKeyword
    rw [allScopesNodes_reverse]; exact h
  · rfl

theorem parseScopeLoop_allScopes_step (Q : ScopeInfo → Bool) (n : Nat)
    (hD : ∀ p seps, allScopesNodes Q (parseStmt n p seps).2.2 = true)
    (hB : ∀ p s nodes sep, allScopesStmts Q nodes = true →
      allScopesStmts Q (parseScopeLoop n p s nodes sep).2.2 = true) :
    ∀ p s nodes sep, allScopesStmts Q nodes = true →
      allScopesStmts Q (parseScopeLoop (n + 1) p s nodes sep).2.2 = true := by
  intro p s nodes sep hn
  have h1 := attachComment_allScopes Q
    (attachSep (parseStmt n p [sep]).1 sep (parseStmt n p [sep]).2.2).1
    _ (attachSep_allScopes Q (parseStmt n p [sep]).1 sep _ (hD p [sep]))
  have hn2 : allScopesStmts Q (if (!(attachComment (attachSep (parseStmt n p [sep]).1 sep
        (parseStmt n p [sep]).2.2).1 (attachSep (parseStmt n p [sep]).1 sep
        (parseStmt n p [sep]).2.2).2).2.isEmpty) = true
      then nodes ++ [(stmtFix s (parseStmt n p [sep]).2.1, (attachComment (attachSep
        (parseStmt n p [sep]).1 sep (parseStmt n p [sep]).2.2).1 (attachSep
        (parseStmt n p [sep]).1 sep (parseStmt n p [sep]).2.2).2).2)]
      else nodes) = true := by
    split_ifs
    · simp [allScopesStmts_append, hn, allScopesStmts, h1]
    · exact hn
  simp only [parseScopeLoop]
  refine ite_elim (Φ := fun r : parser × ScopeInfo × List Stmt =>
    allScopesStmts Q r.2.2 = true) _ _ _ (fun _ => hn2) (fun _ => ?_)
  exact ite_elim (Φ := fun r : parser × ScopeInfo × List Stmt =>
    allScopesStmts Q r.2.2 = true) _ _ _ (fun _ => hn2) (fun _ => hB _ _ _ _ hn2)

theorem parseStmtLoop_allScopes_step (Q : ScopeInfo → Bool) (n : Nat)
    (hA : ∀ p kind opn,
      allScopesNode Q (.scope (parseScope n p kind opn).2.1 (parseScope n p kind opn).2.2) = true)
    (hC : ∀ p seps s nodes ns, allScopesNodes Q nodes = true →
      allScopesNodes Q (parseStmtLoop n p seps s nodes ns).2.2 = true)
    (hD : ∀ p seps, allScopesNodes Q (parseStmt n p seps).2.2 = true) :
    ∀ p seps s nodes ns, allScopesNodes Q nodes = true →
      allScopesNodes Q (parseStmtLoop (n + 1) p seps s nodes ns).2.2 = true := by
  intro p0 seps s nodes ns hn
  have htok : ∀ t : Token, allScopesNodes Q (nodes ++ [.token t]) = true :=
    fun t => allScopesNodes_snoc Q _ _ hn rfl
  simp only [parseStmtLoop]
  generalize demoteKeyword p0 nodes = p
  refine ite_elim (Φ := fun r : parser × Stmt => allScopesNodes Q r.2.2 = true) _ _ _
    (fun _ => allScopesNodes_stripTrailingWS Q s nodes hn) (fun _ => ?_)
  refine ite_elim (Φ := fun r : parser × Stmt => allScopesNodes Q r.2.2 = true) _ _ _
    (fun _ => htok _) (fun _ => ?_)
  refine ite_elim (Φ := fun r : parser × Stmt => allScopesNodes Q r.2.2 = true) _ _ _
    (fun _ => hC _ _ _ _ _ (htok _)) (fun _ => ?_)
  refine ite_elim (Φ := fun r : parser × Stmt => allScopesNodes Q r.2.2 = true) _ _ _
    (fun _ => hC _ _ _ _ _ (allScopesNodes_snoc Q _ _ hn
      (castNode_allScopes Q _ (hA _ _ _)))) (fun _ => ?_)
  refine ite_elim (Φ := fun r : parser × Stmt => allScopesNodes Q r.2.2 = true) _ _ _
    (fun _ => ?_) (fun _ => ?_)
  · have hw := allScopesNodes_snoc Q _ _ hn (hA p.next ns .Lbrace)
    refine ite_elim (Φ := fun r : parser × Stmt => allScopesNodes Q r.2.2 = true) _ _ _
      (fun _ => hC _ _ _ _ _ hw) (fun _ => ?_)
    exact ite_elim (Φ := fun r : parser × Stmt => allScopesNodes Q r.2.2 = true) _ _ _
      (fun _ => hC _ _ _ _ _ hw) (fun _ => hw)
  refine ite_elim (Φ := fun r : parser × Stmt => allScopesNodes Q r.2.2 = true) _ _ _
    (fun _ => ?_) (fun _ => ?_)
  · have hw := allScopesNodes_snoc Q _ _ hn (hA p.next ns .Lbrack)
    exact ite_elim (Φ := fun r : parser × Stmt => allScopesNodes Q r.2.2 = true) _ _ _
      (fun _ => hw) (fun _ => hC _ _ _ _ _ hw)
  refine ite_elim (Φ := fun r : parser × Stmt => allScopesNodes Q r.2.2 = true) _ _ _
    (fun _ => ?_) (fun _ => ?_)
  · have hm := hD p.next [.Colon, .Semicolon, .Comma]
    refine ite_elim (Φ := fun r : parser × Stmt => allScopesNodes Q r.2.2 = true) _ _ _
      (fun _ => hC _ _ _ _ _ (allScopesNodes_snoc Q _ _ hn (by simpa [allScopesNode] using hm)))
      (fun _ => hC _ _ _ _ _ ?_)
    rw [allScopesNodes_append, hm, Bool.and_true]
    exact htok _
  refine ite_elim (Φ := fun r : parser × Stmt => allScopesNodes Q r.2.2 = true) _ _ _
    (fun _ => ?_) (fun _ => ?_)
  · refine ite_elim (Φ := fun r : parser × Stmt => allScopesNodes Q r.2.2 = true) _ _ _
      (fun _ => hn) (fun _ => ?_)
    exact ite_elim (Φ := fun r : parser × Stmt => allScopesNodes Q r.2.2 = true) _ _ _
      (fun _ => colonStmt_allScopes Q p s nodes hn)
      (fun _ => hC _ _ _ _ _ (colonStmt_allScopes Q p s nodes hn))
  refine ite_elim (Φ := fun r : parser × Stmt => allScopesNodes Q r.2.2 = true) _ _ _
    (fun _ => hC _ _ _ _ _ (htok _)) (fun _ => ?_)
  exact ite_elim (Φ := fun r : parser × Stmt => allScopesNodes Q r.2.2 = true) _ _ _
    (fun _ => hn) (fun _ => hC _ _ _ _ _ (htok _))

theorem parse_allScopes (Q : ScopeInfo → Bool)
    (hQ : ∀ s nodes, Q (finishScope s nodes).1 = true) (n : Nat) :
    (∀ p kind opn,
      allScopesNode Q (.scope (parseScope n p kind opn).2.1 (parseScope n p kind opn).2.2)
        = true) ∧
    (∀ p s nodes sep, allScopesStmts Q nodes = true →
      allScopesStmts Q (parseScopeLoop n p s nodes sep).2.2 = true) ∧
    (∀ p seps s nodes ns, allScopesNodes Q nodes = true →
      allScopesNodes Q (parseStmtLoop n p seps s nodes ns).2.2 = true) ∧
    (∀ p seps, allScopesNodes Q (parseStmt n p seps).2.2 = true) := by
  induction n with
  | zero =>
    refine ⟨?_, ?_, ?_, ?_⟩
    · intro p kind opn
      simp only [parseScope]
      exact finishScope_allScopes Q hQ _ _ rfl
    · intro p s nodes sep hn
      simp only [parseScopeLoop]
      exact hn
    · intro p seps s nodes ns hn
      simp only [parseStmtLoop]
      exact hn
    · intro p seps
      simp only [parseStmt]
      rfl
  | succ n ih =>
    obtain ⟨hA, hB, hC, hD⟩ := ih
    refine ⟨?_, parseScopeLoop_allScopes_step Q n hD hB, parseStmtLoop_allScopes_step Q n hA hC hD,
      ?_⟩
    · intro p kind opn
      simp only [parseScope]
      exact finishScope_allScopes Q hQ _ _ (hB _ _ _ _ rfl)
    · intro p seps
      simp only [parseStmt]
      exact hC _ _ _ _ _ rfl

theorem parseFile_scope (fuel : Nat) (p : parser) (f : File)
    (h : (parseFile fuel p).2 = some f) :
    ∃ q : parser, f.scope.2 = (parseScope fuel q .Illegal .OpenTag).2.2 ∧
      f.scope.1.multiline = (parseScope fuel q .Illegal .OpenTag).2.1.multiline ∧
      f.scope.1.indented = false := by
  simp only [parseFile] at h
  split_ifs at h with h1 h2
  · simp only [Option.some.injEq] at h
    subst h
    exact ⟨_, rfl, rfl, rfl⟩
  · simp only [Option.some.injEq] at h
    subst h
    exact ⟨_, rfl, rfl, rfl⟩

theorem ParseFuel_scope (fuel : Nat) (r : List Char) (c : Bool) (f : File)
    (h : ParseFuel fuel r c = .ok f) :
    ∃ q : parser, f.scope.2 = (parseScope fuel q .Illegal .OpenTag).2.2 ∧
      f.scope.1.multiline = (parseScope fuel q .Illegal .OpenTag).2.1.multiline ∧
      f.scope.1.indented = false := by
  simp only [ParseFuel] at h
  split_ifs at h
  split at h
  · simp at h
  · rename_i hd
    simp only [ParseResult.ok.injEq] at h
    subst h
    exact parseFile_scope _ _ _ hd
  · simp at h

theorem Parse_allScopes (Q : ScopeInfo → Bool)
    (hQ : ∀ s nodes, Q (finishScope s nodes).1 = true) (r : List Char) (c : Bool) (f : File)
    (h : Parse r c = .ok f) : allScopesStmts Q f.scope.2 = true := by
  obtain ⟨q, e, _, _⟩ := ParseFuel_scope _ r c f h
  have := (parse_allScopes Q hQ (4 * r.length + 16)).1 q .Illegal .OpenTag
  rw [e]
  simp only [allScopesNode, Bool.and_eq_true] at this
  exact this.2

theorem finishScope_multilineIndented (s : ScopeInfo) (nodes : List Stmt) :
    multilineIndented (finishScope s nodes).1 = true := by
  simp only [finishScope, multilineIndented]
  split_ifs <;> simp_all

theorem finishScope_braceMultiline (s : ScopeInfo) (nodes : List Stmt) :
    braceMultiline (finishScope s nodes).1 = true := by
  simp only [finishScope, braceMultiline]
  split_ifs <;> simp_all
  by_cases h1 : s.opn = .Lbrace
  · by_cases h2 : s.kind = .Fn
    · exact Or.inl (Or.inr h2)
    · exact Or.inr (by simp_all)
  · exact Or.inl (Or.inl h1)

/-- C29 (amended): for every input that `Parse` accepts, every scope of the returned
file below the outer scope satisfies: if `multiline` is true then `indented` is true.
The outer scope itself has `indented` false, whatever its `multiline` is. -/
theorem Parse_multiline_indented (r : List Char) (c : Bool) (f : File)
    (h : Parse r c = .ok f) :
    allScopesStmts multilineIndented f.scope.2 = true ∧ f.scope.1.indented = false := by
  obtain ⟨q, _, _, e⟩ := ParseFuel_scope _ r c f h
  exact ⟨Parse_allScopes _ finishScope_multilineIndented r c f h, e⟩

/-- C29, an instance: the file that `Parse` returns for `<?php f(` newline `1);`. -/
theorem Parse_multiline_indented_witness :
    Parse "<?php f(\n1);".toList false = .ok callFile ∧
    allScopesStmts multilineIndented callFile.scope.2 = true ∧
    callFile.scope.1.indented = false :=
  ⟨rfl, Parse_multiline_indented "<?php f(\n1);".toList false callFile rfl⟩

/-- C29, the claim as worded fails for the outer scope: in the file that `Parse` returns
for `<?php` and a newline the outer scope is multiline and not indented. -/
theorem Parse_outer_scope_not_indented :
    Parse "<?php\n".toList false
      = .ok ⟨none, (⟨.Illegal, .OpenTag, .EOF, none, true, false, false, false⟩, [])⟩ ∧
    multilineIndented ⟨.Illegal, .OpenTag, .EOF, none, true, false, false, false⟩ = false :=
  ⟨rfl, rfl⟩

theorem parseScopeLoop_kind (n : Nat) :
    ∀ p s nodes sep, (parseScopeLoop n p s nodes sep).2.1.kind = s.kind ∧
      (parseScopeLoop n p s nodes sep).2.1.opn = s.opn := by
  induction n with
  | zero => intro p s nodes sep; simp [parseScopeLoop]
  | succ n ih =>
    intro p s nodes sep
    simp only [parseScopeLoop]
    refine ite_elim (Φ := fun r : parser × ScopeInfo × List Stmt =>
      r.2.1.kind = s.kind ∧ r.2.1.opn = s.opn) _ _ _ (fun _ => ?_) (fun _ => ?_)
    · split_ifs <;> exact ⟨rfl, rfl⟩
    · refine ite_elim (Φ := fun r : parser × ScopeInfo × List Stmt =>
        r.2.1.kind = s.kind ∧ r.2.1.opn = s.opn) _ _ _ (fun _ => ?_) (fun _ => ?_)
      · split_ifs <;> exact ⟨rfl, rfl⟩
      · refine (ih _ _ _ _).imp (fun h => h.trans ?_) (fun h => h.trans ?_) <;>
          split_ifs <;> rfl

theorem scopeHead_kind (s : ScopeInfo) (p : parser) :
    (scopeHead s p).1.kind = s.kind ∧ (scopeHead s p).1.opn = s.opn := by
  simp only [scopeHead]
  split_ifs <;> exact ⟨rfl, rfl⟩

theorem scopeInit_kind (kind opn : Typ) :
    (scopeInit kind opn).kind = kind ∧ (scopeInit kind opn).opn = opn := by
  simp only [scopeInit]
  split_ifs <;> exact ⟨rfl, rfl⟩

theorem finishScope_kind (s : ScopeInfo) (nodes : List Stmt) :
    (finishScope s nodes).1.kind = s.kind ∧ (finishScope s nodes).1.opn = s.opn := by
  simp only [finishScope]
  split_ifs <;> exact ⟨rfl, rfl⟩

theorem parseScope_kind (n : Nat) (p : parser) (kind opn : Typ) :
    (parseScope n p kind opn).2.1.kind = kind ∧ (parseScope n p kind opn).2.1.opn = opn := by
  cases n with
  | zero =>
    simp only [parseScope]
    exact ⟨(finishScope_kind _ _).1.trans (scopeInit_kind _ _).1,
      (finishScope_kind _ _).2.trans (scopeInit_kind _ _).2⟩
  | succ n =>
    simp only [parseScope]
    have h1 := finishScope_kind
      (parseScopeLoop n (scopeHead (scopeInit kind opn) p).2 (scopeHead (scopeInit kind opn) p).1 []
        (if (scopeHead (scopeInit kind opn) p).1.fixComma then .Comma else .Semicolon)).2.1
      (parseScopeLoop n (scopeHead (scopeInit kind opn) p).2 (scopeHead (scopeInit kind opn) p).1 []
        (if (scopeHead (scopeInit kind opn) p).1.fixComma then .Comma else .Semicolon)).2.2
    have h2 := parseScopeLoop_kind n (scopeHead (scopeInit kind opn) p).2
      (scopeHead (scopeInit kind opn) p).1 []
      (if (scopeHead (scopeInit kind opn) p).1.fixComma then .Comma else .Semicolon)
    have h3 := scopeHead_kind (scopeInit kind opn) p
    have h4 := scopeInit_kind kind opn
    exact ⟨h1.1.trans (h2.1.trans (h3.1.trans h4.1)), h1.2.trans (h2.2.trans (h3.2.trans h4.2))⟩

theorem parseScope_braceMultiline (n : Nat) (p : parser) (kind opn : Typ) :
    braceMultiline (parseScope n p kind opn).2.1 = true := by
  cases n with
  | zero => simp only [parseScope]; exact finishScope_braceMultiline _ _
  | succ n => simp only [parseScope]; exact finishScope_braceMultiline _ _

/-- C30: every scope that `parseScope` returns for an opening brace and a kind that is
neither `fn` nor a member-access operator has `multiline` true, whatever white space
the source has; so `oneliner` holds only for a scope of kind `fn`, and the same is true
of every scope below the outer scope of a file that `Parse` returns.  The input
`if($x){echo 1;}` is printed with the block on lines of its own. -/
theorem parseScope_brace_multiline (fuel : Nat) (p : parser) (kind opn : Typ) :
    (opn = .Lbrace → kind ≠ .Fn → isFetchOperator kind = false →
      (parseScope fuel p kind opn).2.1.multiline = true) ∧
    (oneliner (parseScope fuel p kind opn).2.1 (parseScope fuel p kind opn).2.2 = true →
      kind = .Fn) ∧
    (∀ r c f, Parse r c = .ok f → allScopesStmts braceMultiline f.scope.2 = true) ∧
    format.formatCode "<?php\nif($x)\x7becho 1;\x7d\n".toList Standard
      = some "<?php\n\nif ($x) \x7b\n\techo 1;\n\x7d\n".toList := by
  have hb := parseScope_braceMultiline fuel p kind opn
  have hk := parseScope_kind fuel p kind opn
  simp only [braceMultiline, hk.1, hk.2, Bool.or_eq_true, Bool.not_eq_true', Bool.and_eq_false_iff,
    decide_eq_false_iff_not, Bool.not_eq_false', ne_eq, not_not] at hb
  refine ⟨fun h1 h2 h3 => ?_, fun h => ?_, fun r c f h => ?_, by decide!⟩
  · rcases hb with ((hb | hb) | hb) | hb
    · exact absurd h1 hb
    · exact absurd hb h2
    · rw [h3] at hb; exact absurd hb (by decide)
    · exact hb
  · simp only [oneliner, hk.1, hk.2, Bool.and_eq_true, beq_iff_eq, Bool.not_eq_true'] at h
    obtain ⟨⟨⟨h1, h2⟩, h3⟩, _⟩ := h
    rcases hb with ((hb | hb) | hb) | hb
    · exact absurd h1 hb
    · exact hb
    · rw [h3] at hb; exact absurd hb (by decide)
    · rw [h2] at hb; exact absurd hb (by decide)
  · exact Parse_allScopes _ finishScope_braceMultiline r c f h

/-- C30, an instance: the block of `if($x){echo 1;}`, which the source has on one line. -/
theorem parseScope_brace_multiline_witness :
    (Typ.Lbrace = .Lbrace ∧ Typ.If ≠ .Fn ∧ isFetchOperator .If = false) ∧
    (parseScope 20 (⟨NewScanner "<?php echo 1;\x7d".toList false, none, default, false⟩ :
      parser).next.next .If .Lbrace).2.1.multiline = true :=
  ⟨⟨rfl, by decide, rfl⟩,
   (parseScope_brace_multiline 20 _ .If .Lbrace).1 rfl (by decide) rfl⟩

end naive

/-! ### Brackets that do not match -/

namespace naive

open token

theorem next_eof (p : parser) (h : p.tok.typ = .EOF) : p.next = p := by
  simp [parser.next, h]

theorem next_congr (p q : parser) (hs : p.scan = q.scan) (he : p.err = q.err)
    (ho : p.outOfFuel = q.outOfFuel) (hp : p.tok.typ ≠ .EOF) (hq : q.tok.typ ≠ .EOF) :
    p.next = q.next := by
  obtain ⟨ps, pe, pt, po⟩ := p
  obtain ⟨qs, qe, qt, qo⟩ := q
  simp only at hs he ho hp hq
  subst hs he ho
  simp only [parser.next, hp, hq, if_false]

theorem parser.Good.next {p : parser} (h : p.Good) : p.next.Good := by
  by_cases he : p.tok.typ = .EOF
  · rw [next_eof p he]; exact h
  · have hn := h.2 he
    unfold parser.next
    simp only [he, if_false]
    rcases hN : p.scan.Next with ⟨tok, scan⟩
    simp only
    by_cases ht : tok.typ = .EOF
    · simp only [ht, hn, Option.isNone_none, Bool.and_self, decide_True, if_true]
      cases scan.err with
      | none => exact ⟨h.1, fun _ => rfl⟩
      | some se => exact ⟨h.1, fun hc => absurd ht hc⟩
    · simp only [ht, decide_False, Bool.false_and, Bool.false_eq_true, if_false]
      exact ⟨h.1, fun _ => hn⟩

theorem closerOf_none (t : Typ) (h1 : t ≠ .Lparen) (h2 : t ≠ .Lbrace) (h3 : t ≠ .Lbrack) :
    closerOf t = none := by
  cases t <;> first | rfl | contradiction

theorem closerOf_closer (t : Typ) (h : isCloser t = true) : closerOf t = none := by
  cases t <;> first | rfl | simp [isCloser] at h

theorem matchStep_plain (p : parser) (st : List Typ) (h1 : closerOf p.tok.typ = none)
    (h2 : isCloser p.tok.typ = false) : matchStep p st = some (p.next, st) := by
  simp [matchStep, h1, h2]

theorem matchStep_open (p : parser) (st : List Typ) (c : Typ) (h : closerOf p.tok.typ = some c) :
    matchStep p st = some (p.next, c :: st) := by
  simp [matchStep, h]

theorem matchStep_close (p : parser) (st : List Typ) (h : isCloser p.tok.typ = true) :
    matchStep p (p.tok.typ :: st) = some (p.next, st) := by
  simp [matchStep, closerOf_closer _ h, h]

theorem matchStep_stop (p : parser) (st : List Typ) (h : isCloser p.tok.typ = true)
    (hn : st.head? ≠ some p.tok.typ) : matchStep p st = none := by
  simp [matchStep, closerOf_closer _ h, h, hn]

theorem Runs.runStep {K : Nat} {p : parser} {st : List Typ} {T r : parser × List Typ}
    (h : Runs K p st T) (hs : matchStep p st = some r) :
    ∃ K2, K = K2 + 1 ∧ Runs K2 r.1 r.2 T := by
  cases K with
  | zero =>
    obtain ⟨h1, h2⟩ := h
    simp only [matchRun] at h1
    subst h1
    rw [hs] at h2
    exact absurd h2 (by simp)
  | succ K =>
    refine ⟨K, rfl, ?_, h.2⟩
    have := h.1
    simp only [matchRun, hs] at this
    exact this

theorem Runs.stop {K : Nat} {p : parser} {st : List Typ} {T : parser × List Typ}
    (h : Runs K p st T) (hs : matchStep p st = none) : T = (p, st) := by
  cases K with
  | zero => exact h.1.symm
  | succ K =>
    have := h.1
    simp only [matchRun, hs] at this
    exact this.symm

theorem Runs.plainStep {K : Nat} {p : parser} {st : List Typ} {T : parser × List Typ}
    (h : Runs K p st T) (h1 : closerOf p.tok.typ = none) (h2 : isCloser p.tok.typ = false) :
    ∃ K2, K = K2 + 1 ∧ Runs K2 p.next st T :=
  h.runStep (matchStep_plain p st h1 h2)

theorem fail_of_err (q : parser) (e : SyntaxError) (h : q.err = some e) : q.fail = q := by
  simp [parser.fail, parser.errorf, h]

theorem fail_typ (q : parser) (h : q.Good) : q.fail.tok.typ = .EOF := by
  cases he : q.err with
  | none => simp [parser.fail, parser.errorf, he]
  | some e =>
    rw [fail_of_err q e he]
    by_contra hc
    rw [h.2 hc] at he
    exact absurd he (by simp)

theorem fail_err (q : parser) : q.fail.err = some (unexpectedAt q) := by
  cases he : q.err with
  | none => simp [parser.fail, parser.errorf, he, unexpectedAt]
  | some e => rw [fail_of_err q e he]; simp [unexpectedAt, he]

theorem fail_outOfFuel (q : parser) : q.fail.outOfFuel = q.outOfFuel := by
  cases he : q.err with
  | none => simp [parser.fail, parser.errorf, he]
  | some e => rw [fail_of_err q e he]

theorem fail_fail (q : parser) : q.fail.fail = q.fail :=
  fail_of_err _ _ (fail_err q)

theorem errorf_fail (q : parser) (msg : String) : q.fail.errorf msg = q.fail := by
  simp [parser.errorf, fail_err]

theorem Runs.good {K : Nat} : ∀ {p : parser} {st : List Typ} {T : parser × List Typ},
    Runs K p st T → p.Good → T.1.Good := by
  induction K with
  | zero => intro p st T h g; rw [← h.1]; exact g
  | succ K ih =>
    intro p st T h g
    cases hs : matchStep p st with
    | none => rw [h.stop hs]; exact g
    | some r =>
      obtain ⟨K2, e, h2⟩ := h.runStep hs
      have e2 : K2 = K := by omega
      subst e2
      have hr : r.1 = p.next := by
        unfold matchStep at hs
        split at hs
        · simp only [Option.some.injEq] at hs; rw [← hs]
        · split_ifs at hs <;> simp only [Option.some.injEq] at hs <;> rw [← hs]
      exact ih h2 (hr ▸ g.next)

theorem PostC.toPost {K : Nat} {st : List Typ} {T : parser × List Typ} {c : Typ} {P : parser}
    (h : PostC K st T c P) : Post K st T P := by
  rcases h with ⟨K2, h1, h2, h3, _⟩ | h
  · exact Or.inl ⟨K2, h1, h2, h3⟩
  · exact Or.inr h

theorem PostS.asPost {K : Nat} {st : List Typ} {T : parser × List Typ} {seps : List Typ}
    {P : parser} (h : PostS K st T seps P) : Post K st T P := by
  rcases h with ⟨K2, h1, h2, h3, _⟩ | h
  · exact Or.inl ⟨K2, h1, h2, h3⟩
  · exact Or.inr h

theorem Post.toS {K K1 : Nat} {st : List Typ} {T : parser × List Typ} {P : parser}
    (h : Post K1 st T P) (hk : K1 < K) (seps : List Typ) : PostS K st T seps P := by
  rcases h with ⟨K2, h1, h2, h3⟩ | h
  · exact Or.inl ⟨K2, by omega, h2, h3, Or.inr (Or.inr (by omega))⟩
  · exact Or.inr h

theorem PostC.mono {K K1 : Nat} {st : List Typ} {T : parser × List Typ} {c : Typ} {P : parser}
    (h : PostC K1 st T c P) (hk : K1 ≤ K) : PostC K st T c P := by
  rcases h with ⟨K2, h1, h2, h3, h4⟩ | h
  · exact Or.inl ⟨K2, by omega, h2, h3, h4⟩
  · exact Or.inr h

theorem Post.ofPlain {K : Nat} {p : parser} {st : List Typ} {T : parser × List Typ}
    (h : Runs K p st T) (g : p.Good) (h1 : closerOf p.tok.typ = none)
    (h2 : isCloser p.tok.typ = false) : ∃ K1, K = K1 + 1 ∧ Post K1 st T p.next := by
  obtain ⟨K1, e, h3⟩ := h.plainStep h1 h2
  exact ⟨K1, e, Or.inl ⟨K1, le_refl _, h3, g.next⟩⟩

theorem got_cases (p : parser) (t : Typ) :
    (p.tok.typ = t ∧ p.got t = (true, p.next)) ∨ (p.tok.typ ≠ t ∧ p.got t = (false, p)) := by
  by_cases h : p.tok.typ = t
  · exact Or.inl ⟨h, by simp [parser.got, h]⟩
  · exact Or.inr ⟨h, by simp [parser.got, h]⟩

theorem got_runs {K : Nat} {p : parser} {st : List Typ} {T : parser × List Typ}
    (h : Runs K p st T) (g : p.Good) (t : Typ) (h1 : closerOf t = none)
    (h2 : isCloser t = false) :
    ∃ K2, K2 ≤ K ∧ Runs K2 (p.got t).2 st T ∧ (p.got t).2.Good := by
  rcases got_cases p t with ⟨e, hg⟩ | ⟨_, hg⟩
  · rw [hg]
    obtain ⟨K3, e3, h3⟩ := h.plainStep (by rw [e]; exact h1) (by rw [e]; exact h2)
    exact ⟨K3, by omega, h3, g.next⟩
  · rw [hg]; exact ⟨K, le_refl _, h, g⟩

theorem Post.got {K : Nat} {st : List Typ} {T : parser × List Typ} {P : parser}
    (h : Post K st T P) (hT : T.1.Good) (t : Typ) (h1 : closerOf t = none)
    (h2 : isCloser t = false) : Post K st T (P.got t).2 := by
  rcases got_cases P t with ⟨e, hg⟩ | ⟨_, hg⟩
  · rw [hg]
    rcases h with ⟨K2, k1, k2, k3⟩ | ⟨hf, hn⟩
    · obtain ⟨K3, e3, h3⟩ := k2.plainStep (by rw [e]; exact h1) (by rw [e]; exact h2)
      exact Or.inl ⟨K3, by omega, h3, k3.next⟩
    · refine Or.inr ⟨?_, hn⟩
      show P.next = _
      rw [next_eof P (by rw [hf]; exact fail_typ _ hT)]
      exact hf
  · rw [hg]; exact h

theorem Post.nextWS {K : Nat} {st : List Typ} {T : parser × List Typ} {P : parser}
    (h : Post K st T P) (hT : T.1.Good) :
    Post K st T (if P.tok.typ = .Whitespace then P.next else P) := by
  have := h.got hT .Whitespace rfl rfl
  rcases got_cases P .Whitespace with ⟨e, hg⟩ | ⟨e, hg⟩
  · rw [hg] at this; rw [if_pos e]; exact this
  · rw [if_neg e]; exact h

theorem demoteKeyword_eof (f : parser) (nodes : List Node) (h : f.tok.typ = .EOF) :
    demoteKeyword f nodes = f := by
  have : Typ.EOF.IsKeyword = false := by decide
  simp [demoteKeyword, h, this]

theorem parseStmtLoop_eof (n : Nat) (f : parser) (seps : List Typ) (s : StmtInfo)
    (nodes : List Node) (ns : Typ) (h : f.tok.typ = .EOF) :
    (parseStmtLoop (n + 1) f seps s nodes ns).1 = f := by
  simp only [parseStmtLoop, demoteKeyword_eof f nodes h, h]
  simp

theorem attachSep_fst (p : parser) (sep : Typ) (sn : List Node) :
    (attachSep p sep sn).1 = (p.got sep).2 := rfl

theorem attachComment_cases (p : parser) (sn : List Node) :
    (attachComment p sn).1 = p ∨
    (p.tok.typ = .Whitespace ∧ ((attachComment p sn).1 = p.next ∨
      (p.next.tok.typ = .Comment ∧ (attachComment p sn).1 = p.next.next))) := by
  simp only [attachComment]
  split_ifs with h1 h2
  · simp only [Bool.and_eq_true, decide_eq_true_eq] at h1
    exact Or.inr ⟨h1.1.2, Or.inr ⟨isLineComment_typ _ h2, rfl⟩⟩
  · simp only [Bool.and_eq_true, decide_eq_true_eq] at h1
    exact Or.inr ⟨h1.1.2, Or.inl rfl⟩
  · exact Or.inl rfl

/-- The parser after a statement of a scope, its separator and its trailing comment. -/
theorem attach_runs {K : Nat} {r : parser} {st : List Typ} {T : parser × List Typ} (sep : Typ)
    (sn : List Node) (hsep : sep = .Semicolon ∨ sep = .Comma) (h : Runs K r st T) (g : r.Good) :
    ∃ K3, K3 ≤ K ∧
      Runs K3 (attachComment (attachSep r sep sn).1 (attachSep r sep sn).2).1 st T ∧
      (attachComment (attachSep r sep sn).1 (attachSep r sep sn).2).1.Good ∧
      (K3 < K ∨ ((attachComment (attachSep r sep sn).1 (attachSep r sep sn).2).1 = r ∧
        r.tok.typ ≠ sep)) := by
  have hs1 : closerOf sep = none := by rcases hsep with e | e <;> rw [e] <;> rfl
  have hs2 : isCloser sep = false := by rcases hsep with e | e <;> rw [e] <;> rfl
  -- the separator
  have h1 : ∃ K1, K1 ≤ K ∧ Runs K1 (attachSep r sep sn).1 st T ∧ (attachSep r sep sn).1.Good ∧
      (K1 < K ∨ ((attachSep r sep sn).1 = r ∧ r.tok.typ ≠ sep)) := by
    rw [attachSep_fst]
    rcases got_cases r sep with ⟨e, hg⟩ | ⟨e, hg⟩
    · rw [hg]
      obtain ⟨K1, e1, h1⟩ := h.plainStep (by rw [e]; exact hs1) (by rw [e]; exact hs2)
      exact ⟨K1, by omega, h1, g.next, Or.inl (by omega)⟩
    · rw [hg]
      exact ⟨K, le_refl _, h, g, Or.inr ⟨rfl, e⟩⟩
  obtain ⟨K1, k1, r1, g1, c1⟩ := h1
  generalize (attachSep r sep sn).2 = sn2 at *
  generalize (attachSep r sep sn).1 = a at *
  rcases attachComment_cases a sn2 with e | ⟨hw, e | ⟨hc, e⟩⟩
  · rw [e]
    refine ⟨K1, k1, r1, g1, ?_⟩
    rcases c1 with c | c
    · exact Or.inl c
    · exact Or.inr c
  · rw [e]
    obtain ⟨K2, e2, h2⟩ := r1.plainStep (by rw [hw]; rfl) (by rw [hw]; rfl)
    exact ⟨K2, by omega, h2, g1.next, Or.inl (by omega)⟩
  · rw [e]
    obtain ⟨K2, e2, h2⟩ := r1.plainStep (by rw [hw]; rfl) (by rw [hw]; rfl)
    obtain ⟨K3, e3, h3⟩ := h2.plainStep (by rw [hc]; rfl) (by rw [hc]; rfl)
    exact ⟨K3, by omega, h3, g1.next.next, Or.inl (by omega)⟩

theorem attach_eof (f : parser) (sep : Typ) (sn : List Node) (h : f.tok.typ = .EOF) :
    (attachComment (attachSep f sep sn).1 (attachSep f sep sn).2).1 = f := by
  have e1 : (attachSep f sep sn).1 = f := by
    rw [attachSep_fst]
    rcases got_cases f sep with ⟨_, hg⟩ | ⟨_, hg⟩
    · rw [hg]; exact next_eof f h
    · rw [hg]
  rcases attachComment_cases (attachSep f sep sn).1 (attachSep f sep sn).2 with e | ⟨hw, _⟩
  · rw [e, e1]
  · rw [e1, h] at hw
    exact absurd hw (by decide)

theorem scopeHead_close (s : ScopeInfo) (p : parser) : (scopeHead s p).1.close = s.close := by
  simp only [scopeHead]
  split_ifs <;> rfl

theorem scopeHead_runs {K : Nat} {p : parser} {st : List Typ} {T : parser × List Typ}
    (s : ScopeInfo) (h : Runs K p st T) (g : p.Good) :
    ∃ K2, K2 ≤ K ∧ Runs K2 (scopeHead s p).2 st T ∧ (scopeHead s p).2.Good := by
  have h1 : ∃ K1, K1 ≤ K ∧
      Runs K1 (if p.tok.typ = .Whitespace then (s.setMultiline (containsNL p.tok.text), p.next)
        else (s, p)).2 st T ∧
      (if p.tok.typ = .Whitespace then (s.setMultiline (containsNL p.tok.text), p.next)
        else (s, p)).2.Good := by
    split_ifs with hw
    · obtain ⟨K1, e1, h1⟩ := h.plainStep (by rw [hw]; rfl) (by rw [hw]; rfl)
      exact ⟨K1, by omega, h1, g.next⟩
    · exact ⟨K, le_refl _, h, g⟩
  obtain ⟨K1, k1, r1, g1⟩ := h1
  simp only [scopeHead]
  generalize (if p.tok.typ = .Whitespace then (s.setMultiline (containsNL p.tok.text), p.next)
        else (s, p)) = r at *
  split_ifs with hc
  · simp only [Bool.and_eq_true, decide_eq_true_eq] at hc
    obtain ⟨K2, e2, h2⟩ := r1.plainStep (by rw [hc.1.2]; rfl) (by rw [hc.1.2]; rfl)
    obtain ⟨K3, k3, r3, g3⟩ := got_runs h2 g1.next .Whitespace rfl rfl
    exact ⟨K3, by omega, r3, g3⟩
  · exact ⟨K1, k1, r1, g1⟩

theorem isCloser_iff (t : Typ) :
    isCloser t = true ↔ (t = .EOF ∨ t = .Rparen ∨ t = .Rbrace ∨ t = .Rbrack) := by
  simp [isCloser, or_assoc]

theorem parseScopeLoop_post (n : Nat)
    (hD : ∀ p seps st K T, SepsOK seps → p.Good → Runs K p st T → 4 * K + 2 ≤ n →
      PostS K st T seps (parseStmt n p seps).1)
    (hB : ∀ p s nodes sep st K T, (sep = .Semicolon ∨ sep = .Comma) → isCloser s.close = true →
      p.Good → Runs K p (s.close :: st) T → 4 * K + 3 ≤ n →
      PostC K st T s.close (parseScopeLoop n p s nodes sep).1) :
    ∀ p s nodes sep st K T, (sep = .Semicolon ∨ sep = .Comma) → isCloser s.close = true →
      p.Good → Runs K p (s.close :: st) T → 4 * K + 3 ≤ n + 1 →
      PostC K st T s.close (parseScopeLoop (n + 1) p s nodes sep).1 := by
  intro p s nodes sep st K T hsep hcl hg hr hn
  have hT := hr.good hg
  have hseps : SepsOK [sep] := by
    intro t ht
    simp only [List.mem_singleton] at ht
    rcases hsep with e | e <;> simp [ht, e]
  have hS := hD p [sep] (s.close :: st) K T hseps hg hr (by omega)
  simp only [parseScopeLoop]
  generalize parseStmt n p [sep] = R at hS ⊢
  -- the state after the statement, its separator and its comment
  have hc1 : (Failed T (attachComment (attachSep R.1 sep R.2.2).1 (attachSep R.1 sep R.2.2).2).1) ∨
      ∃ K3, K3 ≤ K ∧
        Runs K3 (attachComment (attachSep R.1 sep R.2.2).1 (attachSep R.1 sep R.2.2).2).1
          (s.close :: st) T ∧
        (attachComment (attachSep R.1 sep R.2.2).1 (attachSep R.1 sep R.2.2).2).1.Good ∧
        (K3 < K ∨ isCloser
          (attachComment (attachSep R.1 sep R.2.2).1 (attachSep R.1 sep R.2.2).2).1.tok.typ
            = true) := by
    rcases hS with ⟨K1, k1, r1, g1, fl⟩ | ⟨hf, hne⟩
    · obtain ⟨K3, k3, r3, g3, c3⟩ := attach_runs sep R.2.2 hsep r1 g1
      refine Or.inr ⟨K3, by omega, r3, g3, ?_⟩
      rcases c3 with c | ⟨c, cne⟩
      · exact Or.inl (by omega)
      · rcases fl with f | f | f
        · exact Or.inr (by rw [c]; exact f)
        · simp only [List.mem_singleton] at f
          exact absurd f cne
        · exact Or.inl (by omega)
    · refine Or.inl ⟨?_, hne⟩
      rw [attach_eof R.1 sep R.2.2 (by rw [hf]; exact fail_typ _ hT)]
      exact hf
  generalize (attachComment (attachSep R.1 sep R.2.2).1 (attachSep R.1 sep R.2.2).2).2 = sn at *
  generalize (attachComment (attachSep R.1 sep R.2.2).1 (attachSep R.1 sep R.2.2).2).1 = c at *
  have hclose : (if (stmtFix s R.2.1).multiline = true then s.setIndented true else s).close
      = s.close := by split_ifs <;> rfl
  generalize (if (stmtFix s R.2.1).multiline = true then s.setIndented true else s) = s2 at *
  rw [← hclose] at hr hcl hc1 ⊢
  clear hclose
  refine ite_elim (Φ := fun r : parser × ScopeInfo × List Stmt => PostC K st T s2.close r.1)
    _ _ _ (fun h1 => ?_) (fun h1 => ?_)
  · -- the token closes the scope
    rcases hc1 with ⟨hf, hne⟩ | ⟨K3, k3, r3, g3, _⟩
    · refine Or.inr ⟨?_, hne⟩
      show c.next = _
      rw [next_eof c (by rw [hf]; exact fail_typ _ hT)]
      exact hf
    · have hcc : isCloser c.tok.typ = true := by rw [h1]; exact hcl
      have hm := matchStep_close c st hcc
      rw [h1] at hm
      obtain ⟨K4, e4, r4⟩ := r3.runStep hm
      refine Or.inl ⟨K4, by omega, r4, g3.next, fun he => ?_⟩
      show c.next.tok.typ = .EOF
      rw [next_eof c (by rw [h1]; exact he)]
      rw [h1]; exact he
  · refine ite_elim (Φ := fun r : parser × ScopeInfo × List Stmt => PostC K st T s2.close r.1)
      _ _ _ (fun h2 => ?_) (fun h2 => ?_)
    · -- another closer
      have hcc : isCloser c.tok.typ = true := by
        simpa [isCloser, or_assoc] using h2
      rcases hc1 with ⟨hf, hne⟩ | ⟨K3, k3, r3, g3, _⟩
      · refine Or.inr ⟨?_, hne⟩
        show c.errorf _ = _
        rw [hf]
        exact errorf_fail _ _
      · have hm := matchStep_stop c (s2.close :: st) hcc (by
          simp only [List.head?_cons, ne_eq, Option.some.injEq]
          exact fun e => h1 e.symm)
        have eT := r3.stop hm
        refine Or.inr ⟨?_, by rw [eT]; simp⟩
        rw [eT]
        rfl
    · -- the next statement
      have hcc : ¬ isCloser c.tok.typ = true := by
        simpa [isCloser, or_assoc] using h2
      rcases hc1 with ⟨hf, hne⟩ | ⟨K3, k3, r3, g3, fl⟩
      · exact absurd (by rw [hf, fail_typ _ hT]; rfl) hcc
      · rcases fl with fl | fl
        · exact (hB c s2 _ sep st K3 T hsep hcl g3 r3 (by omega)).mono k3
        · exact absurd fl hcc

theorem scopeInit_closer (kind opn : Typ) : isCloser (scopeInit kind opn).close = true := by
  simp only [scopeInit]
  split_ifs <;> rfl

theorem parseScope_post (n : Nat)
    (hB : ∀ p s nodes sep st K T, (sep = .Semicolon ∨ sep = .Comma) → isCloser s.close = true →
      p.Good → Runs K p (s.close :: st) T → 4 * K + 3 ≤ n →
      PostC K st T s.close (parseScopeLoop n p s nodes sep).1) :
    ∀ p kind opn st K T, p.Good → Runs K p ((scopeInit kind opn).close :: st) T →
      4 * K + 4 ≤ n + 1 → PostC K st T (scopeInit kind opn).close (parseScope (n + 1) p kind opn).1 := by
  intro p kind opn st K T hg hr hn
  obtain ⟨K2, k2, r2, g2⟩ := scopeHead_runs (scopeInit kind opn) hr hg
  have hc := scopeHead_close (scopeInit kind opn) p
  simp only [parseScope]
  rw [← hc] at r2 ⊢
  refine (hB _ _ _ _ st K2 T ?_ ?_ g2 r2 (by omega)).mono k2
  · split_ifs
    · exact Or.inr rfl
    · exact Or.inl rfl
  · rw [hc]; exact scopeInit_closer kind opn

theorem demoteKeyword_cases (p : parser) (nodes : List Node) :
    demoteKeyword p nodes = p ∨
    (p.tok.typ.IsKeyword = true ∧
      demoteKeyword p nodes = { p with tok := { p.tok with typ := .Ident } }) := by
  simp only [demoteKeyword]
  split_ifs with h1 h2
  · exact Or.inr ⟨h1, rfl⟩
  · exact Or.inl rfl
  · exact Or.inl rfl

theorem keyword_plain (t : Typ) (h : t.IsKeyword = true) :
    closerOf t = none ∧ isCloser t = false ∧ t ≠ .EOF := by
  revert h
  cases t <;> decide

theorem opens_plain (t : Typ) (h : opensNextScope t = true) : closerOf t = none := by
  revert h
  cases t <;> decide

theorem unaryTok_next (p : parser) (nodes : List Node) (h : p.tok.typ ≠ .EOF) :
    (unaryTok p nodes).next = p.next := by
  simp only [unaryTok]
  split_ifs
  · exact next_congr _ _ rfl rfl rfl (by simp) h
  · rfl

theorem stmt_cont (n : Nat)
    (hC : ∀ p seps s nodes ns st K T, SepsOK seps → p.Good → Runs K p st T → 4 * K + 1 ≤ n →
      PostS K st T seps (parseStmtLoop n p seps s nodes ns).1)
    {K K1 : Nat} {st : List Typ} {T : parser × List Typ} {seps : List Typ} (hseps : SepsOK seps)
    (hT : T.1.Good) (hk : K1 < K) (hn : 4 * K + 1 ≤ n + 1) {X : parser} (hX : Post K1 st T X)
    (s : StmtInfo) (nodes : List Node) (ns : Typ) :
    PostS K st T seps (parseStmtLoop n X seps s nodes ns).1 := by
  rcases hX with ⟨K2, k2, r2, g2⟩ | ⟨hf, hne⟩
  · exact (hC X seps s nodes ns st K2 T hseps g2 r2 (by omega)).asPost.toS (by omega) seps
  · obtain ⟨m, rfl⟩ : ∃ m, n = m + 1 := ⟨n - 1, by omega⟩
    refine Or.inr ⟨?_, hne⟩
    rw [parseStmtLoop_eof m X seps s nodes ns (by rw [hf]; exact fail_typ _ hT)]
    exact hf

theorem parseStmtLoop_post (n : Nat)
    (hA : ∀ p kind opn st K T, p.Good → Runs K p ((scopeInit kind opn).close :: st) T →
      4 * K + 4 ≤ n → PostC K st T (scopeInit kind opn).close (parseScope n p kind opn).1)
    (hC : ∀ p seps s nodes ns st K T, SepsOK seps → p.Good → Runs K p st T → 4 * K + 1 ≤ n →
      PostS K st T seps (parseStmtLoop n p seps s nodes ns).1)
    (hD : ∀ p seps st K T, SepsOK seps → p.Good → Runs K p st T → 4 * K + 2 ≤ n →
      PostS K st T seps (parseStmt n p seps).1) :
    ∀ p seps s nodes ns st K T, SepsOK seps → p.Good → Runs K p st T → 4 * K + 1 ≤ n + 1 →
      PostS K st T seps (parseStmtLoop (n + 1) p seps s nodes ns).1 := by
  intro p seps s nodes ns st K T hseps hg hr hn
  have hT := hr.good hg
  simp only [parseStmtLoop]
  rcases demoteKeyword_cases p nodes with hd | ⟨hkw, hd⟩
  swap
  · -- a keyword that is read as an identifier
    obtain ⟨k1, k2, k3⟩ := keyword_plain _ hkw
    obtain ⟨K1, e, hp⟩ := Post.ofPlain hr hg k1 k2
    have hnx : ({ p with tok := { p.tok with typ := .Ident } } : parser).next = p.next :=
      next_congr _ _ rfl rfl rfl (by simp) k3
    have hns : seps.contains Typ.Ident = false := by
      simp only [List.contains_eq_any_beq, List.any_eq_false, beq_iff_eq]
      intro t ht e
      rcases hseps t ht with h | h | h <;> rw [h] at e <;> exact absurd e (by decide)
    rw [hd]
    simp only [opensNextScope, hns, hnx]
    simp
    exact stmt_cont n hC hseps hT (by omega) hn hp _ _ _
  rw [hd]
  refine ite_elim (Φ := fun r : parser × Stmt => PostS K st T seps r.1) _ _ _
    (fun h1 => ?_) (fun h1 => ?_)
  · exact Or.inl ⟨K, le_refl _, hr, hg, Or.inl (by simpa [isCloser, or_assoc] using h1)⟩
  have hnc : isCloser p.tok.typ = false := by
    simp only [Bool.or_eq_true, decide_eq_true_eq, not_or] at h1
    simp [isCloser, h1]
  refine ite_elim (Φ := fun r : parser × Stmt => PostS K st T seps r.1) _ _ _
    (fun h2 => ?_) (fun h2 => ?_)
  · obtain ⟨K1, e, hp⟩ := Post.ofPlain hr hg (by rw [h2]; rfl) hnc
    exact hp.toS (by omega) seps
  refine ite_elim (Φ := fun r : parser × Stmt => PostS K st T seps r.1) _ _ _
    (fun h3 => ?_) (fun h3 => ?_)
  · obtain ⟨K1, e, hp⟩ := Post.ofPlain hr hg (opens_plain _ h3) hnc
    exact stmt_cont n hC hseps hT (by omega) hn hp _ _ _
  refine ite_elim (Φ := fun r : parser × Stmt => PostS K st T seps r.1) _ _ _
    (fun h4 => ?_) (fun h4 => ?_)
  · obtain ⟨K1, e, r1⟩ := hr.runStep (matchStep_open p st .Rparen (by rw [h4]; rfl))
    have hsc := hA p.next (lparenScope ns nodes.reverse).1 .Lparen st K1 T hg.next r1 (by omega)
    exact stmt_cont n hC hseps hT (by omega) hn hsc.toPost _ _ _
  refine ite_elim (Φ := fun r : parser × Stmt => PostS K st T seps r.1) _ _ _
    (fun h5 => ?_) (fun h5 => ?_)
  · obtain ⟨K1, e, r1⟩ := hr.runStep (matchStep_open p st .Rbrace (by rw [h5]; rfl))
    have hsc := (hA p.next ns .Lbrace st K1 T hg.next r1 (by omega)).toPost
    refine ite_elim (Φ := fun r : parser × Stmt => PostS K st T seps r.1) _ _ _
      (fun _ => stmt_cont n hC hseps hT (by omega) hn hsc _ _ _) (fun _ => ?_)
    exact ite_elim (Φ := fun r : parser × Stmt => PostS K st T seps r.1) _ _ _
      (fun _ => stmt_cont n hC hseps hT (by omega) hn (hsc.nextWS hT) _ _ _)
      (fun _ => hsc.toS (by omega) seps)
  refine ite_elim (Φ := fun r : parser × Stmt => PostS K st T seps r.1) _ _ _
    (fun h6 => ?_) (fun h6 => ?_)
  · obtain ⟨K1, e, r1⟩ := hr.runStep (matchStep_open p st .Rbrack (by rw [h6]; rfl))
    have hsc := (hA p.next ns .Lbrack st K1 T hg.next r1 (by omega)).toPost
    exact ite_elim (Φ := fun r : parser × Stmt => PostS K st T seps r.1) _ _ _
      (fun _ => hsc.toS (by omega) seps)
      (fun _ => stmt_cont n hC hseps hT (by omega) hn hsc _ _ _)
  have hco : closerOf p.tok.typ = none := closerOf_none _ h4 h5 h6
  obtain ⟨K1, e, r1⟩ := hr.plainStep hco hnc
  have hp : Post K1 st T p.next := Or.inl ⟨K1, le_refl _, r1, hg.next⟩
  refine ite_elim (Φ := fun r : parser × Stmt => PostS K st T seps r.1) _ _ _
    (fun h7 => ?_) (fun h7 => ?_)
  · have hm := (hD p.next [.Colon, .Semicolon, .Comma] st K1 T (by
      intro t ht; simpa using ht) hg.next r1 (by omega)).asPost
    have hm2 := hm.got hT .Colon rfl rfl
    exact ite_elim (Φ := fun r : parser × Stmt => PostS K st T seps r.1) _ _ _
      (fun _ => stmt_cont n hC hseps hT (by omega) hn hm2 _ _ _)
      (fun _ => stmt_cont n hC hseps hT (by omega) hn hm2 _ _ _)
  refine ite_elim (Φ := fun r : parser × Stmt => PostS K st T seps r.1) _ _ _
    (fun h8 => ?_) (fun h8 => ?_)
  · refine ite_elim (Φ := fun r : parser × Stmt => PostS K st T seps r.1) _ _ _
      (fun hc => ?_) (fun _ => ?_)
    · exact Or.inl ⟨K, le_refl _, hr, hg, Or.inr (Or.inl (by simpa using hc))⟩
    exact ite_elim (Φ := fun r : parser × Stmt => PostS K st T seps r.1) _ _ _
      (fun _ => hp.toS (by omega) seps)
      (fun _ => stmt_cont n hC hseps hT (by omega) hn hp _ _ _)
  refine ite_elim (Φ := fun r : parser × Stmt => PostS K st T seps r.1) _ _ _
    (fun h9 => ?_) (fun h9 => ?_)
  · have hne : p.tok.typ ≠ .EOF := by
      intro e9; rw [e9] at hnc; exact absurd hnc (by decide)
    rw [unaryTok_next p nodes hne]
    exact stmt_cont n hC hseps hT (by omega) hn hp _ _ _
  refine ite_elim (Φ := fun r : parser × Stmt => PostS K st T seps r.1) _ _ _
    (fun hc => ?_) (fun _ => ?_)
  · exact Or.inl ⟨K, le_refl _, hr, hg, Or.inr (Or.inl (by simpa using hc))⟩
  · exact stmt_cont n hC hseps hT (by omega) hn hp _ _ _

theorem parse_post (n : Nat) :
    (∀ p kind opn st K T, p.Good → Runs K p ((scopeInit kind opn).close :: st) T →
      4 * K + 4 ≤ n → PostC K st T (scopeInit kind opn).close (parseScope n p kind opn).1) ∧
    (∀ p s nodes sep st K T, (sep = .Semicolon ∨ sep = .Comma) → isCloser s.close = true →
      p.Good → Runs K p (s.close :: st) T → 4 * K + 3 ≤ n →
      PostC K st T s.close (parseScopeLoop n p s nodes sep).1) ∧
    (∀ p seps s nodes ns st K T, SepsOK seps → p.Good → Runs K p st T → 4 * K + 1 ≤ n →
      PostS K st T seps (parseStmtLoop n p seps s nodes ns).1) ∧
    (∀ p seps st K T, SepsOK seps → p.Good → Runs K p st T → 4 * K + 2 ≤ n →
      PostS K st T seps (parseStmt n p seps).1) := by
  induction n with
  | zero =>
    refine ⟨?_, ?_, ?_, ?_⟩
    · intro p kind opn st K T _ _ h; omega
    · intro p s nodes sep st K T _ _ _ _ h; omega
    · intro p seps s nodes ns st K T _ _ _ h; omega
    · intro p seps st K T _ _ _ h; omega
  | succ n ih =>
    obtain ⟨hA, hB, hC, hD⟩ := ih
    refine ⟨parseScope_post n hB, parseScopeLoop_post n hD hB, parseStmtLoop_post n hA hC hD, ?_⟩
    intro p seps st K T hseps hg hr hn
    simp only [parseStmt]
    exact hC _ _ _ _ _ _ _ _ hseps hg hr (by omega)

theorem start_good (r : List Char) (c : Bool) : (parser.start r c).2.Good := by
  have h0 : (⟨NewScanner r c, none, default, false⟩ : parser).Good := ⟨rfl, fun _ => rfl⟩
  have h1 := h0.next
  have h2 : ((⟨NewScanner r c, none, default, false⟩ : parser).next.got .InlineHTML).2.Good := by
    rcases got_cases (⟨NewScanner r c, none, default, false⟩ : parser).next .InlineHTML
      with ⟨_, e⟩ | ⟨_, e⟩ <;> rw [e]
    · exact h1.next
    · exact h1
  simp only [parser.start]
  rcases got_cases ((⟨NewScanner r c, none, default, false⟩ : parser).next.got .InlineHTML).2
    .OpenTag with ⟨_, e⟩ | ⟨_, e⟩ <;> rw [e]
  · exact h2.next
  · exact h2

theorem ParseFuel_failed (fuel : Nat) (r : List Char) (c : Bool) (q : parser)
    (hopen : (parser.start r c).1 = true) (hq : q.outOfFuel = false)
    (h : (parseScope fuel (parser.start r c).2 .Illegal .OpenTag).1 = q.fail) :
    ParseFuel fuel r c = .error (unexpectedAt q) := by
  simp only [parser.start] at hopen h
  simp only [ParseFuel, parseFile, hopen, h, Bool.not_true, Bool.false_eq_true, if_false]
  rw [fail_outOfFuel, hq, fail_err]
  simp

/-- C21: when bracket matching over the tokens that follow the open tag stops, within
`K` tokens, at a closing bracket that is not the awaited one, or at the end of the input
while a bracket is open, `Parse` returns no file but a syntax error, for every amount of
fuel from `4 * K + 4` on: the error `unexpected X` for the kind `X` of that token, with
the line and the column of that token; an error that the scanner has recorded before
is returned in its place, so only the first error is kept. -/
theorem Parse_unexpected (r : List Char) (c : Bool) (K : Nat)
    (hopen : (parser.start r c).1 = true)
    (hstop : matchStep (matchRun K (parser.start r c).2 [.EOF]).1
      (matchRun K (parser.start r c).2 [.EOF]).2 = none)
    (hmis : (matchRun K (parser.start r c).2 [.EOF]).2 ≠ []) :
    (∀ fuel, 4 * K + 4 ≤ fuel →
      ParseFuel fuel r c = .error (unexpectedAt (matchRun K (parser.start r c).2 [.EOF]).1)) ∧
    (K ≤ r.length + 3 →
      Parse r c = .error (unexpectedAt (matchRun K (parser.start r c).2 [.EOF]).1)) ∧
    ((matchRun K (parser.start r c).2 [.EOF]).1.err = none →
      unexpectedAt (matchRun K (parser.start r c).2 [.EOF]).1
        = ⟨(matchRun K (parser.start r c).2 [.EOF]).1.tok.pos.Line,
           (matchRun K (parser.start r c).2 [.EOF]).1.tok.pos.Column,
           "unexpected " ++ String.mk (matchRun K (parser.start r c).2 [.EOF]).1.tok.typ.str⟩) := by
  have key : ∀ fuel, 4 * K + 4 ≤ fuel →
      ParseFuel fuel r c = .error (unexpectedAt (matchRun K (parser.start r c).2 [.EOF]).1) := by
    intro fuel hf
    have hg := start_good r c
    have hr : Runs K (parser.start r c).2 ((scopeInit .Illegal .OpenTag).close :: [])
        (matchRun K (parser.start r c).2 [.EOF]) := ⟨rfl, hstop⟩
    have hT := hr.good hg
    rcases (parse_post fuel).1 _ .Illegal .OpenTag [] K _ hg hr hf with
      ⟨K2, _, r2, _, he⟩ | ⟨hfl, _⟩
    · have hm := matchStep_stop (parseScope fuel (parser.start r c).2 .Illegal .OpenTag).1 []
        (by rw [he rfl]; rfl) (by simp)
      have := r2.stop hm
      rw [this] at hmis
      exact absurd rfl hmis
    · exact ParseFuel_failed fuel r c _ hopen hT.1 hfl
  refine ⟨key, fun hk => key _ (by omega), fun he => ?_⟩
  simp [unexpectedAt, he]

/-- C21, an instance: in `<?php f(];` matching stops at `]`, the third token after the
open tag, while `)` is awaited. -/
theorem Parse_unexpected_witness :
    (parser.start "<?php f(];".toList false).1 = true ∧
    (matchRun 3 (parser.start "<?php f(];".toList false).2 [.EOF]).2 = [.Rparen, .EOF] ∧
    Parse "<?php f(];".toList false = .error ⟨1, 9, "unexpected ]"⟩ :=
  ⟨rfl, rfl,
   ((Parse_unexpected "<?php f(];".toList false 3 rfl rfl (by decide)).2.1 (by decide)).trans
     rfl⟩

end naive

namespace naive

open token

/-! ### The cases of `parseStmt` -/

theorem canUseAsCast_iff (tok : Token) :
    canUseAsCast tok = true ↔ tok.typ = .Ident ∧ tok.text ∈ castNames := by
  simp only [canUseAsCast, castNames, Bool.and_eq_true, Bool.or_eq_true, decide_eq_true_eq,
    beq_iff_eq, List.mem_cons, List.mem_singleton, List.not_mem_nil, or_false, or_assoc]
  exact And.comm

theorem parseScope_paren_close (n : Nat) (p : parser) (kind : Typ) :
    (parseScope n p kind .Lparen).2.1.close = .Rparen := by
  have h := (parse_wf n).1 p kind .Lparen (Or.inr (Or.inr (Or.inl rfl)))
  have hk := (parseScope_kind n p kind .Lparen).2
  simp only [wfNode, pairOK, hk, Bool.and_eq_true, Bool.or_eq_true, decide_eq_true_eq] at h
  rcases h.1.1 with ((h1 | h1) | h1) | h1
  · exact absurd h1.1 (by decide)
  · exact absurd h1.1 (by decide)
  · exact h1.2
  · exact absurd h1.1 (by decide)

theorem castNode_eq (sub : Scope) (hc : sub.1.close = .Rparen) :
    (∀ si tok, sub.2 = [(si, [.token tok])] → tok.typ = .Ident → tok.text ∈ castNames →
      castNode sub = .token (Token.mk0 metaTokenCast ("(".toList ++ tok.text ++ ")".toList))) ∧
    (¬ holdsCastName sub → castNode sub = .scope sub.1 sub.2) := by
  refine ⟨fun si tok h1 h2 h3 => ?_, fun h => ?_⟩
  · have hu : canUseAsCast tok = true := (canUseAsCast_iff tok).2 ⟨h2, h3⟩
    simp [castNode, castOf, hc, h1, hu]
  · have hn : castOf sub = none := by
      simp only [castOf, hc, if_true]
      split
      · next si tok heq =>
        have hu : canUseAsCast tok = false := by
          by_contra hu
          rw [Bool.not_eq_false] at hu
          exact h ⟨si, tok, heq, (canUseAsCast_iff tok).1 hu⟩
        simp [hu]
      · rfl
    simp [castNode, hn]

theorem demoteKeyword_plain (p : parser) (nodes : List Node) (h : p.tok.typ.IsKeyword = false) :
    demoteKeyword p nodes = p := by
  simp [demoteKeyword, h]

theorem parseStmtLoop_lparen (n : Nat) (p : parser) (seps : List Typ) (s : StmtInfo)
    (nodes : List Node) (ns : Typ) (h : p.tok.typ = .Lparen) :
    parseStmtLoop (n + 1) p seps s nodes ns =
      parseStmtLoop n (parseScope n p.next (lparenScope ns nodes.reverse).1 .Lparen).1 seps s
        (nodes ++ [castNode (parseScope n p.next (lparenScope ns nodes.reverse).1 .Lparen).2])
        (lparenScope ns nodes.reverse).2 := by
  have hd := demoteKeyword_plain p nodes (by rw [h]; rfl)
  simp [parseStmtLoop, hd, h, opensNextScope]

/-- C31: at `(` the loop of `parseStmt` parses a scope and goes on with one node
appended: the synthetic cast token with the text `(` + name + `)` when the scope holds
one statement made of one identifier token whose text is one of bool, int, float,
string, array, object, unset, and the scope itself in every other case. -/
theorem parseStmt_cast_folding (n : Nat) (p : parser) (seps : List Typ) (s : StmtInfo)
    (nodes : List Node) (ns : Typ) (h : p.tok.typ = .Lparen) :
    (∀ si tok,
      (parseScope n p.next (lparenScope ns nodes.reverse).1 .Lparen).2.2 = [(si, [.token tok])] →
      tok.typ = .Ident → tok.text ∈ castNames →
      parseStmtLoop (n + 1) p seps s nodes ns =
        parseStmtLoop n (parseScope n p.next (lparenScope ns nodes.reverse).1 .Lparen).1 seps s
          (nodes ++ [.token (Token.mk0 metaTokenCast ("(".toList ++ tok.text ++ ")".toList))])
          (lparenScope ns nodes.reverse).2) ∧
    (¬ holdsCastName (parseScope n p.next (lparenScope ns nodes.reverse).1 .Lparen).2 →
      parseStmtLoop (n + 1) p seps s nodes ns =
        parseStmtLoop n (parseScope n p.next (lparenScope ns nodes.reverse).1 .Lparen).1 seps s
          (nodes ++ [.scope (parseScope n p.next (lparenScope ns nodes.reverse).1 .Lparen).2.1
            (parseScope n p.next (lparenScope ns nodes.reverse).1 .Lparen).2.2])
          (lparenScope ns nodes.reverse).2) := by
  have hc := castNode_eq (parseScope n p.next (lparenScope ns nodes.reverse).1 .Lparen).2
    (parseScope_paren_close n p.next _)
  refine ⟨fun si tok h1 h2 h3 => ?_, fun hn => ?_⟩
  · rw [parseStmtLoop_lparen n p seps s nodes ns h, hc.1 si tok h1 h2 h3]
  · rw [parseStmtLoop_lparen n p seps s nodes ns h, hc.2 hn]

/-- C31, an instance: in `( int )$a;` the parentheses with the blanks become the one
token `(int)`. -/
theorem parseStmt_cast_folding_witness :
    ((⟨NewScanner "<?php ( int )$a;".toList false, none, default, false⟩ : parser).next.next.next.tok.typ
        = .Lparen ∧ Typ.Ident = .Ident ∧ "int".toList ∈ castNames) ∧
    parseStmtLoop 11
      (⟨NewScanner "<?php ( int )$a;".toList false, none, default, false⟩ : parser).next.next.next
      [.Semicolon] ⟨.Illegal, false, false, false⟩ [] .OpenTag =
    parseStmtLoop 10
      (parseScope 10
        (⟨NewScanner "<?php ( int )$a;".toList false, none, default, false⟩ :
          parser).next.next.next.next (lparenScope .OpenTag ([] : List Node).reverse).1 .Lparen).1
      [.Semicolon] ⟨.Illegal, false, false, false⟩
      ([] ++ [.token (Token.mk0 metaTokenCast ("(".toList ++ "int".toList ++ ")".toList))])
      (lparenScope .OpenTag ([] : List Node).reverse).2 ∧
    (parseStmtLoop 11
      (⟨NewScanner "<?php ( int )$a;".toList false, none, default, false⟩ : parser).next.next.next
      [.Semicolon] ⟨.Illegal, false, false, false⟩ [] .OpenTag).2.2
      = [.token ⟨metaTokenCast, "(int)".toList, ⟨0, 0⟩⟩, .token ⟨.Var, "$a".toList, ⟨1, 14⟩⟩] :=
  ⟨⟨rfl, rfl, by decide⟩,
   (parseStmt_cast_folding 10
      (⟨NewScanner "<?php ( int )$a;".toList false, none, default, false⟩ : parser).next.next.next
      [.Semicolon] ⟨.Illegal, false, false, false⟩ [] .OpenTag rfl).1
      ⟨.Illegal, false, false, false⟩ ⟨.Ident, "int".toList, ⟨1, 9⟩⟩ rfl rfl (by decide), rfl⟩

theorem parseStmtLoop_keyword (n : Nat) (p : parser) (seps : List Typ) (s : StmtInfo)
    (nodes : List Node) (ns : Typ) (hk : p.tok.typ.IsKeyword = true)
    (hl : lastTok nodes = .Arrow ∨ lastTok nodes = .DoubleColon ∨ lastTok nodes = .Function ∨
      lastTok nodes = .Const)
    (hs : Typ.Ident ∉ seps) :
    parseStmtLoop (n + 1) p seps s nodes ns =
      parseStmtLoop n p.next seps s (nodes ++ [.token { p.tok with typ := .Ident }]) ns := by
  have hd : demoteKeyword p nodes = { p with tok := { p.tok with typ := .Ident } } := by
    simp only [demoteKeyword, hk, if_true]
    rw [if_pos]
    simpa [or_assoc] using hl
  have hx : ({ p with tok := { p.tok with typ := .Ident } } : parser).next = p.next :=
    next_congr _ _ rfl rfl rfl (by simp) (keyword_plain _ hk).2.2
  simp [parseStmtLoop, hd, opensNextScope, wsStmt, hs, hx]

/-- C32 (the code at the failing input): a keyword whose preceding token in the
statement, white space apart, is `->`, `::`, `function` or `const` is stored as an
identifier with its text unchanged, and the loop of `parseStmt` goes on; `?->` is not
in that list: in `$a?->if ($b);` the token `if` keeps the kind `If`, and the call is
printed with the blank of an `if` statement, where `$a->if ($b);` is printed
as `$a->if($b);`. -/
theorem parseStmt_keyword_after_nullsafe (n : Nat) (p : parser) (seps : List Typ) (s : StmtInfo)
    (nodes : List Node) (ns : Typ) :
    (p.tok.typ.IsKeyword = true →
      (lastTok nodes = .Arrow ∨ lastTok nodes = .DoubleColon ∨ lastTok nodes = .Function ∨
        lastTok nodes = .Const) →
      Typ.Ident ∉ seps →
      parseStmtLoop (n + 1) p seps s nodes ns =
        parseStmtLoop n p.next seps s (nodes ++ [.token { p.tok with typ := .Ident }]) ns) ∧
    (parseStmtLoop 11
      (⟨NewScanner "<?php $a?->if;".toList false, none, default, false⟩ : parser).next.next.next
      [.Semicolon] ⟨.Illegal, false, false, false⟩ [] .OpenTag).2.2
      = [.token ⟨.Var, "$a".toList, ⟨1, 7⟩⟩, .token ⟨.QmarkArrow, "?->".toList, ⟨1, 9⟩⟩,
         .token ⟨.If, "if".toList, ⟨1, 12⟩⟩] ∧
    format.formatCode "<?php\n$a?->if ($b);\n$a->if ($b);\n".toList Standard
      = some "<?php\n\n$a?->if ($b);\n$a->if($b);\n".toList :=
  ⟨parseStmtLoop_keyword n p seps s nodes ns, rfl, by decide!⟩

/-- C32, an instance: the keyword `if` after `->`. -/
theorem parseStmt_keyword_after_nullsafe_witness :
    ((⟨NewScanner "<?php $a->if;".toList false, none, default, false⟩ :
          parser).next.next.next.next.next.tok.typ.IsKeyword = true ∧
      lastTok [.token ⟨.Var, "$a".toList, ⟨1, 7⟩⟩, .token ⟨.Arrow, "->".toList, ⟨1, 9⟩⟩] = .Arrow ∧
      Typ.Ident ∉ [Typ.Semicolon]) ∧
    parseStmtLoop 11
      (⟨NewScanner "<?php $a->if;".toList false, none, default, false⟩ :
        parser).next.next.next.next.next
      [.Semicolon] ⟨.Arrow, false, false, false⟩
      [.token ⟨.Var, "$a".toList, ⟨1, 7⟩⟩, .token ⟨.Arrow, "->".toList, ⟨1, 9⟩⟩] .Arrow
    = parseStmtLoop 10
      (⟨NewScanner "<?php $a->if;".toList false, none, default, false⟩ :
        parser).next.next.next.next.next.next
      [.Semicolon] ⟨.Arrow, false, false, false⟩
      ([.token ⟨.Var, "$a".toList, ⟨1, 7⟩⟩, .token ⟨.Arrow, "->".toList, ⟨1, 9⟩⟩] ++
        [.token { (⟨NewScanner "<?php $a->if;".toList false, none, default, false⟩ :
          parser).next.next.next.next.next.tok with typ := .Ident }]) .Arrow :=
  ⟨⟨rfl, rfl, by decide⟩,
   (parseStmt_keyword_after_nullsafe 10
      (⟨NewScanner "<?php $a->if;".toList false, none, default, false⟩ :
        parser).next.next.next.next.next
      [.Semicolon] ⟨.Arrow, false, false, false⟩
      [.token ⟨.Var, "$a".toList, ⟨1, 7⟩⟩, .token ⟨.Arrow, "->".toList, ⟨1, 9⟩⟩] .Arrow).1
      rfl (Or.inl rfl) (by decide)⟩

/-- C33: at `?` the loop of `parseStmt` parses a statement with the separators `:`,
`;`, `,`; when a colon follows it, the colon is consumed and the outer statement gains
one ternary middle with the nodes of that statement, neither `?` nor `:` being stored;
otherwise the token `?` and the nodes of that statement are appended in order; in
both cases the loop goes on with the outer statement. -/
theorem parseStmt_ternary (n : Nat) (p : parser) (seps : List Typ) (s : StmtInfo)
    (nodes : List Node) (ns : Typ) (h : p.tok.typ = .Qmark) :
    ((parseStmt n p.next [.Colon, .Semicolon, .Comma]).1.tok.typ = .Colon →
      parseStmtLoop (n + 1) p seps s nodes ns =
        parseStmtLoop n (parseStmt n p.next [.Colon, .Semicolon, .Comma]).1.next seps s
          (nodes ++ [.ternaryMiddle (parseStmt n p.next [.Colon, .Semicolon, .Comma]).2.2]) ns) ∧
    ((parseStmt n p.next [.Colon, .Semicolon, .Comma]).1.tok.typ ≠ .Colon →
      parseStmtLoop (n + 1) p seps s nodes ns =
        parseStmtLoop n (parseStmt n p.next [.Colon, .Semicolon, .Comma]).1 seps s
          (nodes ++ [.token p.tok] ++ (parseStmt n p.next [.Colon, .Semicolon, .Comma]).2.2) ns) := by
  have hd := demoteKeyword_plain p nodes (by rw [h]; rfl)
  refine ⟨fun hc => ?_, fun hc => ?_⟩
  · simp [parseStmtLoop, hd, h, opensNextScope, parser.got, hc]
  · simp [parseStmtLoop, hd, h, opensNextScope, parser.got, hc]

/-- C33, two instances: `$a ? 1 : 2` gets a ternary middle, and the `?` of the
parameter `?int $a` stays a token. -/
theorem parseStmt_ternary_witness :
    ((⟨NewScanner "<?php $a ? 1 : 2;".toList false, none, default, false⟩ :
        parser).next.next.next.next.next.tok.typ = .Qmark ∧
     (parseStmt 10 (⟨NewScanner "<?php $a ? 1 : 2;".toList false, none, default, false⟩ :
        parser).next.next.next.next.next.next [.Colon, .Semicolon, .Comma]).1.tok.typ = .Colon) ∧
    parseStmtLoop 11
      (⟨NewScanner "<?php $a ? 1 : 2;".toList false, none, default, false⟩ :
        parser).next.next.next.next.next
      [.Semicolon] ⟨.Illegal, false, false, false⟩ [] .OpenTag =
    parseStmtLoop 10
      (parseStmt 10 (⟨NewScanner "<?php $a ? 1 : 2;".toList false, none, default, false⟩ :
        parser).next.next.next.next.next.next [.Colon, .Semicolon, .Comma]).1.next
      [.Semicolon] ⟨.Illegal, false, false, false⟩
      ([] ++ [.ternaryMiddle
        (parseStmt 10 (⟨NewScanner "<?php $a ? 1 : 2;".toList false, none, default, false⟩ :
          parser).next.next.next.next.next.next [.Colon, .Semicolon, .Comma]).2.2]) .OpenTag ∧
    (parseStmt 40 (⟨NewScanner "<?php $a ? 1 : 2;".toList false, none, default, false⟩ :
        parser).next.next.next [.Semicolon]).2.2 =
      [.token ⟨.Var, "$a".toList, ⟨1, 7⟩⟩, .token ⟨.Whitespace, " ".toList, ⟨1, 9⟩⟩,
       .ternaryMiddle [.token ⟨.Whitespace, " ".toList, ⟨1, 11⟩⟩, .token ⟨.Int, "1".toList, ⟨1, 12⟩⟩,
         .token ⟨.Whitespace, " ".toList, ⟨1, 13⟩⟩],
       .token ⟨.Whitespace, " ".toList, ⟨1, 15⟩⟩, .token ⟨.Int, "2".toList, ⟨1, 16⟩⟩] ∧
    (parseStmt 40 (⟨NewScanner "<?php f(?int $a);".toList false, none, default, false⟩ :
        parser).next.next.next.next.next [.Comma]).2.2 =
      [.token ⟨.Qmark, "?".toList, ⟨1, 9⟩⟩, .token ⟨.Ident, "int".toList, ⟨1, 10⟩⟩,
       .token ⟨.Whitespace, " ".toList, ⟨1, 13⟩⟩, .token ⟨.Var, "$a".toList, ⟨1, 14⟩⟩] :=
  ⟨⟨rfl, rfl⟩,
   (parseStmt_ternary 10
      (⟨NewScanner "<?php $a ? 1 : 2;".toList false, none, default, false⟩ :
        parser).next.next.next.next.next
      [.Semicolon] ⟨.Illegal, false, false, false⟩ [] .OpenTag rfl).1 rfl, rfl, rfl⟩

theorem startsLabel_eq (nodes : List Node) : startsLabel nodes = labelHead (firstNode nodes) := by
  induction nodes with
  | nil => rfl
  | cons x rest ih =>
    cases x with
    | token t =>
      by_cases ht : (t.typ = .Whitespace || t.typ = .Comment) = true
      · have h1 : isTriviaNode (.token t) = true := ht
        simp only [startsLabel, ht, if_true, firstNode, List.dropWhile_cons, h1]
        exact ih
      · have h1 : isTriviaNode (.token t) = false := by simpa [isTriviaNode] using ht
        simp only [startsLabel, ht, firstNode, List.dropWhile_cons, h1, List.head?_cons,
          labelHead, Bool.false_eq_true, if_false, Bool.decide_or]
    | scope info stmts => rfl
    | ternaryMiddle ns => rfl

theorem unaryTok_eq (p : parser) (nodes : List Node) :
    (unaryTok p nodes).tok =
      { p.tok with typ := if unaryAfter (lastNode nodes) then .At else p.tok.typ } := by
  have key : ∀ l : List Node,
      (lastTokRev l = .Illegal || lastTokRev l = .Colon || isOperator (lastTokRev l)
        || (lastTokRev l).IsKeyword) = unaryAfter ((l.dropWhile isWhitespaceNode).head?) := by
    intro l
    induction l with
    | nil => rfl
    | cons x rest ih =>
      cases x with
      | token t =>
        by_cases ht : t.typ = .Whitespace
        · have h1 : isWhitespaceNode (.token t) = true := by simp [isWhitespaceNode, ht]
          simp only [lastTokRev, ht, if_true, List.dropWhile_cons, h1]
          exact ih
        · have h1 : isWhitespaceNode (.token t) = false := by simp [isWhitespaceNode, ht]
          simp only [lastTokRev, ht, if_false, List.dropWhile_cons, h1, List.head?_cons,
            unaryAfter, Bool.false_eq_true]
      | scope info stmts => rfl
      | ternaryMiddle ns => rfl
  have hk := key nodes.reverse
  simp only [unaryTok, lastTok, lastNode]
  by_cases hu : unaryAfter ((nodes.reverse.dropWhile isWhitespaceNode).head?) = true
  · rw [if_pos (hk.trans hu), if_pos hu]
  · rw [if_neg (fun hc => hu (hk.symm.trans hc)), if_neg hu]

/-- C35: at `&`, `+` or `-` the loop of `parseStmt` appends the token and goes on; the
token is stored with the kind `At` of a unary operator exactly when the statement has
no node but white space so far, or its last node that is not white space is a ternary
middle or a token that is illegal, a colon, an operator (`isOperator`) or a keyword;
after any other token and after a scope the token keeps its kind. -/
theorem parseStmt_unary (n : Nat) (p : parser) (seps : List Typ) (s : StmtInfo)
    (nodes : List Node) (ns : Typ)
    (h : p.tok.typ = .BitAnd ∨ p.tok.typ = .Add ∨ p.tok.typ = .Sub) :
    parseStmtLoop (n + 1) p seps s nodes ns =
      parseStmtLoop n p.next seps s
        (nodes ++ [.token { p.tok with
          typ := if unaryAfter (lastNode nodes) then .At else p.tok.typ }]) ns := by
  have hd := demoteKeyword_plain p nodes (by rcases h with h | h | h <;> rw [h] <;> rfl)
  have hne : p.tok.typ ≠ .EOF := by rcases h with h | h | h <;> rw [h] <;> decide
  have hx := unaryTok_next p nodes hne
  have hy := unaryTok_eq p nodes
  rcases h with h | h | h <;>
    simp [parseStmtLoop, hd, h, opensNextScope, hx, hy]

/-- C35, an instance: the `-` after the variable of `$a -1` stays binary. -/
theorem parseStmt_unary_witness :
    ((⟨NewScanner "<?php $a -1;".toList false, none, default, false⟩ :
        parser).next.next.next.next.next.tok.typ = .Sub) ∧
    parseStmtLoop 11
      (⟨NewScanner "<?php $a -1;".toList false, none, default, false⟩ :
        parser).next.next.next.next.next
      [.Semicolon] ⟨.Illegal, false, false, false⟩
      [.token ⟨.Var, "$a".toList, ⟨1, 7⟩⟩, .token ⟨.Whitespace, " ".toList, ⟨1, 9⟩⟩] .OpenTag =
    parseStmtLoop 10
      (⟨NewScanner "<?php $a -1;".toList false, none, default, false⟩ :
        parser).next.next.next.next.next.next
      [.Semicolon] ⟨.Illegal, false, false, false⟩
      ([.token ⟨.Var, "$a".toList, ⟨1, 7⟩⟩, .token ⟨.Whitespace, " ".toList, ⟨1, 9⟩⟩] ++
        [.token ⟨.Sub, "-".toList, ⟨1, 10⟩⟩]) .OpenTag :=
  ⟨rfl,
   parseStmt_unary 10
      (⟨NewScanner "<?php $a -1;".toList false, none, default, false⟩ :
        parser).next.next.next.next.next
      [.Semicolon] ⟨.Illegal, false, false, false⟩
      [.token ⟨.Var, "$a".toList, ⟨1, 7⟩⟩, .token ⟨.Whitespace, " ".toList, ⟨1, 9⟩⟩] .OpenTag
      (Or.inr (Or.inr rfl))⟩

/-- C35, a counterexample to the claim as worded: in `$a .. -1;` the node before `-`
is the illegal token `..`, which is none of a colon, a ternary middle, an operator or
a keyword, and the `-` is stored as the unary operator. -/
theorem parseStmt_unary_after_illegal :
    lastNode [.token ⟨.Var, "$a".toList, ⟨1, 7⟩⟩, .token ⟨.Whitespace, " ".toList, ⟨1, 9⟩⟩,
        .token ⟨.Illegal, "..".toList, ⟨1, 10⟩⟩, .token ⟨.Whitespace, " ".toList, ⟨1, 12⟩⟩]
      = some (.token ⟨.Illegal, "..".toList, ⟨1, 10⟩⟩) ∧
    isOperator .Illegal = false ∧ Typ.Illegal.IsKeyword = false ∧
    (parseStmt 40 (⟨NewScanner "<?php $a .. -1;".toList false, none, default, false⟩ :
        parser).next.next.next [.Semicolon]).2.2 =
      [.token ⟨.Var, "$a".toList, ⟨1, 7⟩⟩, .token ⟨.Whitespace, " ".toList, ⟨1, 9⟩⟩,
       .token ⟨.Illegal, "..".toList, ⟨1, 10⟩⟩, .token ⟨.Whitespace, " ".toList, ⟨1, 12⟩⟩,
       .token ⟨.At, "-".toList, ⟨1, 13⟩⟩, .token ⟨.Int, "1".toList, ⟨1, 14⟩⟩] :=
  ⟨rfl, rfl, rfl, rfl⟩

/-- C34: at a colon that is not among its separators the loop of `parseStmt` demotes
the keyword right before the colon (white space apart) to an identifier and appends
the colon; the statement becomes a label and ends right after the colon exactly when
the first node of the statement so built that is neither white space nor a comment
is an identifier or a `case` token; otherwise the same statement goes on. -/
theorem parseStmt_label (n : Nat) (p : parser) (seps : List Typ) (s : StmtInfo)
    (nodes : List Node) (ns : Typ) (h : p.tok.typ = .Colon) (hs : Typ.Colon ∉ seps)
    (hl : s.isLabel = false) :
    (labelHead (firstNode ((demoteLastKeyword nodes.reverse).reverse ++ [.token p.tok])) = true →
      parseStmtLoop (n + 1) p seps s nodes ns =
        (p.next, ({ s with isLabel := true },
          (demoteLastKeyword nodes.reverse).reverse ++ [.token p.tok]))) ∧
    (labelHead (firstNode ((demoteLastKeyword nodes.reverse).reverse ++ [.token p.tok])) = false →
      parseStmtLoop (n + 1) p seps s nodes ns =
        parseStmtLoop n p.next seps s
          ((demoteLastKeyword nodes.reverse).reverse ++ [.token p.tok]) ns) := by
  have hd := demoteKeyword_plain p nodes (by rw [h]; rfl)
  refine ⟨fun hc => ?_, fun hc => ?_⟩
  · rw [← startsLabel_eq] at hc
    simp [parseStmtLoop, hd, h, opensNextScope, hs, colonStmt, hc]
  · rw [← startsLabel_eq] at hc
    simp [parseStmtLoop, hd, h, opensNextScope, hs, colonStmt, hc, hl]

/-- C34, an instance: the statement `foo:` is a label. -/
theorem parseStmt_label_witness :
    ((⟨NewScanner "<?php foo: 1;".toList false, none, default, false⟩ :
        parser).next.next.next.next.tok.typ = .Colon ∧ Typ.Colon ∉ [Typ.Semicolon] ∧
      (⟨.Illegal, false, false, false⟩ : StmtInfo).isLabel = false ∧
      labelHead (firstNode ((demoteLastKeyword
        ([.token ⟨.Ident, "foo".toList, ⟨1, 7⟩⟩] : List Node).reverse).reverse ++
        [.token (⟨NewScanner "<?php foo: 1;".toList false, none, default, false⟩ :
          parser).next.next.next.next.tok])) = true) ∧
    parseStmtLoop 11
      (⟨NewScanner "<?php foo: 1;".toList false, none, default, false⟩ :
        parser).next.next.next.next
      [.Semicolon] ⟨.Illegal, false, false, false⟩ [.token ⟨.Ident, "foo".toList, ⟨1, 7⟩⟩] .OpenTag =
    ((⟨NewScanner "<?php foo: 1;".toList false, none, default, false⟩ :
        parser).next.next.next.next.next,
      ({ (⟨.Illegal, false, false, false⟩ : StmtInfo) with isLabel := true },
       (demoteLastKeyword ([.token ⟨.Ident, "foo".toList, ⟨1, 7⟩⟩] : List Node).reverse).reverse ++
        [.token (⟨NewScanner "<?php foo: 1;".toList false, none, default, false⟩ :
          parser).next.next.next.next.tok])) :=
  ⟨⟨rfl, by decide, rfl, rfl⟩,
   (parseStmt_label 10
      (⟨NewScanner "<?php foo: 1;".toList false, none, default, false⟩ :
        parser).next.next.next.next
      [.Semicolon] ⟨.Illegal, false, false, false⟩ [.token ⟨.Ident, "foo".toList, ⟨1, 7⟩⟩] .OpenTag
      rfl (by decide) rfl).1 rfl⟩

/-- C34, a counterexample to the claim as worded: in `function foo(): int;` the
statement holds the identifier `foo` when the colon comes, and it does not end there:
it goes on to the semicolon and is no label.  And `default:`, which holds neither an
identifier nor `case` when the colon comes, ends at the colon as a label, its keyword
demoted. -/
theorem parseStmt_colon_after_ident :
    ((parseStmt 40 (⟨NewScanner "<?php function foo(): int;".toList false, none, default, false⟩ :
        parser).next.next.next [.Semicolon]).1.tok.typ = .Semicolon ∧
     (parseStmt 40 (⟨NewScanner "<?php function foo(): int;".toList false, none, default, false⟩ :
        parser).next.next.next [.Semicolon]).2.1.isLabel = false ∧
     (parseStmt 40 (⟨NewScanner "<?php function foo(): int;".toList false, none, default, false⟩ :
        parser).next.next.next [.Semicolon]).2.2.take 3 =
       [.token ⟨.Function, "function".toList, ⟨1, 7⟩⟩, .token ⟨.Whitespace, " ".toList, ⟨1, 15⟩⟩,
        .token ⟨.Ident, "foo".toList, ⟨1, 16⟩⟩]) ∧
    (parseStmt 40 (⟨NewScanner "<?php default: 1;".toList false, none, default, false⟩ :
        parser).next.next.next [.Semicolon]).2 =
      (⟨.Illegal, true, false, false⟩,
       [.token ⟨.Ident, "default".toList, ⟨1, 7⟩⟩, .token ⟨.Colon, ":".toList, ⟨1, 14⟩⟩]) :=
  ⟨⟨rfl, rfl, rfl⟩, rfl⟩

end naive

/-! ### The maximum precedence while a statement is printed -/

namespace naive

open token

theorem printWS_maxPrec (p : printer) (w : whitespace) : (p.printWS w).maxPrec = p.maxPrec := by
  rw [printWS_eq]; rfl

theorem removeAnyWS_maxPrec (p : printer) : p.removeAnyWS.2.maxPrec = p.maxPrec := by
  rw [removeAnyWS_eq]; rfl

theorem printWhitespaceToken_maxPrec (p : printer) (arg : Token) :
    (p.printWhitespaceToken arg).maxPrec = p.maxPrec := by
  simp only [printer.printWhitespaceToken]
  split
  · split_ifs <;> simp [printNL_eq, printWS_maxPrec]
  · split_ifs <;> simp [removeLastWS_eq, printWS_maxPrec]

theorem reprint_maxPrec (f : printer → Token → printer) (q : printer) (x : Option Item)
    (hf : ∀ q t, (f q t).maxPrec = q.maxPrec) : (q.reprint f x).maxPrec = q.maxPrec := by
  cases x with
  | none => rfl
  | some y =>
    cases y with
    | token t => exact hf q t
    | indentation n => rfl
    | whitespace w => exact printWS_maxPrec q w

theorem beforeToken_maxPrec (p : printer) (f : printer → Token → printer) (arg : Token)
    (hf : ∀ q t, (f q t).maxPrec = q.maxPrec) : (p.beforeToken f arg).1.maxPrec = p.maxPrec := by
  apply beforeToken_elim (Φ := fun r => r.1.maxPrec = p.maxPrec)
  · rfl
  · rfl
  · intro _
    simp only [printer.beforeComment]
    split_ifs <;> simp [removeLastWS_eq, printWS_maxPrec]
  · simp only [printer.beforeIf]
    split_ifs <;> simp [removeAnyWS_maxPrec]
  · simp only [printer.beforeElse]
    split_ifs <;> simp [removeAnyWS_maxPrec, printWS_maxPrec]
  · intro _
    simp only [printer.beforeUse, removeLastType_eq, removeLastWS_eq]
    split_ifs
    · simp only [printWS_maxPrec, reprint_maxPrec _ _ _ hf]
      rfl
    · rfl
  · rfl
  · simp only [printer.beforeModifier]
    split_ifs <;> rfl
  · simp only [printer.beforeAssign]
    split_ifs <;> simp [removeLastWS_eq, printWS_maxPrec]
  · simp only [printer.beforeDoubleArrow]
    split_ifs <;> simp [removeLastWS_eq, printWS_maxPrec]
  · simp [removeLastWS_eq]
  · simp only [printer.beforeBackslash, removeLast_inl]
    split_ifs <;> simp [printWS_maxPrec]
  · simp [removeLastWS_eq]
  · rfl
  · simp only [printer.beforeCast]
    split_ifs <;> simp [removeLastWS_eq]
  · simp only [printer.beforeVarIdent]
    split_ifs <;> simp [removeLastWS_eq, printWS_maxPrec]
  · simp only [printer.beforeIncDec]
    split_ifs <;> simp [removeLastWS_eq]
  · simp only [printer.beforeDefault]
    split_ifs <;> simp [removeLastWS_eq, printWS_maxPrec]

theorem printTokenWith_maxPrec (f : printer → Token → printer) (p : printer) (arg : Token)
    (hf : ∀ q t, (f q t).maxPrec = q.maxPrec) :
    (printer.printTokenWith f p arg).maxPrec = p.maxPrec := by
  have hb := beforeToken_maxPrec ((p.setRemoveNextWS false).setRmWSBeforeParen false) f arg hf
  simp only [setRmWSBeforeParen_maxPrec, setRemoveNextWS_maxPrec] at hb
  rw [printTokenWith_eq]
  split_ifs <;> simp [hb, push_eq, printWS_maxPrec]

theorem printToken_maxPrec (p : printer) (arg : Token) :
    (p.printToken arg).maxPrec = p.maxPrec := by
  have h0 : ∀ q t, (printer.printToken0 q t).maxPrec = q.maxPrec := by
    intro q t
    simp only [printer.printToken0]
    split_ifs
    · exact printWhitespaceToken_maxPrec q t
    · exact printTokenWith_maxPrec _ q t (fun _ _ => rfl)
  simp only [printer.printToken]
  split_ifs
  · exact printWhitespaceToken_maxPrec p arg
  · exact printTokenWith_maxPrec _ p arg h0

theorem fixParam_maxPrec (p : printer) : p.fixParam.maxPrec = p.maxPrec := by
  simp only [printer.fixParam, removeLastType_eq, removeLastWS_eq]
  rw [reprint_maxPrec _ _ _ printToken_maxPrec]
  have ha : ∀ (q : printer) (a : Option Item), (q.printAmp a).maxPrec = q.maxPrec := by
    intro q a
    cases a with
    | none => rfl
    | some y =>
      cases y with
      | token t => exact printToken_maxPrec q _
      | indentation n => rfl
      | whitespace w => rfl
  rw [ha]
  split_ifs <;> simp [printWS_maxPrec]

theorem stmtToken1_maxPrec (p : printer) (v : stmtVars) (x : Token) (rest : List Node)
    (h : p.maxPrec = 17) : (p.stmtToken1 v x rest).1.maxPrec = 17 := by
  simp only [printer.stmtToken1]
  split_ifs <;> simp [removeLastWS_eq, fixParam_maxPrec, h]

theorem stmtToken2_maxPrec (p : printer) (v : stmtVars) (isLabel : Bool) (x : Token) :
    (p.stmtToken2 v isLabel x).1.maxPrec = p.maxPrec := by
  simp only [printer.stmtToken2]
  split_ifs <;> simp [removeLastIndent_eq, printIndent_eq]


theorem stmtToken1_vars (p : printer) (v : stmtVars) (x : Token) (rest : List Node)
    (h : (x.typ ≠ .Assign && x.typ ≠ .DoubleArrow) = true) :
    (p.stmtToken1 v x rest).2.1.maxPrec = v.maxPrec ∧ (p.stmtToken1 v x rest).2.1.kind = v.kind := by
  simp only [Bool.and_eq_true, decide_eq_true_eq, ne_eq] at h
  have h1 : ¬ ((x.typ = .DoubleArrow || x.typ = .Assign) = true) := by simp [h.1, h.2]
  simp only [printer.stmtToken1]
  rw [if_neg h1]
  split_ifs <;> exact ⟨rfl, rfl⟩

theorem stmtToken2_vars (p : printer) (v : stmtVars) (isLabel : Bool) (x : Token) :
    (p.stmtToken2 v isLabel x).2.maxPrec = v.maxPrec ∧ (p.stmtToken2 v isLabel x).2.kind = v.kind := by
  simp only [printer.stmtToken2]
  split_ifs <;> exact ⟨rfl, rfl⟩

theorem stmtToken_vars (p : printer) (v : stmtVars) (isLabel : Bool) (x : Token) (rest : List Node)
    (h : (x.typ ≠ .Assign && x.typ ≠ .DoubleArrow) = true) :
    (p.stmtToken v isLabel x rest).2.maxPrec = v.maxPrec ∧
    (p.stmtToken v isLabel x rest).2.kind = v.kind := by
  have h1 := stmtToken1_vars p v x rest h
  have h2 := stmtToken2_vars (p.stmtToken1 v x rest).1 (p.stmtToken1 v x rest).2.1 isLabel x
  simp only [printer.stmtToken]
  split_ifs <;>
    first
    | exact h1
    | exact ⟨h2.1.trans h1.1, h2.2.trans h1.2⟩

theorem stmtPrec_sentinel (p : printer) (v : stmtVars) (all : List Node)
    (hk : v.kind = .Class ∨ v.kind = .Function ∨ v.kind = .Fn) (hm : v.maxPrec = -1) :
    p.stmtPrec v all = (p.setMaxPrec 17, v) := by
  have h1 : (v.kind = .Class || v.kind = .Function || v.kind = .Fn) = true := by
    simpa [or_assoc] using hk
  simp only [printer.stmtPrec, hm, if_true, h1]
  rfl

theorem printStmtLoop_sentinel (config : Options) (isLabel : Bool) (all : List Node)
    (pre rest : List Node) (hpre : ∀ x ∈ pre, plainDeclNode x = true) :
    ∀ (p : printer) (v : stmtVars), (v.kind = .Class ∨ v.kind = .Function ∨ v.kind = .Fn) →
      v.maxPrec = -1 →
      ∃ q w, printStmtLoop config p v isLabel all (pre ++ rest)
          = printStmtLoop config q w isLabel all rest ∧
        w.kind = v.kind ∧ w.maxPrec = -1 := by
  induction pre with
  | nil => intro p v _ hm; exact ⟨p, v, rfl, rfl, hm⟩
  | cons x pre ih =>
    intro p v hk hm
    have hx := hpre x (List.mem_cons_self _ _)
    have ih := ih (fun y hy => hpre y (List.mem_cons_of_mem _ hy))
    cases x with
    | token t =>
      have hv := stmtToken_vars (p.setMaxPrec 17) v isLabel t (pre ++ rest) hx
      obtain ⟨q, w, e, hw1, hw2⟩ := ih ((p.setMaxPrec 17).stmtToken v isLabel t (pre ++ rest)).1
        ((p.setMaxPrec 17).stmtToken v isLabel t (pre ++ rest)).2 (by rw [hv.2]; exact hk)
        (by rw [hv.1]; exact hm)
      refine ⟨q, w, ?_, hw1.trans hv.2, hw2⟩
      simp only [List.cons_append, printStmtLoop, stmtPrec_sentinel p v all hk hm]
      exact e
    | scope info stmts =>
      have hs : ((p.setMaxPrec 17).stmtScope v info).2.kind = v.kind ∧
          ((p.setMaxPrec 17).stmtScope v info).2.maxPrec = -1 := by
        simp only [printer.stmtScope]
        split_ifs <;> exact ⟨rfl, rfl⟩
      obtain ⟨q, w, e, hw1, hw2⟩ := ih
        (printNode config ((p.setMaxPrec 17).stmtScope v info).1 none (.scope info stmts)).1
        ((p.setMaxPrec 17).stmtScope v info).2 (by rw [hs.1]; exact hk) hs.2
      refine ⟨q, w, ?_, hw1.trans hs.1, hw2⟩
      simp only [List.cons_append, printStmtLoop, stmtPrec_sentinel p v all hk hm]
      exact e
    | ternaryMiddle ns => exact absurd hx (by simp [plainDeclNode])

theorem table_below_sentinel :
    opTable.length = 17 ∧
    (∀ op ∈ opTable.flatten, (opPrecInit.get op).2 = true ∧ (opPrecInit.get op).1 < 17 ∧
      (opPrecLegacy.get op).2 = true ∧ (opPrecLegacy.get op).1 < 17 ∧
      decideOpSpaces opPrecInit 17 op = (false, true) ∧
      decideOpSpaces opPrecLegacy 17 op = (false, true)) := by
  decide


/-- C38: while a statement whose kind is class, function or fn is printed, at every
node that only tokens other than `=` and `=>` and scopes precede (no ternary middle),
the head of the loop sets the maximum precedence of the printer to
`len(opTable)` = 17, and the two switches on the token leave it at 17 for
`printToken`; every operator of the table has a level below 17 in both modes, so
`decideOpSpaces` answers add = false, ok = true for each of them. -/
theorem printStmt_declaration_sentinel (config : Options) (p : printer) (arg : StmtInfo)
    (pre rest : List Node)
    (hk : arg.kind = .Class ∨ arg.kind = .Function ∨ arg.kind = .Fn)
    (hpre : ∀ x ∈ pre, plainDeclNode x = true) :
    (∃ q w,
      printStmtLoop config (p.stmtBegin arg).1 (p.stmtBegin arg).2 arg.isLabel (pre ++ rest)
          (pre ++ rest) = printStmtLoop config q w arg.isLabel (pre ++ rest) rest ∧
      q.stmtPrec w (pre ++ rest) = (q.setMaxPrec 17, w) ∧
      ∀ x r, ((q.setMaxPrec 17).stmtToken1 w x r).1.maxPrec = 17 ∧
        (((q.setMaxPrec 17).stmtToken1 w x r).1.stmtToken2
          ((q.setMaxPrec 17).stmtToken1 w x r).2.1 arg.isLabel x).1.maxPrec = 17) ∧
    opTable.length = 17 ∧
    (∀ op ∈ opTable.flatten, (opPrecInit.get op).1 < 17 ∧ (opPrecLegacy.get op).1 < 17 ∧
      decideOpSpaces opPrecInit 17 op = (false, true) ∧
      decideOpSpaces opPrecLegacy 17 op = (false, true)) := by
  have hb : (p.stmtBegin arg).2.kind = arg.kind ∧ (p.stmtBegin arg).2.maxPrec = -1 := by
    simp only [printer.stmtBegin]
    split_ifs <;> exact ⟨rfl, rfl⟩
  obtain ⟨q, w, e, hw1, hw2⟩ := printStmtLoop_sentinel config arg.isLabel (pre ++ rest) pre rest
    hpre (p.stmtBegin arg).1 (p.stmtBegin arg).2 (by rw [hb.1]; exact hk) hb.2
  have hwk : w.kind = .Class ∨ w.kind = .Function ∨ w.kind = .Fn := by
    rw [hw1, hb.1]; exact hk
  refine ⟨⟨q, w, e, stmtPrec_sentinel q w _ hwk hw2, fun x r => ?_⟩, table_below_sentinel.1,
    fun op hop => ?_⟩
  · have h1 := stmtToken1_maxPrec (q.setMaxPrec 17) w x r rfl
    exact ⟨h1, (stmtToken2_maxPrec _ _ _ _).trans h1⟩
  · obtain ⟨_, h2, _, h4, h5, h6⟩ := table_below_sentinel.2 op hop
    exact ⟨h2, h4, h5, h6⟩

/-- C38, an instance: at the `|` of the parameter `int|string $a`. -/
theorem printStmt_declaration_sentinel_witness :
    ((⟨.Function, false, false, false⟩ : StmtInfo).kind = .Function ∧
      ∀ x ∈ ([.token ⟨.Ident, "int".toList, ⟨0, 0⟩⟩] : List Node), plainDeclNode x = true) ∧
    ∃ q w,
      printStmtLoop Standard ((printer.new opPrecInit).stmtBegin ⟨.Function, false, false, false⟩).1
          ((printer.new opPrecInit).stmtBegin ⟨.Function, false, false, false⟩).2
          (⟨.Function, false, false, false⟩ : StmtInfo).isLabel
          ([.token ⟨.Ident, "int".toList, ⟨0, 0⟩⟩] ++
            [.token ⟨.BitOr, "|".toList, ⟨0, 0⟩⟩, .token ⟨.Ident, "string".toList, ⟨0, 0⟩⟩])
          ([.token ⟨.Ident, "int".toList, ⟨0, 0⟩⟩] ++
            [.token ⟨.BitOr, "|".toList, ⟨0, 0⟩⟩, .token ⟨.Ident, "string".toList, ⟨0, 0⟩⟩])
        = printStmtLoop Standard q w (⟨.Function, false, false, false⟩ : StmtInfo).isLabel
          ([.token ⟨.Ident, "int".toList, ⟨0, 0⟩⟩] ++
            [.token ⟨.BitOr, "|".toList, ⟨0, 0⟩⟩, .token ⟨.Ident, "string".toList, ⟨0, 0⟩⟩])
          [.token ⟨.BitOr, "|".toList, ⟨0, 0⟩⟩, .token ⟨.Ident, "string".toList, ⟨0, 0⟩⟩] ∧
      q.stmtPrec w ([.token ⟨.Ident, "int".toList, ⟨0, 0⟩⟩] ++
            [.token ⟨.BitOr, "|".toList, ⟨0, 0⟩⟩, .token ⟨.Ident, "string".toList, ⟨0, 0⟩⟩])
        = (q.setMaxPrec 17, w) ∧
      ∀ x r, ((q.setMaxPrec 17).stmtToken1 w x r).1.maxPrec = 17 ∧
        (((q.setMaxPrec 17).stmtToken1 w x r).1.stmtToken2
          ((q.setMaxPrec 17).stmtToken1 w x r).2.1
          (⟨.Function, false, false, false⟩ : StmtInfo).isLabel x).1.maxPrec = 17 :=
  ⟨⟨rfl, by decide⟩,
   (printStmt_declaration_sentinel Standard (printer.new opPrecInit)
      ⟨.Function, false, false, false⟩ [.token ⟨.Ident, "int".toList, ⟨0, 0⟩⟩]
      [.token ⟨.BitOr, "|".toList, ⟨0, 0⟩⟩, .token ⟨.Ident, "string".toList, ⟨0, 0⟩⟩]
      (Or.inr (Or.inl rfl)) (by decide)).1⟩

/-- C38, a counterexample to the claim as worded: the statement
`$c ? 1 : $b . function` has the kind function and neither `=` nor `=>`, and after
its ternary middle the maximum precedence is 0, not 17: the `.` is printed with a
blank on both sides, where the statement without the ternary prints `$b.function`. -/
theorem printStmt_sentinel_after_ternary :
    (printStmtLoop Standard ((printer.new opPrecInit).stmtBegin ⟨.Function, false, false, false⟩).1
      ((printer.new opPrecInit).stmtBegin ⟨.Function, false, false, false⟩).2 false
      [.token ⟨.Var, "$c".toList, ⟨0, 0⟩⟩, .ternaryMiddle [.token ⟨.Int, "1".toList, ⟨0, 0⟩⟩],
       .token ⟨.Var, "$b".toList, ⟨0, 0⟩⟩, .token ⟨.Concat, ".".toList, ⟨0, 0⟩⟩,
       .token ⟨.Function, "function".toList, ⟨0, 0⟩⟩]
      [.token ⟨.Var, "$c".toList, ⟨0, 0⟩⟩, .ternaryMiddle [.token ⟨.Int, "1".toList, ⟨0, 0⟩⟩],
       .token ⟨.Var, "$b".toList, ⟨0, 0⟩⟩, .token ⟨.Concat, ".".toList, ⟨0, 0⟩⟩,
       .token ⟨.Function, "function".toList, ⟨0, 0⟩⟩]).1.maxPrec = 0 ∧
    format.formatCode "<?php\nreturn $c ? $a : $b.function () \x7b\x7d;\n".toList Standard
      = some "<?php\n\nreturn $c ? $a : $b . function() \x7b\x7d;\n".toList ∧
    format.formatCode "<?php\nreturn $b . function () \x7b\x7d;\n".toList Standard
      = some "<?php\n\nreturn $b.function() \x7b\x7d;\n".toList := by
  refine ⟨by decide!, by decide!, by decide!⟩


theorem analyseOps_ternary_first (opPrec : PrecMap) (nodes rest : List Node) :
    analyseOps opPrec (.ternaryMiddle nodes :: rest) = 0 := by
  simp [analyseOps, analyseOpsLoop]

/-- C37 (the code at the failing input): after a ternary middle the loop of the
statement takes `analyseOps(arg.nodes[index:])`, a slice that starts with the ternary
middle itself, at which `analyseOps` stops: the maximum precedence for the tokens
that follow is 0 for every statement, and the head of the loop does not compute it
anew.  For `$a ? 1 : $c+$d * $e` the nodes after the middle have the level 6 of `+`,
with which `$c + $d*$e` would be printed as it is without the ternary; the code
prints `$c + $d * $e`. -/
theorem printStmtLoop_after_ternary (config : Options) (p : printer) (v : stmtVars)
    (isLabel : Bool) (all nodes rest : List Node) :
    (analyseOps p.opPrec (.ternaryMiddle nodes :: rest) = 0 ∧
     ∃ q w, printStmtLoop config p v isLabel all (.ternaryMiddle nodes :: rest)
        = printStmtLoop config q w isLabel all rest ∧
      q.maxPrec = 0 ∧ w.maxPrec = 0 ∧ q.stmtPrec w all = (q, w)) ∧
    analyseOps opPrecInit
      [.token ⟨.Whitespace, " ".toList, ⟨0, 0⟩⟩, .token ⟨.Var, "$c".toList, ⟨0, 0⟩⟩,
       .token ⟨.Add, "+".toList, ⟨0, 0⟩⟩, .token ⟨.Var, "$d".toList, ⟨0, 0⟩⟩,
       .token ⟨.Whitespace, " ".toList, ⟨0, 0⟩⟩, .token ⟨.Mul, "*".toList, ⟨0, 0⟩⟩,
       .token ⟨.Whitespace, " ".toList, ⟨0, 0⟩⟩, .token ⟨.Var, "$e".toList, ⟨0, 0⟩⟩] = 6 ∧
    format.formatCode "<?php\n$a ? 1 : $c+$d * $e;\n".toList Standard
      = some "<?php\n\n$a ? 1 : $c + $d * $e;\n".toList ∧
    format.formatCode "<?php\n$c+$d * $e;\n".toList Standard
      = some "<?php\n\n$c + $d*$e;\n".toList := by
  refine ⟨⟨analyseOps_ternary_first _ _ _, ?_⟩, by decide, by decide!, by decide!⟩
  simp only [printStmtLoop, analyseOps_ternary_first]
  refine ⟨_, _, rfl, rfl, rfl, ?_⟩
  simp [printer.stmtPrec]

theorem printStmtLoop_kind (config : Options) (isLabel : Bool) (all : List Node)
    (rest : List Node) :
    ∀ (p : printer) (v : stmtVars),
      (printStmtLoop config p v isLabel all rest).2.kind = kindAfter v.kind rest := by
  have hp : ∀ (p : printer) (v : stmtVars), (p.stmtPrec v all).2.kind = v.kind := by
    intro p v
    simp only [printer.stmtPrec]
    split_ifs <;> rfl
  induction rest with
  | nil => intro p v; simp [printStmtLoop, kindAfter]
  | cons x rest ih =>
    intro p v
    cases x with
    | token t =>
      simp only [printStmtLoop, kindAfter, ih]
      congr 1
      have h1 : ∀ (q : printer) (w : stmtVars), (q.stmtToken1 w t rest).2.1.kind
          = if (t.typ = .DoubleArrow || t.typ = .Assign) = true then t.typ else w.kind := by
        intro q w
        simp only [printer.stmtToken1]
        split_ifs <;> rfl
      have h2 : ∀ (q : printer) (w : stmtVars), (q.stmtToken w isLabel t rest).2.kind
          = (q.stmtToken1 w t rest).2.1.kind := by
        intro q w
        simp only [printer.stmtToken]
        split_ifs <;> first | rfl | exact (stmtToken2_vars _ _ _ _).2
      rw [h2, h1, hp]
    | scope info stmts =>
      simp only [printStmtLoop, kindAfter, ih]
      have hs : ∀ (q : printer) (w : stmtVars), (q.stmtScope w info).2.kind = w.kind := by
        intro q w
        simp only [printer.stmtScope]
        split_ifs <;> rfl
      rw [hs, hp]
    | ternaryMiddle ns =>
      simp only [printStmtLoop, kindAfter, ih]
      split_ifs <;> exact congrArg (fun k => kindAfter k rest) (hp p v)


theorem kindAfter_plain (nodes : List Node) :
    ∀ k, (∀ t, Node.token t ∈ nodes → t.typ ≠ .Assign ∧ t.typ ≠ .DoubleArrow) →
      kindAfter k nodes = k := by
  induction nodes with
  | nil => intro k _; rfl
  | cons x rest ih =>
    intro k h
    have hr := ih k (fun t ht => h t (List.mem_cons_of_mem _ ht))
    cases x with
    | token t =>
      have ht := h t (List.mem_cons_self _ _)
      simp only [kindAfter, ht.1, ht.2, decide_False, Bool.or_self, Bool.false_eq_true, if_false]
      exact hr
    | scope info stmts => exact hr
    | ternaryMiddle ns => exact hr

/-- C36: the printer writes to the tree.  The loop of a statement assigns
`arg.kind = x.Type` at each of its own tokens `=` and `=>`: whatever the state of the
printer, when the statement has been printed its kind is the kind of its last such
token, and the kind `Parse` gave it when it has none. -/
theorem print_writes_kind (config : Options) (p : printer) (arg : StmtInfo) (nodes : List Node) :
    (printStmtLoop config (p.stmtBegin arg).1 (p.stmtBegin arg).2 arg.isLabel nodes nodes).2.kind
      = kindAfter arg.kind nodes ∧
    ((∀ t, Node.token t ∈ nodes → t.typ ≠ .Assign ∧ t.typ ≠ .DoubleArrow) →
      kindAfter arg.kind nodes = arg.kind) := by
  have hb : (p.stmtBegin arg).2.kind = arg.kind := by
    simp only [printer.stmtBegin]
    split_ifs <;> rfl
  refine ⟨?_, kindAfter_plain nodes arg.kind⟩
  rw [printStmtLoop_kind, hb]

/-- C36, an instance: the statement `echo 1` has no `=` and keeps its kind. -/
theorem print_writes_kind_witness :
    (∀ t, Node.token t ∈ ([.token ⟨.Echo, "echo".toList, ⟨1, 7⟩⟩,
        .token ⟨.Whitespace, " ".toList, ⟨1, 11⟩⟩, .token ⟨.Int, "1".toList, ⟨1, 12⟩⟩] : List Node) →
      t.typ ≠ .Assign ∧ t.typ ≠ .DoubleArrow) ∧
    kindAfter (⟨.Illegal, false, false, false⟩ : StmtInfo).kind
      [.token ⟨.Echo, "echo".toList, ⟨1, 7⟩⟩, .token ⟨.Whitespace, " ".toList, ⟨1, 11⟩⟩,
       .token ⟨.Int, "1".toList, ⟨1, 12⟩⟩] = (⟨.Illegal, false, false, false⟩ : StmtInfo).kind :=
  ⟨by
    intro t ht
    simp only [List.mem_cons, Node.token.injEq, List.mem_singleton, List.not_mem_nil,
      or_false] at ht
    rcases ht with rfl | rfl | rfl <;> exact ⟨by decide, by decide⟩,
   (print_writes_kind Standard (printer.new opPrecInit) ⟨.Illegal, false, false, false⟩
      [.token ⟨.Echo, "echo".toList, ⟨1, 7⟩⟩, .token ⟨.Whitespace, " ".toList, ⟨1, 11⟩⟩,
       .token ⟨.Int, "1".toList, ⟨1, 12⟩⟩]).2 (by
    intro t ht
    simp only [List.mem_cons, Node.token.injEq, List.mem_singleton, List.not_mem_nil,
      or_false] at ht
    rcases ht with rfl | rfl | rfl <;> exact ⟨by decide, by decide⟩)⟩

/-- C36, a counterexample: the parameter `int|string $a=1` is a statement of kind
function in the tree of `Parse`; the loop that prints it leaves it with the kind of
`=`; printed again with that kind, it comes out as `int | string $a = 1`, where the
first time it is `int|string $a = 1`. -/
theorem print_changes_stmt_kind :
    (parseStmt 40 (⟨NewScanner "<?php function f(int|string $a=1)".toList false, none, default,
        false⟩ : parser).next.next.next.next.next.next.next [.Comma]).2.2 =
      [.token ⟨.Ident, "int".toList, ⟨1, 18⟩⟩, .token ⟨.BitOr, "|".toList, ⟨1, 21⟩⟩,
       .token ⟨.Ident, "string".toList, ⟨1, 22⟩⟩, .token ⟨.Whitespace, " ".toList, ⟨1, 28⟩⟩,
       .token ⟨.Var, "$a".toList, ⟨1, 29⟩⟩, .token ⟨.Assign, "=".toList, ⟨1, 31⟩⟩,
       .token ⟨.Int, "1".toList, ⟨1, 32⟩⟩] ∧
    (printStmtLoop Standard ((printer.new opPrecInit).stmtBegin ⟨.Function, false, false, false⟩).1
      ((printer.new opPrecInit).stmtBegin ⟨.Function, false, false, false⟩).2 false
      [.token ⟨.Ident, "int".toList, ⟨1, 18⟩⟩, .token ⟨.BitOr, "|".toList, ⟨1, 21⟩⟩,
       .token ⟨.Ident, "string".toList, ⟨1, 22⟩⟩, .token ⟨.Whitespace, " ".toList, ⟨1, 28⟩⟩,
       .token ⟨.Var, "$a".toList, ⟨1, 29⟩⟩, .token ⟨.Assign, "=".toList, ⟨1, 31⟩⟩,
       .token ⟨.Int, "1".toList, ⟨1, 32⟩⟩]
      [.token ⟨.Ident, "int".toList, ⟨1, 18⟩⟩, .token ⟨.BitOr, "|".toList, ⟨1, 21⟩⟩,
       .token ⟨.Ident, "string".toList, ⟨1, 22⟩⟩, .token ⟨.Whitespace, " ".toList, ⟨1, 28⟩⟩,
       .token ⟨.Var, "$a".toList, ⟨1, 29⟩⟩, .token ⟨.Assign, "=".toList, ⟨1, 31⟩⟩,
       .token ⟨.Int, "1".toList, ⟨1, 32⟩⟩]).2.kind = .Assign ∧
    ((printStmts Standard (printer.new opPrecInit) [(⟨.Function, false, false, false⟩,
      [.token ⟨.Ident, "int".toList, ⟨1, 18⟩⟩, .token ⟨.BitOr, "|".toList, ⟨1, 21⟩⟩,
       .token ⟨.Ident, "string".toList, ⟨1, 22⟩⟩, .token ⟨.Whitespace, " ".toList, ⟨1, 28⟩⟩,
       .token ⟨.Var, "$a".toList, ⟨1, 29⟩⟩, .token ⟨.Assign, "=".toList, ⟨1, 31⟩⟩,
       .token ⟨.Int, "1".toList, ⟨1, 32⟩⟩])]).tokens.reverse.take 3 =
      [.token ⟨.Ident, "int".toList, ⟨0, 0⟩⟩, .token ⟨.BitOr, "|".toList, ⟨0, 0⟩⟩,
       .token ⟨.Ident, "string".toList, ⟨0, 0⟩⟩]) ∧
    ((printStmts Standard (printer.new opPrecInit) [(⟨.Assign, false, false, false⟩,
      [.token ⟨.Ident, "int".toList, ⟨1, 18⟩⟩, .token ⟨.BitOr, "|".toList, ⟨1, 21⟩⟩,
       .token ⟨.Ident, "string".toList, ⟨1, 22⟩⟩, .token ⟨.Whitespace, " ".toList, ⟨1, 28⟩⟩,
       .token ⟨.Var, "$a".toList, ⟨1, 29⟩⟩, .token ⟨.Assign, "=".toList, ⟨1, 31⟩⟩,
       .token ⟨.Int, "1".toList, ⟨1, 32⟩⟩])]).tokens.reverse.take 3 =
      [.token ⟨.Ident, "int".toList, ⟨0, 0⟩⟩, .whitespace .space,
       .token ⟨.BitOr, "|".toList, ⟨0, 0⟩⟩]) := by
  refine ⟨rfl, by decide!, by decide!, by decide!⟩

end naive

/-! ### What the scanner consumes -/

namespace token

theorem Reads.self (s : Scanner) : Reads s s [] := ⟨rfl, rfl⟩

theorem Reads.andThen {s t u : Scanner} {w v : List Char} (h1 : Reads s t w) (h2 : Reads t u v) :
    Reads s u (w ++ v) :=
  ⟨by rw [h1.1, h2.1, List.append_assoc], h2.2.trans h1.2⟩

theorem Reads.length_le {s t : Scanner} {w : List Char} (h : Reads s t w) :
    t.pend.length ≤ s.pend.length := by
  rw [h.1, List.length_append]; omega

theorem read_cases (s : Scanner) :
    (s.read.1 = none ∧ s.pend = [] ∧ s.read.2.pend = [] ∧ s.read.2.queue = s.queue ∧
      s.read.2.unread = s.read.2) ∨
    (∃ c, s.read.1 = some c ∧ s.pend = c :: s.read.2.pend ∧ s.read.2.queue = s.queue ∧
      s.read.2.unread.pend = s.pend ∧ s.read.2.unread.queue = s.queue ∧
      s.read.2.lastRune = some c ∧ s.read.2.done = false) := by
  unfold Scanner.read
  by_cases hd : s.done = true
  · simp [hd, Scanner.pend, Scanner.unread]
  · simp only [hd, Bool.false_eq_true, if_false]
    cases hr : s.r with
    | nil => simp [Scanner.pend, hr, Scanner.unread]
    | cons c rest =>
      refine Or.inr ⟨c, ?_⟩
      by_cases hc : c = '\n'
      · simp only [hc, if_true, Scanner.pend, hd, hr, Scanner.unread, Bool.false_eq_true, if_false]
        refine ⟨trivial, trivial, trivial, ?_, ?_, trivial, trivial⟩
        · split <;> simp
        · split <;> rfl
      · simp only [hc, if_false, Scanner.pend, hd, hr, Scanner.unread, Bool.false_eq_true]
        refine ⟨trivial, trivial, trivial, ?_, ?_, trivial, trivial⟩
        · split <;> simp
        · split <;> rfl

theorem read_fst_pend (s : Scanner) : s.read.1 = s.pend.head? := by
  rcases read_cases s with ⟨h1, h2, _⟩ | ⟨c, h1, h2, _⟩
  · rw [h1, h2]; rfl
  · rw [h1, h2]; rfl

theorem reads_read (s : Scanner) : Reads s s.read.2 s.read.1.toList := by
  rcases read_cases s with ⟨h1, h2, h3, h4, _⟩ | ⟨c, h1, h2, h3, _⟩
  · rw [h1]; exact ⟨by rw [h2, h3]; rfl, h4⟩
  · rw [h1]; exact ⟨h2, h3⟩

theorem peek_def (s : Scanner) : s.peek = (s.read.1, s.read.2.unread) := rfl

theorem reads_peek (s : Scanner) : Reads s s.peek.2 [] := by
  rw [peek_def]
  rcases read_cases s with ⟨_, h2, h3, h4, h5⟩ | ⟨c, _, _, _, h4, h5, _⟩
  · simp only [h5]; exact ⟨by rw [h2, h3]; rfl, h4⟩
  · exact ⟨h4.symm, h5⟩

theorem peek_fst_pend (s : Scanner) : s.peek.1 = s.pend.head? := read_fst_pend s

theorem peek_pend (s : Scanner) : s.peek.2.pend = s.pend := (reads_peek s).1.symm

theorem peek_queue_eq (s : Scanner) : s.peek.2.queue = s.queue := (reads_peek s).2

theorem reads_unread (s : Scanner) (c : Char) (h1 : s.lastRune = some c) (h2 : s.done = false) :
    Reads s.unread s [c] := by
  unfold Scanner.unread
  simp only [h2, Bool.false_eq_true, if_false, h1]
  constructor
  · split <;> simp [Scanner.pend, h2]
  · split <;> rfl

/-- Reading after a peek that saw `c` consumes `c`. -/
theorem reads_read_of_peek (s : Scanner) (c : Char) (h : s.peek.1 = some c) :
    Reads s s.peek.2.read.2 [c] ∧ s.peek.2.read.1 = some c := by
  have hp := reads_peek s
  have hh : s.peek.2.read.1 = some c := by
    rw [read_fst_pend, peek_pend, ← peek_fst_pend, h]
  have hr := reads_read s.peek.2
  rw [hh] at hr
  exact ⟨by simpa using hp.andThen hr, hh⟩


theorem scanIdentLoop_reads (n : Nat) : ∀ (s : Scanner) (b : List Char),
    ∃ w, Reads s (scanIdentLoop n s b).2 w ∧ (scanIdentLoop n s b).1 = b ++ w := by
  induction n with
  | zero => intro s b; exact ⟨[], Reads.self s, by simp [scanIdentLoop]⟩
  | succ n ih =>
    intro s b
    have hc := read_cases s
    unfold scanIdentLoop
    rcases hrd : s.read with ⟨r, s1⟩
    rw [hrd] at hc
    simp only at hc
    rcases hc with ⟨h1, h2, h3, h4, h5⟩ | ⟨c, h1, h2, h3, h4, h5, _⟩
    · subst h1
      simp only [h5]
      exact ⟨[], ⟨by rw [h2, h3]; rfl, h4⟩, by simp⟩
    · subst h1
      simp only
      have hr1 : Reads s s1 [c] := ⟨h2, h3⟩
      split_ifs
      · obtain ⟨w, hw, e⟩ := ih s1 (b ++ [c])
        exact ⟨c :: w, by simpa using hr1.andThen hw, by simp [e]⟩
      · obtain ⟨w, hw, e⟩ := ih s1 (b ++ [c])
        exact ⟨c :: w, by simpa using hr1.andThen hw, by simp [e]⟩
      · exact ⟨[], ⟨h4.symm, h5⟩, by simp⟩

theorem scanIdent_reads (s : Scanner) :
    ∃ w, Reads s s.scanIdent.2 w ∧ s.scanIdent.1 = w := by
  simpa [Scanner.scanIdent] using scanIdentLoop_reads (s.r.length + 1) s []

theorem scanWhitespaceLoop_reads (n : Nat) : ∀ (s : Scanner) (b : List Char),
    ∃ w, Reads s (scanWhitespaceLoop n s b).2 w ∧
      (scanWhitespaceLoop n s b).1 = Token.mk0 .Whitespace (b ++ w) ∧
      (∀ c t, 0 < n → s.pend = c :: t → isSpaceRune c = true → w ≠ []) := by
  induction n with
  | zero => intro s b; exact ⟨[], Reads.self s, by simp [scanWhitespaceLoop], fun _ _ h => by omega⟩
  | succ n ih =>
    intro s b
    have hc := read_cases s
    unfold scanWhitespaceLoop
    rcases hrd : s.read with ⟨r, s1⟩
    rw [hrd] at hc
    simp only at hc
    rcases hc with ⟨h1, h2, h3, h4, h5⟩ | ⟨c, h1, h2, h3, h4, h5, _⟩
    · subst h1
      simp only [h5]
      exact ⟨[], ⟨by rw [h2, h3]; rfl, h4⟩, by simp, fun c t _ e => by rw [h2] at e; cases e⟩
    · subst h1
      simp only
      have hr1 : Reads s s1 [c] := ⟨h2, h3⟩
      split_ifs with hsp
      · obtain ⟨w, hw, e, _⟩ := ih s1 (b ++ [c])
        exact ⟨c :: w, by simpa using hr1.andThen hw, by simp [e], fun _ _ _ _ _ => by simp⟩
      · refine ⟨[], ⟨h4.symm, h5⟩, by simp, fun c2 t _ e hs => ?_⟩
        rw [h2] at e
        injection e with e1 _
        rw [e1] at hsp
        exact absurd hs hsp

theorem scanWhitespace_reads (s : Scanner) :
    ∃ w, Reads s s.scanWhitespace.2 w ∧ s.scanWhitespace.1 = Token.mk0 .Whitespace w ∧
      (∀ c t, s.pend = c :: t → isSpaceRune c = true → w ≠ []) := by
  obtain ⟨w, h1, h2, h3⟩ := scanWhitespaceLoop_reads (s.r.length + 1) s []
  exact ⟨w, h1, by simpa [Scanner.scanWhitespace] using h2, fun c t => h3 c t (by omega)⟩


theorem queueOK_nil : queueOK [] := fun _ h => absurd h (List.not_mem_nil _)

theorem scanLineCommentLoop_reads (start : List Char) (n : Nat) : ∀ (s : Scanner) (b : List Char),
    ∃ w q, s.pend = w ++ queueText q ++ (scanLineCommentLoop start n s b).2.pend ∧
      (scanLineCommentLoop start n s b).2.queue = s.queue ++ q ∧ queueOK q ∧
      (scanLineCommentLoop start n s b).1 = Token.mk0 .Comment (start ++ b ++ w) := by
  induction n with
  | zero =>
    intro s b
    exact ⟨[], [], by simp [scanLineCommentLoop, queueText], by simp [scanLineCommentLoop],
      queueOK_nil, by simp [scanLineCommentLoop]⟩
  | succ n ih =>
    intro s b
    have hc := read_cases s
    unfold scanLineCommentLoop
    rcases hrd : s.read with ⟨r, s1⟩
    rw [hrd] at hc
    simp only at hc
    rcases hc with ⟨h1, h2, h3, h4, h5⟩ | ⟨c, h1, h2, h3, h4, h5, _⟩
    · subst h1
      simp only [h5]
      exact ⟨[], [], by simp [queueText, h2, h3], by simp [h4], queueOK_nil, by simp⟩
    · subst h1
      simp only
      by_cases hq : c = '?'
      · subst hq
        simp only [if_true]
        by_cases hgt : s1.peek.1 = some '>'
        · simp only [hgt, if_true]
          obtain ⟨hr, _⟩ := reads_read_of_peek s1 '>' hgt
          refine ⟨[], [⟨.CloseTag, "?>".toList,
            ⟨s1.peek.2.read.2.line, s1.peek.2.read.2.col - 2⟩⟩], ?_, ?_, ?_, by simp⟩
          · rw [h2, hr.1]
            simp [queueText, Scanner.pend]
          · simp [hr.2, h3]
          · intro t ht
            simp only [List.mem_singleton] at ht
            subst ht
            exact ⟨by simp, by simp⟩
        · simp only [hgt, if_false]
          obtain ⟨w, q, e1, e2, e3, e4⟩ := ih s1.peek.2 (b ++ ['?'])
          refine ⟨'?' :: w, q, ?_, ?_, e3, by simp [e4]⟩
          · rw [h2, ← peek_pend s1, e1]; simp
          · rw [e2, peek_queue, h3]
      · simp only [hq, if_false]
        by_cases hnl : c = '\n'
        · simp only [hnl, if_true]
          exact ⟨[], [], by simp [queueText, h4], by simp [h5, h3], queueOK_nil, by simp⟩
        · simp only [hnl, if_false]
          obtain ⟨w, q, e1, e2, e3, e4⟩ := ih s1 (b ++ [c])
          refine ⟨c :: w, q, ?_, ?_, e3, by simp [e4]⟩
          · rw [h2, e1]; simp
          · rw [e2, h3]

theorem errorf_fst (s : Scanner) (msg : String) : (s.errorf msg).1.typ = .EOF := rfl

theorem errorf_err_ne (s : Scanner) (msg : String) : (s.errorf msg).2.err ≠ none := by
  unfold Scanner.errorf
  cases h : s.err with
  | none => simp
  | some e => simp [h]

theorem Took.err (s : Scanner) (msg : String) (text : List Char → Token → Prop) :
    Took s (s.errorf msg) text := Or.inl ⟨rfl, errorf_err_ne s msg⟩

theorem scanBlockCommentLoop_reads (n : Nat) : ∀ (s : Scanner) (b : List Char),
    Took s (scanBlockCommentLoop n s b) (fun w tok =>
      tok.text = "/*".toList ++ b ++ w ∧ (tok.typ = .Comment ∨ tok.typ = .DocComment)) := by
  induction n with
  | zero => intro s b; exact Took.err _ _ _
  | succ n ih =>
    intro s b
    have hc := read_cases s
    unfold scanBlockCommentLoop
    rcases hrd : s.read with ⟨r, s1⟩
    rw [hrd] at hc
    simp only at hc
    rcases hc with ⟨h1, h2, h3, h4, h5⟩ | ⟨c, h1, h2, h3, h4, h5, _⟩
    · subst h1
      simp only [reduceCtorEq, if_false, Bool.false_and, Bool.false_eq_true, decide_False]
      exact Or.inl ⟨rfl, errorf_err_ne _ _⟩
    · subst h1
      have hr1 : Reads s s1 [c] := ⟨h2, h3⟩
      by_cases hstar : c = '*'
      · subst hstar
        simp only [if_true]
        by_cases hsl : s1.peek.1 = some '/'
        · simp only [hsl, decide_True, Bool.and_self, if_true]
          obtain ⟨hr, _⟩ := reads_read_of_peek s1 '/' hsl
          refine Or.inr ⟨"*/".toList, by simpa using hr1.andThen hr, by simp [Token.mk0], ?_⟩
          simp only [Token.mk0, blockCommentType]
          split
          · split_ifs <;> simp
          · simp
        · simp only [hsl, decide_False, Bool.and_false, Bool.false_eq_true, if_false]
          rcases ih s1.peek.2 (b ++ ['*']) with h | ⟨w, hw, e1, e2⟩
          · exact Or.inl h
          · exact Or.inr ⟨'*' :: w, by simpa using (hr1.andThen (reads_peek s1)).andThen hw,
              by simp [e1], e2⟩
      · have hne : ¬ (some c = some '*') := by simpa using hstar
        simp only [hne, if_false, decide_False, Bool.false_and, Bool.false_eq_true]
        rcases ih s1 (b ++ [c]) with h | ⟨w, hw, e1, e2⟩
        · exact Or.inl h
        · exact Or.inr ⟨c :: w, by simpa using hr1.andThen hw, by simp [e1], e2⟩


theorem scanQuotedLoop_eof (q : Char) (n : Nat) (s : Scanner) (b : List Char) (h : s.pend = []) :
    (scanQuotedLoop q n s b).1.typ = .EOF ∧ (scanQuotedLoop q n s b).2.err ≠ none := by
  cases n with
  | zero => exact ⟨rfl, errorf_err_ne _ _⟩
  | succ n =>
    have hr : s.read.1 = none := by rw [read_fst_pend, h]; rfl
    unfold scanQuotedLoop
    rcases hrd : s.read with ⟨r, s1⟩
    rw [hrd] at hr
    simp only at hr
    subst hr
    exact ⟨rfl, errorf_err_ne _ _⟩

theorem scanQuotedLoop_reads (q : Char) (n : Nat) : ∀ (s : Scanner) (b : List Char),
    Took s (scanQuotedLoop q n s b) (fun w tok => tok = Token.mk0 .String (q :: (b ++ w))) := by
  induction n with
  | zero => intro s b; exact Took.err _ _ _
  | succ n ih =>
    intro s b
    have hc := read_cases s
    unfold scanQuotedLoop
    rcases hrd : s.read with ⟨r, s1⟩
    rw [hrd] at hc
    simp only at hc
    rcases hc with ⟨h1, h2, h3, h4, h5⟩ | ⟨c, h1, h2, h3, h4, h5, _⟩
    · subst h1
      exact Or.inl ⟨rfl, errorf_err_ne _ _⟩
    · subst h1
      have hr1 : Reads s s1 [c] := ⟨h2, h3⟩
      simp only [runeChar]
      split_ifs with hbs hq
      · have hc2 := read_cases s1
        rcases hrd2 : s1.read with ⟨r2, s2⟩
        rw [hrd2] at hc2
        simp only at hc2
        rcases hc2 with ⟨g1, g2, g3, g4, g5⟩ | ⟨c2, g1, g2, g3, _⟩
        · subst g1
          exact Or.inl (scanQuotedLoop_eof q n s2 _ g3)
        · subst g1
          simp only [runeChar]
          rcases ih s2 (b ++ [c] ++ [c2]) with h | ⟨w, hw, e⟩
          · exact Or.inl h
          · have hr2 : Reads s1 s2 [c2] := ⟨g2, g3⟩
            exact Or.inr ⟨c :: c2 :: w, by simpa using (hr1.andThen hr2).andThen hw,
              by rw [e]; simp⟩
      · exact Or.inr ⟨[c], hr1, by simp [hq]⟩
      · rcases ih s1 (b ++ [c]) with h | ⟨w, hw, e⟩
        · exact Or.inl h
        · exact Or.inr ⟨c :: w, by simpa using hr1.andThen hw, by simp [e]⟩

theorem hereDocSkipWS_reads (n : Nat) : ∀ (s : Scanner) (b : List Char),
    ∃ w, Reads s (hereDocSkipWS n s b).2.2.2 w ∧ (hereDocSkipWS n s b).2.2.1 = b ++ w := by
  induction n with
  | zero => intro s b; exact ⟨[], Reads.self s, by simp [hereDocSkipWS]⟩
  | succ n ih =>
    intro s b
    have hc := read_cases s
    unfold hereDocSkipWS
    rcases hrd : s.read with ⟨r, s1⟩
    rw [hrd] at hc
    simp only at hc
    rcases hc with ⟨h1, h2, h3, h4, h5⟩ | ⟨c, h1, h2, h3, h4, h5, _⟩
    · subst h1
      simp only [h5]
      exact ⟨[], ⟨by rw [h2, h3]; rfl, h4⟩, by simp⟩
    · subst h1
      simp only
      have hr1 : Reads s s1 [c] := ⟨h2, h3⟩
      split_ifs
      · obtain ⟨w, hw, e⟩ := ih s1 (b ++ [c])
        exact ⟨c :: w, by simpa using hr1.andThen hw, by simp [e]⟩
      · exact ⟨[], ⟨h4.symm, h5⟩, by simp⟩
      · exact ⟨[], ⟨h4.symm, h5⟩, by simp⟩

theorem hereDocBody_reads (delim : List Char) (n : Nat) : ∀ (s : Scanner) (b : List Char),
    Took s (hereDocBody delim n s b)
      (fun w tok => tok = Token.mk0 .String ("<<<".toList ++ (b ++ w))) := by
  induction n with
  | zero => intro s b; exact Took.err _ _ _
  | succ n ih =>
    intro s b
    have hc := read_cases s
    unfold hereDocBody
    rcases hrd : s.read with ⟨r, s1⟩
    rw [hrd] at hc
    simp only at hc
    rcases hc with ⟨h1, h2, h3, h4, h5⟩ | ⟨c, h1, h2, h3, h4, h5, _⟩
    · subst h1
      exact Or.inl ⟨rfl, errorf_err_ne _ _⟩
    · subst h1
      have hr1 : Reads s s1 [c] := ⟨h2, h3⟩
      simp only [runeChar]
      by_cases hnl : c = '\n'
      · simp only [hnl, if_true]
        obtain ⟨w1, hw1, e1, _⟩ := scanWhitespace_reads s1
        obtain ⟨w2, hw2, e2⟩ := scanIdent_reads s1.scanWhitespace.2
        have hall := (hr1.andThen hw1).andThen hw2
        by_cases hd : s1.scanWhitespace.2.scanIdent.1 = delim
        · simp only [hd, if_true]
          refine Or.inr ⟨c :: (w1 ++ w2), by simpa using hall, ?_⟩
          rw [e1, ← hd, e2, hnl]
          simp [Token.mk0]
        · simp only [hd, if_false]
          rcases ih s1.scanWhitespace.2.scanIdent.2
              (b ++ ['\n'] ++ s1.scanWhitespace.1.text ++ s1.scanWhitespace.2.scanIdent.1)
            with h | ⟨w, hw, e⟩
          · exact Or.inl h
          · refine Or.inr ⟨c :: (w1 ++ w2) ++ w, by simpa using hall.andThen hw, ?_⟩
            rw [e, e1, e2, hnl]
            simp [Token.mk0]
      · simp only [hnl, if_false]
        rcases ih s1 (b ++ [c]) with h | ⟨w, hw, e⟩
        · exact Or.inl h
        · exact Or.inr ⟨c :: w, by simpa using hr1.andThen hw, by simp [e]⟩


theorem Took.after {s t : Scanner} {res : Token × Scanner} {v b : List Char}
    (h1 : Reads s t v) (hb : b = v)
    (h2 : Took t res (fun w tok => tok = Token.mk0 .String ("<<<".toList ++ (b ++ w)))) :
    Took s res (fun w tok => tok = Token.mk0 .String ("<<<".toList ++ w)) := by
  rcases h2 with h | ⟨w, hw, e⟩
  · exact Or.inl h
  · exact Or.inr ⟨v ++ w, h1.andThen hw, by rw [e, hb]⟩

theorem scanHereDoc_reads (s : Scanner) :
    Took s s.scanHereDoc (fun w tok => tok = Token.mk0 .String ("<<<".toList ++ w)) := by
  obtain ⟨w1, hw1, ews, _⟩ := scanWhitespace_reads s
  rcases hws : s.scanWhitespace with ⟨ws, s1⟩
  rw [hws] at hw1 ews
  simp only at hw1 ews
  have hpf := peek_fst_pend s1
  have hpr := reads_read_of_peek s1
  have hpk2 := reads_peek s1
  rcases hpk : s1.peek with ⟨p1, s2⟩
  rw [hpk] at hpf hpr hpk2
  simp only at hpf hpr hpk2
  simp only [Scanner.scanHereDoc, hws, hpk]
  have k2 : Reads s s2 w1 := by simpa using hw1.andThen hpk2
  clear hws hpk
  split
  · exact Or.inl ⟨rfl, errorf_err_ne _ _⟩
  · generalize hq : (if (p1 = some '"' || p1 = some '\'') = true
        then (p1, ws.text ++ [runeChar p1], s2.read.2)
        else ((none : Option Char), ws.text, s2)) = qt
    obtain ⟨quote, b, s3⟩ := qt
    have k3 : ∃ w3, Reads s s3 w3 ∧ b = w3 := by
      split at hq
      · rename_i hcond
        cases hq
        obtain ⟨c, hc⟩ : ∃ c, p1 = some c := by
          rcases Bool.or_eq_true_iff.mp hcond with h | h
          · exact ⟨'"', by simpa using h⟩
          · exact ⟨'\'', by simpa using h⟩
        obtain ⟨hr, _⟩ := hpr c hc
        refine ⟨w1 ++ [c], hw1.andThen hr, ?_⟩
        rw [ews, hc]
        rfl
      · cases hq
        exact ⟨w1, k2, by rw [ews]; rfl⟩
    clear hq
    obtain ⟨w3, k3, eb⟩ := k3
    simp only []
    obtain ⟨w4, hw4, eid⟩ := scanIdent_reads s3
    rcases hid : s3.scanIdent with ⟨delim, s4⟩
    rw [hid] at hw4 eid
    simp only at hw4 eid
    clear hid
    have k4 := k3.andThen hw4
    simp only []
    split
    · exact Or.inl ⟨rfl, errorf_err_ne _ _⟩
    · have tail : ∀ (okq : Bool) (b2 : List Char) (s5 : Scanner) (w5 : List Char),
          Reads s s5 w5 → b2 = w5 →
          Took s (if (!okq) = true then s5.errorf "quoted heredoc identifier not terminated"
            else if (!(hereDocSkipWS (s5.r.length + 1) s5 b2).1) = true then
              (hereDocSkipWS (s5.r.length + 1) s5 b2).2.2.2.errorf
                ("unexpected " ++ quoteRune (hereDocSkipWS (s5.r.length + 1) s5 b2).2.1
                  ++ " after heredoc identifier, expecting newline")
            else hereDocBody delim ((hereDocSkipWS (s5.r.length + 1) s5 b2).2.2.2.r.length + 1)
              (hereDocSkipWS (s5.r.length + 1) s5 b2).2.2.2
              (hereDocSkipWS (s5.r.length + 1) s5 b2).2.2.1)
            (fun w tok => tok = Token.mk0 .String ("<<<".toList ++ w)) := by
        intro okq b2 s5 w5 k5 e5
        obtain ⟨w6, hw6, e6⟩ := hereDocSkipWS_reads (s5.r.length + 1) s5 b2
        split
        · exact Or.inl ⟨rfl, errorf_err_ne _ _⟩
        · split
          · exact Or.inl ⟨rfl, errorf_err_ne _ _⟩
          · exact Took.after (k5.andThen hw6) (by rw [e6, e5]) (hereDocBody_reads _ _ _ _)
      cases quote with
      | none => exact tail true _ s4 _ k4 (by rw [eb, eid])
      | some q =>
        by_cases he : s4.read.1 = some q
        · simp only [ne_eq, he, not_true_eq_false, if_false]
          have hr := reads_read s4
          rw [he] at hr
          exact tail true _ _ _ (k4.andThen hr) (by rw [eb, eid]; rfl)
        · simp only [ne_eq, he, not_false_eq_true, if_true]
          exact Or.inl ⟨rfl, errorf_err_ne _ _⟩


theorem read_after_peek (s : Scanner) : s.peek.2.read.1 = s.peek.1 := by
  rw [read_fst_pend, peek_pend, ← peek_fst_pend]

theorem reads_read_rune (s : Scanner) (h : s.read.1 ≠ none) :
    Reads s s.read.2 [runeChar s.read.1] := by
  have hr := reads_read s
  cases hx : s.read.1 with
  | none => exact absurd hx h
  | some c => rw [hx] at hr; exact hr

theorem isDigit_ne_none (x : Option Char) (h : isDigit x = true) : x ≠ none := by
  cases x with
  | none => cases h
  | some c => simp

theorem reads_peek_read (s : Scanner) (h : s.peek.1 ≠ none) :
    Reads s s.peek.2.read.2 [runeChar s.peek.2.read.1] :=
  by simpa using (reads_peek s).andThen (reads_read_rune s.peek.2 (by rw [read_after_peek]; exact h))

theorem scanDecimalLoop_reads (n : Nat) : ∀ (s : Scanner) (b : List Char),
    ∃ w, Reads s (scanDecimalLoop n s b).2.2 w ∧
      ((scanDecimalLoop n s b).1 = true → (scanDecimalLoop n s b).2.1 = b ++ w) := by
  induction n with
  | zero => intro s b; exact ⟨[], Reads.self s, fun _ => by simp [scanDecimalLoop]⟩
  | succ n ih =>
    intro s b
    rw [scanDecimalLoop_succ]
    split_ifs with hu h1 h2 h3
    · exact ⟨_, (((reads_peek s).andThen (reads_read _)).andThen (reads_peek _)).andThen (reads_read _),
        fun h => by cases h⟩
    · have hp : s.peek.1 ≠ none := by
        simp only [Bool.and_eq_true, decide_eq_true_eq] at hu
        rw [hu.2]; simp
      exact ⟨_, ((reads_peek_read s hp).andThen (reads_peek _)).andThen (reads_peek _),
        fun _ => by simp⟩
    · have hp : s.peek.1 ≠ none := by
        simp only [Bool.and_eq_true, decide_eq_true_eq] at hu
        rw [hu.2]; simp
      have hd : s.peek.2.read.2.peek.2.peek.1 ≠ none :=
        isDigit_ne_none _ (by simpa using h2)
      obtain ⟨w, hw, e⟩ := ih s.peek.2.read.2.peek.2.peek.2.read.2
        (b ++ [runeChar s.peek.2.read.1] ++ [runeChar s.peek.2.read.2.peek.2.peek.2.read.1])
      refine ⟨_, (((reads_peek_read s hp).andThen (reads_peek _)).andThen
        (reads_peek_read _ hd)).andThen hw, fun h => ?_⟩
      rw [e h]
      simp
    · exact ⟨_, (reads_peek s).andThen (reads_peek _), fun _ => by simp⟩
    · have hd : s.peek.2.peek.1 ≠ none := isDigit_ne_none _ (by simpa using h3)
      obtain ⟨w, hw, e⟩ := ih s.peek.2.peek.2.read.2 (b ++ [runeChar s.peek.2.peek.2.read.1])
      refine ⟨_, ((reads_peek s).andThen (reads_peek_read _ hd)).andThen hw, fun h => ?_⟩
      rw [e h]
      simp

theorem scanDecimal_reads (s : Scanner) (b : List Char) :
    ∃ w, Reads s (s.scanDecimal b).2.2 w ∧
      ((s.scanDecimal b).1 = true → (s.scanDecimal b).2.1 = b ++ w) :=
  scanDecimalLoop_reads _ s b

theorem scanFloat_reads (s : Scanner) (b : List Char) :
    ∃ w, Reads s (s.scanFloat b).2 w ∧
      ((s.scanFloat b).1.typ = .Illegal ∨ (s.scanFloat b).1 = Token.mk0 .Float (b ++ w)) := by
  obtain ⟨w1, hw1, e1⟩ := scanDecimal_reads s b
  unfold Scanner.scanFloat
  rcases hd : s.scanDecimal b with ⟨ok, b1, s1⟩
  rw [hd] at hw1 e1
  simp only at hw1 e1
  clear hd
  simp only []
  cases ok with
  | false => exact ⟨w1, hw1, Or.inl rfl⟩
  | true =>
    have e1 := e1 rfl
    simp only [Bool.not_true, Bool.false_eq_true, if_false]
    have hpk := reads_peek s1
    have hpf := read_after_peek s1
    rcases hp : s1.peek with ⟨r, s2⟩
    rw [hp] at hpk hpf
    simp only at hpk hpf
    clear hp
    simp only []
    split
    · rename_i hcond
      have hr : r ≠ none := by
        rcases Bool.or_eq_true_iff.mp hcond with h | h <;>
          · simp only [decide_eq_true_eq] at h
            rw [h]; simp
      have hrd := reads_read_rune s2 (by rw [hpf]; exact hr)
      have hq2 := reads_peek s2.read.2
      have hq3 := read_after_peek s2.read.2
      rcases hr1 : s2.read with ⟨r1, s3⟩
      rw [hr1] at hrd hq2 hq3
      simp only at hrd hq2 hq3
      clear hr1
      rcases hp2 : s3.peek with ⟨r2, s4⟩
      rw [hp2] at hq2 hq3
      simp only at hq2 hq3
      clear hp2
      simp only []
      generalize hq : (if (r2 = some '+' || r2 = some '-') = true then
          (b1 ++ [runeChar r1] ++ [runeChar s4.read.1], s4.read.2)
          else (b1 ++ [runeChar r1], s4)) = q
      obtain ⟨b3, s5⟩ := q
      have k5 : ∃ w5, Reads s s5 w5 ∧ b3 = b ++ w5 := by
        have k4 : Reads s s4 (w1 ++ [runeChar r1]) := by
          simpa using ((hw1.andThen hpk).andThen hrd).andThen hq2
        split at hq
        · rename_i hc2
          cases hq
          have hr2 : s4.read.1 ≠ none := by
            rw [hq3]
            rcases Bool.or_eq_true_iff.mp hc2 with h | h <;>
              · simp only [decide_eq_true_eq] at h
                rw [h]; simp
          exact ⟨_, k4.andThen (reads_read_rune s4 hr2), by rw [e1]; simp⟩
        · cases hq
          exact ⟨_, k4, by rw [e1]; simp⟩
      clear hq
      obtain ⟨w5, k5, e5⟩ := k5
      simp only []
      obtain ⟨w6, hw6, e6⟩ := scanDecimal_reads s5 b3
      rcases hd2 : s5.scanDecimal b3 with ⟨ok2, b4, s6⟩
      rw [hd2] at hw6 e6
      simp only at hw6 e6
      clear hd2
      simp only []
      cases ok2 with
      | false => exact ⟨_, k5.andThen hw6, Or.inl rfl⟩
      | true =>
        refine ⟨_, k5.andThen hw6, Or.inr ?_⟩
        simp only [Bool.not_true, Bool.false_eq_true, if_false]
        rw [e6 rfl, e5]
        simp
    · exact ⟨_, hw1.andThen hpk, Or.inr (by rw [e1]; simp)⟩


theorem scanOctalLoop_reads (n : Nat) : ∀ (s : Scanner) (b : List Char),
    Took s (scanOctalLoop n s b) (fun w tok => tok = Token.mk0 .Int ('0' :: (b ++ w))) := by
  induction n with
  | zero => intro s b; exact Or.inr ⟨[], Reads.self s, by simp [scanOctalLoop]⟩
  | succ n ih =>
    intro s b
    rw [scanOctalLoop_succ]
    cases hp : s.peek.1 with
    | none => exact Or.inr ⟨[], reads_peek s, by simp⟩
    | some c =>
      simp only
      split_ifs
      · exact Or.inl ⟨rfl, errorf_err_ne _ _⟩
      · rcases ih s.peek.2.read.2 (b ++ [runeChar s.peek.2.read.1]) with h | ⟨w, hw, e⟩
        · exact Or.inl h
        · exact Or.inr ⟨_, (reads_peek_read s (by rw [hp]; simp)).andThen hw, by rw [e]; simp⟩
      · exact Or.inr ⟨[], reads_peek s, by simp⟩

theorem scanRadixLoop_reads (digit : Char → Bool) (delim : Option Char) (n : Nat) :
    ∀ (s : Scanner) (b : List Char),
    ∃ w, Reads s (scanRadixLoop digit delim n s b).2 w ∧
      (scanRadixLoop digit delim n s b).1 = Token.mk0 .Int ('0' :: runeChar delim :: (b ++ w)) := by
  induction n with
  | zero => intro s b; exact ⟨[], Reads.self s, by simp [scanRadixLoop]⟩
  | succ n ih =>
    intro s b
    have hp2 := reads_peek s
    have hpr := reads_peek_read s
    unfold scanRadixLoop
    rcases hp : s.peek with ⟨r, s1⟩
    rw [hp] at hp2 hpr
    simp only at hp2 hpr
    clear hp
    cases r with
    | none => exact ⟨[], hp2, by simp⟩
    | some c =>
      simp only
      split_ifs
      · obtain ⟨w, hw, e⟩ := ih s1.read.2 (b ++ [runeChar s1.read.1])
        exact ⟨_, (hpr (by simp)).andThen hw, by rw [e]; simp⟩
      · exact ⟨[], hp2, by simp⟩

theorem Took.of_reads {s t : Scanner} {res : Token × Scanner} {P : List Char → Token → Prop}
    (h : Reads s t []) (h2 : Took t res P) : Took s res P := by
  rcases h2 with h2 | ⟨w, hw, e⟩
  · exact Or.inl h2
  · exact Or.inr ⟨w, by simpa using h.andThen hw, e⟩

theorem scanNumber_decimal_reads (t : Scanner) (r : Char) :
    Took t (if (!(t.scanDecimal [r]).1) = true then
          (Token.mk0 .Illegal (t.scanDecimal [r]).2.1, (t.scanDecimal [r]).2.2)
        else if (t.scanDecimal [r]).2.2.peek.1 = some '.' then
          (t.scanDecimal [r]).2.2.peek.2.read.2.scanFloat
            ((t.scanDecimal [r]).2.1 ++ [runeChar (t.scanDecimal [r]).2.2.peek.2.read.1])
        else if ((t.scanDecimal [r]).2.2.peek.1 = some 'e'
            || (t.scanDecimal [r]).2.2.peek.1 = some 'E') = true then
          (t.scanDecimal [r]).2.2.peek.2.scanFloat (t.scanDecimal [r]).2.1
        else (Token.mk0 .Int (t.scanDecimal [r]).2.1, (t.scanDecimal [r]).2.2.peek.2))
        (fun w tok => tok.typ = .Illegal ∨
          ((tok.typ = .Int ∨ tok.typ = .Float) ∧ tok.text = r :: w)) := by
  obtain ⟨w1, hw1, e1⟩ := scanDecimal_reads t [r]
  split_ifs with hok hdot he
  · exact Or.inr ⟨w1, hw1, Or.inl rfl⟩
  · have e1 := e1 (by simpa using hok)
    obtain ⟨w2, hw2, e2⟩ := scanFloat_reads (t.scanDecimal [r]).2.2.peek.2.read.2
      ((t.scanDecimal [r]).2.1 ++ [runeChar (t.scanDecimal [r]).2.2.peek.2.read.1])
    refine Or.inr ⟨_, (hw1.andThen (reads_peek_read _ (by rw [hdot]; simp))).andThen hw2, ?_⟩
    rcases e2 with e2 | e2
    · exact Or.inl e2
    · refine Or.inr ⟨Or.inr (by rw [e2]; rfl), ?_⟩
      rw [e2, e1]
      simp [Token.mk0]
  · have e1 := e1 (by simpa using hok)
    obtain ⟨w2, hw2, e2⟩ := scanFloat_reads (t.scanDecimal [r]).2.2.peek.2 (t.scanDecimal [r]).2.1
    refine Or.inr ⟨_, (hw1.andThen (reads_peek _)).andThen hw2, ?_⟩
    rcases e2 with e2 | e2
    · exact Or.inl e2
    · refine Or.inr ⟨Or.inr (by rw [e2]; rfl), ?_⟩
      rw [e2, e1]
      simp [Token.mk0]
  · have e1 := e1 (by simpa using hok)
    refine Or.inr ⟨_, hw1.andThen (reads_peek _), Or.inr ⟨Or.inl rfl, ?_⟩⟩
    simp [Token.mk0, e1]

theorem Reads.nil_trans {s t u : Scanner} {w : List Char} (h1 : Reads s t [])
    (h2 : Reads t u w) : Reads s u w := by
  have := h1.andThen h2
  rwa [List.nil_append] at this

theorem scanNumber_reads (s : Scanner) (r : Char) :
    Took s (s.scanNumber r) (fun w tok =>
      tok.typ = .Illegal ∨ ((tok.typ = .Int ∨ tok.typ = .Float) ∧ tok.text = r :: w)) := by
  simp only [Scanner.scanNumber]
  by_cases h0 : r = '0'
  · simp only [h0, if_true, decide_True, Bool.true_and]
    by_cases h1 : isDigit s.peek.1 = true
    · rw [if_pos h1]
      rcases scanOctalLoop_reads (s.peek.2.r.length + 1) s.peek.2 [] with h | ⟨w, hw, e⟩
      · exact Or.inl h
      · refine Or.inr ⟨w, (reads_peek s).nil_trans hw, Or.inr ⟨Or.inl ?_, ?_⟩⟩
        · simp only [Scanner.scanOctal]; rw [e]; rfl
        · simp only [Scanner.scanOctal]; rw [e]; simp [Token.mk0]
    · rw [if_neg h1]
      by_cases h2 : (decide (s.peek.1 = some 'x') || decide (s.peek.1 = some 'X')) = true
      · rw [if_pos h2]
        have hp : s.peek.1 ≠ none := by
          rcases Bool.or_eq_true_iff.mp h2 with h | h <;>
            · simp only [decide_eq_true_eq] at h
              rw [h]; simp
        obtain ⟨w, hw, e⟩ := scanRadixLoop_reads isHexDigit s.peek.2.read.1
          (s.peek.2.read.2.r.length + 1) s.peek.2.read.2 []
        refine Or.inr ⟨_, (reads_peek_read s hp).andThen hw, Or.inr ⟨Or.inl ?_, ?_⟩⟩
        · simp only [Scanner.scanHexa]; rw [e]; rfl
        · simp only [Scanner.scanHexa]; rw [e]; simp [Token.mk0]
      · rw [if_neg h2]
        by_cases h3 : (decide (s.peek.1 = some 'b') || decide (s.peek.1 = some 'B')) = true
        · rw [if_pos h3]
          have hp : s.peek.1 ≠ none := by
            rcases Bool.or_eq_true_iff.mp h3 with h | h <;>
              · simp only [decide_eq_true_eq] at h
                rw [h]; simp
          obtain ⟨w, hw, e⟩ := scanRadixLoop_reads (fun c => c == '0' || c == '1')
            s.peek.2.read.1 (s.peek.2.read.2.r.length + 1) s.peek.2.read.2 []
          refine Or.inr ⟨_, (reads_peek_read s hp).andThen hw, Or.inr ⟨Or.inl ?_, ?_⟩⟩
          · simp only [Scanner.scanBinary]; rw [e]; rfl
          · simp only [Scanner.scanBinary]; rw [e]; simp [Token.mk0]
        · rw [if_neg h3]
          exact Took.of_reads (reads_peek s) (scanNumber_decimal_reads s.peek.2 '0')
  · simp only [h0, if_false, decide_False, Bool.false_and, Bool.false_eq_true]
    exact scanNumber_decimal_reads s r

end token

namespace token

theorem Scanned.ofSym (r : Char) (s t : Scanner) (T : Typ) (v : List Char) (h : Reads s t v)
    (hT : T.str = r :: v) (hs : T.isSymbol = true) (hne : T ≠ .EOF) :
    Scanned r s (sym T, t) := by
  refine Or.inr ⟨hne, r :: v, [], ?_, by simp, by simp [h.2], queueOK_nil, fun _ => ?_,
    fun _ => ⟨rfl, rfl⟩⟩
  · simp [queueText, h.1]
  · simp [shownText, token.sym, Token.mk0, hs, hT]

theorem Scanned.plain (r : Char) (s : Scanner) (res : Token × Scanner) (w : List Char)
    (hp : r :: s.pend = w ++ res.2.pend) (hq : res.2.queue = s.queue) (hw : w ≠ [])
    (hne : res.1.typ ≠ .EOF) (ht : res.1.typ ≠ .Illegal → res.1.text = w)
    (hr : inAssignRange res.1.typ = false) : Scanned r s res := by
  refine Or.inr ⟨hne, w, [], by simpa [queueText] using hp, hw, by simp [hq], queueOK_nil,
    fun hi => ?_, fun h => ?_⟩
  · have := ht hi
    cases hx : res.1.text with
    | nil => rw [hx] at this; exact absurd this.symm hw
    | cons a l => simp [shownText, hx, ← this]
  · rw [hr] at h
    cases h

theorem Scanned.took (r : Char) (s t : Scanner) (res : Token × Scanner) (v : List Char)
    (h : Reads s t v)
    (hk : Took t res (fun w tok => tok.typ = .Illegal ∨
      (tok.typ ≠ .EOF ∧ inAssignRange tok.typ = false ∧ tok.text = r :: (v ++ w)))) :
    Scanned r s res := by
  rcases hk with h1 | ⟨w, hw, e⟩
  · exact Or.inl h1
  · have hp : r :: s.pend = r :: (v ++ w) ++ res.2.pend := by
      rw [(h.andThen hw).1]; simp
    rcases e with e | ⟨e1, e2, e3⟩
    · exact Scanned.plain r s res _ hp (hw.2.trans h.2) (by simp)
        (by rw [e]; decide) (fun hi => absurd e hi) (by rw [e]; rfl)
    · exact Scanned.plain r s res _ hp (hw.2.trans h.2) (by simp) e1 (fun _ => e3) e2

theorem R0 (s : Scanner) : Reads s s [] := Reads.self s
theorem R1 (s : Scanner) : Reads s s.peek.2 [] := reads_peek s
theorem R2 (s : Scanner) (c : Char) (h : s.peek.1 = some c) : Reads s s.peek.2.read.2 [c] :=
  (reads_read_of_peek s c h).1
theorem R3 (s : Scanner) (c : Char) (h : s.peek.1 = some c) :
    Reads s s.peek.2.read.2.peek.2 [c] := by
  simpa using (R2 s c h).andThen (reads_peek _)
theorem R4 (s : Scanner) (c d : Char) (h : s.peek.1 = some c)
    (h2 : s.peek.2.read.2.peek.1 = some d) : Reads s s.peek.2.read.2.peek.2.read.2 [c, d] := by
  simpa using (R2 s c h).andThen (R2 _ d h2)

theorem reads_read_char (s : Scanner) (c : Char) (h : s.read.1 = some c) :
    Reads s s.read.2 [c] := by
  have := reads_read s
  rwa [h] at this

theorem scanned_lineComment (s : Scanner) (h : s.read.1 = some '/') :
    Scanned '/' s (s.read.2.scanLineComment "//".toList) := by
  obtain ⟨w, q, e1, e2, e3, e4⟩ :=
    scanLineCommentLoop_reads "//".toList (s.read.2.r.length + 1) s.read.2 []
  have hr := reads_read_char s '/' h
  refine Or.inr ⟨by simp only [Scanner.scanLineComment]; rw [e4]; simp [Token.mk0],
    '/' :: '/' :: w, q, ?_,
    by simp, ?_, e3, fun _ => ?_, fun hx => ?_⟩
  · simp only [Scanner.scanLineComment]
    rw [hr.1, e1]; simp
  · simp only [Scanner.scanLineComment]
    rw [e2, hr.2]
  · simp only [Scanner.scanLineComment]
    rw [e4]; simp [shownText, Token.mk0]
  · simp only [Scanner.scanLineComment] at hx
    rw [e4] at hx
    exact absurd hx (by simp [Token.mk0, inAssignRange]; decide)

theorem scanned_blockComment (s : Scanner) (h : s.read.1 = some '*') :
    Scanned '/' s s.read.2.scanBlockComment := by
  refine Scanned.took '/' s s.read.2 _ ['*'] (reads_read_char s '*' h) ?_
  rcases scanBlockCommentLoop_reads (s.read.2.r.length + 1) s.read.2 [] with h1 | ⟨w, hw, e1, e2⟩
  · exact Or.inl h1
  · refine Or.inr ⟨w, hw, Or.inr ⟨?_, ?_, ?_⟩⟩
    · rcases e2 with e2 | e2 <;> · simp only [Scanner.scanBlockComment]; rw [e2]; decide
    · rcases e2 with e2 | e2 <;> · simp only [Scanner.scanBlockComment]; rw [e2]; rfl
    · simp only [Scanner.scanBlockComment]; rw [e1]; simp

theorem scanned_quo (s : Scanner) : Scanned '/' s (sym .Quo, s.read.2.unread) :=
  Scanned.ofSym _ _ _ _ [] (reads_peek s) rfl rfl (by decide)

theorem scanned_hash (s : Scanner) : Scanned '#' s (s.scanLineComment "#".toList) := by
  · obtain ⟨w, q, e1, e2, e3, e4⟩ := scanLineCommentLoop_reads "#".toList (s.r.length + 1) s []
    refine Or.inr ⟨by simp only [Scanner.scanLineComment]; rw [e4]; simp [Token.mk0],
      '#' :: w, q, ?_,
      by simp, ?_, e3, fun _ => ?_, fun hx => ?_⟩
    · simp only [Scanner.scanLineComment]
      rw [e1]; simp
    · simp only [Scanner.scanLineComment]
      rw [e2]
    · simp only [Scanner.scanLineComment]
      rw [e4]; simp [shownText, Token.mk0]
    · simp only [Scanner.scanLineComment] at hx
      rw [e4] at hx
      exact absurd hx (by simp [Token.mk0, inAssignRange]; decide)

theorem scanned_var (s : Scanner) :
    Scanned '$' s (Token.mk0 .Var ('$' :: s.scanIdent.1), s.scanIdent.2) := by
  obtain ⟨w, hw, e⟩ := scanIdent_reads s
  exact Scanned.plain '$' s (Token.mk0 .Var ('$' :: s.scanIdent.1), s.scanIdent.2) ('$' :: w)
    (by rw [hw.1]; simp) hw.2 (by simp) (by simp [Token.mk0])
    (fun _ => by simp [Token.mk0, e]) rfl

theorem scanned_dollar (s : Scanner) (h : ¬ (!s.scanIdent.1.isEmpty) = true) :
    Scanned '$' s (sym .Dollar, s.scanIdent.2) := by
  obtain ⟨w, hw, e⟩ := scanIdent_reads s
  have hw0 : w = [] := by
    rw [e] at h
    simpa using h
  subst hw0
  exact Scanned.ofSym _ _ _ _ [] hw rfl rfl (by decide)

theorem scanned_qmark_sub (s : Scanner) (h : s.peek.1 = some '-') (pos : Pos) :
    Scanned '?' s (sym .Qmark,
      { s.peek.2.read.2.peek.2 with
        queue := s.peek.2.read.2.peek.2.queue ++ [⟨.Sub, Typ.Sub.str, pos⟩] }) := by
  have hr := R3 s '-' h
  refine Or.inr ⟨by simp [token.sym, Token.mk0], ['?'], [⟨.Sub, Typ.Sub.str, pos⟩], ?_, by simp,
    ?_, ?_, fun _ => rfl, fun hx => absurd hx (by simp [token.sym, Token.mk0, inAssignRange]; decide)⟩
  · rw [hr.1]
    simp [queueText, Scanner.pend]
    rfl
  · simp [hr.2]
  · intro t ht
    simp only [List.mem_singleton] at ht
    subst ht
    exact ⟨by simp; decide, by simp⟩

theorem scanned_heredoc (s : Scanner) (h1 : s.peek.1 = some '<')
    (h2 : s.peek.2.read.2.peek.1 = some '<') :
    Scanned '<' s s.peek.2.read.2.peek.2.read.2.scanHereDoc := by
  refine Scanned.took '<' s _ _ ['<', '<'] (R4 s '<' '<' h1 h2) ?_
  rcases scanHereDoc_reads s.peek.2.read.2.peek.2.read.2 with h | ⟨w, hw, e⟩
  · exact Or.inl h
  · exact Or.inr ⟨w, hw, Or.inr ⟨by rw [e]; simp [Token.mk0], by rw [e]; rfl, by rw [e]; rfl⟩⟩

theorem scanned_neq (s : Scanner) (h : s.peek.1 = some '>') :
    Scanned '<' s (Token.mk0 .Neq "<>".toList, s.peek.2.read.2) :=
  Scanned.plain '<' s (Token.mk0 .Neq "<>".toList, s.peek.2.read.2) ['<', '>']
    (by rw [(R2 s '>' h).1]; rfl) (R2 s '>' h).2 (by simp) (by simp [Token.mk0]) (fun _ => rfl) rfl

theorem scanned_dotdot (s : Scanner) (h : s.peek.1 = some '.') :
    Scanned '.' s (Token.mk0 .Illegal "..".toList, s.peek.2.read.2.peek.2) :=
  Scanned.plain '.' s (Token.mk0 .Illegal "..".toList, s.peek.2.read.2.peek.2) ['.', '.']
    (by rw [(R3 s '.' h).1]; rfl) (R3 s '.' h).2 (by simp) (by simp [Token.mk0]) (fun _ => rfl) rfl

theorem scanned_ellipsis (s : Scanner) (h1 : s.peek.1 = some '.')
    (h2 : ¬ s.peek.2.read.2.peek.1 ≠ some '.') :
    Scanned '.' s (sym .Ellipsis, s.peek.2.read.2.peek.2.read.2) :=
  Scanned.ofSym _ _ _ _ ['.', '.'] (R4 s '.' '.' h1 (not_not.mp h2)) rfl rfl (by decide)

theorem scanned_float (s : Scanner) : Scanned '.' s (s.peek.2.scanFloat ['.']) := by
  refine Scanned.took '.' s s.peek.2 _ [] (R1 s) ?_
  obtain ⟨w, hw, e⟩ := scanFloat_reads s.peek.2 ['.']
  refine Or.inr ⟨w, hw, ?_⟩
  rcases e with e | e
  · exact Or.inl e
  · exact Or.inr ⟨by rw [e]; simp [Token.mk0], by rw [e]; rfl, by rw [e]; rfl⟩

theorem scanned_ws (s : Scanner) (r : Char) (hl : s.lastRune = some r) (hd : s.done = false)
    (h : isSpaceRune r = true) : Scanned r s s.unread.scanWhitespace := by
  have hu := reads_unread s r hl hd
  obtain ⟨w, hw, e, hne⟩ := scanWhitespace_reads s.unread
  have hp : r :: s.pend = w ++ s.unread.scanWhitespace.2.pend := by
    rw [← hw.1, hu.1]; rfl
  exact Scanned.plain r s _ w hp (hw.2.trans hu.2.symm)
    (hne r s.pend (by rw [hu.1]; rfl) h) (by rw [e]; simp [Token.mk0]) (fun _ => by rw [e]; rfl)
    (by rw [e]; rfl)

theorem scanned_quoted (s : Scanner) (q : Char) (n : Nat) :
    Scanned q s (scanQuotedLoop q n s []) := by
  refine Scanned.took q s s _ [] (R0 s) ?_
  rcases scanQuotedLoop_reads q n s [] with h | ⟨w, hw, e⟩
  · exact Or.inl h
  · exact Or.inr ⟨w, hw, Or.inr ⟨by rw [e]; simp [Token.mk0], by rw [e]; rfl, by rw [e]; rfl⟩⟩

theorem scanned_number (s : Scanner) (r : Char) : Scanned r s (s.scanNumber r) := by
  refine Scanned.took r s s _ [] (R0 s) ?_
  rcases scanNumber_reads s r with h | ⟨w, hw, e⟩
  · exact Or.inl h
  · refine Or.inr ⟨w, hw, ?_⟩
    rcases e with e | ⟨e1, e2⟩
    · exact Or.inl e
    · refine Or.inr ⟨?_, ?_, e2⟩
      · rcases e1 with e1 | e1 <;> · rw [e1]; decide
      · rcases e1 with e1 | e1 <;> · rw [e1]; rfl

theorem keywords_plain (k : List Char) (t : Typ) (h : keywords k = some t) :
    t ≠ .EOF ∧ t ≠ .Illegal ∧ inAssignRange t = false := by
  have hm : t ∈ keywordList := List.mem_of_find?_eq_some h
  have hall : ∀ x ∈ keywordList, x ≠ Typ.EOF ∧ x ≠ Typ.Illegal ∧ inAssignRange x = false := by
    decide
  exact hall t hm

theorem scanned_illegal_rune (s : Scanner) (r : Char) (hl : s.lastRune = some r)
    (hd : s.done = false) (h : ¬ (!s.unread.scanIdent.1.isEmpty) = true) :
    Scanned r s (Token.mk0 .Illegal [r], s.unread.scanIdent.2.read.2) := by
  have hu := reads_unread s r hl hd
  obtain ⟨w, hw, e⟩ := scanIdent_reads s.unread
  have hw0 : w = [] := by
    rw [e] at h
    simpa using h
  subst hw0
  have hp : s.unread.scanIdent.2.pend = r :: s.pend := by
    have h1 := hu.1
    have h2 := hw.1
    rw [h1] at h2
    simpa using h2.symm
  have hrd : s.unread.scanIdent.2.read.1 = some r := by
    rw [read_fst_pend, hp]; rfl
  have hr := reads_read_char _ r hrd
  have hp2 : s.unread.scanIdent.2.read.2.pend = s.pend := by
    have := hr.1
    rw [hp] at this
    simpa using this.symm
  exact Scanned.plain r s (Token.mk0 .Illegal [r], s.unread.scanIdent.2.read.2) [r]
    (by rw [hp2]; rfl) ((hr.2.trans hw.2).trans hu.2.symm) (by simp) (by simp [Token.mk0])
    (fun _ => rfl) rfl


theorem scanned_word (s : Scanner) (r : Char) (hl : s.lastRune = some r) (hd : s.done = false)
    (h : (!s.unread.scanIdent.1.isEmpty) = true) (pos : Pos) :
    Scanned r s
      (match keywords (toLower s.unread.scanIdent.1) with
      | some t => (Token.mk0 t s.unread.scanIdent.1, s.unread.scanIdent.2)
      | none =>
        if toLower s.unread.scanIdent.1 = "elseif".toList then
          (Token.mk0 .Else (s.unread.scanIdent.1.take 4),
            { s.unread.scanIdent.2 with
              queue := s.unread.scanIdent.2.queue ++ [⟨.If, s.unread.scanIdent.1.drop 4, pos⟩] })
        else (Token.mk0 .Ident s.unread.scanIdent.1, s.unread.scanIdent.2)) := by
  have hu := reads_unread s r hl hd
  obtain ⟨w, hw, e⟩ := scanIdent_reads s.unread
  have hp : r :: s.pend = w ++ s.unread.scanIdent.2.pend := by
    have h1 := hu.1
    have h2 := hw.1
    rw [h1] at h2
    simpa using h2
  have hq : s.unread.scanIdent.2.queue = s.queue := hw.2.trans hu.2.symm
  have hne : w ≠ [] := by
    rw [e] at h
    simpa using h
  rw [e]
  cases hk : keywords (toLower w) with
  | some t =>
    obtain ⟨k1, k2, k3⟩ := keywords_plain _ _ hk
    exact Scanned.plain r s (Token.mk0 t w, s.unread.scanIdent.2) w hp hq hne k1 (fun _ => rfl) k3
  | none =>
    simp only
    split_ifs with hei
    · have hlen : w.length = 6 := by
        have := congrArg List.length hei
        simpa [toLower] using this
      refine Or.inr ⟨by simp [Token.mk0], w.take 4, [⟨.If, w.drop 4, pos⟩], ?_, ?_, ?_, ?_,
        fun _ => ?_, fun hx => absurd hx (by simp [Token.mk0, inAssignRange]; decide)⟩
      · rw [hp]
        simp [queueText, Scanner.pend]
      · intro h0
        have := congrArg List.length h0
        simp [hlen] at this
      · simp [hq]
      · intro t ht
        simp only [List.mem_singleton] at ht
        subst ht
        refine ⟨fun h0 => ?_, by simp⟩
        have := congrArg List.length h0
        simp [hlen] at this
      · have h4 : w.take 4 ≠ [] := by
          intro h0
          have := congrArg List.length h0
          simp [hlen] at this
        cases hx : w.take 4 with
        | nil => exact absurd hx h4
        | cons a l => simp [shownText, Token.mk0, hx]
    · exact Scanned.plain r s (Token.mk0 .Ident w, s.unread.scanIdent.2) w hp hq hne
        (by simp [Token.mk0]) (fun _ => rfl) rfl

theorem scanned_scanAnyRune (s : Scanner) (r : Char) (hl : s.lastRune = some r)
    (hd : s.done = false) : Scanned r s (s.scanAnyRune r) := by
  unfold Scanner.scanAnyRune
  rcases hp : s.peek with ⟨r2, sp⟩
  have hr2 : r2 = s.peek.1 := by rw [hp]
  have hsp : sp = s.peek.2 := by rw [hp]
  clear hp
  subst hr2 hsp
  dsimp only
  repeat' with_reducible refine ite_cases (Scanned r s) _ _ _ (fun _ => ?_) (fun _ => ?_)
  all_goals try subst_vars
  all_goals first
    | (apply Scanned.ofSym
       case h =>
         with_reducible first
           | exact R0 s
           | exact R1 s
           | (apply R2; assumption)
           | (apply R3; assumption)
           | (apply R4 <;> assumption)
       case hT => rfl
       case hs => rfl
       case hne => decide)
    | (apply scanned_lineComment; assumption)
    | (apply scanned_blockComment; assumption)
    | exact scanned_quo s
    | exact scanned_hash s
    | exact scanned_var s
    | (apply scanned_dollar; assumption)
    | (apply scanned_qmark_sub; assumption)
    | (apply scanned_heredoc <;> assumption)
    | (apply scanned_neq; assumption)
    | (apply scanned_dotdot; assumption)
    | (apply scanned_ellipsis <;> assumption)
    | exact scanned_float s
    | (apply scanned_ws <;> assumption)
    | exact scanned_quoted s _ _
    | exact scanned_number s _
    | (apply scanned_word <;> assumption)
    | (apply scanned_illegal_rune <;> assumption)

end token

namespace token

theorem assignForm_str (t : Typ) (h : inAssignRange t = true) :
    t.isSymbol = true ∧ (assignForm t).isSymbol = true ∧ (assignForm t).str = t.str ++ ['='] ∧
    assignForm t ≠ .EOF ∧ t ≠ .Illegal ∧ assignForm t ≠ .Illegal := by
  revert h
  cases t <;> first | (intro h; exact absurd h (by decide)) | (intro _; decide)


theorem rest_of_queue_nil (s : Scanner) (h : s.queue = []) : s.rest = s.pend := by
  simp [Scanner.rest, h, queueText]

theorem err_peek_read (s : Scanner) : s.peek.2.read.2.err = s.err := by simp

theorem Stepped.intro (cond : Prop) (text : Token → List Char) (s : Scanner) (tok : Token)
    (t : Scanner) (w : List Char) (hne : tok.typ ≠ .EOF) (hrest : s.rest = w ++ t.rest)
    (hw : w ≠ []) (hq : queueOK t.queue) (ht : tok.typ ≠ .Illegal → cond → text tok = w) :
    Stepped cond text s (tok, t) := by
  refine Or.inr ⟨hne, ?_, hq, fun h1 h2 => ?_⟩
  · have := congrArg List.length hrest
    simp only [List.length_append] at this
    have hw1 : 0 < w.length := List.length_pos.mpr hw
    show t.rest.length < s.rest.length
    omega
  · show s.rest = text tok ++ t.rest
    rw [ht h1 h2, hrest]

theorem rest_eq (s : Scanner) (q : List Token) (h : s.queue = q) :
    s.rest = queueText q ++ s.pend := by
  rw [Scanner.rest, h]

theorem scanAny_tail (s : Scanner) (tok : Token) (s2 : Scanner)
    (h : (tok.typ = .EOF ∧ (s2.err = none → s.rest = [] ∧ shownText tok = [])) ∨
      (tok.typ ≠ .EOF ∧ ∃ w q, s.rest = w ++ queueText q ++ s2.pend ∧ w ≠ [] ∧ s2.queue = q ∧
        queueOK q ∧ (tok.typ ≠ .Illegal → shownText tok = w) ∧
        (inAssignRange tok.typ = true → tok.text = [] ∧ q = []))) :
    Stepped True shownText s
      (if inAssignRange tok.typ = true then
        (if s2.peek.1 = some '=' then
          (({ tok with typ := assignForm tok.typ } : Token), s2.peek.2.read.2)
        else (tok, s2.peek.2))
      else (tok, s2)) := by
  rcases h with ⟨h1, h2⟩ | ⟨h1, w, q, e1, e2, e3, e4, e5, e6⟩
  · have hr : ¬ inAssignRange tok.typ = true := by rw [h1]; decide
    rw [if_neg hr]
    exact Or.inl ⟨h1, h2⟩
  · by_cases hr : inAssignRange tok.typ = true
    · rw [if_pos hr]
      obtain ⟨ht, hq⟩ := e6 hr
      subst hq
      obtain ⟨a1, a2, a3, a4, a5, a6⟩ := assignForm_str tok.typ hr
      have hw : shownText tok = w := e5 a5
      have hsh : shownText tok = tok.typ.str := by
        simp only [shownText, ht, List.isEmpty_nil, a1, Bool.and_self, if_true]
      have e1 : s.rest = w ++ s2.pend := by simpa [queueText] using e1
      by_cases hp : s2.peek.1 = some '='
      · rw [if_pos hp]
        have hrd := (reads_read_of_peek s2 '=' hp).1
        refine Stepped.intro _ _ s _ _ (w ++ ['=']) a4 ?_ (by simp) ?_ (fun _ _ => ?_)
        · rw [rest_eq _ [] (hrd.2.trans e3), e1, hrd.1]
          simp [queueText]
        · rw [hrd.2, e3]; exact queueOK_nil
        · simp only [shownText, ht, List.isEmpty_nil, a2, Bool.and_self, if_true, a3]
          rw [← hsh, hw]
      · rw [if_neg hp]
        have hpk := reads_peek s2
        refine Stepped.intro _ _ s _ _ w h1 ?_ e2 ?_ (fun hi _ => e5 hi)
        · rw [rest_eq _ [] (hpk.2.trans e3), e1, peek_pend]
          simp [queueText]
        · rw [hpk.2, e3]; exact queueOK_nil
    · rw [if_neg hr]
      refine Stepped.intro _ _ s _ _ w h1 ?_ e2 ?_ (fun hi _ => e5 hi)
      · rw [rest_eq _ q e3, e1, List.append_assoc]
      · rw [e3]; exact e4

theorem scanAny_stepped (s : Scanner) (hq : s.queue = []) : Stepped True shownText s s.scanAny := by
  have hc := read_cases s
  unfold Scanner.scanAny
  rcases hrd : s.read with ⟨r, s1⟩
  rw [hrd] at hc
  simp only at hc
  rcases hc with ⟨h1, h2, h3, h4, h5⟩ | ⟨c, h1, h2, h3, h4, h5, h6, h7⟩
  · subst h1
    refine scanAny_tail s (sym .EOF) s1 (Or.inl ⟨rfl, fun _ => ⟨?_, rfl⟩⟩)
    rw [rest_of_queue_nil s hq, h2]
  · subst h1
    refine scanAny_tail s (s1.scanAnyRune c).1 (s1.scanAnyRune c).2 ?_
    rcases scanned_scanAnyRune s1 c h6 h7 with ⟨a, b⟩ | ⟨a, w, q, e1, e2, e3, e4, e5, e6⟩
    · exact Or.inl ⟨a, fun h => absurd h b⟩
    · refine Or.inr ⟨a, w, q, ?_, e2, ?_, e4, e5, e6⟩
      · rw [rest_of_queue_nil s hq, h2, e1]
      · rw [e3, h3, hq]; rfl


theorem held_len (i : Nat) (canEnd : Bool) (b : List Char) :
    (b ++ openTag.take (if canEnd = true then openTag.length else i)).length
      ≤ (htmlHeld i canEnd b).length := by
  cases canEnd <;> simp [htmlHeld, openTag]

theorem held_eq (i : Nat) (canEnd : Bool) (b : List Char) (h : canEnd = true → i = 0) :
    htmlHeld i canEnd b = b ++ openTag.take (if canEnd = true then openTag.length else i) := by
  cases canEnd
  · simp [htmlHeld]
  · simp [htmlHeld, h rfl, openTag]

theorem tagLt_of (P0 b rest : List Char) (h : P0 = (b ++ openTag ++ ['<']) ++ rest) :
    TagLt P0 := by
  refine ⟨b, rest, ?_⟩
  rw [h]
  simp [openTag]

theorem held_nil (i : Nat) (canEnd : Bool) (b : List Char)
    (h : b ++ openTag.take (if canEnd = true then openTag.length else i) = []) :
    htmlHeld i canEnd b = [] := by
  cases canEnd
  · simpa [htmlHeld] using h
  · simp [openTag] at h

theorem scanInlineHTMLLoop_stepped (P0 : List Char) (n : Nat) :
    ∀ (s : Scanner) (i : Nat) (canEnd : Bool) (b c : List Char),
      s.queue = [] → s.pend.length < n → P0 = c ++ s.pend → i < 5 →
      (htmlHeld i canEnd b).length ≤ c.length → (htmlHeld i canEnd b = [] → c = []) →
      (TagLt P0 ∨ (c = htmlHeld i canEnd b ∧ (canEnd = true → i = 0))) →
      ((scanInlineHTMLLoop n s i canEnd b).1.typ = .EOF ∧ P0 = [] ∧
        (scanInlineHTMLLoop n s i canEnd b).1.text = []) ∨
      ((scanInlineHTMLLoop n s i canEnd b).1.typ ≠ .EOF ∧
        (scanInlineHTMLLoop n s i canEnd b).1.typ ≠ .Illegal ∧
        (scanInlineHTMLLoop n s i canEnd b).2.rest.length < P0.length ∧
        queueOK (scanInlineHTMLLoop n s i canEnd b).2.queue ∧
        (¬ TagLt P0 → P0 = (scanInlineHTMLLoop n s i canEnd b).1.text
          ++ (scanInlineHTMLLoop n s i canEnd b).2.rest)) := by
  induction n with
  | zero => intro s i canEnd b c _ hn; omega
  | succ n ih =>
    intro s i canEnd b c hq hn hP hi hlen hnil hinv
    have hc := read_cases s
    unfold scanInlineHTMLLoop
    rcases hrd : s.read with ⟨r, s1⟩
    rw [hrd] at hc
    simp only at hc
    have hb1 := held_len i canEnd b
    rcases hc with ⟨h1, h2, h3, h4, h5⟩ | ⟨x, h1, h2, h3, h4, h5, _⟩
    · subst h1
      simp only [Option.isSome_none, Bool.false_and, Bool.false_eq_true, if_false, Bool.and_false]
      have hP0 : P0 = c := by rw [hP, h2]; simp
      by_cases he : (b ++ openTag.take (if canEnd = true then openTag.length else i)).isEmpty
          = true
      · rw [if_pos he]
        refine Or.inl ⟨rfl, ?_, rfl⟩
        rw [hP0]
        exact hnil (held_nil i canEnd b (List.isEmpty_iff.mp he))
      · rw [if_neg he]
        refine Or.inr ⟨by simp [Token.mk0], by simp [Token.mk0], ?_, ?_, fun ht => ?_⟩
        · have hne : 0 < (b ++ openTag.take (if canEnd = true then openTag.length else i)).length := by
            apply List.length_pos.mpr
            exact fun h0 => he (List.isEmpty_iff.mpr h0)
          rw [h5, rest_eq s1 [] (h4.trans hq), h3, hP0]
          simp only [queueText, List.map_nil, List.flatten_nil, List.append_nil, List.length_nil]
          omega
        · rw [h5, h4, hq]; exact queueOK_nil
        · rcases hinv with hinv | ⟨e1, e2⟩
          · exact absurd hinv ht
          · rw [h5, rest_eq s1 [] (h4.trans hq), h3, hP0, e1, held_eq i canEnd b e2]
            simp [queueText, Token.mk0]
    · subst h1
      have hP1 : P0 = (c ++ [x]) ++ s1.pend := by rw [hP, h2]; simp
      have hn1 : s1.pend.length < n := by
        rw [h2] at hn
        simp only [List.length_cons] at hn
        omega
      have hq1 : s1.queue = [] := h3.trans hq
      by_cases hm : openTag.get? i = some x
      · have hcond : (Option.isSome (some x) && decide (some x = openTag.get? i)) = true := by
          rw [hm]; simp
        dsimp only
        rw [if_pos hcond]
        have htake : openTag.take (i + 1) = openTag.take i ++ [x] := by
          rw [List.take_succ]
          simp only [List.get?_eq_getElem?] at hm
          rw [hm]; rfl
        by_cases h5' : i + 1 = openTag.length
        · rw [if_pos h5']
          have hi4 : i = 4 := by
            have : openTag.length = 5 := rfl
            omega
          refine ih s1 0 true b (c ++ [x]) hq1 hn1 hP1 (by omega) ?_ ?_ ?_
          · have : (htmlHeld i canEnd b).length ≥ b.length + 4 := by
              cases canEnd <;> simp [htmlHeld, openTag, hi4]
            simp [htmlHeld, openTag]
            omega
          · intro h0
            simp [htmlHeld, openTag] at h0
          · rcases hinv with hinv | ⟨e1, e2⟩
            · exact Or.inl hinv
            · refine Or.inr ⟨?_, fun _ => rfl⟩
              have hce : canEnd = false := by
                cases canEnd
                · rfl
                · have := e2 rfl
                  omega
              subst hce
              rw [e1]
              have h5t : openTag.take (4 + 1) = openTag := rfl
              rw [hi4] at htake
              simp only [htmlHeld, Bool.false_eq_true, if_false, List.append_nil, hi4, if_true,
                List.take_zero]
              rw [List.append_assoc, ← htake, h5t]
        · rw [if_neg h5']
          have hi5 : i + 1 < 5 := by
            have : openTag.length = 5 := rfl
            omega
          refine ih s1 (i + 1) canEnd b (c ++ [x]) hq1 hn1 hP1 hi5 ?_ ?_ ?_
          · have : (htmlHeld (i + 1) canEnd b).length = (htmlHeld i canEnd b).length + 1 := by
              simp only [htmlHeld, htake, List.length_append, List.length_cons, List.length_nil]
              omega
            simp only [List.length_append, List.length_cons, List.length_nil]
            omega
          · intro h0
            simp [htmlHeld, htake] at h0
          · rcases hinv with hinv | ⟨e1, e2⟩
            · exact Or.inl hinv
            · cases hce : canEnd
              · refine Or.inr ⟨?_, fun h => by cases h⟩
                rw [e1, hce]
                simp [htmlHeld, htake]
              · have hi0 := e2 hce
                subst hi0
                have hx : x = '<' := by
                  have : openTag.get? 0 = some '<' := rfl
                  rw [this] at hm
                  injection hm with hm
                  exact hm.symm
                refine Or.inl (tagLt_of P0 b s1.pend ?_)
                rw [hP1, e1, hce, hx]
                simp [htmlHeld]
      · have hcond : ¬ (Option.isSome (some x) && decide (some x = openTag.get? i)) = true := by
          simp only [Option.isSome_some, Bool.true_and, decide_eq_true_eq]
          exact fun h => hm h.symm
        dsimp only
        rw [if_neg hcond]
        by_cases hsp : (canEnd && isSpaceRune x) = true
        · rw [if_pos (by simpa using hsp)]
          simp only [Bool.and_eq_true] at hsp
          have hce := hsp.1
          subst hce
          have hlen5 : b.length + 5 ≤ c.length := by
            have : (htmlHeld i true b).length ≥ b.length + 5 := by
              simp [htmlHeld, openTag]
            omega
          have hPl : P0.length = c.length + s.pend.length := by
            rw [hP]; simp
          by_cases hbe : b.isEmpty = true
          · have hb0 : b = [] := by simpa using hbe
            simp only [hbe, Bool.not_true, Bool.false_eq_true, if_false]
            refine Or.inr ⟨by simp [Token.mk0], by simp [Token.mk0], ?_, ?_, fun ht => ?_⟩
            · rw [rest_eq _ [] (h5.trans hq), h4]
              simp only [queueText, List.map_nil, List.flatten_nil, List.nil_append]
              omega
            · rw [h5, hq]; exact queueOK_nil
            · rcases hinv with hinv | ⟨e1, e2⟩
              · exact absurd hinv ht
              · rw [rest_eq _ [] (h5.trans hq), h4, hP, e1, e2 rfl, hb0]
                simp [htmlHeld, queueText, Token.mk0]
          · simp only [hbe, Bool.not_false, if_true]
            refine Or.inr ⟨by simp [Token.mk0], by simp [Token.mk0], ?_, ?_, fun ht => ?_⟩
            · have hb1 : 0 < b.length := by
                apply List.length_pos.mpr
                simpa using hbe
              simp only [Scanner.rest, Scanner.pend, h5, hq, List.nil_append, queueText,
                List.map_cons, List.map_nil, List.flatten_cons, List.flatten_nil, List.append_nil,
                Token.mk0, List.length_append]
              have hp2 : (if s1.unread.done = true then [] else s1.unread.r) = s.pend := h4
              rw [hp2]
              have : openTag.length = 5 := rfl
              omega
            · show queueOK (s1.unread.queue ++ [_])
              rw [h5, hq]
              intro t ht
              simp only [List.nil_append, List.mem_singleton] at ht
              subst ht
              exact ⟨by simp [Token.mk0, openTag], by simp [Token.mk0]⟩
            · rcases hinv with hinv | ⟨e1, e2⟩
              · exact absurd hinv ht
              · simp only [Scanner.rest, Scanner.pend, h5, hq, List.nil_append, queueText,
                  List.map_cons, List.map_nil, List.flatten_cons, List.flatten_nil,
                  List.append_nil, Token.mk0]
                have hp2 : (if s1.unread.done = true then [] else s1.unread.r) = s.pend := h4
                rw [hp2, hP, e1, e2 rfl]
                simp [htmlHeld]
        · rw [if_neg (by simpa using hsp)]
          refine ih s1 0 false
            (b ++ openTag.take (if canEnd = true then openTag.length else i) ++ [x]) (c ++ [x])
            hq1 hn1 hP1 (by omega) ?_ ?_ ?_
          · simp only [htmlHeld, Bool.false_eq_true, if_false, List.append_nil, List.take_zero,
              List.length_append, List.length_cons, List.length_nil]
            simp only [List.length_append] at hb1
            omega
          · intro h0
            simp [htmlHeld] at h0
          · rcases hinv with hinv | ⟨e1, e2⟩
            · exact Or.inl hinv
            · refine Or.inr ⟨?_, fun h => by cases h⟩
              rw [e1, held_eq i canEnd b e2]
              simp [htmlHeld]

end token

namespace token

theorem Stepped.state (cond : Prop) (text : Token → List Char) (s : Scanner) (tok : Token)
    (s1 : Scanner) (h : Stepped cond text s (tok, s1)) :
    Stepped cond text s
      (tok,
       match tok.typ with
       | .OpenTag => { s1 with state := inPHP }
       | .CloseTag => { s1 with state := inHTML }
       | _ => s1) := by
  have key : ∀ st, Stepped cond text s (tok, { s1 with state := st }) := fun _ => h
  split
  · exact key _
  · exact key _
  · exact h

theorem Stepped.conv (cond cond2 : Prop) (text text2 : Token → List Char) (s : Scanner)
    (res : Token × Scanner) (tok : Token) (htyp : tok.typ = res.1.typ)
    (htext : text2 tok = text res.1) (hc : cond2 → cond) (h : Stepped cond text s res) :
    Stepped cond2 text2 s (tok, res.2) := by
  rcases h with ⟨h1, h2⟩ | ⟨h1, h2, h3, h4⟩
  · exact Or.inl ⟨htyp.trans h1, fun he => ⟨(h2 he).1, htext.trans (h2 he).2⟩⟩
  · refine Or.inr ⟨fun h => h1 (htyp.symm.trans h), h2, h3, fun hi hc2 => ?_⟩
    show s.rest = text2 tok ++ res.2.rest
    rw [htext]
    exact h4 (fun h => hi (htyp.trans h)) (hc hc2)

theorem pend_le (s : Scanner) : s.pend.length ≤ s.r.length := by
  unfold Scanner.pend
  split_ifs <;> simp

theorem scanInlineHTML_stepped (s : Scanner) (hq : s.queue = []) :
    Stepped (¬ TagLt s.rest) (fun t => t.text) s s.scanInlineHTML := by
  have h := scanInlineHTMLLoop_stepped s.pend (s.r.length + 1) s 0 false [] [] hq
    (Nat.lt_succ_of_le (pend_le s)) rfl (by decide) (by simp [htmlHeld]) (fun _ => rfl)
    (Or.inr ⟨by simp [htmlHeld], fun h => by cases h⟩)
  rw [← rest_of_queue_nil s hq] at h
  rcases h with ⟨h1, h2, h3⟩ | ⟨h1, h2, h3, h4, h5⟩
  · exact Or.inl ⟨h1, fun _ => ⟨h2, h3⟩⟩
  · exact Or.inr ⟨h1, h3, h4, fun _ hc => h5 hc⟩

theorem Next_stepped (s : Scanner) (hq : queueOK s.queue) :
    Stepped (¬ TagLt s.rest) (fun t => t.text) s s.Next := by
  unfold Scanner.Next
  cases hqu : s.queue with
  | cons t q =>
    dsimp only
    refine Stepped.state _ _ s t { s with queue := q } ?_
    have ht := hq t (by rw [hqu]; simp)
    refine Stepped.intro _ _ s t _ t.text ht.2 ?_ ht.1 ?_ (fun _ _ => rfl)
    · simp [Scanner.rest, hqu, queueText, Scanner.pend]
    · intro x hx
      exact hq x (by rw [hqu]; simp [hx])
  | nil =>
    dsimp only
    by_cases hs : s.state = inHTML
    · rw [if_pos hs]
      apply Stepped.state
      exact Stepped.conv _ _ _ _ s s.scanInlineHTML _ rfl rfl id (scanInlineHTML_stepped s hqu)
    · rw [if_neg hs]
      apply Stepped.state
      refine Stepped.conv _ _ _ _ s s.scanAny _ ?_ ?_ (fun _ => trivial) (scanAny_stepped s hqu)
      · dsimp only
        split_ifs <;> rfl
      · dsimp only [shownText]
        split_ifs <;> rfl

theorem scanAllLoop_texts (n : Nat) :
    ∀ s : Scanner, queueOK s.queue → s.rest.length < n →
      (∃ toks eof, (scanAllLoop n s).1 = toks ++ [eof] ∧ eof.typ = .EOF ∧
        ∀ t ∈ toks, t.typ ≠ .EOF) ∧
      ((scanAllLoop n s).2.err = none → (∀ t ∈ (scanAllLoop n s).1, t.typ ≠ .Illegal) →
        ¬ TagLt s.rest → queueText (scanAllLoop n s).1 = s.rest) := by
  induction n with
  | zero => intro s _ h; omega
  | succ n ih =>
    intro s hq hn
    have hst := Next_stepped s hq
    unfold scanAllLoop
    rcases hnx : s.Next with ⟨tok, s1⟩
    rw [hnx] at hst
    dsimp only
    rcases hst with ⟨h1, h2⟩ | ⟨h1, h2, h3, h4⟩
    · rw [if_pos h1]
      refine ⟨⟨[], tok, rfl, h1, fun t ht => by cases ht⟩, fun he _ _ => ?_⟩
      obtain ⟨e1, e2⟩ := h2 he
      have e2 : tok.text = [] := e2
      rw [e1]
      simp [queueText, e2]
    · rw [if_neg h1]
      have h2 : s1.rest.length < s.rest.length := h2
      have h3 : queueOK s1.queue := h3
      obtain ⟨⟨toks, eof, a1, a2, a3⟩, b⟩ := ih s1 h3 (by omega)
      refine ⟨⟨tok :: toks, eof, ?_, a2, ?_⟩, fun he hi ht => ?_⟩
      · show tok :: (scanAllLoop n s1).1 = _
        rw [a1]; rfl
      · intro t ht
        rcases List.mem_cons.mp ht with h | h
        · rw [h]; exact h1
        · exact a3 t h
      · have hi1 : tok.typ ≠ .Illegal := hi tok (List.mem_cons_self _ _)
        have hrest : s.rest = tok.text ++ s1.rest := h4 hi1 ht
        have ht1 : ¬ TagLt s1.rest := by
          intro hx
          apply ht
          rw [hrest]
          exact List.IsInfix.trans hx (List.suffix_append _ _).isInfix
        have := b he (fun t h => hi t (List.mem_cons_of_mem _ h)) ht1
        show queueText (tok :: (scanAllLoop n s1).1) = s.rest
        rw [hrest, ← this]
        simp [queueText]

theorem rest_NewScanner (src : List Char) (c : Bool) : (NewScanner src c).rest = src := by
  simp [Scanner.rest, Scanner.pend, NewScanner, queueText]

/-- C39. Scanning reaches the token EOF for every input, and when the input does not hold
the open tag directly followed by `<`, no error is recorded and no token is illegal, the
texts of the tokens, in order, give back the input. The markup `<?php<x` is scanned to
the token InlineHTML with the text `<?phpx`: the `<` after the open tag is lost. -/
theorem scanAll_lossless (src : List Char) (c : Bool) :
    (∃ toks eof, (scanAll src c).1 = toks ++ [eof] ∧ eof.typ = .EOF ∧
      ∀ t ∈ toks, t.typ ≠ .EOF) ∧
    ((scanAll src c).2.err = none → (∀ t ∈ (scanAll src c).1, t.typ ≠ .Illegal) →
      ¬ "<?php<".toList <:+: src →
      ((scanAll src c).1.map (fun t => t.text)).flatten = src) ∧
    ((scanAll "<?php<x".toList c).2.err = none ∧
      (scanAll "<?php<x".toList c).1.map (fun t => (t.typ, t.text))
        = [(.InlineHTML, "<?phpx".toList), (.EOF, [])]) := by
  have h := scanAllLoop_texts (2 * src.length + 2) (NewScanner src c)
    (by simp [NewScanner]; exact queueOK_nil)
    (by rw [rest_NewScanner]; omega)
  rw [rest_NewScanner] at h
  refine ⟨h.1, h.2, ?_⟩
  cases c <;> exact ⟨rfl, rfl⟩

theorem scanAll_lossless_witness :
    (scanAll "<?php elseif ($a <> 1) ?-1; // c ?>x<?php ".toList false).2.err = none ∧
    ((scanAll "<?php elseif ($a <> 1) ?-1; // c ?>x<?php ".toList false).1.map
      (fun t => t.text)).flatten = "<?php elseif ($a <> 1) ?-1; // c ?>x<?php ".toList :=
  ⟨rfl, (scanAll_lossless "<?php elseif ($a <> 1) ?-1; // c ?>x<?php ".toList false).2.1 rfl
    (by decide) (by decide)⟩

end token

namespace naive

open token

/-! ### Termination of `Parse` -/

theorem next_tok_scan (p : parser) (h : p.tok.typ ≠ .EOF) :
    p.next.tok = p.scan.Next.1 ∧ p.next.scan = p.scan.Next.2 := by
  simp only [parser.next, if_neg h]
  split_ifs
  · split <;> exact ⟨rfl, rfl⟩
  · exact ⟨rfl, rfl⟩

theorem next_left (p : parser) (hq : p.QueueOK) :
    p.next.QueueOK ∧ p.next.left ≤ p.left ∧ (p.tok.typ ≠ .EOF → p.next.left < p.left) := by
  by_cases h : p.tok.typ = .EOF
  · rw [next_eof p h]
    exact ⟨hq, le_refl _, fun hne => absurd h hne⟩
  · obtain ⟨e1, e2⟩ := next_tok_scan p h
    have hst := Next_stepped p.scan (hq h)
    have hl : p.left = p.scan.rest.length + 1 := by simp [parser.left, h]
    rcases hst with ⟨h1, _⟩ | ⟨h1, h2, h3, _⟩
    · have h0 : p.next.tok.typ = .EOF := by rw [e1]; exact h1
      have hl0 : p.next.left = 0 := by simp [parser.left, h0]
      exact ⟨fun hne => absurd h0 hne, by omega, fun _ => by omega⟩
    · have h0 : p.next.tok.typ ≠ .EOF := by rw [e1]; exact h1
      have hl0 : p.next.left = p.scan.Next.2.rest.length + 1 := by
        simp [parser.left, h0, e2]
      refine ⟨fun _ => ?_, by omega, fun _ => by omega⟩
      rw [e2]
      exact h3

theorem got_left (p : parser) (t : Typ) (hq : p.QueueOK) :
    (p.got t).2.QueueOK ∧ (p.got t).2.left ≤ p.left := by
  rcases got_cases p t with ⟨_, e⟩ | ⟨_, e⟩ <;> rw [e]
  · exact ⟨(next_left p hq).1, (next_left p hq).2.1⟩
  · exact ⟨hq, le_refl _⟩

theorem closerOf_ne_eof (t c : Typ) (h : closerOf t = some c) : c ≠ .EOF := by
  cases t <;> simp [closerOf] at h <;> subst h <;> decide

theorem matchStep_left (p : parser) (stack : List Typ) (r : parser × List Typ)
    (hq : p.QueueOK) (h : matchStep p stack = some r) :
    r.1.QueueOK ∧ r.1.left + r.2.count .EOF < p.left + stack.count .EOF := by
  obtain ⟨a1, a2, a3⟩ := next_left p hq
  by_cases he : p.tok.typ = .EOF
  · have hc : closerOf p.tok.typ = none := by rw [he]; rfl
    have hi : isCloser p.tok.typ = true := by rw [he]; rfl
    simp only [matchStep, hc, hi, if_true] at h
    split_ifs at h with hh
    injection h with h
    subst h
    rw [next_eof p he]
    refine ⟨hq, ?_⟩
    cases stack with
    | nil => simp at hh
    | cons x tl =>
      simp only [List.head?_cons, Option.some.injEq] at hh
      rw [hh, he]
      simp
  · have a3 := a3 he
    simp only [matchStep] at h
    split at h
    · next c hc =>
      injection h with h
      subst h
      refine ⟨a1, ?_⟩
      have hne := closerOf_ne_eof _ _ hc
      show p.next.left + (c :: stack).count .EOF < _
      rw [List.count_cons_of_ne (fun h => hne h.symm)]
      omega
    · split_ifs at h with h1 h2
      · injection h with h
        subst h
        refine ⟨a1, ?_⟩
        have : stack.tail.count Typ.EOF ≤ stack.count Typ.EOF :=
          (List.tail_sublist stack).count_le _
        show p.next.left + stack.tail.count .EOF < _
        omega
      · injection h with h
        subst h
        refine ⟨a1, ?_⟩
        show p.next.left + stack.count .EOF < _
        omega

theorem matchRun_stops (m : Nat) :
    ∀ (p : parser) (stack : List Typ), p.QueueOK → p.left + stack.count .EOF ≤ m →
      ∃ K, K ≤ m ∧ Runs K p stack (matchRun K p stack) := by
  induction m with
  | zero =>
    intro p stack hq hm
    refine ⟨0, le_refl _, rfl, ?_⟩
    cases hs : matchStep p stack with
    | none => exact hs
    | some r =>
      have := (matchStep_left p stack r hq hs).2
      omega
  | succ m ih =>
    intro p stack hq hm
    cases hs : matchStep p stack with
    | none => exact ⟨0, Nat.zero_le _, rfl, hs⟩
    | some r =>
      obtain ⟨b1, b2⟩ := matchStep_left p stack r hq hs
      obtain ⟨K, hK, hr1, hr2⟩ := ih r.1 r.2 b1 (by omega)
      have e : matchRun (K + 1) p stack = matchRun K r.1 r.2 := by
        simp only [matchRun, hs]
      refine ⟨K + 1, by omega, rfl, ?_⟩
      rw [e]
      exact hr2

theorem start_left (r : List Char) (c : Bool) :
    (parser.start r c).2.QueueOK ∧ (parser.start r c).2.left ≤ r.length + 1 := by
  have h0 : (⟨NewScanner r c, none, default, false⟩ : parser).QueueOK := fun _ => queueOK_nil
  have l0 : (⟨NewScanner r c, none, default, false⟩ : parser).left ≤ r.length + 1 := by
    simp only [parser.left, rest_NewScanner]
    split_ifs <;> omega
  obtain ⟨a1, a2, _⟩ := next_left _ h0
  obtain ⟨b1, b2⟩ := got_left _ .InlineHTML a1
  obtain ⟨c1, c2⟩ := got_left _ .OpenTag b1
  simp only [parser.start]
  exact ⟨c1, by omega⟩

theorem errorf_err_some (p : parser) (msg : String) :
    ∃ e, (p.errorf msg).err = some e ∧ (p.errorf msg).outOfFuel = p.outOfFuel := by
  cases he : p.err with
  | none =>
    exact ⟨⟨p.tok.pos.Line, p.tok.pos.Column, msg⟩, by simp [parser.errorf, he],
      by simp [parser.errorf, he]⟩
  | some e => exact ⟨e, by simp [parser.errorf, he], by simp [parser.errorf, he]⟩

theorem ParseFuel_returns (fuel : Nat) (r : List Char) (c : Bool)
    (hf : 4 * r.length + 12 ≤ fuel) :
    (∃ f, ParseFuel fuel r c = .ok f) ∨ (∃ e, ParseFuel fuel r c = .error e) := by
  have hg := start_good r c
  obtain ⟨hq, hl⟩ := start_left r c
  cases hopen : (parser.start r c).1 with
  | false =>
    simp only [parser.start] at hopen hg
    obtain ⟨e, e1, e2⟩ := errorf_err_some
      ((((⟨NewScanner r c, none, default, false⟩ : parser).next.got .InlineHTML).2.got
        .OpenTag).2)
      ("expecting " ++ String.mk Typ.OpenTag.str ++ ", found " ++ tokenString
        (((⟨NewScanner r c, none, default, false⟩ : parser).next.got .InlineHTML).2.got
          .OpenTag).2.tok)
    refine Or.inr ⟨e, ?_⟩
    simp only [ParseFuel, parseFile, hopen, Bool.not_false, if_true, e1, e2, hg.1,
      Bool.false_eq_true, if_false]
  | true =>
    obtain ⟨K, hK, hr⟩ := matchRun_stops (r.length + 2) (parser.start r c).2 [.EOF] hq
      (by simp; omega)
    have hr2 : Runs K (parser.start r c).2 ((scopeInit .Illegal .OpenTag).close :: [])
        (matchRun K (parser.start r c).2 [.EOF]) := hr
    have hT := hr.good hg
    rcases (parse_post fuel).1 _ .Illegal .OpenTag [] K _ hg hr2 (by omega) with
      ⟨K2, _, r2, g2, _⟩ | ⟨hfl, _⟩
    · simp only [parser.start] at hopen g2
      simp only [ParseFuel, parseFile, hopen, Bool.not_true, Bool.false_eq_true, if_false,
        g2.1]
      split
      · next e _ => exact Or.inr ⟨e, rfl⟩
      · exact Or.inl ⟨_, rfl⟩
      · next h => simp at h
    · exact Or.inr ⟨_, ParseFuel_failed fuel r c _ hopen hT.1 hfl⟩

theorem parseScope_fuel (n : Nat) (p : parser) (kind opn : Typ) (hg : p.Good)
    (hq : p.QueueOK) (hn : 4 * p.left + 8 ≤ n) :
    (parseScope n p kind opn).1.outOfFuel = false := by
  obtain ⟨K, hK, hr⟩ := matchRun_stops (p.left + 1) p [(scopeInit kind opn).close] hq
    (by
      have := List.count_le_length Typ.EOF [(scopeInit kind opn).close]
      simp only [List.length_singleton] at this
      omega)
  have hT := hr.good hg
  rcases (parse_post n).1 p kind opn [] K _ hg hr (by omega) with ⟨_, _, _, g, _⟩ | ⟨hfl, _⟩
  · exact g.1
  · rw [hfl, fail_outOfFuel]
    exact hT.1

theorem parseStmt_fuel (n : Nat) (p : parser) (seps : List Typ) (hs : SepsOK seps)
    (hg : p.Good) (hq : p.QueueOK) (hn : 4 * p.left + 2 ≤ n) :
    (parseStmt n p seps).1.outOfFuel = false := by
  obtain ⟨K, hK, hr⟩ := matchRun_stops p.left p [] hq (by simp)
  have hT := hr.good hg
  rcases (parse_post n).2.2.2 p seps [] K _ hs hg hr (by omega) with
    ⟨_, _, _, g, _⟩ | ⟨hfl, _⟩
  · exact g.1
  · rw [hfl, fail_outOfFuel]
    exact hT.1

theorem Next_shortens (s : Scanner) (hq : queueOK s.queue) (hne : s.Next.1.typ ≠ .EOF) :
    s.Next.2.rest.length < s.rest.length ∧ queueOK s.Next.2.queue ∧
    (s.queue = [] → s.Next.2.pend.length < s.pend.length) := by
  rcases Next_stepped s hq with ⟨h1, _⟩ | ⟨_, h2, h3, _⟩
  · exact absurd h1 hne
  · refine ⟨h2, h3, fun h0 => ?_⟩
    rw [rest_of_queue_nil s h0] at h2
    have : s.Next.2.pend.length ≤ s.Next.2.rest.length := by
      simp [Scanner.rest]
    omega

/-- C40: `Parse` returns a file or a syntax error for every input, the fuel of its loops,
four iterations for each character of the input and sixteen more, is never used up; from
a state of the parser between two calls, `parseScope` and `parseStmt` return with fuel
for four iterations for each token that can still be read and eight more. A call of
`Next` that returns no EOF leaves fewer characters to return than there were, the texts
of the queued tokens counted with the unread input, and when the queue was empty it has
read at least one character of the input. -/
theorem Parse_terminates (r : List Char) (c : Bool) :
    ((∃ f, Parse r c = .ok f) ∨ (∃ e, Parse r c = .error e)) ∧
    (∀ (n : Nat) (p : parser) (kind opn : Typ), p.Good → p.QueueOK → 4 * p.left + 8 ≤ n →
      (parseScope n p kind opn).1.outOfFuel = false) ∧
    (∀ (n : Nat) (p : parser) (seps : List Typ), SepsOK seps → p.Good → p.QueueOK →
      4 * p.left + 2 ≤ n → (parseStmt n p seps).1.outOfFuel = false) ∧
    (∀ s : Scanner, queueOK s.queue → s.Next.1.typ ≠ .EOF →
      s.Next.2.rest.length < s.rest.length ∧ queueOK s.Next.2.queue ∧
      (s.queue = [] → s.Next.2.pend.length < s.pend.length)) :=
  ⟨ParseFuel_returns _ r c (by omega), parseScope_fuel, parseStmt_fuel, Next_shortens⟩

/-- C40, an instance: after `<?php f(` the parser stands at `1`, and `parseScope` and
`parseStmt` return from there; the call of `Next` that returns `else` for `elseif` has
read six characters and queued the token `if`. -/
theorem Parse_terminates_witness :
    (parseScope 40 (parser.start "<?php f(1);".toList false).2.next.next.next .Ident
      .Lparen).1.outOfFuel = false ∧
    (parseStmt 40 (parser.start "<?php f(1);".toList false).2.next.next.next
      [.Comma]).1.outOfFuel = false ∧
    (NewScanner "<?php elseif;".toList false).Next.2.Next.2.Next.2.rest.length
      < (NewScanner "<?php elseif;".toList false).Next.2.Next.2.rest.length ∧
    (NewScanner "<?php elseif;".toList false).Next.2.Next.2.Next.2.queue.map (fun t => t.typ)
      = [.If] :=
  ⟨(Parse_terminates [] false).2.1 40 _ .Ident .Lparen
      (start_good _ _).next.next.next
      (next_left _ (next_left _ (next_left _ (start_left _ _).1).1).1).1 (by decide),
   (Parse_terminates [] false).2.2.1 40 _ [.Comma] (by simp [SepsOK])
      (start_good _ _).next.next.next
      (next_left _ (next_left _ (next_left _ (start_left _ _).1).1).1).1 (by decide),
   ((Parse_terminates [] false).2.2.2 (NewScanner "<?php elseif;".toList false).Next.2.Next.2
      (by unfold queueOK; decide) (by decide)).1,
   rfl⟩

/-- C40, the first reason as it was worded: in `<?php elseif;` the call of `Next` that
returns the queued token `if` returns no EOF and reads no character of the input. -/
theorem Next_queued_reads_nothing :
    (NewScanner "<?php elseif;".toList false).Next.2.Next.2.Next.2.Next.1.typ = .If ∧
    (NewScanner "<?php elseif;".toList false).Next.2.Next.2.Next.2.Next.2.r
      = (NewScanner "<?php elseif;".toList false).Next.2.Next.2.Next.2.r ∧
    (NewScanner "<?php elseif;".toList false).Next.2.Next.2.Next.2.r = ";".toList ∧
    (NewScanner "<?php elseif;".toList false).Next.2.Next.2.Next.2.Next.2.done = false :=
  ⟨rfl, rfl, rfl, rfl⟩

end naive
